import Mathlib

/-!
A verification development for the dense-matrix kernel of `vtkMath.cxx`.

The C++ routines are embedded as pure Lean functions over an arbitrary
linearly ordered field `K` ("exact real arithmetic").  Arrays are total
functions on `Nat` (`double **A` is `Nat → Nat → K`, `double *x` is
`Nat → K`, `int *index` is `Nat → Nat`); an assignment to one cell is a
pointwise update.  Counted `for` loops are the combinators `loop`,
`loopExc` (body may `return 0`) and `loopDown`.  Decimal constants are the
exact numbers they denote (`1.0e-12` is `10⁻¹²`), `int` indices and sizes
are natural numbers, and the `sqrt` of the math library is a parameter of
the eigensolver, required to be an exact square root (`ExactSqrt`) by the
theorems that depend on it.  The polynomial solvers take `sqrt`, `cos`,
`acos` and `pow` as parameters in the same way; where a theorem evaluates
them on a concrete cubic they are the functions of the real numbers.

Equality tests between floating-point values are read exactly.  In
`vtkJacobiN` the tests `(fabs(x)+g) == fabs(x)` therefore hold only for
`g = 0`, and the embedded rotation sequence can go through all
`VTK_MAX_ROTATIONS` sweeps (return value 0) on an input on which the
double-precision program stops earlier and returns 1.  A theorem that needs
the sweeps to end says so in a hypothesis or proves it for its inputs.

The definitions come first: the linear solver (`LUFactorLinearSystem`,
`LUSolveLinearSystem`, `SolveLinearSystem`, `InvertMatrix`), the Jacobi
eigensolver (`JacobiN`), `SolveLinear`, the fixed 3-by-3 routines
(`LinearSolve3x3`, `QuaternionToMatrix3x3`, `Matrix3x3ToQuaternion`,
`Orthogonalize3x3`, `Diagonalize3x3`, `SingularValueDecomposition3x3`),
the polynomial solvers (`SolveQuadratic`, `SolveCubic` and the
array-returning forms) and `SolveLeastSquares`, each followed by the
vocabulary its theorems are stated in.  The proofs follow.
-/

namespace VtkMath

/-- A `double **` matrix, addressed `A i j` for `A[i][j]`. -/
abbrev Mat (K : Type) := Nat → Nat → K

/-- A `double *` vector, addressed `x i` for `x[i]`. -/
abbrev Vec (K : Type) := Nat → K

/-- The assignment `x[i] = v`. -/
def Vec.set {K : Type} (x : Vec K) (i : Nat) (v : K) : Vec K :=
  fun r => if r = i then v else x r

/-- The assignment `A[i][j] = v`. -/
def Mat.set {K : Type} (A : Mat K) (i j : Nat) (v : K) : Mat K :=
  fun r c => if r = i ∧ c = j then v else A r c

/-- The loop `for (i = lo; i < lo + cnt; i++) s = f i s`. -/
def loop {σ : Type} (f : Nat → σ → σ) (lo : Nat) : Nat → σ → σ
  | 0, s => s
  | cnt + 1, s => f (lo + cnt) (loop f lo cnt s)

/-- The loop `for (i = lo; i < lo + cnt; i++)` whose body may leave the
function with `return 0`: `Except.error` carries the state at that
`return`. -/
def loopExc {σ ε : Type} (f : Nat → σ → Except ε σ) (lo : Nat) :
    Nat → σ → Except ε σ
  | 0, s => Except.ok s
  | cnt + 1, s =>
    match loopExc f lo cnt s with
    | Except.ok s1 => f (lo + cnt) s1
    | Except.error e => Except.error e

/-- The `int` a routine modelled with `Except` returns: 1 on `ok`, 0 on
`error`. -/
def retCode {σ ε : Type} : Except ε σ → Int
  | Except.ok _ => 1
  | Except.error _ => 0

/-- The loop `for (i = cnt - 1; i >= 0; i--) s = f i s`. -/
def loopDown {σ : Type} (f : Nat → σ → σ) : Nat → σ → σ
  | 0, s => s
  | cnt + 1, s => loopDown f cnt (f cnt s)

section LU

variable {K : Type} [LinearOrderedField K]

/-- The constant `#define VTK_SMALL_NUMBER 1.0e-12`. -/
def VTK_SMALL_NUMBER : K := 1 / 10 ^ 12

/-- The state of `LUFactorLinearSystem`: the matrix being factored in
place, the pivot array, the implicit-scaling array (`scale` / `tmpSize`)
and the local `maxI`. -/
structure LUState (K : Type) where
  A : Mat K
  index : Nat → Nat
  scale : Vec K
  maxI : Nat

/-- The inner loop `for (largest = 0.0, j = 0; j < size; j++)
if ((temp2 = fabs(A[i][j])) > largest) largest = temp2;`. -/
def rowLargest (A : Mat K) (size i : Nat) : K :=
  loop (fun j largest => if |A i j| > largest then |A i j| else largest) 0 size 0

/-- The body of the first loop of `LUFactorLinearSystem`:
`if (largest == 0.0) return 0; scale[i] = 1.0 / largest;`. -/
def scaleStep (A : Mat K) (size i : Nat) (sc : Vec K) : Except (Vec K) (Vec K) :=
  let largest := rowLargest A size i
  if largest = 0 then Except.error sc
  else Except.ok (Vec.set sc i (1 / largest))

/-- The first loop of `LUFactorLinearSystem`: implicit scaling information,
`return 0` on a row whose largest magnitude is zero. -/
def scaleLoop (A : Mat K) (size : Nat) (scale : Vec K) :
    Except (Vec K) (Vec K) :=
  loopExc (scaleStep A size) 0 size scale

/-- The accumulation `sum = A[i][j]; for (k = 0; k < m; k++)
sum -= A[i][k] * A[k][j];`. -/
def croutSum (A : Mat K) (i j m : Nat) : K :=
  loop (fun k sum => sum - A i k * A k j) 0 m (A i j)

/-- The loop `for (i = 0; i < j; i++)` of column `j`: entries above the
diagonal. -/
def upperLoop (j : Nat) (A : Mat K) : Mat K :=
  loop (fun i A => Mat.set A i j (croutSum A i j i)) 0 j A

/-- The body of the pivot-search loop of column `j`: `sum = A[i][j];
for (k = 0; k < j; k++) sum -= A[i][k] * A[k][j]; A[i][j] = sum;
if ((temp1 = scale[i]*fabs(sum)) >= largest) { largest = temp1; maxI = i; }`;
the state is `(A, largest, maxI)`. -/
def pivotStep (j : Nat) (scale : Vec K) (i : Nat) (st : Mat K × K × Nat) :
    Mat K × K × Nat :=
  let sum := croutSum st.1 i j j
  let A1 := Mat.set st.1 i j sum
  let temp1 := scale i * |sum|
  if temp1 ≥ st.2.1 then (A1, temp1, i) else (A1, st.2.1, st.2.2)

/-- The pivot-search loop `for (largest = 0.0, i = j; i < size; i++)` of
column `j`. -/
def pivotLoop (size j : Nat) (scale : Vec K) (A : Mat K) (maxI : Nat) :
    Mat K × K × Nat :=
  loop (pivotStep j scale) j (size - j) (A, 0, maxI)

/-- The row interchange `for (k = 0; k < size; k++) { temp1 = A[maxI][k];
A[maxI][k] = A[j][k]; A[j][k] = temp1; }`. -/
def swapRows (size j maxI : Nat) (A : Mat K) : Mat K :=
  loop (fun k A =>
    let temp1 := A maxI k
    Mat.set (Mat.set A maxI k (A j k)) j k temp1) 0 size A

/-- The elimination loop `for (i = j + 1; i < size; i++) A[i][j] *= temp1;`. -/
def divideLoop (size j : Nat) (temp1 : K) (A : Mat K) : Mat K :=
  loop (fun i A => Mat.set A i j (A i j * temp1)) (j + 1) (size - (j + 1)) A

/-- The body of the column loop `for (j = 0; j < size; j++)` of
`LUFactorLinearSystem`. -/
def luColumn (size j : Nat) (s : LUState K) :
    Except (LUState K) (LUState K) :=
  let A1 := upperLoop j s.A
  let p := pivotLoop size j s.scale A1 s.maxI
  let A2 := p.1
  let maxI := p.2.2
  let A3 := if j ≠ maxI then swapRows size j maxI A2 else A2
  let scale := if j ≠ maxI then Vec.set s.scale maxI (s.scale j) else s.scale
  let index := fun r => if r = j then maxI else s.index r
  if |A3 j j| ≤ VTK_SMALL_NUMBER then
    Except.error { A := A3, index := index, scale := scale, maxI := maxI }
  else
    let A4 := if j ≠ size - 1 then divideLoop size j (1 / A3 j j) A3 else A3
    Except.ok { A := A4, index := index, scale := scale, maxI := maxI }

/-- The function `vtkMath::LUFactorLinearSystem(double **A, int *index,
int size, double *tmpSize)`: `Except.error` is `return 0`, `Except.ok` is
`return 1`, each with the arrays as the call leaves them. -/
def LUFactorLinearSystem (A : Mat K) (index : Nat → Nat) (size : Nat)
    (tmpSize : Vec K) : Except (LUState K) (LUState K) :=
  match scaleLoop A size tmpSize with
  | Except.error sc =>
    Except.error { A := A, index := index, scale := sc, maxI := 0 }
  | Except.ok sc =>
    loopExc (luColumn size) 0 size
      { A := A, index := index, scale := sc, maxI := 0 }

/-- The arrays a call of `LUFactorLinearSystem` leaves behind, whichever
value it returns. -/
def leftBy (r : Except (LUState K) (LUState K)) : LUState K :=
  match r with
  | Except.ok s => s
  | Except.error s => s

/-- The three-argument `vtkMath::LUFactorLinearSystem(double **A,
int *index, int size)`: statement for statement the body of the
four-argument one, on a `scale` array it allocates itself (its fresh cells
are taken to hold zero; all `size` of them are written before use). -/
def LUFactorLinearSystem3 (A : Mat K) (index : Nat → Nat) (size : Nat) :
    Except (LUState K) (LUState K) :=
  LUFactorLinearSystem A index size (fun _ => 0)

/-- The body of the forward-substitution loop of `LUSolveLinearSystem`:
`idx = index[i]; sum = x[idx]; x[idx] = x[i]; if (ii >= 0)
for (j = ii; j <= i-1; j++) sum -= A[i][j]*x[j]; else if (sum) ii = i;
x[i] = sum;`; the state is `(x, ii)`. -/
def forwardStep (A : Mat K) (index : Nat → Nat) (i : Nat) (st : Vec K × Int) :
    Vec K × Int :=
  let idx := index i
  let sum := st.1 idx
  let x1 := Vec.set st.1 idx (st.1 i)
  if st.2 ≥ 0 then
    let sum1 := loop (fun j sum => sum - A i j * x1 j) st.2.toNat (i - st.2.toNat) sum
    (Vec.set x1 i sum1, st.2)
  else if sum ≠ 0 then (Vec.set x1 i sum, (i : Int))
  else (Vec.set x1 i sum, st.2)

/-- The forward-substitution loop `for (ii = -1, i = 0; i < size; i++)`. -/
def forwardLoop (A : Mat K) (index : Nat → Nat) (size : Nat) (x : Vec K) :
    Vec K × Int :=
  loop (forwardStep A index) 0 size (x, -1)

/-- The body of the back-substitution loop: `sum = x[i];
for (j = i + 1; j < size; j++) sum -= A[i][j]*x[j]; x[i] = sum / A[i][i];`. -/
def backStep (A : Mat K) (size i : Nat) (x : Vec K) : Vec K :=
  let sum := loop (fun j sum => sum - A i j * x j) (i + 1) (size - (i + 1)) (x i)
  Vec.set x i (sum / A i i)

/-- The back-substitution loop `for (i = size-1; i >= 0; i--)`. -/
def backLoop (A : Mat K) (size : Nat) (x : Vec K) : Vec K :=
  loopDown (backStep A size) size x

/-- The function `vtkMath::LUSolveLinearSystem(double **A, int *index,
double *x, int size)`: the vector left in `x`. -/
def LUSolveLinearSystem (A : Mat K) (index : Nat → Nat) (x : Vec K) (size : Nat) :
    Vec K :=
  backLoop A size (forwardLoop A index size x).1

/-- Modelled from the spec: `vtkMath::Determinant2x2(a, b, c, d)` is
declared in `vtkMath.h`, which is not among the sources; the 2×2
determinant `a·d − b·c` ("2×2 Cramer's rule via determinant"). -/
def Determinant2x2 (a b c d : K) : K := a * d - b * c

/-- What a call of `SolveLinearSystem` leaves behind: the returned `int`,
the matrix `A` and the vector `x`. -/
structure SolveResult (K : Type) where
  ret : Int
  A : Mat K
  x : Vec K

/-- The function `vtkMath::SolveLinearSystem(double **A, double *x,
int size)`; `index` is the content of its `static int *index` buffer when
the call starts. -/
def SolveLinearSystem (A : Mat K) (x : Vec K) (size : Nat) (index : Nat → Nat) :
    SolveResult K :=
  if size = 2 then
    let det := Determinant2x2 (A 0 0) (A 0 1) (A 1 0) (A 1 1)
    if det = 0 then { ret := 0, A := A, x := x }
    else
      let y0 := (A 1 1 * x 0 - A 0 1 * x 1) / det
      let y1 := (-A 1 0 * x 0 + A 0 0 * x 1) / det
      { ret := 1, A := A, x := Vec.set (Vec.set x 0 y0) 1 y1 }
  else if size = 1 then
    if A 0 0 = 0 then { ret := 0, A := A, x := x }
    else { ret := 1, A := A, x := Vec.set x 0 (x 0 / A 0 0) }
  else
    match LUFactorLinearSystem3 A index size with
    | Except.error s => { ret := 0, A := s.A, x := x }
    | Except.ok s =>
      { ret := 1, A := s.A, x := LUSolveLinearSystem s.A s.index x size }

/-- What a call of `InvertMatrix` leaves behind: the returned `int`, the
matrix `A` (overwritten by its factors) and the output `AI`. -/
structure InvertResult (K : Type) where
  ret : Int
  A : Mat K
  AI : Mat K

/-- The body of the loop `for (j = 0; j < size; j++)` of `InvertMatrix`:
clear `tmp2Size`, set its cell `j` to one, solve, copy into column `j` of
`AI`; the state is `(AI, tmp2Size)`. -/
def invertColumn (A : Mat K) (index : Nat → Nat) (size j : Nat)
    (st : Mat K × Vec K) : Mat K × Vec K :=
  let col0 := loop (fun i t => Vec.set t i 0) 0 size st.2
  let col1 := Vec.set col0 j 1
  let col2 := LUSolveLinearSystem A index col1 size
  (loop (fun i AI => Mat.set AI i j (col2 i)) 0 size st.1, col2)

/-- The loop `for (j = 0; j < size; j++)` of `InvertMatrix`: one
back-substitution per unit vector. -/
def invertColumns (A : Mat K) (index : Nat → Nat) (size : Nat) (AI : Mat K)
    (tmp2Size : Vec K) : Mat K × Vec K :=
  loop (invertColumn A index size) 0 size (AI, tmp2Size)

/-- The function `vtkMath::InvertMatrix(double **A, double **AI, int size,
int *tmp1Size, double *tmp2Size)`. -/
def InvertMatrix (A AI : Mat K) (size : Nat) (tmp1Size : Nat → Nat)
    (tmp2Size : Vec K) : InvertResult K :=
  match LUFactorLinearSystem A tmp1Size size tmp2Size with
  | Except.error s => { ret := 0, A := s.A, AI := AI }
  | Except.ok s =>
    { ret := 1, A := s.A, AI := (invertColumns s.A s.index size AI s.scale).1 }

/-- The function `vtkMath::InvertMatrix(double **A, double **AI, int size)`;
`index` and `column` are the contents of its static buffers. -/
def InvertMatrix3 (A AI : Mat K) (size : Nat) (index : Nat → Nat)
    (column : Vec K) : InvertResult K :=
  InvertMatrix A AI size index column

/-! ### Specification vocabulary for the linear solver -/

/-- The pivot selected for column `j` from state `s`: the entry
`A[maxI][j]` the pivot search ends on, which the row interchange moves to
`A[j][j]` before the test against `VTK_SMALL_NUMBER`. -/
def selectedPivot (size j : Nat) (s : LUState K) : K :=
  (pivotLoop size j s.scale (upperLoop j s.A) s.maxI).1
    (pivotLoop size j s.scale (upperLoop j s.A) s.maxI).2.2 j

/-- Row `r` after the interchange of rows `j` and `m`. -/
def swapIdx (j m r : Nat) : Nat := if r = j then m else if r = m then j else r

/-- The interchange of rows `j` and `m` of a matrix. -/
def interchange (j m : Nat) (A : Mat K) : Mat K := fun r c => A (swapIdx j m r) c

/-- The interchange of cells `j` and `m` of a vector. -/
def interchangeVec (j m : Nat) (b : Vec K) : Vec K := fun r => b (swapIdx j m r)

/-- The row permutation recorded by `index`: for `j = 0, 1, ..., n-1` in
that order, interchange row `j` with row `index[j]`. -/
def applyPivots (index : Nat → Nat) (n : Nat) (A : Mat K) : Mat K :=
  loop (fun j B => interchange j (index j) B) 0 n A

/-- The same permutation applied to a vector. -/
def applyPivotsVec (index : Nat → Nat) (n : Nat) (b : Vec K) : Vec K :=
  loop (fun j v => interchangeVec j (index j) v) 0 n b

/-- The unit-lower-triangular factor stored in a factored matrix: the
entries strictly below the diagonal, ones on the diagonal. -/
def lowerOf (A : Mat K) : Mat K :=
  fun i k => if k < i then A i k else if k = i then 1 else 0

/-- The upper-triangular factor stored in a factored matrix: the diagonal
and the entries above it. -/
def upperOf (A : Mat K) : Mat K := fun k c => if k ≤ c then A k c else 0

/-- The product of two `n`-by-`n` matrices. -/
def matMul (n : Nat) (A B : Mat K) : Mat K :=
  fun i j => ∑ k in Finset.range n, A i k * B k j

/-- The product of an `n`-by-`n` matrix and a vector. -/
def matVec (n : Nat) (A : Mat K) (x : Vec K) : Vec K :=
  fun i => ∑ k in Finset.range n, A i k * x k

/-- The `n`-by-`n` identity matrix. -/
def identity : Mat K := fun i j => if i = j then 1 else 0

/-- The in-place Crout invariant before column `j`: columns left of `j`
hold the factors of the row-permuted original `B`, the other columns
still hold `B`. -/
def LUInv (size j : Nat) (A B : Mat K) : Prop :=
  (∀ i c, i < size → c < j → i ≤ c →
    A i c = B i c - ∑ k in Finset.range i, A i k * A k c) ∧
  (∀ i c, i < size → c < j → c < i →
    A i c * A c c = B i c - ∑ k in Finset.range c, A i k * A k c) ∧
  (∀ i c, i < size → j ≤ c → c < size → A i c = B i c) ∧
  (∀ c, c < j → VTK_SMALL_NUMBER < |A c c|)

end LU

section Jacobi

variable {K : Type} [LinearOrderedField K]

/-- The constant `#define VTK_MAX_ROTATIONS 20`. -/
def VTK_MAX_ROTATIONS : Nat := 20

/-- The arrays `vtkJacobiN` works on: the matrix `a` (modified in place),
the outputs `w` and `v`, and the locals `b` and `z`. -/
structure JState (K : Type) where
  a : Mat K
  w : Vec K
  v : Mat K
  b : Vec K
  z : Vec K

/-- The macro `VTK_ROTATE(a,i,j,k,l)`: `g=a[i][j]; h=a[k][l];
a[i][j]=g-s*(h+g*tau); a[k][l]=h+s*(g-h*tau);`. -/
def VTK_ROTATE (s tau : K) (a : Mat K) (i j k l : Nat) : Mat K :=
  let g := a i j
  let h := a k l
  Mat.set (Mat.set a i j (g - s * (h + g * tau))) k l (h + s * (g - h * tau))

/-- The first initialisation loop of `vtkJacobiN`: `v` becomes the identity. -/
def initV (n : Nat) (v : Mat K) : Mat K :=
  loop (fun ip v => Mat.set (loop (fun iq v => Mat.set v ip iq 0) 0 n v) ip ip 1) 0 n v

/-- The second initialisation loop: `b[ip] = w[ip] = a[ip][ip]; z[ip] = 0.0;`. -/
def initStep (ip : Nat) (st : JState K) : JState K :=
  let w := Vec.set st.w ip (st.a ip ip)
  { st with w := w, b := Vec.set st.b ip (w ip), z := Vec.set st.z ip 0 }

/-- The initialisation of `vtkJacobiN`; the locals `b` and `z` start as
fresh arrays (their cells taken to hold zero; all are written before use). -/
def jacobiInit (a : Mat K) (n : Nat) (w : Vec K) (v : Mat K) : JState K :=
  loop initStep 0 n
    { a := a, w := w, v := initV n v, b := fun _ => 0, z := fun _ => 0 }

/-- The accumulation `sm = 0.0; for (ip=0; ip<n-1; ip++)
for (iq=ip+1; iq<n; iq++) sm += fabs(a[ip][iq]);`. -/
def offDiagSum (n : Nat) (a : Mat K) : K :=
  loop (fun ip sm => loop (fun iq sm => sm + |a ip iq|) (ip + 1) (n - (ip + 1)) sm)
    0 (n - 1) 0

/-- The tangent `t` of the rotation angle for the entry `a[ip][iq]`:
`h = w[iq] - w[ip]; if ((fabs(h)+g) == fabs(h)) t = a[ip][iq] / h; else
{ theta = 0.5*h / a[ip][iq]; t = 1.0 / (fabs(theta)+sqrt(1.0+theta*theta));
if (theta < 0.0) t = -t; }`.  The test is read exactly: over an ordered
field it holds only for `g = 0`, where in double precision it holds as soon
as `g` is below the rounding unit of `fabs(h)`. -/
def rotationT (sqrt : K → K) (g : K) (ip iq : Nat) (st : JState K) : K :=
  let h := st.w iq - st.w ip
  if |h| + g = |h| then st.a ip iq / h
  else
    let theta := 0.5 * h / st.a ip iq
    let t := 1 / (|theta| + sqrt (1 + theta * theta))
    if theta < 0 then -t else t

/-- The write `a[ip][iq]=0.0` and the three `VTK_ROTATE` loops on `a`:
`for (j = 0;j <= ip-1;j++) VTK_ROTATE(a,j,ip,j,iq)`,
`for (j = ip+1;j <= iq-1;j++) VTK_ROTATE(a,ip,j,j,iq)` and
`for (j=iq+1; j<n; j++) VTK_ROTATE(a,ip,j,iq,j)`. -/
def rotateA (s tau : K) (n ip iq : Nat) (a : Mat K) : Mat K :=
  let a0 := Mat.set a ip iq 0
  let a1 := loop (fun j a => VTK_ROTATE s tau a j ip j iq) 0 ip a0
  let a2 := loop (fun j a => VTK_ROTATE s tau a ip j j iq) (ip + 1) (iq - (ip + 1)) a1
  loop (fun j a => VTK_ROTATE s tau a ip j iq j) (iq + 1) (n - (iq + 1)) a2

/-- The loop `for (j=0; j<n; j++) VTK_ROTATE(v,j,ip,j,iq)`. -/
def rotateV (s tau : K) (n ip iq : Nat) (v : Mat K) : Mat K :=
  loop (fun j v => VTK_ROTATE s tau v j ip j iq) 0 n v

/-- The rotation applied for the entry `a[ip][iq]`: from `c = 1.0 /
sqrt(1+t*t)` to the four `VTK_ROTATE` loops. -/
def jacobiRotate (sqrt : K → K) (n : Nat) (g : K) (ip iq : Nat) (st : JState K) :
    JState K :=
  let t := rotationT sqrt g ip iq st
  let c := 1 / sqrt (1 + t * t)
  let s := t * c
  let tau := s / (1 + c)
  let h := t * st.a ip iq
  let z1 := Vec.set st.z ip (st.z ip - h)
  let z2 := Vec.set z1 iq (z1 iq + h)
  let w1 := Vec.set st.w ip (st.w ip - h)
  let w2 := Vec.set w1 iq (w1 iq + h)
  { a := rotateA s tau n ip iq st.a, w := w2, v := rotateV s tau n ip iq st.v,
    b := st.b, z := z2 }

/-- The body of the double loop over the entries `(ip, iq)` in sweep `i`:
`g = 100.0*fabs(a[ip][iq]); if (i > 3 && (fabs(w[ip])+g) == fabs(w[ip])
&& (fabs(w[iq])+g) == fabs(w[iq])) a[ip][iq] = 0.0;
else if (fabs(a[ip][iq]) > tresh) { ... }`.  The two equality tests are read
exactly, so that over an ordered field they hold only for `g = 0`; in double
precision they also hold for an entry below the rounding unit of both
eigenvalues, and that is how the sweeps of the program end on inputs where
the exact sequence goes through all `VTK_MAX_ROTATIONS` sweeps. -/
def jacobiEntry (sqrt : K → K) (n i : Nat) (tresh : K) (ip iq : Nat) (st : JState K) :
    JState K :=
  let g := 100 * |st.a ip iq|
  if i > 3 ∧ |st.w ip| + g = |st.w ip| ∧ |st.w iq| + g = |st.w iq| then
    { st with a := Mat.set st.a ip iq 0 }
  else if |st.a ip iq| > tresh then jacobiRotate sqrt n g ip iq st
  else st

/-- The double loop `for (ip=0; ip<n-1; ip++) for (iq=ip+1; iq<n; iq++)` of
one sweep. -/
def sweepEntries (sqrt : K → K) (n i : Nat) (tresh : K) (st : JState K) : JState K :=
  loop (fun ip st => loop (jacobiEntry sqrt n i tresh ip) (ip + 1) (n - (ip + 1)) st)
    0 (n - 1) st

/-- The loop closing a sweep: `b[ip] += z[ip]; w[ip] = b[ip]; z[ip] = 0.0;`. -/
def sweepEndStep (ip : Nat) (st : JState K) : JState K :=
  let b := Vec.set st.b ip (st.b ip + st.z ip)
  { st with b := b, w := Vec.set st.w ip (b ip), z := Vec.set st.z ip 0 }

/-- One pass of the body of `for (i=0; i<VTK_MAX_ROTATIONS; i++)` after the
`break` test, for the sum `sm` computed at its start (`n*n` is taken
without `int` overflow). -/
def sweepBody (sqrt : K → K) (n i : Nat) (sm : K) (st : JState K) : JState K :=
  let tresh := if i < 3 then 0.2 * sm / ((n * n : Nat) : K) else 0
  loop sweepEndStep 0 n (sweepEntries sqrt n i tresh st)

/-- The loop `for (i=0; i<VTK_MAX_ROTATIONS; i++)` from the value `i` on,
with `fuel = VTK_MAX_ROTATIONS - i` passes left; it ends on `break`
(`sm == 0.0`) or when the passes are used up, and gives the arrays and the
final `i`. -/
def sweepLoop (sqrt : K → K) (n : Nat) : Nat → Nat → JState K → JState K × Nat
  | 0, i, st => (st, i)
  | fuel + 1, i, st =>
    if offDiagSum n st.a = 0 then (st, i)
    else sweepLoop sqrt n fuel (i + 1) (sweepBody sqrt n i (offDiagSum n st.a) st)

/-- The search `k = j; tmp = w[k]; for (i=j+1; i<n; i++) if (w[i] >= tmp)
{ k = i; tmp = w[k]; }`; the state is `(k, tmp)`. -/
def sortSelect (w : Vec K) (n j : Nat) : Nat × K :=
  loop (fun i (st : Nat × K) => if w i ≥ st.2 then (i, w i) else st)
    (j + 1) (n - (j + 1)) (j, w j)

/-- The exchange of columns `j` and `k` of `v`: `tmp = v[i][j];
v[i][j] = v[i][k]; v[i][k] = tmp;` for every row `i`. -/
def swapColumns (n j k : Nat) (v : Mat K) : Mat K :=
  loop (fun i v => Mat.set (Mat.set v i j (v i k)) i k (v i j)) 0 n v

/-- The body of the sorting loop `for (j=0; j<n-1; j++)`; the state is
`(w, v)`. -/
def sortStep (n j : Nat) (st : Vec K × Mat K) : Vec K × Mat K :=
  let k := (sortSelect st.1 n j).1
  let tmp := (sortSelect st.1 n j).2
  if k ≠ j then
    (Vec.set (Vec.set st.1 k (st.1 j)) j tmp, swapColumns n j k st.2)
  else st

/-- The sorting of the eigenvalues with their eigenvector columns. -/
def jacobiSort (n : Nat) (w : Vec K) (v : Mat K) : Vec K × Mat K :=
  loop (sortStep n) 0 (n - 1) (w, v)

/-- The count `for (numPos=0, i=0; i<n; i++) if (v[i][j] >= 0.0) numPos++;`. -/
def numPosOf (n j : Nat) (v : Mat K) : Nat :=
  loop (fun i numPos => if v i j ≥ 0 then numPos + 1 else numPos) 0 n 0

/-- The body of the consistency loop: `if (numPos < ceil(double(n)/double(2.0)))
for (i=0; i<n; i++) v[i][j] *= -1.0;`. -/
def normalizeStep (n j : Nat) (v : Mat K) : Mat K :=
  if numPosOf n j v < (n + 1) / 2 then
    loop (fun i v => Mat.set v i j (v i j * (-1))) 0 n v
  else v

/-- The eigenvector-consistency loop `for (j=0; j<n; j++)`. -/
def jacobiNormalize (n : Nat) (v : Mat K) : Mat K :=
  loop (normalizeStep n) 0 n v

/-- What a call of `vtkJacobiN` leaves behind: the returned `int` and the
arrays `a`, `w`, `v`. -/
structure JacobiResult (K : Type) where
  ret : Int
  a : Mat K
  w : Vec K
  v : Mat K

/-- The arrays after the rotation sequence of `vtkJacobiN`, with the value
of `i` the loop ends on. -/
def jacobiSweeps (sqrt : K → K) (a : Mat K) (n : Nat) (w : Vec K) (v : Mat K) :
    JState K × Nat :=
  sweepLoop sqrt n VTK_MAX_ROTATIONS 0 (jacobiInit a n w v)

/-- The function template `vtkJacobiN(T **a, int n, T *w, T **v)`, which
`vtkMath::JacobiN` calls; `sqrt` is the square root of the math library. -/
def JacobiN (sqrt : K → K) (a : Mat K) (n : Nat) (w : Vec K) (v : Mat K) :
    JacobiResult K :=
  let r := jacobiSweeps sqrt a n w v
  if r.2 ≥ VTK_MAX_ROTATIONS then
    { ret := 0, a := r.1.a, w := r.1.w, v := r.1.v }
  else
    let sv := jacobiSort n r.1.w r.1.v
    { ret := 1, a := r.1.a, w := sv.1, v := jacobiNormalize n sv.2 }

/-! ### Specification vocabulary for the eigensolver -/

/-- The number of components of column `j` of `v`, among rows `0 .. n-1`,
that are `≥ 0`. -/
def countNonneg (n j : Nat) (v : Mat K) : Nat :=
  ((Finset.range n).filter (fun i => 0 ≤ v i j)).card

/-- The symmetric matrix `vtkJacobiN` works on: its strict upper triangle
is kept in `a`, its diagonal in `w`. -/
def symOf (a : Mat K) (w : Vec K) : Mat K :=
  fun i j => if i = j then w i else if i < j then a i j else a j i

/-- The invariant of the rotation sequence for the input `A0`:
`A0·V = V·S` on the `n`-by-`n` block, `S` being the symmetric matrix kept
in `a` and `w`, and `w = b + z`. -/
def EigenInv (n : Nat) (A0 : Mat K) (st : JState K) : Prop :=
  (∀ i j, i < n → j < n →
    ∑ k in Finset.range n, A0 i k * st.v k j
      = ∑ k in Finset.range n, st.v i k * symOf st.a st.w k j) ∧
  (∀ k, k < n → st.w k = st.b k + st.z k)

/-- Orthonormality of the first `n` columns of `v` over rows `0 .. n-1`:
`VᵗV = I`. -/
def Orthogonal (n : Nat) (v : Mat K) : Prop :=
  ∀ i j, i < n → j < n → ∑ k in Finset.range n, v k i * v k j = identity i j

/-- An exact real square root: non-negative, and squaring back to its
argument, on non-negative arguments. -/
def ExactSqrt (sqrt : K → K) : Prop :=
  ∀ x, 0 ≤ x → 0 ≤ sqrt x ∧ sqrt x * sqrt x = x

end Jacobi

/-! ### Concrete inputs -/

/-- Cells `0 .. 2` of a 3-vector, zero elsewhere. -/
def vec3 (a b c : ℚ) : Vec ℚ :=
  fun i => if i = 0 then a else if i = 1 then b else if i = 2 then c else 0

/-- Rows `0 .. 2` of a 3-by-3 matrix, zero elsewhere. -/
def mat3 (r0 r1 r2 : Vec ℚ) : Mat ℚ :=
  fun i => if i = 0 then r0 else if i = 1 then r1 else if i = 2 then r2 else fun _ => 0

/-- The matrix `[[2,1,1],[4,3,3],[8,7,9]]`, whose factorisation
interchanges rows. -/
def sampleA : Mat ℚ := mat3 (vec3 2 1 1) (vec3 4 3 3) (vec3 8 7 9)

/-- The right-hand side `(4, 10, 24)`, for which `sampleA·x = b` has the
solution `(1, 1, 1)`. -/
def sampleB : Vec ℚ := vec3 4 10 24

/-- The symmetric matrix `[[0,12],[12,7]]`, with eigenvalues `16` and `-9`;
its Jacobi rotation has tangent `3/4`. -/
def sampleS : Mat ℚ := fun i j =>
  if i = 0 ∧ j = 0 then 0 else if i = 1 ∧ j = 1 then 7 else if i < 2 ∧ j < 2 then 12 else 0

/-- A square root on `ℚ` exact on the two arguments the rotation of
`sampleS` needs: `sqrt(625/576) = 25/24` and `sqrt(25/16) = 5/4`. -/
def tableSqrt (x : ℚ) : ℚ :=
  if x = 625 / 576 then 25 / 24 else if x = 25 / 16 then 5 / 4 else 0

/-- The matrix `t` times the identity. -/
def scaledIdentity (t : ℚ) : Mat ℚ := fun i j => if i = j then t else 0

/-! ### The sweeps of `vtkJacobiN`, counted -/

section Sweeps

variable {K : Type} [LinearOrderedField K]

/-- The arrays after `k` complete passes of the body of
`for (i=0; i<VTK_MAX_ROTATIONS; i++)`, the first of them with the value `i`
of the loop variable: each pass computes the sum `sm` of the absolute
strictly-upper entries and runs `sweepBody` with it.  This is the loop
without its `break`, the vocabulary for "the start of sweep `k`". -/
def sweepsDone (sqrt : K → K) (n : Nat) : Nat → Nat → JState K → JState K
  | 0, _, st => st
  | k + 1, i, st =>
    sweepsDone sqrt n k (i + 1) (sweepBody sqrt n i (offDiagSum n st.a) st)

end Sweeps

/-! ### `SolveLinear` -/

section Linear

variable {K : Type} [LinearOrderedField K]

/-- What a call of `SolveLinear` leaves behind: the returned `int` and the
cells `*r1`, `*num_roots`. -/
structure LinearRoots (K : Type) where
  ret : Int
  r1 : K
  num_roots : Int

/-- The function `vtkMath::SolveLinear(double c2, double c3, double *r1,
int *num_roots)`; `r1` is the content of the cell `*r1` before the call
(the cell `*num_roots` is written on every path). -/
def SolveLinear (c2 c3 : K) (r1 : K) : LinearRoots K :=
  if c2 ≠ 0 then
    { ret := 1, r1 := -c3 / c2, num_roots := 1 }
  else
    if c3 = 0 then { ret := -1, r1 := r1, num_roots := 0 }
    else { ret := 0, r1 := r1, num_roots := 0 }

end Linear

/-! ### The 3-by-3 routines -/

section Small

variable {K : Type} [LinearOrderedField K]

/-- The helper `vtkSwapVectors3(A[r1], A[r2])` on two rows of one matrix:
`for (i = 0; i < 3; i++) { tmp = v1[i]; v1[i] = v2[i]; v2[i] = tmp; }`. -/
def vtkSwapVectors3 (r1 r2 : Nat) (A : Mat K) : Mat K :=
  loop (fun i A =>
    let tmp := A r1 i
    Mat.set (Mat.set A r1 i (A r2 i)) r2 i tmp) 0 3 A

/-- The body of the scaling loop of `vtkLUFactor3x3` and
`vtkOrthogonalize3x3`: `largest = fabs(A[i][0]);
if ((tmp = fabs(A[i][1])) > largest) largest = tmp;
if ((tmp = fabs(A[i][2])) > largest) largest = tmp;
scale[i] = T(1.0)/largest;`. -/
def scaleStep3 (A : Mat K) (i : Nat) (scale : Vec K) : Vec K :=
  let largest := |A i 0|
  let largest := if |A i 1| > largest then |A i 1| else largest
  let largest := if |A i 2| > largest then |A i 2| else largest
  Vec.set scale i (1 / largest)

/-- The scaling loop `for (i = 0; i < 3; i++)`. -/
def scaleLoop3 (A : Mat K) (scale : Vec K) : Vec K :=
  loop (scaleStep3 A) 0 3 scale

/-- The row chosen for the first column, in `vtkLUFactor3x3` and in
`vtkOrthogonalize3x3`: `largest = scale[0]*fabs(A[0][0]); maxI = 0;
if ((tmp = scale[1]*fabs(A[1][0])) >= largest) { largest = tmp; maxI = 1; }
if ((tmp = scale[2]*fabs(A[2][0])) >= largest) { maxI = 2; }`. -/
def firstPivot3 (A : Mat K) (scale : Vec K) : Nat :=
  let largest := scale 0 * |A 0 0|
  let lm : K × Nat :=
    if scale 1 * |A 1 0| ≥ largest then (scale 1 * |A 1 0|, 1) else (largest, 0)
  if scale 2 * |A 2 0| ≥ lm.1 then 2 else lm.2

/-- The first column of `vtkLUFactor3x3`: pivot search, interchange,
`index[0] = maxI; A[0][0] = T(1.0)/A[0][0]; A[1][0] *= A[0][0];
A[2][0] *= A[0][0];`. -/
def firstColumn3 (s : LUState K) : LUState K :=
  let maxI := firstPivot3 s.A s.scale
  let A := if maxI ≠ 0 then vtkSwapVectors3 maxI 0 s.A else s.A
  let scale := if maxI ≠ 0 then Vec.set s.scale maxI (s.scale 0) else s.scale
  let index := fun r => if r = 0 then maxI else s.index r
  let A := Mat.set A 0 0 (1 / A 0 0)
  let A := Mat.set A 1 0 (A 1 0 * A 0 0)
  let A := Mat.set A 2 0 (A 2 0 * A 0 0)
  { A := A, index := index, scale := scale, maxI := maxI }

/-- The second column of `vtkLUFactor3x3`: `A[1][1] -= A[1][0]*A[0][1];
A[2][1] -= A[2][0]*A[0][1]; largest = scale[1]*fabs(A[1][1]); maxI = 1;
if ((tmp = scale[2]*fabs(A[2][1])) >= largest) { maxI = 2;
vtkSwapVectors3(A[2],A[1]); scale[2] = scale[1]; } index[1] = maxI;
A[1][1] = T(1.0)/A[1][1]; A[2][1] *= A[1][1];`. -/
def secondColumn3 (s : LUState K) : LUState K :=
  let A := Mat.set s.A 1 1 (s.A 1 1 - s.A 1 0 * s.A 0 1)
  let A := Mat.set A 2 1 (A 2 1 - A 2 0 * A 0 1)
  let largest := s.scale 1 * |A 1 1|
  let swap := s.scale 2 * |A 2 1| ≥ largest
  let maxI := if swap then 2 else 1
  let A := if swap then vtkSwapVectors3 2 1 A else A
  let scale := if swap then Vec.set s.scale 2 (s.scale 1) else s.scale
  let index := fun r => if r = 1 then maxI else s.index r
  let A := Mat.set A 1 1 (1 / A 1 1)
  let A := Mat.set A 2 1 (A 2 1 * A 1 1)
  { A := A, index := index, scale := scale, maxI := maxI }

/-- The third column of `vtkLUFactor3x3`: `A[1][2] -= A[1][0]*A[0][2];
A[2][2] -= A[2][0]*A[0][2] + A[2][1]*A[1][2]; index[2] = 2;
A[2][2] = T(1.0)/A[2][2];` (the value assigned to `largest` there is not
used). -/
def thirdColumn3 (s : LUState K) : LUState K :=
  let A := Mat.set s.A 1 2 (s.A 1 2 - s.A 1 0 * s.A 0 2)
  let A := Mat.set A 2 2 (A 2 2 - (A 2 0 * A 0 2 + A 2 1 * A 1 2))
  let index := fun r => if r = 2 then 2 else s.index r
  let A := Mat.set A 2 2 (1 / A 2 2)
  { A := A, index := index, scale := s.scale, maxI := s.maxI }

/-- The function template `vtkLUFactor3x3(T A[3][3], int index[3])`, which
`vtkMath::LUFactor3x3` calls; the cells of the local `scale` are taken to
hold zero before they are written. -/
def LUFactor3x3 (A : Mat K) (index : Nat → Nat) : LUState K :=
  thirdColumn3 (secondColumn3 (firstColumn3
    { A := A, index := index, scale := scaleLoop3 A (fun _ => 0), maxI := 0 }))

/-- The function template `vtkLUSolve3x3(const T1 A[3][3],
const int index[3], T2 x[3])`, which `vtkMath::LUSolve3x3` calls. -/
def LUSolve3x3 (A : Mat K) (index : Nat → Nat) (x : Vec K) : Vec K :=
  let sum := x (index 0)
  let x := Vec.set x (index 0) (x 0)
  let x := Vec.set x 0 sum
  let sum := x (index 1)
  let x := Vec.set x (index 1) (x 1)
  let x := Vec.set x 1 (sum - A 1 0 * x 0)
  let sum := x (index 2)
  let x := Vec.set x (index 2) (x 2)
  let x := Vec.set x 2 (sum - A 2 0 * x 0 - A 2 1 * x 1)
  let x := Vec.set x 2 (x 2 * A 2 2)
  let x := Vec.set x 1 ((x 1 - A 1 2 * x 2) * A 1 1)
  Vec.set x 0 ((x 0 - A 0 1 * x 1 - A 0 2 * x 2) * A 0 0)

/-- The copy loop `for (i = 0; i < 3; i++) { B[i][0] = A[i][0];
B[i][1] = A[i][1]; B[i][2] = A[i][2]; }`; the routines that copy column by
column (`B[0][i] = A[0][i]; B[1][i] = A[1][i]; B[2][i] = A[2][i];`) write the
same nine cells from the same nine cells. -/
def copy3x3 (A B : Mat K) : Mat K :=
  loop (fun i B =>
    Mat.set (Mat.set (Mat.set B i 0 (A i 0)) i 1 (A i 1)) i 2 (A i 2)) 0 3 B

/-- The copy `y[i] = x[i]` for `i = 0, 1, 2`. -/
def copy3 (x y : Vec K) : Vec K :=
  loop (fun i y => Vec.set y i (x i)) 0 3 y

/-- The function template `vtkLinearSolve3x3(const T1 A[3][3],
const T2 x[3], T3 y[3])`, which `vtkMath::LinearSolve3x3` calls: the new
content of `y`.  `A` and `x` are `const` and only read; the locals `B` and
`index` are taken to hold zero before they are written. -/
def LinearSolve3x3 (A : Mat K) (x y : Vec K) : Vec K :=
  let B := copy3x3 A (fun _ _ => 0)
  let y := copy3 x y
  let s := LUFactor3x3 B (fun _ => 0)
  LUSolve3x3 s.A s.index y

/-- The function template `vtkMultiplyMatrix3x3(A, B, C)`, which the
matrix-by-matrix `vtkMath::Multiply3x3` calls: the new content of `C`.  The
product is built in the local `D` and copied to `C` afterwards, so `C` may
be one of `A`, `B`. -/
def MultiplyMatrix3x3 (A B C : Mat K) : Mat K :=
  let D : Mat K := loop (fun i D =>
    let D := Mat.set D 0 i (A 0 0 * B 0 i + A 0 1 * B 1 i + A 0 2 * B 2 i)
    let D := Mat.set D 1 i (A 1 0 * B 0 i + A 1 1 * B 1 i + A 1 2 * B 2 i)
    Mat.set D 2 i (A 2 0 * B 0 i + A 2 1 * B 1 i + A 2 2 * B 2 i)) 0 3 (fun _ _ => 0)
  loop (fun j C =>
    Mat.set (Mat.set (Mat.set C j 0 (D j 0)) j 1 (D j 1)) j 2 (D j 2)) 0 3 C

/-- The function template `vtkTranspose3x3(const T1 A[3][3], T2 AT[3][3])`:
the new content of `AT`.  With `aliased` the two parameters are one array
(the calls `Transpose3x3(V,V)`), so that each read through `A` sees the
writes made through `AT` before it. -/
def Transpose3x3 (aliased : Bool) (A AT : Mat K) : Mat K :=
  let rd : Mat K → Mat K := fun cur => if aliased then cur else A
  let tmp := rd AT 1 0
  let AT := Mat.set AT 1 0 (rd AT 0 1)
  let AT := Mat.set AT 0 1 tmp
  let tmp := rd AT 2 0
  let AT := Mat.set AT 2 0 (rd AT 0 2)
  let AT := Mat.set AT 0 2 tmp
  let tmp := rd AT 2 1
  let AT := Mat.set AT 2 1 (rd AT 1 2)
  let AT := Mat.set AT 1 2 tmp
  let AT := Mat.set AT 0 0 (rd AT 0 0)
  let AT := Mat.set AT 1 1 (rd AT 1 1)
  Mat.set AT 2 2 (rd AT 2 2)

/-- The function template `vtkIdentity3x3(T A[3][3])`:
`for (i = 0; i < 3; i++) { A[i][0] = A[i][1] = A[i][2] = T(0.0);
A[i][i] = 1.0; }`. -/
def Identity3x3 (A : Mat K) : Mat K :=
  loop (fun i A =>
    Mat.set (Mat.set (Mat.set (Mat.set A i 2 0) i 1 0) i 0 0) i i 1) 0 3 A

/-- Modelled from the spec: `Determinant3x3` of the header `vtkMath.h`,
which is not among the sources; the spec has it as the cofactor expansion
of the 3-by-3 determinant, taken here along the first row. -/
def Determinant3x3 (A : Mat K) : K :=
  A 0 0 * (A 1 1 * A 2 2 - A 1 2 * A 2 1)
    - A 0 1 * (A 1 0 * A 2 2 - A 1 2 * A 2 0)
    + A 0 2 * (A 1 0 * A 2 1 - A 1 1 * A 2 0)

/-- Modelled from the spec: `Cross` of the header `vtkMath.h`, which is not
among the sources; the cross product `x × y` of two 3-vectors, written to
the cells `0 .. 2` of `z`. -/
def Cross (x y z : Vec K) : Vec K :=
  Vec.set (Vec.set (Vec.set z 0 (x 1 * y 2 - x 2 * y 1))
    1 (x 2 * y 0 - x 0 * y 2)) 2 (x 0 * y 1 - x 1 * y 0)

/-- Modelled from the spec: `Normalize` of the header `vtkMath.h`, which is
not among the sources; the 3-vector divided by its Euclidean length, left
alone when that length is zero. -/
def Normalize (sqrt : K → K) (x : Vec K) : Vec K :=
  let den := sqrt (x 0 * x 0 + x 1 * x 1 + x 2 * x 2)
  if den ≠ 0 then
    Vec.set (Vec.set (Vec.set x 0 (x 0 / den)) 1 (x 1 / den)) 2 (x 2 / den)
  else x

/-- The function template `vtkQuaternionToMatrix3x3(T1 quat[4],
T2 A[3][3])`, which `vtkMath::QuaternionToMatrix3x3` calls: the new content
of `A`; `sqrt` is the square root of the math library. -/
def QuaternionToMatrix3x3 (sqrt : K → K) (quat : Vec K) (A : Mat K) : Mat K :=
  let ww := quat 0 * quat 0
  let wx := quat 0 * quat 1
  let wy := quat 0 * quat 2
  let wz := quat 0 * quat 3
  let xx := quat 1 * quat 1
  let yy := quat 2 * quat 2
  let zz := quat 3 * quat 3
  let xy := quat 1 * quat 2
  let xz := quat 1 * quat 3
  let yz := quat 2 * quat 3
  let rr := xx + yy + zz
  let f := 1 / sqrt (ww + rr)
  let s := (ww - rr) * f
  let f := f * 2
  let A := Mat.set A 0 0 (xx * f + s)
  let A := Mat.set A 1 0 ((xy + wz) * f)
  let A := Mat.set A 2 0 ((xz - wy) * f)
  let A := Mat.set A 0 1 ((xy - wz) * f)
  let A := Mat.set A 1 1 (yy * f + s)
  let A := Mat.set A 2 1 ((yz + wx) * f)
  let A := Mat.set A 0 2 ((xz + wy) * f)
  let A := Mat.set A 1 2 ((yz - wx) * f)
  Mat.set A 2 2 (zz * f + s)

/-- The local `N[4][4]` of `vtkMatrix3x3ToQuaternion` after its sixteen
assignments (`N[0][1] = N[1][0] = A[2][1]-A[1][2];` and so on); its cells
are taken to hold zero before. -/
def hornMatrix (A : Mat K) : Mat K :=
  let N : Mat K := fun _ _ => 0
  let N := Mat.set N 0 0 (A 0 0 + A 1 1 + A 2 2)
  let N := Mat.set N 1 1 (A 0 0 - A 1 1 - A 2 2)
  let N := Mat.set N 2 2 (-A 0 0 + A 1 1 - A 2 2)
  let N := Mat.set N 3 3 (-A 0 0 - A 1 1 + A 2 2)
  let N := Mat.set N 1 0 (A 2 1 - A 1 2)
  let N := Mat.set N 0 1 (N 1 0)
  let N := Mat.set N 2 0 (A 0 2 - A 2 0)
  let N := Mat.set N 0 2 (N 2 0)
  let N := Mat.set N 3 0 (A 1 0 - A 0 1)
  let N := Mat.set N 0 3 (N 3 0)
  let N := Mat.set N 2 1 (A 1 0 + A 0 1)
  let N := Mat.set N 1 2 (N 2 1)
  let N := Mat.set N 3 1 (A 0 2 + A 2 0)
  let N := Mat.set N 1 3 (N 3 1)
  let N := Mat.set N 3 2 (A 2 1 + A 1 2)
  Mat.set N 2 3 (N 3 2)

/-- The function template `vtkMatrix3x3ToQuaternion(const T1 A[3][3],
T2 quat[4])`, which `vtkMath::Matrix3x3ToQuaternion` calls: the new content
of `quat`.  The value `JacobiN` returns is not looked at; the locals
`eigenvalues`, `eigenvectors` are taken to hold zero before the call. -/
def Matrix3x3ToQuaternion (sqrt : K → K) (A : Mat K) (quat : Vec K) : Vec K :=
  let r := JacobiN sqrt (hornMatrix A) 4 (fun _ => 0) (fun _ _ => 0)
  let quat := Vec.set quat 0 (r.v 0 0)
  let quat := Vec.set quat 1 (r.v 1 0)
  let quat := Vec.set quat 2 (r.v 2 0)
  Vec.set quat 3 (r.v 3 0)

/-- The loop `for (i = 0; i < 3; i++) { B[0][i] = -B[0][i];
B[1][i] = -B[1][i]; B[2][i] = -B[2][i]; }`. -/
def negate3x3 (B : Mat K) : Mat K :=
  loop (fun i B =>
    let B := Mat.set B 0 i (-B 0 i)
    let B := Mat.set B 1 i (-B 1 i)
    Mat.set B 2 i (-B 2 i)) 0 3 B

/-- The rows chosen by the pivoting of `vtkOrthogonalize3x3`, with the
matrix after the two interchanges: the first column as in
`vtkLUFactor3x3`, then `index[1] = 1; largest = scale[1]*fabs(B[1][1]);
if ((tmp = scale[2]*fabs(B[2][1])) >= largest) { index[1] = 2;
vtkSwapVectors3(B[2],B[1]); }`. -/
def orthoPivot (B : Mat K) : Mat K × Nat × Nat :=
  let scale := scaleLoop3 B (fun _ => 0)
  let index0 := firstPivot3 B scale
  let B1 := if index0 ≠ 0 then vtkSwapVectors3 index0 0 B else B
  let scale := if index0 ≠ 0 then Vec.set scale index0 (scale 0) else scale
  let index1 := if scale 2 * |B1 2 1| ≥ scale 1 * |B1 1 1| then 2 else 1
  let B2 := if index1 = 2 then vtkSwapVectors3 2 1 B1 else B1
  (B2, index0, index1)

/-- The function template `vtkOrthogonalize3x3(const T1 A[3][3],
T2 B[3][3])`, which `vtkMath::Orthogonalize3x3` calls: the new content of
`B`. -/
def Orthogonalize3x3 (sqrt : K → K) (A B : Mat K) : Mat K :=
  let B := copy3x3 A B
  let p := orthoPivot B
  let B := p.1
  let index0 := p.2.1
  let index1 := p.2.2
  let d := Determinant3x3 B
  let B := if d < 0 then negate3x3 B else B
  let quat := Matrix3x3ToQuaternion sqrt B (fun _ => 0)
  let B := QuaternionToMatrix3x3 sqrt quat B
  let B := if d < 0 then negate3x3 B else B
  let B := if index1 ≠ 1 then vtkSwapVectors3 index1 1 B else B
  if index0 ≠ 0 then vtkSwapVectors3 index0 0 B else B

/-- What a call of `vtkDiagonalize3x3` leaves behind: the arrays `w`, `V`. -/
structure DiagResult (K : Type) where
  w : Vec K
  V : Mat K

/-- The three assignments `V[r][0] = -V[r][0]; V[r][1] = -V[r][1];
V[r][2] = -V[r][2];`. -/
def negateRow (r : Nat) (V : Mat K) : Mat K :=
  let V := Mat.set V r 0 (-V r 0)
  let V := Mat.set V r 1 (-V r 1)
  Mat.set V r 2 (-V r 2)

/-- The assignment of a 3-vector to the row `V[r]`, as the calls
`Cross(.., .., V[r])` and `Normalize(V[r])` make it. -/
def setRow (V : Mat K) (r : Nat) (x : Vec K) : Mat K :=
  fun i => if i = r then x else V i

/-- The search `maxVal = fabs(V[i][0]); maxI = 0; for (j = 1; j < 3; j++)
if (maxVal < (tmp = fabs(V[i][j]))) { maxVal = tmp; maxI = j; }`. -/
def argMaxRow (V : Mat K) (i : Nat) : Nat :=
  (loop (fun j (p : K × Nat) => if p.1 < |V i j| then (|V i j|, j) else p)
    1 2 (|V i 0|, 0)).2

/-- The search `maxVal = fabs(V[0][0]); maxI = 0; for (i = 1; i < 3; i++)
if (maxVal < (tmp = fabs(V[i][0]))) { maxVal = tmp; maxI = i; }`. -/
def argMaxCol0 (V : Mat K) : Nat :=
  (loop (fun i (p : K × Nat) => if p.1 < |V i 0| then (|V i 0|, i) else p)
    1 2 (|V 0 0|, 0)).2

/-- The body of `if (w[(i+1)%3] == w[(i+2)%3])` in `vtkDiagonalize3x3`, up
to its `return`: the independent eigenvector is moved to the row of its
largest element and made positive there, the other two rows are rebuilt by
cross products, and the rows are transposed back to columns. -/
def alignPair (sqrt : K → K) (i : Nat) (w : Vec K) (V : Mat K) : DiagResult K :=
  let maxI := argMaxRow V i
  let w1 := if maxI ≠ i then Vec.set (Vec.set w maxI (w i)) i (w maxI) else w
  let V := if maxI ≠ i then vtkSwapVectors3 i maxI V else V
  let V := if V maxI maxI < 0 then negateRow maxI V else V
  let j := (maxI + 1) % 3
  let k := (maxI + 2) % 3
  let V := Mat.set V j 0 0
  let V := Mat.set V j 1 0
  let V := Mat.set V j 2 0
  let V := Mat.set V j j 1
  let V := setRow V k (Cross (V maxI) (V j) (V k))
  let V := setRow V k (Normalize sqrt (V k))
  let V := setRow V j (Cross (V k) (V maxI) (V j))
  { w := w1, V := Transpose3x3 true V V }

/-- The tail of `vtkDiagonalize3x3`, reached when no two eigenvalues are
equal: the rows are ordered by their `x` and `y` elements, the signs of
rows 0 and 1 are set, the sign of row 2 makes the determinant positive, and
the rows are transposed back to columns. -/
def alignDistinct (w : Vec K) (V : Mat K) : DiagResult K :=
  let maxI := argMaxCol0 V
  let w1 := if maxI ≠ 0 then Vec.set (Vec.set w maxI (w 0)) 0 (w maxI) else w
  let V := if maxI ≠ 0 then vtkSwapVectors3 maxI 0 V else V
  let sw := |V 1 1| < |V 2 1|
  let w2 := if sw then Vec.set (Vec.set w1 2 (w1 1)) 1 (w1 2) else w1
  let V := if sw then vtkSwapVectors3 2 1 V else V
  let V := loop (fun i V => if V i i < 0 then negateRow i V else V) 0 2 V
  let V := if Determinant3x3 V < 0 then negateRow 2 V else V
  { w := w2, V := Transpose3x3 true V V }

/-- The function template `vtkDiagonalize3x3(const T1 A[3][3], T2 w[3],
T2 V[3][3])`, which `vtkMath::Diagonalize3x3` calls.  The value `JacobiN`
returns is not looked at; the loop `for (i = 0; i < 3; i++)` over the three
pairs of eigenvalues is written out, pass by pass. -/
def Diagonalize3x3 (sqrt : K → K) (A : Mat K) (w : Vec K) (V : Mat K) :
    DiagResult K :=
  let C := copy3x3 A (fun _ _ => 0)
  let r := JacobiN sqrt C 3 w V
  if r.w 0 = r.w 1 ∧ r.w 0 = r.w 2 then
    { w := r.w, V := Identity3x3 r.v }
  else
    let V := Transpose3x3 true r.v r.v
    if r.w ((0 + 1) % 3) = r.w ((0 + 2) % 3) then alignPair sqrt 0 r.w V
    else if r.w ((1 + 1) % 3) = r.w ((1 + 2) % 3) then alignPair sqrt 1 r.w V
    else if r.w ((2 + 1) % 3) = r.w ((2 + 2) % 3) then alignPair sqrt 2 r.w V
    else alignDistinct r.w V

/-- What a call of `vtkSingularValueDecomposition3x3` leaves behind. -/
structure SVDResult (K : Type) where
  U : Mat K
  w : Vec K
  VT : Mat K

/-- The function template `vtkSingularValueDecomposition3x3(const T1 A[3][3],
T2 U[3][3], T2 w[3], T2 VT[3][3])`, which
`vtkMath::SingularValueDecomposition3x3` calls. -/
def SingularValueDecomposition3x3 (sqrt : K → K) (A U : Mat K) (w : Vec K)
    (VT : Mat K) : SVDResult K :=
  let B := copy3x3 A (fun _ _ => 0)
  let d := Determinant3x3 B
  let B := if d < 0 then negate3x3 B else B
  let U := Orthogonalize3x3 sqrt B U
  let B := Transpose3x3 true B B
  let VT := MultiplyMatrix3x3 B U VT
  let r := Diagonalize3x3 sqrt VT w VT
  let U := MultiplyMatrix3x3 U r.V U
  let VT := Transpose3x3 true r.V r.V
  let w :=
    if d < 0 then
      let w := Vec.set r.w 0 (-r.w 0)
      let w := Vec.set w 1 (-w 1)
      Vec.set w 2 (-w 2)
    else r.w
  { U := U, w := w, VT := VT }

end Small

/-! ### Specification vocabulary for the 3-by-3 routines -/

section SmallSpec

variable {K : Type} [LinearOrderedField K]

/-- The rows `0 .. 2` of `B` are orthonormal: `B·Bᵗ = I`. -/
def RowsOrthonormal (B : Mat K) : Prop :=
  ∀ i j, i < 3 → j < 3 → ∑ k in Finset.range 3, B i k * B j k = identity i j

/-- The matrix `R` is a proper rotation: `R·Rᵗ = I` and `det R = +1`. -/
def ProperRotation (R : Mat K) : Prop :=
  RowsOrthonormal R ∧ Determinant3x3 R = 1

/-- Two arrays agree on the cells of a 3-by-3 matrix. -/
def Same3x3 (A B : Mat K) : Prop :=
  ∀ i j, i < 3 → j < 3 → A i j = B i j

/-- The quaternion `(w, x, y, z)` in the cells `0 .. 3`. -/
def quatOf (w x y z : K) : Vec K :=
  fun i => if i = 0 then w else if i = 1 then x else if i = 2 then y
    else if i = 3 then z else 0

end SmallSpec

/-! ### More concrete inputs -/

/-- A square root on `ℚ` exact on `0`, `1` and `4`. -/
def smallSqrt (x : ℚ) : ℚ :=
  if x = 1 then 1 else if x = 4 then 2 else 0

/-! ### Specification vocabulary for the quaternion of a rotation -/

section QuatSpec

variable {K : Type} [LinearOrderedField K]

/-- The `n`-by-`n` block of `N` is `4·q·qᵗ − I`. -/
def RankOne (n : Nat) (q : Vec K) (N : Mat K) : Prop :=
  ∀ i j, i < n → j < n → N i j = 4 * q i * q j - identity i j

/-- The component of the vector `q` along column `j` of `v`, over the rows
`0 .. n-1`. -/
def colDot (n : Nat) (q : Vec K) (v : Mat K) (j : Nat) : K :=
  ∑ k in Finset.range n, q k * v k j

end QuatSpec

/-! ### Specification vocabulary for the singular value decomposition -/

section SvdSpec

variable {K : Type} [LinearOrderedField K]

/-- Exactly one of `x`, `y`, `z` is zero. -/
def OneZero (x y z : K) : Prop :=
  (x = 0 ∧ y ≠ 0 ∧ z ≠ 0) ∨ (x ≠ 0 ∧ y = 0 ∧ z ≠ 0) ∨ (x ≠ 0 ∧ y ≠ 0 ∧ z = 0)

/-- A pattern of the strictly-upper entries of an `(o+3)`-by-`(o+3)` array:
the rows above `o` are zero, and of the three entries among the last three
indices exactly one is zero. -/
def ChainPattern (o : Nat) (a : Mat K) : Prop :=
  (∀ r c, r < o → r < c → c < o + 3 → a r c = 0) ∧
  OneZero (a o (o + 1)) (a o (o + 2)) (a (o + 1) (o + 2))

/-- The columns of `v` left of `o` are columns of the identity. -/
def UnitColumns (o : Nat) (v : Mat K) : Prop :=
  ∀ k j, k < o + 3 → j < o → v k j = identity k j

/-- The matrix `vtkOrthogonalize3x3` hands to `Matrix3x3ToQuaternion`: the
copy of `A` after the pivoting and the removal of the flip. -/
def orthoQuatInput (A B : Mat K) : Mat K :=
  let P := (orthoPivot (copy3x3 A B)).1
  if Determinant3x3 P < 0 then negate3x3 P else P

/-- The copy `B` of `A` in `vtkSingularValueDecomposition3x3` after the
temporary flip, as it is handed to `Orthogonalize3x3`. -/
def svdFlipped (A : Mat K) : Mat K :=
  let B := copy3x3 A (fun _ _ => 0)
  if Determinant3x3 B < 0 then negate3x3 B else B

/-- The product `Bᵗ·U` that `vtkSingularValueDecomposition3x3` hands to
`Diagonalize3x3` in `VT`. -/
def svdSymmetric (sqrt : K → K) (A U VT : Mat K) : Mat K :=
  MultiplyMatrix3x3 (Transpose3x3 true (svdFlipped A) (svdFlipped A))
    (Orthogonalize3x3 sqrt (svdFlipped A) U) VT

/-- Both rotation sequences run inside `vtkSingularValueDecomposition3x3`
end on their `break`: the `JacobiN` call of `Matrix3x3ToQuaternion` (in
`Orthogonalize3x3`) and the one of `Diagonalize3x3` return 1.  The code does
not look at either value. -/
def SvdConverges (sqrt : K → K) (A U : Mat K) (w : Vec K) (VT : Mat K) : Prop :=
  (JacobiN sqrt (hornMatrix (orthoQuatInput (svdFlipped A) U)) 4
    (fun _ => 0) (fun _ _ => 0)).ret = 1 ∧
  (JacobiN sqrt (copy3x3 (svdSymmetric sqrt A U VT) (fun _ _ => 0)) 3 w
    (svdSymmetric sqrt A U VT)).ret = 1

/-- The matrix `Rᵗ·diag(w)·R` on the nine cells: the symmetric matrix with
the eigenvalues `w` and the rows of `R` as eigenvectors. -/
def spectralSum (w : Vec K) (R : Mat K) : Mat K :=
  fun i j => ∑ k in Finset.range 3, R k i * w k * R k j

/-- The product `U·diag(w)·VT` on the nine cells of a 3-by-3 matrix. -/
def svdProduct (U : Mat K) (w : Vec K) (VT : Mat K) : Mat K :=
  fun i j => ∑ k in Finset.range 3, U i k * w k * VT k j

/-- The symmetric matrix `[[2,1,0],[1,3,1],[0,1,2]]`, zero outside its nine
cells. -/
def sampleChain : Mat K := fun i j =>
  if i = 0 ∧ j = 0 then 2 else if i = 1 ∧ j = 1 then 3 else if i = 2 ∧ j = 2 then 2
  else if (i = 0 ∧ j = 1) ∨ (i = 1 ∧ j = 0) ∨ (i = 1 ∧ j = 2) ∨ (i = 2 ∧ j = 1) then 1
  else 0

end SvdSpec

/-! ### The polynomial solvers -/

section Polynomial

variable {K : Type} [LinearOrderedField K]

/-- The macro `VTK_SIGN(x)`, `(( (x) < 0 )?( -1 ):( 1 ))`: an `int`. -/
def VTK_SIGN (x : K) : Int := if x < 0 then -1 else 1

/-- What a call of `SolveQuadratic` leaves behind: the returned `int` and
the cells `*r1`, `*r2`, `*num_roots`. -/
structure QuadraticRoots (K : Type) where
  ret : Int
  r1 : K
  r2 : K
  num_roots : Int

/-- The function `vtkMath::SolveQuadratic(double c1, double c2, double c3,
double *r1, double *r2, int *num_roots)`; `r1`, `r2` are the contents of the
cells `*r1`, `*r2` before the call, `sqrt` is the square root of the math
library. -/
def SolveQuadratic (sqrt : K → K) (c1 c2 c3 r1 r2 : K) : QuadraticRoots K :=
  if c1 ≠ 0 then
    let determinant := c2 * c2 - 4 * c1 * c3
    if determinant ≥ 0 then
      let Q := -0.5 * (c2 + (VTK_SIGN c2 : K) * sqrt determinant)
      let r1 := Q / c1
      let r2 := if Q = 0 then 0 else c3 / Q
      let num_roots : Int := 2
      let num_roots : Int := if r1 = r2 then 1 else num_roots
      { ret := num_roots, r1 := r1, r2 := r2, num_roots := num_roots }
    else
      { ret := -2, r1 := r1, r2 := r2, num_roots := 0 }
  else
    let l := SolveLinear c2 c3 r1
    { ret := l.ret, r1 := l.r1, r2 := r2, num_roots := l.num_roots }

/-- What a call of `SolveCubic` leaves behind: the returned `int` and the
cells `*r1`, `*r2`, `*r3`, `*num_roots`. -/
structure CubicRoots (K : Type) where
  ret : Int
  r1 : K
  r2 : K
  r3 : K
  num_roots : Int

/-- The function `vtkMath::SolveCubic(double c0, double c1, double c2,
double c3, double *r1, double *r2, double *r3, int *num_roots)`; `r1`, `r2`,
`r3` are the contents of the cells before the call, and `sqrt`, `cos`,
`acos`, `pow` are the functions of the math library.  The decimal constants
`3.141592653589` and `0.33333333` are those of the source. -/
def SolveCubic (sqrt cos acos : K → K) (pow : K → K → K) (c0 c1 c2 c3 r1 r2 r3 : K) :
    CubicRoots K :=
  if c0 ≠ 0 then
    let c1 := c1 / c0
    let c2 := c2 / c0
    let c3 := c3 / c0
    let Q := ((c1 * c1) - 3 * c2) / 9.0
    let R := (2.0 * (c1 * c1 * c1) - 9.0 * (c1 * c2) + 27.0 * c3) / 54.0
    let R_squared := R * R
    let Q_cubed := Q * Q * Q
    if R_squared ≤ Q_cubed then
      if Q_cubed = 0 then
        let r1 := -c1 / 3.0
        { ret := 1, r1 := r1, r2 := r1, r3 := r1, num_roots := 1 }
      else
        let theta := acos (R / sqrt Q_cubed)
        let r1 := -2.0 * sqrt Q * cos (theta / 3.0) - c1 / 3.0
        let r2 := -2.0 * sqrt Q * cos ((theta + 2.0 * 3.141592653589) / 3.0) - c1 / 3.0
        let r3 := -2.0 * sqrt Q * cos ((theta - 2.0 * 3.141592653589) / 3.0) - c1 / 3.0
        let num_roots : Int := 3
        let st : Int × K :=
          if r1 = r2 then (2, r3) else if r1 = r3 then (2, r2) else (num_roots, r2)
        let num_roots := st.1
        let r2 := st.2
        let num_roots : Int := if r2 = r3 ∧ num_roots = 3 then 2 else num_roots
        let num_roots : Int := if r1 = r2 then 1 else num_roots
        { ret := num_roots, r1 := r1, r2 := r2, r3 := r3, num_roots := num_roots }
    else
      let A := -(VTK_SIGN R : K) * pow (|R| + sqrt (R_squared - Q_cubed)) 0.33333333
      let B := if A = 0 then 0 else Q / A
      { ret := -3, r1 := (A + B) - c1 / 3.0, r2 := -0.5 * (A + B) - c1 / 3.0,
        r3 := sqrt 3.0 / 2.0 * (A - B), num_roots := 1 }
  else
    let q := SolveQuadratic sqrt c1 c2 c3 r1 r2
    { ret := q.ret, r1 := q.r1, r2 := q.r2, r3 := r3, num_roots := q.num_roots }

/-- The function `double* vtkMath::SolveLinear(double c2, double c3)`: the
content of its `static double roots[3]` on return, `roots` being the content
before the call. -/
def SolveLinearArray (c2 c3 : K) (roots : Vec K) : Vec K :=
  let roots := Vec.set roots 1 0
  let l := SolveLinear c2 c3 (roots 1)
  let roots := Vec.set roots 1 l.r1
  let roots := Vec.set roots 2 (l.ret : K)
  Vec.set roots 0 (l.num_roots : K)

/-- The function `double* vtkMath::SolveQuadratic(double c1, double c2,
double c3)`: the content of its `static double roots[4]` on return. -/
def SolveQuadraticArray (sqrt : K → K) (c1 c2 c3 : K) (roots : Vec K) : Vec K :=
  let roots := Vec.set roots 0 0
  let roots := Vec.set roots 1 0
  let roots := Vec.set roots 2 0
  let q := SolveQuadratic sqrt c1 c2 c3 (roots 1) (roots 2)
  let roots := Vec.set (Vec.set roots 1 q.r1) 2 q.r2
  let roots := Vec.set roots 3 (q.ret : K)
  Vec.set roots 0 (q.num_roots : K)

/-- The function `double* vtkMath::SolveCubic(double c0, double c1,
double c2, double c3)`: the content of its `static double roots[5]` on
return. -/
def SolveCubicArray (sqrt cos acos : K → K) (pow : K → K → K) (c0 c1 c2 c3 : K)
    (roots : Vec K) : Vec K :=
  let roots := Vec.set roots 1 0
  let roots := Vec.set roots 2 0
  let roots := Vec.set roots 3 0
  let c := SolveCubic sqrt cos acos pow c0 c1 c2 c3 (roots 1) (roots 2) (roots 3)
  let roots := Vec.set (Vec.set (Vec.set roots 1 c.r1) 2 c.r2) 3 c.r3
  let roots := Vec.set roots 4 (c.ret : K)
  Vec.set roots 0 (c.num_roots : K)

/-- The intermediate `Q` of `SolveQuadratic`:
`-0.5 * (c2 + VTK_SIGN(c2)*sqrt(determinant))`. -/
def quadraticQ (sqrt : K → K) (c1 c2 c3 : K) : K :=
  -0.5 * (c2 + (VTK_SIGN c2 : K) * sqrt (c2 * c2 - 4 * c1 * c3))

/-- The invariant `Q` of `SolveCubic`, from the coefficients divided by
`c0`. -/
def cubicQ (c0 c1 c2 : K) : K :=
  ((c1 / c0 * (c1 / c0)) - 3 * (c2 / c0)) / 9.0

/-- The invariant `R` of `SolveCubic`, from the coefficients divided by
`c0`. -/
def cubicR (c0 c1 c2 c3 : K) : K :=
  (2.0 * (c1 / c0 * (c1 / c0) * (c1 / c0)) - 9.0 * (c1 / c0 * (c2 / c0)) + 27.0 * (c3 / c0))
    / 54.0

/-- The cubic polynomial `c0·t³ + c1·t² + c2·t + c3`. -/
def cubicValue (c0 c1 c2 c3 t : K) : K := c0 * t ^ 3 + c1 * t ^ 2 + c2 * t + c3

/-- The angle `theta = acos(R/(sqrt(Q_cubed)))` of the trigonometric branch
of `SolveCubic`. -/
def cubicTheta (sqrt acos : K → K) (c0 c1 c2 c3 : K) : K :=
  acos (cubicR c0 c1 c2 c3 / sqrt (cubicQ c0 c1 c2 * cubicQ c0 c1 c2 * cubicQ c0 c1 c2))

/-- A value of the trigonometric branch of `SolveCubic`:
`-2.0*sqrt(Q)*cos(angle/3.0) - c1/3.0`. -/
def trigRoot (sqrt cos : K → K) (c0 c1 c2 angle : K) : K :=
  -2.0 * sqrt (cubicQ c0 c1 c2) * cos (angle / 3.0) - c1 / c0 / 3.0

/-- The comparisons that end the trigonometric branch of `SolveCubic`, from
`*num_roots = 3` to `return *num_roots`, on the three values computed. -/
def cubicCollapse (r1 r2 r3 : K) : CubicRoots K :=
  let num_roots : Int := 3
  let st : Int × K :=
    if r1 = r2 then (2, r3) else if r1 = r3 then (2, r2) else (num_roots, r2)
  let num_roots := st.1
  let r2 := st.2
  let num_roots : Int := if r2 = r3 ∧ num_roots = 3 then 2 else num_roots
  let num_roots : Int := if r1 = r2 then 1 else num_roots
  { ret := num_roots, r1 := r1, r2 := r2, r3 := r3, num_roots := num_roots }

/-- The intermediate `A` of the last branch of `SolveCubic`. -/
def cardanoA (sqrt : K → K) (pow : K → K → K) (c0 c1 c2 c3 : K) : K :=
  -(VTK_SIGN (cubicR c0 c1 c2 c3) : K)
    * pow (|cubicR c0 c1 c2 c3| + sqrt (cubicR c0 c1 c2 c3 * cubicR c0 c1 c2 c3
        - cubicQ c0 c1 c2 * cubicQ c0 c1 c2 * cubicQ c0 c1 c2)) 0.33333333

/-- The intermediate `B` of the last branch of `SolveCubic`. -/
def cardanoB (sqrt : K → K) (pow : K → K → K) (c0 c1 c2 c3 : K) : K :=
  if cardanoA sqrt pow c0 c1 c2 c3 = 0 then 0
  else cubicQ c0 c1 c2 / cardanoA sqrt pow c0 c1 c2 c3

end Polynomial

/-! ### The least-squares solver -/

section LeastSquares

variable {K : Type} [LinearOrderedField K]

/-- The three local arrays of `SolveLeastSquares`. -/
structure LsqState (K : Type) where
  XXt : Mat K
  XXtI : Mat K
  XYt : Mat K

/-- What a call of `SolveLeastSquares` leaves behind: the returned `int` and
the contents of `xt`, `yt` and `mt`. -/
structure LeastSquaresResult (K : Type) where
  ret : Int
  xt : Mat K
  yt : Mat K
  mt : Mat K

/-- Body of the set-up loop over `i`: row `i` of `XXt`, `XXtI` and `XYt` is
set to `0.0`. -/
def lsqInitRow (xOrder yOrder i : Nat) (s : LsqState K) : LsqState K :=
  let s := loop (fun j (s : LsqState K) =>
    { s with XXt := Mat.set s.XXt i j 0, XXtI := Mat.set s.XXtI i j 0 }) 0 xOrder s
  loop (fun j (s : LsqState K) => { s with XYt := Mat.set s.XYt i j 0 }) 0 yOrder s

/-- The set-up loop of `SolveLeastSquares`. -/
def lsqInit (xOrder yOrder : Nat) (s : LsqState K) : LsqState K :=
  loop (lsqInitRow xOrder yOrder) 0 xOrder s

/-- Body of the loop over `i` for sample `k`: `XXt[i][j] += xt[k][i] *
xt[k][j]` for `j = i, …, xOrder-1`, then `XYt[i][j] += xt[k][i] * yt[k][j]`
for `j < yOrder`. -/
def lsqAccumulateRow (xt yt : Mat K) (xOrder yOrder k i : Nat) (s : LsqState K) :
    LsqState K :=
  let s := loop (fun j (s : LsqState K) =>
    { s with XXt := Mat.set s.XXt i j (s.XXt i j + xt k i * xt k j) }) i (xOrder - i) s
  loop (fun j (s : LsqState K) =>
    { s with XYt := Mat.set s.XYt i j (s.XYt i j + xt k i * yt k j) }) 0 yOrder s

/-- The loop over the samples `k < numberOfSamples`. -/
def lsqAccumulate (xt yt : Mat K) (numberOfSamples xOrder yOrder : Nat) (s : LsqState K) :
    LsqState K :=
  loop (fun k s => loop (lsqAccumulateRow xt yt xOrder yOrder k) 0 xOrder s)
    0 numberOfSamples s

/-- The loop that fills the lower half: `XXt[i][j] = XXt[j][i]` for
`j < i`. -/
def lsqFillLower (xOrder : Nat) (XXt : Mat K) : Mat K :=
  loop (fun i X => loop (fun j (X : Mat K) => Mat.set X i j (X j i)) 0 i X) 0 xOrder XXt

/-- The final loop: `mt[i][j] = 0.0`, then `mt[i][j] += XXtI[i][k] *
XYt[k][j]` for `k < xOrder`. -/
def lsqProduct (xOrder yOrder : Nat) (XXtI XYt mt : Mat K) : Mat K :=
  loop (fun i mt => loop (fun j (mt : Mat K) =>
    let mt := Mat.set mt i j 0
    loop (fun k (mt : Mat K) => Mat.set mt i j (mt i j + XXtI i k * XYt k j)) 0 xOrder mt)
    0 yOrder mt) 0 xOrder mt

/-- The function `vtkMath::SolveLeastSquares(int numberOfSamples,
double **xt, int xOrder, double **yt, int yOrder, double **mt)`.  The sizes
are natural numbers; `XXt`, `XXtI`, `XYt` are the contents of the freshly
allocated arrays, and `index`, `column` those of the work arrays of the
three-argument `InvertMatrix`. -/
def SolveLeastSquares (numberOfSamples : Nat) (xt : Mat K) (xOrder : Nat) (yt : Mat K)
    (yOrder : Nat) (mt : Mat K) (XXt XXtI XYt : Mat K) (index : Nat → Nat)
    (column : Vec K) : LeastSquaresResult K :=
  if numberOfSamples < xOrder ∨ numberOfSamples < yOrder then
    { ret := 0, xt := xt, yt := yt, mt := mt }
  else
    let s := lsqInit xOrder yOrder { XXt := XXt, XXtI := XXtI, XYt := XYt }
    let s := lsqAccumulate xt yt numberOfSamples xOrder yOrder s
    let XXt := lsqFillLower xOrder s.XXt
    let inv := InvertMatrix3 XXt s.XXtI xOrder index column
    if inv.ret = 0 then
      { ret := 0, xt := xt, yt := yt, mt := mt }
    else
      { ret := 1, xt := xt, yt := yt,
        mt := lsqProduct xOrder yOrder inv.AI s.XYt mt }

/-- The matrix `XᵗX` of the samples: entry `(i, j)` is the sum over the
samples `k` of `xt[k][i]·xt[k][j]`. -/
def gramXX (numberOfSamples : Nat) (xt : Mat K) : Mat K :=
  fun i j => ∑ k in Finset.range numberOfSamples, xt k i * xt k j

/-- The matrix `XᵗY` of the samples: entry `(i, j)` is the sum over the
samples `k` of `xt[k][i]·yt[k][j]`. -/
def gramXY (numberOfSamples : Nat) (xt yt : Mat K) : Mat K :=
  fun i j => ∑ k in Finset.range numberOfSamples, xt k i * yt k j

/-- The array `XXt` as `SolveLeastSquares` passes it to `InvertMatrix`:
after the set-up, the accumulation and the filling of the lower half. -/
def lsqNormal (numberOfSamples : Nat) (xt : Mat K) (xOrder : Nat) (yt : Mat K)
    (yOrder : Nat) (XXt XXtI XYt : Mat K) : Mat K :=
  lsqFillLower xOrder (lsqAccumulate xt yt numberOfSamples xOrder yOrder
    (lsqInit xOrder yOrder { XXt := XXt, XXtI := XXtI, XYt := XYt })).XXt

/-- The array `XXtI` as `SolveLeastSquares` passes it to `InvertMatrix`. -/
def lsqSeed (numberOfSamples : Nat) (xt : Mat K) (xOrder : Nat) (yt : Mat K)
    (yOrder : Nat) (XXt XXtI XYt : Mat K) : Mat K :=
  (lsqAccumulate xt yt numberOfSamples xOrder yOrder
    (lsqInit xOrder yOrder { XXt := XXt, XXtI := XXtI, XYt := XYt })).XXtI

end LeastSquares

/-! ### Concrete inputs for the solvers -/

/-- The three samples `x = 0, 1, 2` of the line `y = 2x + 1`, as rows
`(x, 1)` of `xt`. -/
def lineXt : Mat ℚ := fun k i => if i = 0 then (k : ℚ) else if i = 1 then 1 else 0

/-- The values `y = 1, 3, 5` of the three samples, as rows of `yt`. -/
def lineYt : Mat ℚ := fun k j => if j = 0 then 2 * (k : ℚ) + 1 else 0

/-- The coefficients `(2, 1)` of the line `y = 2x + 1`, as the column of
`mt`. -/
def lineM : Mat ℚ := fun i j => if j = 0 then (if i = 0 then 2 else if i = 1 then 1 else 0) else 0

/-! ### Vocabulary for the later theorems -/

section Later

variable {K : Type} [LinearOrderedField K]

/-- The two accesses of `LUSolveLinearSystem` that depend on the data it is
given: the cell `x[index[i]]`, which needs `index[i] < size`, and the
division `sum / A[i][i]`, which needs `A[i][i] ≠ 0`; the other indices
(`A[i][j]` and `x[j]` with `ii ≤ j ≤ i-1` or `i+1 ≤ j < size`) are bounded
by the loops. -/
def LUSolveSafe (A : Mat K) (index : Nat → Nat) (size : Nat) : Prop :=
  (∀ i, i < size → index i < size) ∧ (∀ i, i < size → A i i ≠ 0)

/-- The 3-by-3 diagonal matrix `diag(a, b, c)`. -/
def diagonal3 (a b c : K) : Mat K := fun i j =>
  if i = j then (if i = 0 then a else if i = 1 then b else if i = 2 then c else 0) else 0

/-- Two matrices with the same diagonal and the same strictly upper
triangle in the `n`-by-`n` block. -/
def UpperAgree (n : Nat) (a a1 : Mat K) : Prop :=
  ∀ r c, r ≤ c → c < n → a r c = a1 r c

/-- Two states of `vtkJacobiN` that differ at most below the diagonal of
`a` (and outside its `n`-by-`n` block). -/
def JAgree (n : Nat) (s t : JState K) : Prop :=
  UpperAgree n s.a t.a ∧ s.w = t.w ∧ s.v = t.v ∧ s.b = t.b ∧ s.z = t.z

/-- The two row interchanges of the tail of `vtkDiagonalize3x3`
(`alignDistinct`): the row with the largest `x` element becomes row 0, then
of rows 1 and 2 the one with the larger `y` element becomes row 1. -/
def alignRows (V : Mat K) : Mat K :=
  let maxI := argMaxCol0 V
  let V := if maxI ≠ 0 then vtkSwapVectors3 maxI 0 V else V
  if |V 1 1| < |V 2 1| then vtkSwapVectors3 2 1 V else V

/-- The eigenvalues after the two interchanges of `alignDistinct`. -/
def alignValues (w : Vec K) (V : Mat K) : Vec K :=
  let maxI := argMaxCol0 V
  let w1 := if maxI ≠ 0 then Vec.set (Vec.set w maxI (w 0)) 0 (w maxI) else w
  let V := if maxI ≠ 0 then vtkSwapVectors3 maxI 0 V else V
  if |V 1 1| < |V 2 1| then Vec.set (Vec.set w1 2 (w1 1)) 1 (w1 2) else w1

/-- The sign changes of the tail of `vtkDiagonalize3x3`: rows 0 and 1 are
negated when their diagonal element is negative, row 2 when the determinant
is. -/
def alignSigns (V : Mat K) : Mat K :=
  let V := loop (fun i V => if V i i < 0 then negateRow i V else V) 0 2 V
  if Determinant3x3 V < 0 then negateRow 2 V else V

/-- The arrays of `LUFactorLinearSystem` at size 3 (`g`) and of
`vtkLUFactor3x3` (`s`) side by side before column `j`: the matrices hold the
same values but for the diagonal cells of the columns already done, where
the unrolled routine holds the reciprocal; the pivot arrays are the same;
the three scale factors are the same, and not negative. -/
def Factor3Agree (j : Nat) (g s : LUState K) : Prop :=
  (∀ r c, ¬ (r = c ∧ c < j) → s.A r c = g.A r c) ∧
  (∀ c, c < j → s.A c c = 1 / g.A c c) ∧
  s.index = g.index ∧
  (∀ i, i < 3 → s.scale i = g.scale i) ∧
  (∀ i, i < 3 → 0 < g.scale i)

end Later

/-! ### Concrete inputs for the alignment of eigenvectors -/

/-- A square root on `ℚ` exact on the four arguments the two rotations of
`sampleTilt` need: `sqrt(289/225) = 17/15`, `sqrt(707281/705600) = 841/840`,
`sqrt(83521/57600) = 289/240` and `sqrt(841/441) = 29/21`. -/
def pythSqrt (x : ℚ) : ℚ :=
  if x = 289 / 225 then 17 / 15
  else if x = 707281 / 705600 then 841 / 840
  else if x = 83521 / 57600 then 289 / 240
  else if x = 841 / 441 then 29 / 21
  else 0

/-- The symmetric matrix `[[2128, 8760, 6300], [8760, -9625, 3360],
[6300, 3360, 7497]]`, with the eigenvalues `0`, `-14297`, `14297` and the
unit eigenvector `(315/493, 168/493, -20/29)` for the eigenvalue `0`. -/
def sampleTilt : Mat ℚ :=
  mat3 (vec3 2128 8760 6300) (vec3 8760 (-9625) 3360) (vec3 6300 3360 7497)

/-! ## Proofs -/

/-! ### Loop rules and the Crout accumulation -/

section LoopLemmas
variable {σ ε : Type}

theorem loop_succ (f : Nat → σ → σ) (lo cnt : Nat) (s : σ) :
    loop f lo (cnt + 1) s = f (lo + cnt) (loop f lo cnt s) := rfl

/-- Invariant rule for `loop`. -/
theorem loop_inv (P : Nat → σ → Prop) (f : Nat → σ → σ) (lo cnt : Nat) (s : σ)
    (h0 : P 0 s) (hstep : ∀ k t, k < cnt → P k t → P (k + 1) (f (lo + k) t)) :
    P cnt (loop f lo cnt s) := by
  induction cnt with
  | zero => exact h0
  | succ m ih =>
    rw [loop_succ]
    exact hstep m _ (Nat.lt_succ_self m)
      (ih (fun k t hk hP => hstep k t (Nat.lt_succ_of_lt hk) hP))

/-- Invariant rule for `loopExc` on the path that does not return early. -/
theorem loopExc_inv (P : Nat → σ → Prop) (f : Nat → σ → Except ε σ) (lo cnt : Nat)
    (s r : σ) (h0 : P 0 s)
    (hstep : ∀ k t u, k < cnt → P k t → f (lo + k) t = Except.ok u → P (k + 1) u)
    (hr : loopExc f lo cnt s = Except.ok r) : P cnt r := by
  induction cnt generalizing r with
  | zero =>
    simp only [loopExc] at hr
    cases hr
    exact h0
  | succ m ih =>
    simp only [loopExc] at hr
    cases hm : loopExc f lo m s with
    | error e => rw [hm] at hr; cases hr
    | ok t =>
      rw [hm] at hr
      exact hstep m t r (Nat.lt_succ_self m)
        (ih t (fun k t u hk hP hf => hstep k t u (Nat.lt_succ_of_lt hk) hP hf) hm) hr

theorem loopDown_inv (P : Nat → σ → Prop) (f : Nat → σ → σ) (cnt : Nat) (s : σ)
    (h0 : P cnt s) (hstep : ∀ k t, k < cnt → P (k + 1) t → P k (f k t)) :
    P 0 (loopDown f cnt s) := by
  induction cnt generalizing s with
  | zero => exact h0
  | succ m ih =>
    simp only [loopDown]
    exact ih _ (hstep m s (Nat.lt_succ_self m) h0)
      (fun k t hk hP => hstep k t (Nat.lt_succ_of_lt hk) hP)

end LoopLemmas

section
variable {K : Type}

@[simp] theorem vecSet_same (x : Vec K) (i : Nat) (v : K) : Vec.set x i v i = v := by
  simp [Vec.set]

theorem vecSet_ne (x : Vec K) (i r : Nat) (v : K) (h : r ≠ i) : Vec.set x i v r = x r := by
  simp [Vec.set, h]

@[simp] theorem matSet_same (A : Mat K) (i j : Nat) (v : K) : Mat.set A i j v i j = v := by
  simp [Mat.set]

theorem matSet_ne (A : Mat K) (i j r c : Nat) (v : K) (h : r ≠ i ∨ c ≠ j) :
    Mat.set A i j v r c = A r c := by
  unfold Mat.set
  rw [if_neg]
  rintro ⟨h1, h2⟩
  rcases h with h | h
  · exact h h1
  · exact h h2

end

section LU
variable {K : Type} [LinearOrderedField K]

theorem loop_sub_sum (g : Nat → K) (lo cnt : Nat) (s : K) :
    loop (fun k sum => sum - g k) lo cnt s = s - ∑ k in Finset.range cnt, g (lo + k) := by
  induction cnt with
  | zero => simp [loop]
  | succ m ih =>
    rw [loop_succ, ih, Finset.sum_range_succ]
    ring

theorem croutSum_eq (A : Mat K) (i j m : Nat) :
    croutSum A i j m = A i j - ∑ k in Finset.range m, A i k * A k j := by
  unfold croutSum
  rw [loop_sub_sum (fun k => A i k * A k j)]
  simp

theorem upperLoop_spec (j : Nat) (A : Mat K) :
    (∀ r c, (c ≠ j ∨ j ≤ r) → upperLoop j A r c = A r c) ∧
    (∀ i, i < j → upperLoop j A i j =
      A i j - ∑ k in Finset.range i, A i k * upperLoop j A k j) := by
  unfold upperLoop
  suffices h : ∀ m, m ≤ j →
      (∀ r c, (c ≠ j ∨ m ≤ r) → loop (fun i A => Mat.set A i j (croutSum A i j i)) 0 m A r c = A r c) ∧
      (∀ i, i < m → loop (fun i A => Mat.set A i j (croutSum A i j i)) 0 m A i j =
        A i j - ∑ k in Finset.range i, A i k *
          loop (fun i A => Mat.set A i j (croutSum A i j i)) 0 m A k j) from h j le_rfl
  intro m
  induction m with
  | zero =>
    intro _
    exact ⟨fun _ _ _ => rfl, fun i hi => absurd hi (Nat.not_lt_zero i)⟩
  | succ m ih =>
    intro hm
    obtain ⟨ih1, ih2⟩ := ih (Nat.le_of_succ_le hm)
    have hmj : m < j := hm
    rw [loop_succ]
    simp only [Nat.zero_add]
    set B := loop (fun i A => Mat.set A i j (croutSum A i j i)) 0 m A with hB
    constructor
    · intro r c hrc
      rw [matSet_ne]
      · exact ih1 r c (hrc.imp id (fun h => Nat.le_of_succ_le h))
      · rcases hrc with h | h
        · exact Or.inr h
        · exact Or.inl (by omega)
    · intro i hi
      have hsum : ∀ i', i' ≤ m → ∑ k in Finset.range i', A i' k * Mat.set B m j (croutSum B m j m) k j
          = ∑ k in Finset.range i', A i' k * B k j := by
        intro i' hi'
        apply Finset.sum_congr rfl
        intro k hk
        rw [matSet_ne]
        left
        have := Finset.mem_range.mp hk
        omega
      rcases Nat.lt_succ_iff_lt_or_eq.mp hi with h | h
      · rw [matSet_ne _ _ _ _ _ _ (Or.inl (Nat.ne_of_lt h)), hsum i (Nat.le_of_lt h)]
        exact ih2 i h
      · subst h
        rw [matSet_same, hsum i le_rfl, croutSum_eq, ih1 i j (Or.inr le_rfl)]
        congr 1
        apply Finset.sum_congr rfl
        intro k hk
        have hk' := Finset.mem_range.mp hk
        rw [ih1 i k (Or.inl (by omega))]

end LU

/-! ### The loops of one column of the factorisation -/

section LU
variable {K : Type} [LinearOrderedField K]

theorem pivotStep_fst (j : Nat) (scale : Vec K) (i : Nat) (st : Mat K × K × Nat) :
    (pivotStep j scale i st).1 = Mat.set st.1 i j (croutSum st.1 i j j) := by
  unfold pivotStep
  simp only
  split <;> rfl

theorem pivotStep_snd (j : Nat) (scale : Vec K) (i : Nat) (st : Mat K × K × Nat)
    (hs : 0 ≤ scale i) (hl : 0 ≤ st.2.1) :
    0 ≤ (pivotStep j scale i st).2.1 ∧
    ((pivotStep j scale i st).2.2 = i ∨
      (st.2.1 ≠ 0 ∧ (pivotStep j scale i st).2.2 = st.2.2)) := by
  unfold pivotStep
  simp only
  split
  · exact ⟨mul_nonneg hs (abs_nonneg _), Or.inl rfl⟩
  · rename_i h
    refine ⟨hl, Or.inr ⟨?_, rfl⟩⟩
    intro h0
    apply h
    rw [h0]
    exact mul_nonneg hs (abs_nonneg _)

theorem pivotLoop_spec (size j : Nat) (scale : Vec K) (A : Mat K) (maxI : Nat) :
    (∀ r c, (c ≠ j ∨ r < j ∨ size ≤ r) → (pivotLoop size j scale A maxI).1 r c = A r c) ∧
    (∀ i, j ≤ i → i < size → (pivotLoop size j scale A maxI).1 i j =
      A i j - ∑ k in Finset.range j, A i k * A k j) ∧
    ((∀ i, j ≤ i → i < size → 0 ≤ scale i) → j < size →
      j ≤ (pivotLoop size j scale A maxI).2.2 ∧ (pivotLoop size j scale A maxI).2.2 < size) := by
  unfold pivotLoop
  have key := loop_inv
    (fun m (st : Mat K × K × Nat) =>
      m ≤ size - j →
      (∀ r c, (c ≠ j ∨ r < j ∨ j + m ≤ r) → st.1 r c = A r c) ∧
      (∀ i, j ≤ i → i < j + m → st.1 i j = A i j - ∑ k in Finset.range j, A i k * A k j) ∧
      ((∀ i, j ≤ i → i < size → 0 ≤ scale i) →
        0 ≤ st.2.1 ∧ (m = 0 → st.2.1 = 0) ∧ (0 < m → j ≤ st.2.2 ∧ st.2.2 < j + m)))
    (pivotStep j scale) j (size - j) (A, 0, maxI)
    (by
      intro _
      exact ⟨fun _ _ _ => rfl, fun i h1 h2 => by omega,
        fun _ => ⟨le_rfl, fun _ => rfl, fun h => by omega⟩⟩)
    (by
      intro k st hk hP hk1
      obtain ⟨h1, h2, h3⟩ := hP (by omega)
      have hsum : croutSum st.1 (j + k) j j
          = A (j + k) j - ∑ k' in Finset.range j, A (j + k) k' * A k' j := by
        rw [croutSum_eq, h1 (j + k) j (Or.inr (Or.inr le_rfl))]
        congr 1
        apply Finset.sum_congr rfl
        intro k' hk'
        have hk'' := Finset.mem_range.mp hk'
        rw [h1 (j + k) k' (Or.inl (by omega)), h1 k' j (Or.inr (Or.inl hk''))]
      refine ⟨?_, ?_, ?_⟩
      · intro r c hrc
        rw [pivotStep_fst, matSet_ne]
        · exact h1 r c (by omega)
        · omega
      · intro i hi1 hi2
        rw [pivotStep_fst]
        by_cases hik : i = j + k
        · subst hik
          rw [matSet_same, hsum]
        · rw [matSet_ne _ _ _ _ _ _ (Or.inl hik)]
          exact h2 i hi1 (by omega)
      · intro hsc
        obtain ⟨h4, h5, h6⟩ := h3 hsc
        obtain ⟨h7, h8⟩ := pivotStep_snd j scale (j + k) st (hsc _ (by omega) (by omega)) h4
        refine ⟨h7, fun h => by omega, fun _ => ?_⟩
        rcases h8 with h8 | ⟨h8, h9⟩
        · rw [h8]; omega
        · rw [h9]
          have hk0 : 0 < k := by
            rcases Nat.eq_zero_or_pos k with h0 | h0
            · exact absurd (h5 h0) h8
            · exact h0
          have := h6 hk0
          omega)
  obtain ⟨k1, k2, k3⟩ := key le_rfl
  refine ⟨fun r c h => k1 r c (by omega), fun i h1 h2 => k2 i h1 (by omega), fun hsc hj => ?_⟩
  obtain ⟨_, _, k4⟩ := k3 hsc
  have := k4 (by omega)
  omega

omit [LinearOrderedField K] in
theorem swapRows_spec (size j m : Nat) (A : Mat K) (r c : Nat) :
    swapRows size j m A r c =
      if c < size then (if r = j then A m c else if r = m then A j c else A r c)
      else A r c := by
  unfold swapRows
  have key := loop_inv
    (fun n (B : Mat K) => ∀ r c, B r c =
      if c < n then (if r = j then A m c else if r = m then A j c else A r c) else A r c)
    (fun k (A : Mat K) => Mat.set (Mat.set A m k (A j k)) j k (A m k)) 0 size A
    (by intro r c; simp)
    (by
      intro k B _ hB r c
      beta_reduce
      simp only [Nat.zero_add]
      by_cases hc : c = k
      · subst hc
        have h1 : B j c = A j c := by rw [hB]; simp
        have h2 : B m c = A m c := by rw [hB]; simp
        simp only [Nat.lt_succ_self, if_true]
        by_cases hrj : r = j
        · subst hrj
          rw [matSet_same, if_pos rfl, h2]
        · rw [matSet_ne _ _ _ _ _ _ (Or.inl hrj), if_neg hrj]
          by_cases hrm : r = m
          · subst hrm
            rw [matSet_same, if_pos rfl, h1]
          · rw [matSet_ne _ _ _ _ _ _ (Or.inl hrm), if_neg hrm, hB]
            simp [hrj, hrm]
      · rw [matSet_ne _ _ _ _ _ _ (Or.inr hc), matSet_ne _ _ _ _ _ _ (Or.inr hc), hB]
        have : c < k + 1 ↔ c < k := by omega
        simp only [this])
  exact key r c

theorem divideLoop_spec (size j : Nat) (t : K) (A : Mat K) (r c : Nat) :
    divideLoop size j t A r c =
      if c = j ∧ j < r ∧ r < size then A r c * t else A r c := by
  unfold divideLoop
  have key := loop_inv
    (fun n (B : Mat K) => n ≤ size - (j + 1) → ∀ r c, B r c =
      if c = j ∧ j < r ∧ r < j + 1 + n then A r c * t else A r c)
    (fun i (A : Mat K) => Mat.set A i j (A i j * t)) (j + 1) (size - (j + 1)) A
    (by
      intro _ r c
      rw [if_neg]
      omega)
    (by
      intro k B hk hB hk1 r c
      have hB' := hB (by omega)
      beta_reduce
      by_cases hrc : r = j + 1 + k ∧ c = j
      · obtain ⟨hr, hc⟩ := hrc
        subst hr; subst hc
        rw [matSet_same, hB', if_neg (by omega), if_pos (by omega)]
      · rw [matSet_ne _ _ _ _ _ _ (by omega), hB']
        by_cases h : c = j ∧ j < r ∧ r < j + 1 + k
        · rw [if_pos h, if_pos (by omega)]
        · rw [if_neg h, if_neg (by omega)])
  rw [key le_rfl r c]
  by_cases h : c = j ∧ j < r ∧ r < size
  · rw [if_pos h, if_pos (by omega)]
  · rw [if_neg h, if_neg (by omega)]

end LU

/-! ### Row interchanges and one column step, entry by entry -/

section LU
variable {K : Type} [LinearOrderedField K]

theorem small_pos : (0 : K) < VTK_SMALL_NUMBER := by
  unfold VTK_SMALL_NUMBER
  positivity

theorem swapIdx_self (j r : Nat) : swapIdx j j r = r := by
  unfold swapIdx
  split
  · rename_i h; exact h.symm
  · rfl

theorem swapIdx_of_lt (j m r : Nat) (h1 : r < j) (h2 : j ≤ m) : swapIdx j m r = r := by
  unfold swapIdx
  rw [if_neg (by omega), if_neg (by omega)]

theorem swapIdx_bounds (size j m r : Nat) (hm1 : j ≤ m) (hm2 : m < size)
    (hr1 : j ≤ r) (hr2 : r < size) : j ≤ swapIdx j m r ∧ swapIdx j m r < size := by
  unfold swapIdx
  split
  · omega
  · split <;> omega

theorem swapIdx_lt (size j m r : Nat) (hj : j < size) (hm : m < size) (hr : r < size) :
    swapIdx j m r < size := by
  unfold swapIdx
  split
  · exact hm
  · split
    · exact hj
    · exact hr

theorem swapIdx_invol (j m r : Nat) : swapIdx j m (swapIdx j m r) = r := by
  unfold swapIdx
  by_cases h1 : r = j
  · by_cases h2 : m = j
    · simp [h1, h2]
    · simp [h1, h2]
  · by_cases h2 : r = m
    · simp [h1, h2]
    · simp [h1, h2]

/-- What a successful column step computes, entry by entry. -/
theorem luColumn_ok (size j : Nat) (s s1 : LUState K)
    (h : luColumn size j s = Except.ok s1) (hj : j < size)
    (hsc : ∀ i, i < size → 0 < s.scale i) :
    ∃ A2 : Mat K, ∃ m : Nat,
      (∀ r c, c ≠ j → A2 r c = s.A r c) ∧
      (∀ i, i < j → A2 i j = s.A i j - ∑ k in Finset.range i, s.A i k * A2 k j) ∧
      (∀ i, j ≤ i → i < size → A2 i j = s.A i j - ∑ k in Finset.range j, s.A i k * A2 k j) ∧
      j ≤ m ∧ m < size ∧
      s1.index = (fun r => if r = j then m else s.index r) ∧
      (∀ i, i < size → 0 < s1.scale i) ∧
      VTK_SMALL_NUMBER < |A2 m j| ∧
      (∀ r c, s1.A r c =
        if c = j ∧ j < r ∧ r < size then A2 (swapIdx j m r) c * (1 / A2 m j)
        else if c < size then A2 (swapIdx j m r) c else A2 r c) := by
  obtain ⟨u1, u2⟩ := upperLoop_spec j s.A
  obtain ⟨p1, p2, p3⟩ := pivotLoop_spec size j s.scale (upperLoop j s.A) s.maxI
  obtain ⟨p4, p5⟩ := p3 (fun i _ hi => le_of_lt (hsc i hi)) hj
  unfold luColumn at h
  simp only at h
  generalize hA2 : (pivotLoop size j s.scale (upperLoop j s.A) s.maxI).1 = A2 at p1 p2 h
  generalize hm : (pivotLoop size j s.scale (upperLoop j s.A) s.maxI).2.2 = m at p4 p5 h
  have hA3 : ∀ r c, (if j ≠ m then swapRows size j m A2 else A2) r c =
      if c < size then A2 (swapIdx j m r) c else A2 r c := by
    intro r c
    by_cases hjm : j = m
    · rw [if_neg (not_not.mpr hjm), ← hjm, swapIdx_self]
      simp
    · rw [if_pos hjm, swapRows_spec]
      unfold swapIdx
      split_ifs <;> rfl
  have hjj : (if j ≠ m then swapRows size j m A2 else A2) j j = A2 m j := by
    rw [hA3, if_pos hj]
    unfold swapIdx
    rw [if_pos rfl]
  rw [hjj] at h
  split at h
  · cases h
  · rename_i hsmall
    have hs1 := Except.ok.inj h
    refine ⟨A2, m, ?_, ?_, ?_, p4, p5, ?_, ?_, lt_of_not_le hsmall, ?_⟩
    · intro r c hc
      rw [p1 r c (Or.inl hc), u1 r c (Or.inl hc)]
    · intro i hi
      rw [p1 i j (Or.inr (Or.inl hi)), u2 i hi]
      congr 1
      apply Finset.sum_congr rfl
      intro k hk
      have hk' := Finset.mem_range.mp hk
      rw [p1 k j (Or.inr (Or.inl (by omega)))]
    · intro i hi1 hi2
      rw [p2 i hi1 hi2, u1 i j (Or.inr hi1)]
      congr 1
      apply Finset.sum_congr rfl
      intro k hk
      have hk' := Finset.mem_range.mp hk
      rw [u1 i k (Or.inl (by omega)), p1 k j (Or.inr (Or.inl hk'))]
    · rw [← hs1]
    · intro i hi
      rw [← hs1]
      simp only
      split
      · by_cases him : i = m
        · subst him
          rw [vecSet_same]
          exact hsc j hj
        · rw [vecSet_ne _ _ _ _ him]
          exact hsc i hi
      · exact hsc i hi
    · intro r c
      rw [← hs1]
      simp only
      by_cases hlast : j = size - 1
      · rw [if_neg (not_not.mpr hlast), hA3,
          if_neg (show ¬(c = j ∧ j < r ∧ r < size) by omega)]
      · rw [if_pos hlast, divideLoop_spec]
        by_cases hc : c = j ∧ j < r ∧ r < size
        · rw [if_pos hc, if_pos hc, hA3, if_pos (by omega)]
        · rw [if_neg hc, if_neg hc, hA3]

end LU

/-! ### The Crout invariant through one column step -/

section LU
variable {K : Type} [LinearOrderedField K]

/-- One successful column step carries the Crout invariant from column `j`
to column `j + 1`, for the original with rows `j` and `index[j]`
interchanged. -/
theorem luColumn_inv (size j : Nat) (s s1 : LUState K) (B : Mat K)
    (h : luColumn size j s = Except.ok s1) (hj : j < size)
    (hsc : ∀ i, i < size → 0 < s.scale i) (hinv : LUInv size j s.A B) :
    j ≤ s1.index j ∧ s1.index j < size ∧
    (∀ r, r ≠ j → s1.index r = s.index r) ∧
    (∀ i, i < size → 0 < s1.scale i) ∧
    LUInv size (j + 1) s1.A (interchange j (s1.index j) B) := by
  obtain ⟨A2, m, f1, f2, f3, f4, f5, f6, f7, f8, f9⟩ := luColumn_ok size j s s1 h hj hsc
  obtain ⟨i1, i2, i3, i4⟩ := hinv
  have hidx : s1.index j = m := by rw [f6]; simp
  rw [hidx]
  have hne : A2 m j ≠ 0 := by
    intro h0
    rw [h0, abs_zero] at f8
    exact absurd f8 (not_lt.mpr (le_of_lt small_pos))
  have g1 : ∀ r c, c < size → ¬(c = j ∧ j < r ∧ r < size) →
      s1.A r c = A2 (swapIdx j m r) c := by
    intro r c hc hn
    rw [f9, if_neg hn, if_pos hc]
  have g2 : ∀ r, r < j → swapIdx j m r = r := fun r hr => swapIdx_of_lt j m r hr f4
  have g3 : swapIdx j m j = m := by unfold swapIdx; simp
  refine ⟨f4, f5, fun r hr => by rw [f6]; simp [hr], f7, ?_, ?_, ?_, ?_⟩
  · -- rows on or above the diagonal
    intro i c hi hc hic
    have hsum : ∑ k in Finset.range i, s1.A i k * s1.A k c
        = ∑ k in Finset.range i, s.A (swapIdx j m i) k * A2 k c := by
      apply Finset.sum_congr rfl
      intro k hk
      have hk' := Finset.mem_range.mp hk
      rw [g1 i k (by omega) (by omega), g1 k c (by omega) (by omega), g2 k (by omega),
        f1 _ k (by omega)]
    rw [hsum, g1 i c (by omega) (by omega)]
    unfold interchange
    rcases Nat.lt_or_ge c j with hcj | hcj
    · rw [g2 i (by omega), f1 i c (by omega), i1 i c hi hcj hic]
      congr 1
      apply Finset.sum_congr rfl
      intro k hk
      rw [f1 k c (by omega)]
    · have hcj' : c = j := by omega
      subst hcj'
      rcases Nat.lt_or_ge i c with hlt | hge
      · rw [g2 i hlt, f2 i hlt, i3 i c hi le_rfl hj]
      · have hic' : i = c := by omega
        subst hic'
        rw [g3, f3 m f4 f5, i3 m i f5 le_rfl hj]
  · -- rows below the diagonal
    intro i c hi hc hci
    have hsi : swapIdx j m i < size := swapIdx_lt size j m i hj f5 hi
    have hsum : ∑ k in Finset.range c, s1.A i k * s1.A k c
        = ∑ k in Finset.range c, s.A (swapIdx j m i) k * A2 k c := by
      apply Finset.sum_congr rfl
      intro k hk
      have hk' := Finset.mem_range.mp hk
      rw [g1 i k (by omega) (by omega), g1 k c (by omega) (by omega), g2 k (by omega),
        f1 _ k (by omega)]
    rw [hsum]
    unfold interchange
    rcases Nat.lt_or_ge c j with hcj | hcj
    · have hci' : c < swapIdx j m i := by
        rcases Nat.lt_or_ge i j with hij | hij
        · rw [g2 i hij]; exact hci
        · have := (swapIdx_bounds size j m i f4 f5 hij hi).1
          omega
      rw [g1 i c (by omega) (by omega), g1 c c (by omega) (by omega), g2 c hcj,
        f1 _ c (by omega), f1 c c (by omega), i2 _ c hsi hcj hci']
      congr 1
      apply Finset.sum_congr rfl
      intro k hk
      rw [f1 k c (by omega)]
    · have hcj' : c = j := by omega
      subst hcj'
      obtain ⟨b1, b2⟩ := swapIdx_bounds size c m i f4 f5 (le_of_lt hci) hi
      rw [f9 i c, if_pos ⟨rfl, hci, hi⟩, g1 c c hj (by omega), g3,
        mul_assoc, one_div, inv_mul_cancel₀ hne, mul_one, f3 _ b1 b2, i3 _ c b2 le_rfl hj]
  · -- columns not yet reached
    intro i c hi hjc hc
    have hsi : swapIdx j m i < size := swapIdx_lt size j m i hj f5 hi
    rw [g1 i c hc (by omega), f1 _ c (by omega), i3 _ c hsi (by omega) hc]
    rfl
  · -- pivots
    intro c hc
    rcases Nat.lt_or_ge c j with hcj | hcj
    · rw [g1 c c (by omega) (by omega), g2 c hcj, f1 c c (by omega)]
      exact i4 c hcj
    · have hcj' : c = j := by omega
      subst hcj'
      rw [g1 c c hj (by omega), g3]
      exact f8

end LU

/-! ### The scaling loop and the whole factorisation -/

section LU
variable {K : Type} [LinearOrderedField K]

theorem rowLargest_spec (A : Mat K) (size i : Nat) :
    0 ≤ rowLargest A size i ∧ (∀ j, j < size → |A i j| ≤ rowLargest A size i) ∧
    (rowLargest A size i = 0 ∨ ∃ j, j < size ∧ rowLargest A size i = |A i j|) := by
  unfold rowLargest
  refine loop_inv
    (fun n (l : K) => 0 ≤ l ∧ (∀ j, j < n → |A i j| ≤ l) ∧ (l = 0 ∨ ∃ j, j < n ∧ l = |A i j|))
    (fun j largest => if |A i j| > largest then |A i j| else largest) 0 size 0
    ⟨le_rfl, fun j hj => absurd hj (Nat.not_lt_zero j), Or.inl rfl⟩ ?_
  intro k l _ ⟨h1, h2, h3⟩
  beta_reduce
  rw [Nat.zero_add]
  split
  · rename_i hgt
    refine ⟨abs_nonneg _, fun j hj => ?_, Or.inr ⟨k, Nat.lt_succ_self k, rfl⟩⟩
    rcases Nat.lt_succ_iff_lt_or_eq.mp hj with h | h
    · exact le_trans (h2 j h) (le_of_lt hgt)
    · rw [h]
  · rename_i hle
    refine ⟨h1, fun j hj => ?_, ?_⟩
    · rcases Nat.lt_succ_iff_lt_or_eq.mp hj with h | h
      · exact h2 j h
      · rw [h]; exact not_lt.mp hle
    · rcases h3 with h | ⟨j, hj, hl⟩
      · exact Or.inl h
      · exact Or.inr ⟨j, Nat.lt_succ_of_lt hj, hl⟩

/-- The row maximum is zero exactly on an all-zero row. -/
theorem rowLargest_eq_zero_iff (A : Mat K) (size i : Nat) :
    rowLargest A size i = 0 ↔ ∀ j, j < size → A i j = 0 := by
  obtain ⟨h1, h2, h3⟩ := rowLargest_spec A size i
  constructor
  · intro h0 j hj
    have := h2 j hj
    rw [h0] at this
    exact abs_eq_zero.mp (le_antisymm this (abs_nonneg _))
  · intro hz
    rcases h3 with h | ⟨j, hj, hl⟩
    · exact h
    · rw [hl, hz j hj, abs_zero]

theorem scaleLoop_ok (A : Mat K) (size : Nat) (sc sc1 : Vec K)
    (h : scaleLoop A size sc = Except.ok sc1) :
    ∀ i, i < size → 0 < sc1 i ∧ rowLargest A size i ≠ 0 := by
  unfold scaleLoop at h
  refine loopExc_inv
    (fun n (t : Vec K) => ∀ i, i < n → 0 < t i ∧ rowLargest A size i ≠ 0)
    (scaleStep A size) 0 size sc sc1 (fun i hi => absurd hi (Nat.not_lt_zero i)) ?_ h
  intro k t u _ hP hstep i hi
  unfold scaleStep at hstep
  simp only [Nat.zero_add] at hstep
  split at hstep
  · cases hstep
  · rename_i hne
    have hu := Except.ok.inj hstep
    rw [← hu]
    rcases Nat.lt_succ_iff_lt_or_eq.mp hi with h1 | h1
    · rw [vecSet_ne _ _ _ _ (Nat.ne_of_lt h1)]
      exact hP i h1
    · subst h1
      rw [vecSet_same]
      refine ⟨?_, hne⟩
      have h0 := (rowLargest_spec A size i).1
      have : 0 < rowLargest A size i := lt_of_le_of_ne h0 (Ne.symm hne)
      positivity

omit [LinearOrderedField K] in
theorem applyPivots_succ (index : Nat → Nat) (n : Nat) (A : Mat K) :
    applyPivots index (n + 1) A = interchange n (index n) (applyPivots index n A) := by
  unfold applyPivots
  rw [loop_succ, Nat.zero_add]

omit [LinearOrderedField K] in
theorem applyPivots_congr (index index1 : Nat → Nat) (n : Nat) (A : Mat K)
    (h : ∀ r, r < n → index r = index1 r) :
    applyPivots index n A = applyPivots index1 n A := by
  induction n with
  | zero => rfl
  | succ m ih =>
    rw [applyPivots_succ, applyPivots_succ, ih (fun r hr => h r (Nat.lt_succ_of_lt hr)),
      h m (Nat.lt_succ_self m)]

/-- A successful factorisation leaves the Crout invariant for all `size`
columns, relative to the original matrix with its rows permuted as the
pivot array records. -/
theorem LUFactor_inv (A : Mat K) (index : Nat → Nat) (size : Nat) (tmpSize : Vec K)
    (s : LUState K) (h : LUFactorLinearSystem A index size tmpSize = Except.ok s) :
    LUInv size size s.A (applyPivots s.index size A) ∧
    (∀ j, j < size → j ≤ s.index j ∧ s.index j < size) := by
  unfold LUFactorLinearSystem at h
  cases hsc : scaleLoop A size tmpSize with
  | error e => rw [hsc] at h; cases h
  | ok sc =>
    rw [hsc] at h
    simp only at h
    have hpos := scaleLoop_ok A size tmpSize sc hsc
    have key := loopExc_inv
      (fun n (t : LUState K) => (∀ i, i < size → 0 < t.scale i) ∧
        LUInv size n t.A (applyPivots t.index n A) ∧
        (∀ j, j < n → j ≤ t.index j ∧ t.index j < size))
      (luColumn size) 0 size _ s
      ⟨fun i hi => (hpos i hi).1,
        ⟨fun i c _ hc => absurd hc (Nat.not_lt_zero c),
          fun i c _ hc => absurd hc (Nat.not_lt_zero c),
          fun i c _ _ _ => rfl, fun c hc => absurd hc (Nat.not_lt_zero c)⟩,
        fun j hj => absurd hj (Nat.not_lt_zero j)⟩
      (by
        intro k t u hk ⟨p1, p2, p3⟩ hstep
        rw [Nat.zero_add] at hstep
        obtain ⟨q1, q2, q3, q4, q5⟩ := luColumn_inv size k t u _ hstep hk p1 p2
        refine ⟨q4, ?_, ?_⟩
        · rw [applyPivots_succ, applyPivots_congr u.index t.index k A
            (fun r hr => q3 r (Nat.ne_of_lt hr))]
          exact q5
        · intro j hj
          rcases Nat.lt_succ_iff_lt_or_eq.mp hj with h1 | h1
          · rw [q3 j (Nat.ne_of_lt h1)]
            exact p3 j h1
          · rw [h1]
            exact ⟨q1, q2⟩) h
    exact ⟨key.2.1, key.2.2⟩

end LU

/-! ### The product of the stored factors; forward substitution -/

section LU
variable {K : Type} [LinearOrderedField K]

/-- A sum over `range n` whose terms vanish from `t` on. -/
theorem sum_range_vanish (g : Nat → K) (t n : Nat) (htn : t ≤ n)
    (hz : ∀ k, t ≤ k → k < n → g k = 0) :
    ∑ k in Finset.range n, g k = ∑ k in Finset.range t, g k := by
  obtain ⟨d, rfl⟩ := Nat.exists_eq_add_of_le htn
  rw [Finset.sum_range_add]
  have : ∑ x in Finset.range d, g (t + x) = 0 := by
    apply Finset.sum_eq_zero
    intro x hx
    have := Finset.mem_range.mp hx
    exact hz (t + x) (by omega) (by omega)
  rw [this, add_zero]

/-- A sum over `range n` whose terms vanish before `t`. -/
theorem sum_range_skip (g : Nat → K) (t n : Nat) (htn : t ≤ n)
    (hz : ∀ k, k < t → g k = 0) :
    ∑ k in Finset.range n, g k = ∑ k in Finset.range (n - t), g (t + k) := by
  obtain ⟨d, rfl⟩ := Nat.exists_eq_add_of_le htn
  rw [Finset.sum_range_add]
  have : ∑ x in Finset.range t, g x = 0 := by
    apply Finset.sum_eq_zero
    intro x hx
    exact hz x (Finset.mem_range.mp hx)
  rw [this, zero_add, Nat.add_sub_cancel_left]

/-- The product `L·U` read off a matrix satisfying the final Crout
invariant is the permuted original. -/
theorem LUInv_product (size : Nat) (A B : Mat K) (h : LUInv size size A B)
    (i c : Nat) (hi : i < size) (hc : c < size) :
    matMul size (lowerOf A) (upperOf A) i c = B i c := by
  obtain ⟨i1, i2, _, _⟩ := h
  unfold matMul
  rcases Nat.lt_or_ge c i with hci | hic
  · rw [sum_range_vanish _ (c + 1) size (by omega)
      (fun k hk1 _ => by unfold upperOf; rw [if_neg (by omega), mul_zero]),
      Finset.sum_range_succ]
    have e1 : ∑ k in Finset.range c, lowerOf A i k * upperOf A k c
        = ∑ k in Finset.range c, A i k * A k c := by
      apply Finset.sum_congr rfl
      intro k hk
      have hk' := Finset.mem_range.mp hk
      unfold lowerOf upperOf
      rw [if_pos (by omega), if_pos (by omega)]
    have e2 : lowerOf A i c * upperOf A c c = A i c * A c c := by
      unfold lowerOf upperOf
      rw [if_pos hci, if_pos le_rfl]
    rw [e1, e2, i2 i c hi hc hci]
    ring
  · rw [sum_range_vanish _ (i + 1) size (by omega)
      (fun k hk1 _ => by unfold lowerOf; rw [if_neg (by omega), if_neg (by omega), zero_mul]),
      Finset.sum_range_succ]
    have e1 : ∑ k in Finset.range i, lowerOf A i k * upperOf A k c
        = ∑ k in Finset.range i, A i k * A k c := by
      apply Finset.sum_congr rfl
      intro k hk
      have hk' := Finset.mem_range.mp hk
      unfold lowerOf upperOf
      rw [if_pos (by omega), if_pos (by omega)]
    have e2 : lowerOf A i i * upperOf A i c = A i c := by
      unfold lowerOf upperOf
      rw [if_neg (by omega), if_pos rfl, if_pos hic, one_mul]
    rw [e1, e2, i1 i c hi hc hic]
    ring

omit [LinearOrderedField K] in
theorem applyPivotsVec_succ (index : Nat → Nat) (n : Nat) (b : Vec K) :
    applyPivotsVec index (n + 1) b = interchangeVec n (index n) (applyPivotsVec index n b) := by
  unfold applyPivotsVec
  rw [loop_succ, Nat.zero_add]

/-- Forward substitution: the vector it leaves solves `L·y = P·b`. -/
theorem forwardLoop_spec (A : Mat K) (index : Nat → Nat) (size : Nat) (b : Vec K)
    (hidx : ∀ j, j < size → j ≤ index j) (i : Nat) (hi : i < size) :
    (forwardLoop A index size b).1 i = applyPivotsVec index size b i
      - ∑ k in Finset.range i, A i k * (forwardLoop A index size b).1 k := by
  unfold forwardLoop
  have key := loop_inv
    (fun n (st : Vec K × Int) => n ≤ size →
      (∀ i, i < n → st.1 i = applyPivotsVec index n b i
        - ∑ k in Finset.range i, A i k * st.1 k) ∧
      (∀ i, n ≤ i → st.1 i = applyPivotsVec index n b i) ∧
      st.2 < n ∧
      (∀ k, k < n → (st.2 < 0 ∨ (k : Int) < st.2) → st.1 k = 0))
    (forwardStep A index) 0 size (b, -1)
    (by
      intro _
      refine ⟨fun i hi => absurd hi (Nat.not_lt_zero i), fun i _ => rfl, by simp,
        fun k hk => absurd hk (Nat.not_lt_zero k)⟩)
    (by
      intro n st hn hP hn1
      obtain ⟨a1, a2, a3, a4⟩ := hP (by omega)
      rw [Nat.zero_add]
      have hin := hidx n hn
      -- the permuted right-hand side after one more interchange
      have pb_lt : ∀ r, r < n → applyPivotsVec index (n + 1) b r = applyPivotsVec index n b r := by
        intro r hr
        rw [applyPivotsVec_succ]
        unfold interchangeVec
        rw [swapIdx_of_lt n (index n) r hr hin]
      have pb_n : applyPivotsVec index (n + 1) b n = st.1 (index n) := by
        rw [applyPivotsVec_succ]
        unfold interchangeVec swapIdx
        rw [if_pos rfl, a2 _ hin]
      have pb_gt : ∀ r, n < r → applyPivotsVec index (n + 1) b r
          = Vec.set st.1 (index n) (st.1 n) r := by
        intro r hr
        rw [applyPivotsVec_succ]
        unfold interchangeVec swapIdx Vec.set
        rw [if_neg (by omega)]
        split
        · rw [a2 n le_rfl]
        · rw [a2 r (by omega)]
      have x1_lt : ∀ r, r < n → Vec.set st.1 (index n) (st.1 n) r = st.1 r := by
        intro r hr
        rw [vecSet_ne _ _ _ _ (by omega)]
      -- the value written to x[n]
      have hval : ∀ (x' : Vec K) (ii' : Int), forwardStep A index n st = (x', ii') →
          (∀ r, r ≠ n → x' r = Vec.set st.1 (index n) (st.1 n) r) ∧
          x' n = st.1 (index n) - ∑ k in Finset.range n, A n k * st.1 k ∧
          ii' < n + 1 ∧ (ii' < 0 → x' n = 0) ∧ (ii' = st.2 ∨ (st.2 < 0 ∧ ii' = n)) := by
        intro x' ii' hst
        unfold forwardStep at hst
        simp only at hst
        split at hst
        · rename_i hge
          obtain ⟨e1, e2⟩ := Prod.mk.inj hst
          rw [← e1, ← e2]
          refine ⟨fun r hr => vecSet_ne _ _ _ _ hr, ?_, by omega, fun h => by omega, Or.inl rfl⟩
          rw [vecSet_same, loop_sub_sum (fun j => A n j * Vec.set st.1 (index n) (st.1 n) j)]
          congr 1
          have ht : st.2.toNat ≤ n := by omega
          rw [sum_range_skip (fun k => A n k * st.1 k) st.2.toNat n ht
            (fun k hk => by
              beta_reduce
              rw [a4 k (by omega) (Or.inr (by omega)), mul_zero])]
          apply Finset.sum_congr rfl
          intro k hk
          have hk' := Finset.mem_range.mp hk
          rw [x1_lt _ (by omega)]
        · rename_i hlt
          have hzero : ∑ k in Finset.range n, A n k * st.1 k = 0 := by
            apply Finset.sum_eq_zero
            intro k hk
            rw [a4 k (Finset.mem_range.mp hk) (Or.inl (by omega)), mul_zero]
          split at hst
          · obtain ⟨e1, e2⟩ := Prod.mk.inj hst
            rw [← e1, ← e2]
            refine ⟨fun r hr => vecSet_ne _ _ _ _ hr, ?_, by omega, fun h => by omega,
              Or.inr ⟨by omega, rfl⟩⟩
            rw [vecSet_same, hzero, sub_zero]
          · rename_i hs0
            obtain ⟨e1, e2⟩ := Prod.mk.inj hst
            rw [← e1, ← e2]
            refine ⟨fun r hr => vecSet_ne _ _ _ _ hr, ?_, by omega, fun _ => ?_, Or.inl rfl⟩
            · rw [vecSet_same, hzero, sub_zero]
            · rw [vecSet_same]
              exact not_not.mp hs0
      rcases hfs : forwardStep A index n st with ⟨x', ii'⟩
      obtain ⟨v1, v2, v3, v4, v5⟩ := hval x' ii' hfs
      dsimp only
      have x'_lt : ∀ r, r < n → x' r = st.1 r := by
        intro r hr
        rw [v1 r (by omega), x1_lt r hr]
      have hsum_eq : ∀ m, m ≤ n → ∑ k in Finset.range m, A m k * x' k
          = ∑ k in Finset.range m, A m k * st.1 k := by
        intro m hm
        apply Finset.sum_congr rfl
        intro k hk
        rw [x'_lt k (by have := Finset.mem_range.mp hk; omega)]
      refine ⟨?_, ?_, v3, ?_⟩
      · intro i hi
        rcases Nat.lt_succ_iff_lt_or_eq.mp hi with h1 | h1
        · rw [x'_lt i h1, pb_lt i h1, hsum_eq i (by omega)]
          exact a1 i h1
        · subst h1
          rw [v2, pb_n, hsum_eq i le_rfl]
      · intro i hi
        rw [pb_gt i (by omega), v1 i (by omega)]
      · intro k hk hor
        rcases Nat.lt_succ_iff_lt_or_eq.mp hk with h1 | h1
        · rw [x'_lt k h1]
          rcases v5 with e | ⟨e1, e2⟩
          · rw [e] at hor
            exact a4 k h1 hor
          · exact a4 k h1 (Or.inl e1)
        · subst h1
          rcases hor with h2 | h2
          · exact v4 h2
          · rcases v5 with e | ⟨e1, e2⟩
            · omega
            · omega)
  exact (key le_rfl).1 i hi

end LU

/-! ### Back substitution; factor-then-solve is correct -/

section LU
variable {K : Type} [LinearOrderedField K]

/-- Back substitution: the vector it leaves solves `U·z = y`, row by row. -/
theorem backLoop_spec (A : Mat K) (size : Nat) (y : Vec K)
    (hd : ∀ i, i < size → A i i ≠ 0) (i : Nat) (hi : i < size) :
    backLoop A size y i * A i i = y i
      - ∑ k in Finset.range (size - (i + 1)), A i (i + 1 + k) * backLoop A size y (i + 1 + k) := by
  unfold backLoop
  have key := loopDown_inv
    (fun m (x : Vec K) => m ≤ size →
      (∀ i, i < m → x i = y i) ∧
      (∀ i, m ≤ i → i < size → x i * A i i = y i
        - ∑ k in Finset.range (size - (i + 1)), A i (i + 1 + k) * x (i + 1 + k)))
    (backStep A size) size y
    (fun _ => ⟨fun _ _ => rfl, fun i h1 h2 => by omega⟩)
    (by
      intro m x hm hP _
      obtain ⟨a1, a2⟩ := hP (by omega)
      have hset : ∀ r, r ≠ m → backStep A size m x r = x r := by
        intro r hr
        unfold backStep
        exact vecSet_ne _ _ _ _ hr
      have hsum : ∀ i, m ≤ i →
          ∑ k in Finset.range (size - (i + 1)), A i (i + 1 + k) * backStep A size m x (i + 1 + k)
          = ∑ k in Finset.range (size - (i + 1)), A i (i + 1 + k) * x (i + 1 + k) := by
        intro i hi
        apply Finset.sum_congr rfl
        intro k _
        rw [hset _ (by omega)]
      refine ⟨fun i hi => ?_, fun i hi1 hi2 => ?_⟩
      · rw [hset i (by omega)]
        exact a1 i (by omega)
      · rw [hsum i hi1]
        rcases Nat.eq_or_lt_of_le hi1 with h | h
        · subst h
          unfold backStep
          rw [vecSet_same, loop_sub_sum (fun j => A m j * x j), a1 m (Nat.lt_succ_self m),
            div_mul_cancel₀ _ (hd m hm)]
        · rw [hset i (by omega)]
          exact a2 i (by omega) hi2)
  exact (key (Nat.zero_le _)).2 i (Nat.zero_le _) hi

/-- A vector that solves the system with two rows interchanged solves the
system itself. -/
theorem solves_of_interchange (size j m : Nat) (M : Mat K) (v z : Vec K)
    (hj : j < size) (hm : m < size)
    (h : ∀ i, i < size → matVec size (interchange j m M) z i = interchangeVec j m v i) :
    ∀ i, i < size → matVec size M z i = v i := by
  intro i hi
  have := h (swapIdx j m i) (swapIdx_lt size j m i hj hm hi)
  unfold matVec interchange interchangeVec at this
  rw [swapIdx_invol] at this
  exact this

/-- A vector that solves the pivoted system solves the original one. -/
theorem solves_of_applyPivots (size : Nat) (index : Nat → Nat) (M : Mat K) (v z : Vec K)
    (hidx : ∀ j, j < size → index j < size) (n : Nat) (hn : n ≤ size)
    (h : ∀ i, i < size → matVec size (applyPivots index n M) z i = applyPivotsVec index n v i) :
    ∀ i, i < size → matVec size M z i = v i := by
  induction n with
  | zero => exact h
  | succ k ih =>
    apply ih (by omega)
    rw [applyPivots_succ, applyPivotsVec_succ] at h
    exact solves_of_interchange size k (index k) _ _ z (by omega) (hidx k (by omega)) h

/-- Forward then back substitution on a matrix that satisfies the final
Crout invariant for `B` solves `B·z = P·b`. -/
theorem LUSolve_pivoted (size : Nat) (A B : Mat K) (index : Nat → Nat) (b : Vec K)
    (hinv : LUInv size size A B) (hidx : ∀ j, j < size → j ≤ index j)
    (i : Nat) (hi : i < size) :
    matVec size B (LUSolveLinearSystem A index b size) i = applyPivotsVec index size b i := by
  have hd : ∀ i, i < size → A i i ≠ 0 := by
    intro c hc h0
    have := hinv.2.2.2 c hc
    rw [h0, abs_zero] at this
    exact absurd this (not_lt.mpr (le_of_lt small_pos))
  unfold LUSolveLinearSystem
  set y := (forwardLoop A index size b).1 with hy
  set z := backLoop A size y with hz
  have hU : ∀ k, k < size → ∑ c in Finset.range size, upperOf A k c * z c = y k := by
    intro k hk
    have hb := backLoop_spec A size y hd k hk
    have hsplit : ∑ c in Finset.range size, upperOf A k c * z c
        = ∑ c in Finset.range (size - k), upperOf A k (k + c) * z (k + c) :=
      sum_range_skip (fun c => upperOf A k c * z c) k size (le_of_lt hk)
        (fun c hc => by
          beta_reduce
          unfold upperOf
          rw [if_neg (by omega), zero_mul])
    have hsk : size - k = (size - (k + 1)) + 1 := by omega
    rw [hsplit, hsk, Finset.sum_range_succ']
    have e1 : ∑ c in Finset.range (size - (k + 1)), upperOf A k (k + (c + 1)) * z (k + (c + 1))
        = ∑ c in Finset.range (size - (k + 1)), A k (k + 1 + c) * z (k + 1 + c) := by
      apply Finset.sum_congr rfl
      intro c _
      unfold upperOf
      rw [if_pos (by omega), show k + (c + 1) = k + 1 + c by omega]
    have e2 : upperOf A k (k + 0) * z (k + 0) = z k * A k k := by
      unfold upperOf
      rw [Nat.add_zero, if_pos le_rfl, mul_comm]
    rw [e1, e2, hb]
    ring
  have hL : ∑ k in Finset.range size, lowerOf A i k * y k = applyPivotsVec index size b i := by
    have hf := forwardLoop_spec A index size b hidx i hi
    rw [sum_range_vanish _ (i + 1) size (by omega)
      (fun k hk1 _ => by unfold lowerOf; rw [if_neg (by omega), if_neg (by omega), zero_mul]),
      Finset.sum_range_succ]
    have e1 : ∑ k in Finset.range i, lowerOf A i k * y k
        = ∑ k in Finset.range i, A i k * y k := by
      apply Finset.sum_congr rfl
      intro k hk
      unfold lowerOf
      rw [if_pos (Finset.mem_range.mp hk)]
    have e2 : lowerOf A i i * y i = y i := by
      unfold lowerOf
      rw [if_neg (by omega), if_pos rfl, one_mul]
    rw [e1, e2, hy, hf]
    ring
  unfold matVec
  have hB : ∑ c in Finset.range size, B i c * z c
      = ∑ c in Finset.range size, (∑ k in Finset.range size, lowerOf A i k * upperOf A k c) * z c := by
    apply Finset.sum_congr rfl
    intro c hc
    have := LUInv_product size A B hinv i c hi (Finset.mem_range.mp hc)
    unfold matMul at this
    rw [this]
  rw [hB]
  simp only [Finset.sum_mul]
  rw [Finset.sum_comm, ← hL]
  apply Finset.sum_congr rfl
  intro k hk
  rw [← hU k (Finset.mem_range.mp hk), Finset.mul_sum]
  apply Finset.sum_congr rfl
  intro c _
  ring

/-- Correctness of factor-then-solve: after a successful
`LUFactorLinearSystem`, `LUSolveLinearSystem` on the factors and pivots
returns a solution of the original system. -/
theorem LU_solve_correct (A : Mat K) (index : Nat → Nat) (size : Nat) (tmpSize : Vec K)
    (s : LUState K) (h : LUFactorLinearSystem A index size tmpSize = Except.ok s)
    (b : Vec K) (i : Nat) (hi : i < size) :
    matVec size A (LUSolveLinearSystem s.A s.index b size) i = b i := by
  obtain ⟨hinv, hidx⟩ := LUFactor_inv A index size tmpSize s h
  exact solves_of_applyPivots size s.index A b _ (fun j hj => (hidx j hj).2) size le_rfl
    (fun r hr => LUSolve_pivoted size s.A _ s.index b hinv (fun j hj => (hidx j hj).1) r hr) i hi

end LU

/-! ### When the factorisation returns 0 -/

section
variable {σ ε : Type}

/-- The loop with early return fails exactly when some iteration, reached
through successful ones, fails. -/
theorem loopExc_error_iff (f : Nat → σ → Except ε σ) (lo cnt : Nat) (s : σ) (e : ε) :
    loopExc f lo cnt s = Except.error e ↔
      ∃ j, j < cnt ∧ ∃ t, loopExc f lo j s = Except.ok t ∧ f (lo + j) t = Except.error e := by
  induction cnt with
  | zero =>
    constructor
    · intro h; simp only [loopExc] at h; cases h
    · rintro ⟨j, hj, _⟩; exact absurd hj (Nat.not_lt_zero j)
  | succ m ih =>
    simp only [loopExc]
    cases hm : loopExc f lo m s with
    | error e1 =>
      simp only
      constructor
      · intro h
        obtain ⟨j, hj, t, h1, h2⟩ := ih.mp (by rw [hm, h])
        exact ⟨j, Nat.lt_succ_of_lt hj, t, h1, h2⟩
      · rintro ⟨j, hj, t, h1, h2⟩
        rcases Nat.lt_succ_iff_lt_or_eq.mp hj with h | h
        · have := ih.mpr ⟨j, h, t, h1, h2⟩
          rw [hm] at this
          exact this
        · subst h
          rw [hm] at h1
          cases h1
    | ok t1 =>
      simp only
      constructor
      · intro h
        exact ⟨m, Nat.lt_succ_self m, t1, hm, h⟩
      · rintro ⟨j, hj, t, h1, h2⟩
        rcases Nat.lt_succ_iff_lt_or_eq.mp hj with h | h
        · have := ih.mpr ⟨j, h, t, h1, h2⟩
          rw [hm] at this
          cases this
        · subst h
          rw [hm] at h1
          cases h1
          exact h2

end

section LU
variable {K : Type} [LinearOrderedField K]

theorem scaleLoop_error_iff (A : Mat K) (size : Nat) (sc : Vec K) :
    (∃ e, scaleLoop A size sc = Except.error e) ↔
      ∃ i, i < size ∧ ∀ j, j < size → A i j = 0 := by
  unfold scaleLoop
  constructor
  · rintro ⟨e, he⟩
    obtain ⟨i, hi, t, _, h2⟩ := (loopExc_error_iff _ _ _ _ _).mp he
    refine ⟨i, hi, (rowLargest_eq_zero_iff A size i).mp ?_⟩
    unfold scaleStep at h2
    rw [Nat.zero_add] at h2
    simp only at h2
    split at h2
    · assumption
    · cases h2
  · rintro ⟨i, hi, hz⟩
    cases h : loopExc (scaleStep A size) 0 size sc with
    | error e => exact ⟨e, rfl⟩
    | ok sc1 =>
      exact absurd ((rowLargest_eq_zero_iff A size i).mpr hz) (scaleLoop_ok A size sc sc1 h i hi).2

end LU

/-! ### Return values of the factorisation -/

section
variable {σ ε : Type}

theorem retCode_eq_one_iff (r : Except ε σ) : retCode r = 1 ↔ ∃ s, r = Except.ok s := by
  cases r with
  | ok s => simp [retCode]
  | error e => simp [retCode]

theorem retCode_eq_zero_iff (r : Except ε σ) : retCode r = 0 ↔ ∃ e, r = Except.error e := by
  cases r with
  | ok s => simp [retCode]
  | error e => simp [retCode]

end

section LU
variable {K : Type} [LinearOrderedField K]

omit [LinearOrderedField K] in
theorem retCode_leftBy (r : Except (LUState K) (LUState K)) (h : retCode r = 1) :
    r = Except.ok (leftBy r) := by
  cases r with
  | ok s => rfl
  | error e => simp [retCode] at h

/-- A column step fails exactly on a selected pivot of magnitude at most
`VTK_SMALL_NUMBER`. -/
theorem luColumn_error_iff (size j : Nat) (s : LUState K) (hj : j < size) :
    (∃ e, luColumn size j s = Except.error e) ↔ |selectedPivot size j s| ≤ VTK_SMALL_NUMBER := by
  have hjj : (if j ≠ (pivotLoop size j s.scale (upperLoop j s.A) s.maxI).2.2 then
        swapRows size j (pivotLoop size j s.scale (upperLoop j s.A) s.maxI).2.2
          (pivotLoop size j s.scale (upperLoop j s.A) s.maxI).1
      else (pivotLoop size j s.scale (upperLoop j s.A) s.maxI).1) j j
      = selectedPivot size j s := by
    unfold selectedPivot
    split
    · rw [swapRows_spec, if_pos hj, if_pos rfl]
    · rename_i h
      rw [← not_not.mp h]
  unfold luColumn
  simp only
  rw [hjj]
  split
  · rename_i h
    exact ⟨fun _ => h, fun _ => ⟨_, rfl⟩⟩
  · rename_i h
    constructor
    · rintro ⟨e, he⟩
      cases he
    · intro h1
      exact absurd h1 h

end LU

/-! ### Solving and inverting -/

section LU
variable {K : Type} [LinearOrderedField K]

/-- C1: over exact arithmetic, for `n ≥ 3`, when `SolveLinearSystem`
returns 1 the vector it leaves in place of `b` solves the original system:
`A0·x = b0`. -/
theorem SolveLinearSystem_solves (A : Mat K) (b : Vec K) (n : Nat) (index : Nat → Nat)
    (hn : 3 ≤ n) (hret : (SolveLinearSystem A b n index).ret = 1) (i : Nat) (hi : i < n) :
    matVec n A (SolveLinearSystem A b n index).x i = b i := by
  unfold SolveLinearSystem at hret ⊢
  rw [if_neg (by omega), if_neg (by omega)] at hret ⊢
  unfold LUFactorLinearSystem3 at hret ⊢
  cases h : LUFactorLinearSystem A index n (fun _ => 0) with
  | error e =>
    rw [h] at hret
    simp at hret
  | ok s => exact LU_solve_correct A index n _ s h b i hi

/-- Witness for C1: `sampleA·x = sampleB` is solved with return value 1. -/
theorem SolveLinearSystem_solves_witness :
    (SolveLinearSystem sampleA sampleB 3 (fun _ => 0)).ret = 1 ∧
    matVec 3 sampleA (SolveLinearSystem sampleA sampleB 3 (fun _ => 0)).x 0 = sampleB 0 ∧
    matVec 3 sampleA (SolveLinearSystem sampleA sampleB 3 (fun _ => 0)).x 1 = sampleB 1 ∧
    matVec 3 sampleA (SolveLinearSystem sampleA sampleB 3 (fun _ => 0)).x 2 = sampleB 2 :=
  ⟨by decide!,
   SolveLinearSystem_solves sampleA sampleB 3 (fun _ => 0) (by decide) (by decide!) 0 (by decide),
   SolveLinearSystem_solves sampleA sampleB 3 (fun _ => 0) (by decide) (by decide!) 1 (by decide),
   SolveLinearSystem_solves sampleA sampleB 3 (fun _ => 0) (by decide) (by decide!) 2 (by decide)⟩

theorem invertColumn_fst (A : Mat K) (index : Nat → Nat) (size j : Nat)
    (st : Mat K × Vec K) (r c : Nat) :
    (invertColumn A index size j st).1 r c =
      if c = j ∧ r < size then
        LUSolveLinearSystem A index
          (Vec.set (loop (fun i t => Vec.set t i 0) 0 size st.2) j 1) size r
      else st.1 r c := by
  unfold invertColumn
  simp only
  generalize LUSolveLinearSystem A index
    (Vec.set (loop (fun i t => Vec.set t i 0) 0 size st.2) j 1) size = col2
  have key := loop_inv
    (fun n (M : Mat K) => ∀ r c, M r c = if c = j ∧ r < n then col2 r else st.1 r c)
    (fun i AI => Mat.set AI i j (col2 i)) 0 size st.1
    (by intro r c; simp)
    (by
      intro k M _ hM r c
      beta_reduce
      rw [Nat.zero_add]
      by_cases h : r = k ∧ c = j
      · obtain ⟨h1, h2⟩ := h
        subst h1; subst h2
        rw [matSet_same, if_pos ⟨rfl, Nat.lt_succ_self r⟩]
      · rw [matSet_ne _ _ _ _ _ _ (by omega), hM]
        by_cases h1 : c = j ∧ r < k
        · rw [if_pos h1, if_pos (by omega)]
        · rw [if_neg h1, if_neg (by omega)])
  exact key r c

theorem clearLoop_spec (size : Nat) (t : Vec K) (r : Nat) :
    loop (fun i (t : Vec K) => Vec.set t i 0) 0 size t r = if r < size then 0 else t r := by
  have key := loop_inv
    (fun n (v : Vec K) => ∀ r, v r = if r < n then 0 else t r)
    (fun i (t : Vec K) => Vec.set t i 0) 0 size t
    (by intro r; simp)
    (by
      intro k v _ hv r
      beta_reduce
      rw [Nat.zero_add]
      by_cases h : r = k
      · subst h
        rw [vecSet_same, if_pos (Nat.lt_succ_self r)]
      · rw [vecSet_ne _ _ _ _ h, hv]
        by_cases h1 : r < k
        · rw [if_pos h1, if_pos (by omega)]
        · rw [if_neg h1, if_neg (by omega)])
  exact key r

/-- Column `c` of the matrix the column loop of `InvertMatrix` assembles is
the solution for the unit vector `e_c`. -/
theorem invertColumns_spec (A : Mat K) (index : Nat → Nat) (size : Nat) (AI : Mat K)
    (tmp : Vec K) (c : Nat) (hc : c < size) :
    ∃ e : Vec K, (∀ i, i < size → e i = identity i c) ∧
      ∀ r, r < size →
        (invertColumns A index size AI tmp).1 r c = LUSolveLinearSystem A index e size r := by
  unfold invertColumns
  have key := loop_inv
    (fun n (st : Mat K × Vec K) => ∀ c, c < n → ∃ e : Vec K,
      (∀ i, i < size → e i = identity i c) ∧
      ∀ r, r < size → st.1 r c = LUSolveLinearSystem A index e size r)
    (invertColumn A index size) 0 size (AI, tmp)
    (fun c hc => absurd hc (Nat.not_lt_zero c))
    (by
      intro k st _ hP c hc
      rw [Nat.zero_add]
      rcases Nat.lt_succ_iff_lt_or_eq.mp hc with h | h
      · obtain ⟨e, he1, he2⟩ := hP c h
        refine ⟨e, he1, fun r hr => ?_⟩
        rw [invertColumn_fst, if_neg (by omega)]
        exact he2 r hr
      · subst h
        refine ⟨Vec.set (loop (fun i t => Vec.set t i 0) 0 size st.2) c 1, ?_, fun r hr => ?_⟩
        · intro i hi
          unfold identity
          by_cases h1 : i = c
          · rw [h1, vecSet_same, if_pos rfl]
          · rw [vecSet_ne _ _ _ _ h1, clearLoop_spec, if_pos hi, if_neg h1]
        · rw [invertColumn_fst, if_pos ⟨rfl, hr⟩])
  exact key c hc

/-- When `InvertMatrix` returns 1 the matrix `AI` is a right inverse of the
original `A`. -/
theorem InvertMatrix_right_inverse (A AI : Mat K) (n : Nat) (index : Nat → Nat)
    (column : Vec K) (hret : (InvertMatrix A AI n index column).ret = 1)
    (i j : Nat) (hi : i < n) (hj : j < n) :
    matMul n A (InvertMatrix A AI n index column).AI i j = identity i j := by
  unfold InvertMatrix at hret ⊢
  cases h : LUFactorLinearSystem A index n column with
  | error e =>
    rw [h] at hret
    simp at hret
  | ok s =>
    simp only
    unfold matMul
    obtain ⟨e, he1, he2⟩ := invertColumns_spec s.A s.index n AI s.scale j hj
    have := LU_solve_correct A index n column s h e i hi
    unfold matVec at this
    rw [← he1 i hi, ← this]
    apply Finset.sum_congr rfl
    intro k hk
    rw [he2 k (Finset.mem_range.mp hk)]

/-- C2: over exact arithmetic, when `InvertMatrix` returns 1 the matrix
`AI` is a right inverse of the original `A` (`A0·AI = I`), and
`InvertMatrix` returns 0 exactly when `LUFactorLinearSystem` returns 0 on
`A`. -/
theorem InvertMatrix_inverse (A AI : Mat K) (n : Nat) (index : Nat → Nat) (column : Vec K) :
    ((InvertMatrix A AI n index column).ret = 1 → ∀ i j, i < n → j < n →
      matMul n A (InvertMatrix A AI n index column).AI i j = identity i j) ∧
    ((InvertMatrix A AI n index column).ret = 0 ↔
      retCode (LUFactorLinearSystem A index n column) = 0) := by
  refine ⟨fun hret i j hi hj => InvertMatrix_right_inverse A AI n index column hret i j hi hj, ?_⟩
  unfold InvertMatrix
  cases h : LUFactorLinearSystem A index n column with
  | error e => simp [retCode]
  | ok s => simp [retCode]

end LU

/-! ### Return value and shape of the factorisation; small systems -/

section LU
variable {K : Type} [LinearOrderedField K]

/-- Witness for C2: `InvertMatrix` returns 1 on `sampleA`, and the diagonal
and one off-diagonal entry of `sampleA·AI` are those of the identity. -/
theorem InvertMatrix_inverse_witness :
    (InvertMatrix sampleA (fun _ _ => 0) 3 (fun _ => 0) (fun _ => 0)).ret = 1 ∧
    matMul 3 sampleA (InvertMatrix sampleA (fun _ _ => 0) 3 (fun _ => 0) (fun _ => 0)).AI 0 0
      = identity 0 0 ∧
    matMul 3 sampleA (InvertMatrix sampleA (fun _ _ => 0) 3 (fun _ => 0) (fun _ => 0)).AI 1 2
      = identity 1 2 :=
  ⟨by decide!,
   (InvertMatrix_inverse sampleA (fun _ _ => 0) 3 (fun _ => 0) (fun _ => 0)).1 (by decide!)
     0 0 (by decide) (by decide),
   (InvertMatrix_inverse sampleA (fun _ _ => 0) 3 (fun _ => 0) (fun _ => 0)).1 (by decide!)
     1 2 (by decide) (by decide)⟩

/-- C3: `LUFactorLinearSystem` returns 0 exactly when some row of the input
is entirely zero or the pivot selected for some column `j` (reached after
columns `0 .. j-1` succeeded) has absolute value at most `1e-12`, and it
returns 1 in every other case; the threshold is absolute: `1e-13·I` is
rejected and `1e-11·I` is accepted. -/
theorem LUFactor_return (A : Mat K) (index : Nat → Nat) (n : Nat) (tmpSize : Vec K) :
    (retCode (LUFactorLinearSystem A index n tmpSize) = 0 ↔
      (∃ i, i < n ∧ ∀ j, j < n → A i j = 0) ∨
      (∃ sc j t, scaleLoop A n tmpSize = Except.ok sc ∧ j < n ∧
        loopExc (luColumn n) 0 j { A := A, index := index, scale := sc, maxI := 0 }
          = Except.ok t ∧
        |selectedPivot n j t| ≤ VTK_SMALL_NUMBER)) ∧
    (retCode (LUFactorLinearSystem A index n tmpSize) ≠ 0 →
      retCode (LUFactorLinearSystem A index n tmpSize) = 1) ∧
    retCode (LUFactorLinearSystem (scaledIdentity (1 / 10 ^ 13)) (fun _ => 0) 3 (fun _ => 0)) = 0 ∧
    retCode (LUFactorLinearSystem (scaledIdentity (1 / 10 ^ 11)) (fun _ => 0) 3 (fun _ => 0)) = 1 := by
  refine ⟨?_, ?_, by decide!, by decide!⟩
  · rw [retCode_eq_zero_iff]
    unfold LUFactorLinearSystem
    cases hsc : scaleLoop A n tmpSize with
    | error e =>
      simp only
      constructor
      · intro _
        exact Or.inl ((scaleLoop_error_iff A n tmpSize).mp ⟨e, hsc⟩)
      · intro _
        exact ⟨_, rfl⟩
    | ok sc =>
      simp only
      constructor
      · rintro ⟨e, he⟩
        obtain ⟨j, hj, t, h1, h2⟩ := (loopExc_error_iff _ _ _ _ _).mp he
        rw [Nat.zero_add] at h2
        exact Or.inr ⟨sc, j, t, rfl, hj, h1, (luColumn_error_iff n j t hj).mp ⟨e, h2⟩⟩
      · rintro (hz | ⟨sc1, j, t, h0, hj, h1, h2⟩)
        · obtain ⟨e, he⟩ := (scaleLoop_error_iff A n tmpSize).mpr hz
          rw [hsc] at he
          cases he
        · cases h0
          obtain ⟨e, he⟩ := (luColumn_error_iff n j t hj).mpr h2
          exact ⟨e, (loopExc_error_iff _ _ _ _ _).mpr ⟨j, hj, t, h1, by rw [Nat.zero_add]; exact he⟩⟩
  · intro h
    cases hr : LUFactorLinearSystem A index n tmpSize with
    | error e => rw [hr] at h; simp [retCode] at h
    | ok s => rfl

/-- Witness for C3: on `1e-11·I` the return value is not 0, hence 1. -/
theorem LUFactor_return_witness :
    retCode (LUFactorLinearSystem (scaledIdentity (1 / 10 ^ 11)) (fun _ => 0) 3 (fun _ => 0)) = 1 :=
  (LUFactor_return (scaledIdentity (1 / 10 ^ 11)) (fun _ => 0) 3 (fun _ => 0)).2.1 (by decide!)

/-- C4: over exact arithmetic, whenever `LUFactorLinearSystem` returns 1
the matrix left in `A` encodes a unit-lower-triangular `L` and an
upper-triangular `U` with `L·U = P·A0`, `P` interchanging row `j` with row
`index[j]` for `j = 0, 1, ..., n-1` in that order. -/
theorem LUFactor_product (A : Mat K) (index : Nat → Nat) (n : Nat) (tmpSize : Vec K)
    (hret : retCode (LUFactorLinearSystem A index n tmpSize) = 1)
    (i c : Nat) (hi : i < n) (hc : c < n) :
    matMul n (lowerOf (leftBy (LUFactorLinearSystem A index n tmpSize)).A)
        (upperOf (leftBy (LUFactorLinearSystem A index n tmpSize)).A) i c
      = applyPivots (leftBy (LUFactorLinearSystem A index n tmpSize)).index n A i c ∧
    (∀ k, i < k → lowerOf (leftBy (LUFactorLinearSystem A index n tmpSize)).A i k = 0) ∧
    lowerOf (leftBy (LUFactorLinearSystem A index n tmpSize)).A i i = 1 ∧
    (∀ k, k < c → upperOf (leftBy (LUFactorLinearSystem A index n tmpSize)).A c k = 0) := by
  have h := retCode_leftBy _ hret
  refine ⟨LUInv_product n _ _ (LUFactor_inv A index n tmpSize _ h).1 i c hi hc, ?_, ?_, ?_⟩
  · intro k hk
    unfold lowerOf
    rw [if_neg (by omega), if_neg (by omega)]
  · unfold lowerOf
    rw [if_neg (by omega), if_pos rfl]
  · intro k hk
    unfold upperOf
    rw [if_neg (by omega)]

/-- Witness for C4: on `sampleA` the factorisation returns 1 and the
product of the stored factors reproduces the permuted original at entry
`(2, 1)`. -/
theorem LUFactor_product_witness :
    retCode (LUFactorLinearSystem sampleA (fun _ => 0) 3 (fun _ => 0)) = 1 ∧
    matMul 3 (lowerOf (leftBy (LUFactorLinearSystem sampleA (fun _ => 0) 3 (fun _ => 0))).A)
        (upperOf (leftBy (LUFactorLinearSystem sampleA (fun _ => 0) 3 (fun _ => 0))).A) 2 1
      = applyPivots (leftBy (LUFactorLinearSystem sampleA (fun _ => 0) 3 (fun _ => 0))).index
          3 sampleA 2 1 :=
  ⟨by decide!,
   (LUFactor_product sampleA (fun _ => 0) 3 (fun _ => 0) (by decide!) 2 1
     (by decide) (by decide)).1⟩

/-- C5: for `n = 1` `SolveLinearSystem` returns 0 exactly when
`A[0][0] = 0` and otherwise returns 1 with `x[0]` replaced by
`x[0]/A[0][0]`; for `n = 2` it returns 0 exactly when
`A[0][0]·A[1][1] − A[0][1]·A[1][0] = 0` and otherwise returns 1 with `x`
replaced by the Cramer's-rule solution, which satisfies `A·x = b`; in both
cases `A` is not modified. -/
theorem SolveLinearSystem_small (A : Mat K) (x : Vec K) (index : Nat → Nat) :
    ((SolveLinearSystem A x 1 index).ret = 0 ↔ A 0 0 = 0) ∧
    (A 0 0 ≠ 0 → (SolveLinearSystem A x 1 index).ret = 1 ∧
      (SolveLinearSystem A x 1 index).x = Vec.set x 0 (x 0 / A 0 0)) ∧
    (SolveLinearSystem A x 1 index).A = A ∧
    ((SolveLinearSystem A x 2 index).ret = 0 ↔ A 0 0 * A 1 1 - A 0 1 * A 1 0 = 0) ∧
    (A 0 0 * A 1 1 - A 0 1 * A 1 0 ≠ 0 → (SolveLinearSystem A x 2 index).ret = 1 ∧
      (SolveLinearSystem A x 2 index).x 0
        = (A 1 1 * x 0 - A 0 1 * x 1) / (A 0 0 * A 1 1 - A 0 1 * A 1 0) ∧
      (SolveLinearSystem A x 2 index).x 1
        = (-A 1 0 * x 0 + A 0 0 * x 1) / (A 0 0 * A 1 1 - A 0 1 * A 1 0) ∧
      (∀ r, 2 ≤ r → (SolveLinearSystem A x 2 index).x r = x r) ∧
      matVec 2 A (SolveLinearSystem A x 2 index).x 0 = x 0 ∧
      matVec 2 A (SolveLinearSystem A x 2 index).x 1 = x 1) ∧
    (SolveLinearSystem A x 2 index).A = A := by
  refine ⟨?_, ?_, ?_, ?_, ?_, ?_⟩
  · unfold SolveLinearSystem
    rw [if_neg (by decide), if_pos rfl]
    split <;> simp [*]
  · intro h
    unfold SolveLinearSystem
    rw [if_neg (by decide), if_pos rfl, if_neg h]
    exact ⟨rfl, rfl⟩
  · unfold SolveLinearSystem
    rw [if_neg (by decide), if_pos rfl]
    split <;> rfl
  · unfold SolveLinearSystem Determinant2x2
    rw [if_pos rfl]
    simp only
    split <;> simp [*]
  · intro h
    unfold SolveLinearSystem Determinant2x2
    rw [if_pos rfl]
    simp only
    rw [if_neg h]
    simp only
    have e0 : Vec.set (Vec.set x 0 ((A 1 1 * x 0 - A 0 1 * x 1) / (A 0 0 * A 1 1 - A 0 1 * A 1 0)))
        1 ((-A 1 0 * x 0 + A 0 0 * x 1) / (A 0 0 * A 1 1 - A 0 1 * A 1 0)) 0
        = (A 1 1 * x 0 - A 0 1 * x 1) / (A 0 0 * A 1 1 - A 0 1 * A 1 0) := by
      rw [vecSet_ne _ _ _ _ (by decide), vecSet_same]
    have e1 : Vec.set (Vec.set x 0 ((A 1 1 * x 0 - A 0 1 * x 1) / (A 0 0 * A 1 1 - A 0 1 * A 1 0)))
        1 ((-A 1 0 * x 0 + A 0 0 * x 1) / (A 0 0 * A 1 1 - A 0 1 * A 1 0)) 1
        = (-A 1 0 * x 0 + A 0 0 * x 1) / (A 0 0 * A 1 1 - A 0 1 * A 1 0) := vecSet_same _ _ _
    refine ⟨trivial, e0, e1, ?_, ?_, ?_⟩
    · intro r hr
      rw [vecSet_ne _ _ _ _ (by omega), vecSet_ne _ _ _ _ (by omega)]
    · unfold matVec
      rw [Finset.sum_range_succ, Finset.sum_range_one, e0, e1]
      field_simp
      ring
    · unfold matVec
      rw [Finset.sum_range_succ, Finset.sum_range_one, e0, e1]
      field_simp
      ring
  · unfold SolveLinearSystem
    rw [if_pos rfl]
    simp only
    split <;> rfl

/-- Witness for C5: the systems `3·x = 6` and `[[2,1],[4,3]]·x = (4,10)`. -/
theorem SolveLinearSystem_small_witness :
    ((SolveLinearSystem (scaledIdentity 3) (vec3 6 0 0) 1 (fun _ => 0)).ret = 1 ∧
      (SolveLinearSystem (scaledIdentity 3) (vec3 6 0 0) 1 (fun _ => 0)).x
        = Vec.set (vec3 6 0 0) 0 (vec3 6 0 0 0 / scaledIdentity 3 0 0)) ∧
    (SolveLinearSystem sampleA sampleB 2 (fun _ => 0)).ret = 1 ∧
    matVec 2 sampleA (SolveLinearSystem sampleA sampleB 2 (fun _ => 0)).x 0 = sampleB 0 :=
  ⟨(SolveLinearSystem_small (scaledIdentity 3) (vec3 6 0 0) (fun _ => 0)).2.1 (by decide!),
   ((SolveLinearSystem_small sampleA sampleB (fun _ => 0)).2.2.2.2.1 (by decide!)).1,
   ((SolveLinearSystem_small sampleA sampleB (fun _ => 0)).2.2.2.2.1 (by decide!)).2.2.2.2.1⟩

end LU

/-! ### Inverting twice -/

section LU
variable {K : Type} [LinearOrderedField K]

theorem identity_mul (n : Nat) (M : Mat K) (i j : Nat) (hi : i < n) :
    ∑ k in Finset.range n, identity i k * M k j = M i j := by
  unfold identity
  simp only [ite_mul, one_mul, zero_mul]
  rw [Finset.sum_ite_eq]
  simp [hi]

theorem mul_identity (n : Nat) (M : Mat K) (i j : Nat) (hj : j < n) :
    ∑ k in Finset.range n, M i k * identity k j = M i j := by
  unfold identity
  simp only [mul_ite, mul_one, mul_zero]
  rw [Finset.sum_ite_eq']
  simp [hj]

/-- If `A·B = I` and `B·C = I` on the `n`-by-`n` block then `C = A` there. -/
theorem inverse_of_inverse (n : Nat) (A B C : Mat K)
    (hAB : ∀ i j, i < n → j < n → matMul n A B i j = identity i j)
    (hBC : ∀ i j, i < n → j < n → matMul n B C i j = identity i j)
    (i j : Nat) (hi : i < n) (hj : j < n) : C i j = A i j := by
  have h1 : C i j = ∑ k in Finset.range n, (∑ l in Finset.range n, A i l * B l k) * C k j := by
    rw [← identity_mul n C i j hi]
    apply Finset.sum_congr rfl
    intro k hk
    have := hAB i k hi (Finset.mem_range.mp hk)
    unfold matMul at this
    rw [this]
  have h2 : A i j = ∑ l in Finset.range n, A i l * ∑ k in Finset.range n, B l k * C k j := by
    rw [← mul_identity n A i j hj]
    apply Finset.sum_congr rfl
    intro l hl
    have := hBC l j (Finset.mem_range.mp hl) hj
    unfold matMul at this
    rw [this]
  rw [h1, h2]
  simp only [Finset.sum_mul, Finset.mul_sum]
  rw [Finset.sum_comm]
  apply Finset.sum_congr rfl
  intro l _
  apply Finset.sum_congr rfl
  intro k _
  ring

/-- C6: over exact arithmetic, if `InvertMatrix` succeeds on `A` producing
`AI` and then succeeds on `AI` producing `AII`, then `AII` equals the
original `A`. -/
theorem InvertMatrix_involution (A AI AII : Mat K) (n : Nat) (index index1 : Nat → Nat)
    (column column1 : Vec K)
    (h1 : (InvertMatrix A AI n index column).ret = 1)
    (h2 : (InvertMatrix (InvertMatrix A AI n index column).AI AII n index1 column1).ret = 1)
    (i j : Nat) (hi : i < n) (hj : j < n) :
    (InvertMatrix (InvertMatrix A AI n index column).AI AII n index1 column1).AI i j = A i j :=
  inverse_of_inverse n A _ _
    (InvertMatrix_right_inverse A AI n index column h1)
    (InvertMatrix_right_inverse _ AII n index1 column1 h2) i j hi hj

/-- Witness for C6: inverting `sampleA` twice gives back its entry `(2, 1)`. -/
theorem InvertMatrix_involution_witness :
    (InvertMatrix sampleA (fun _ _ => 0) 3 (fun _ => 0) (fun _ => 0)).ret = 1 ∧
    (InvertMatrix (InvertMatrix sampleA (fun _ _ => 0) 3 (fun _ => 0) (fun _ => 0)).AI
      (fun _ _ => 0) 3 (fun _ => 0) (fun _ => 0)).ret = 1 ∧
    (InvertMatrix (InvertMatrix sampleA (fun _ _ => 0) 3 (fun _ => 0) (fun _ => 0)).AI
      (fun _ _ => 0) 3 (fun _ => 0) (fun _ => 0)).AI 2 1 = sampleA 2 1 :=
  ⟨by decide!, by decide!,
   InvertMatrix_involution sampleA (fun _ _ => 0) (fun _ _ => 0) 3 (fun _ => 0) (fun _ => 0)
     (fun _ => 0) (fun _ => 0) (by decide!) (by decide!) 2 1 (by decide) (by decide)⟩

end LU

/-! ### Eigenvector consistency: the sign of each column -/

section LoopLemmas2
variable {σ : Type}

/-- A property kept by every iteration is kept by the loop. -/
theorem loop_preserve (P : σ → Prop) (f : Nat → σ → σ) (lo cnt : Nat) (s : σ)
    (h0 : P s) (hstep : ∀ k t, k < cnt → P t → P (f (lo + k) t)) :
    P (loop f lo cnt s) :=
  loop_inv (fun _ t => P t) f lo cnt s h0 hstep

end LoopLemmas2

section Jacobi
variable {K : Type} [LinearOrderedField K]

theorem numPosOf_eq (n j : Nat) (v : Mat K) : numPosOf n j v = countNonneg n j v := by
  unfold numPosOf countNonneg
  induction n with
  | zero => rfl
  | succ m ih =>
    rw [loop_succ, ih, Nat.zero_add, Finset.range_succ, Finset.filter_insert]
    by_cases h : 0 ≤ v m j
    · rw [if_pos h, if_pos h, Finset.card_insert_of_not_mem]
      simp
    · rw [if_neg h, if_neg h]

/-- Negating a column with fewer than `⌈n/2⌉` non-negative components
leaves one with at least `⌈n/2⌉`. -/
theorem countNonneg_neg (n j : Nat) (v u : Mat K)
    (hu : ∀ i, i < n → u i j = -v i j) (hlt : countNonneg n j v < (n + 1) / 2) :
    (n + 1) / 2 ≤ countNonneg n j u := by
  unfold countNonneg at hlt ⊢
  have hcover : (Finset.range n).card ≤
      ((Finset.range n).filter (fun i => 0 ≤ v i j)).card +
      ((Finset.range n).filter (fun i => 0 ≤ u i j)).card := by
    rw [← Finset.card_union_add_card_inter]
    refine le_trans (Finset.card_le_card ?_) (Nat.le_add_right _ _)
    intro i hi
    have hin := Finset.mem_range.mp hi
    rw [Finset.mem_union, Finset.mem_filter, Finset.mem_filter]
    rcases le_total 0 (v i j) with h | h
    · exact Or.inl ⟨hi, h⟩
    · refine Or.inr ⟨hi, ?_⟩
      rw [hu i hin]
      exact neg_nonneg.mpr h
  rw [Finset.card_range] at hcover
  omega

theorem negateLoop_spec (n j : Nat) (v : Mat K) (r c : Nat) :
    loop (fun i (v : Mat K) => Mat.set v i j (v i j * (-1))) 0 n v r c =
      if c = j ∧ r < n then -v r c else v r c := by
  have key := loop_inv
    (fun m (u : Mat K) => ∀ r c, u r c = if c = j ∧ r < m then -v r c else v r c)
    (fun i (v : Mat K) => Mat.set v i j (v i j * (-1))) 0 n v
    (by intro r c; simp)
    (by
      intro k u _ hu r c
      beta_reduce
      rw [Nat.zero_add]
      by_cases h : r = k ∧ c = j
      · obtain ⟨h1, h2⟩ := h
        subst h1; subst h2
        rw [matSet_same, hu, if_neg (by omega), if_pos ⟨rfl, Nat.lt_succ_self r⟩]
        ring
      · rw [matSet_ne _ _ _ _ _ _ (by omega), hu]
        by_cases h1 : c = j ∧ r < k
        · rw [if_pos h1, if_pos (by omega)]
        · rw [if_neg h1, if_neg (by omega)])
  exact key r c

/-- One step of the consistency loop: only column `j` changes, by at most a
sign, and afterwards it has at least `⌈n/2⌉` non-negative components. -/
theorem normalizeStep_spec (n j : Nat) (v : Mat K) :
    (∀ r c, c ≠ j → normalizeStep n j v r c = v r c) ∧
    ((∀ r, normalizeStep n j v r j = v r j) ∨
      (∀ r, normalizeStep n j v r j = if r < n then -v r j else v r j)) ∧
    (n + 1) / 2 ≤ countNonneg n j (normalizeStep n j v) := by
  unfold normalizeStep
  split
  · rename_i h
    refine ⟨fun r c hc => ?_, Or.inr (fun r => ?_), ?_⟩
    · rw [negateLoop_spec, if_neg (by tauto)]
    · rw [negateLoop_spec]
      by_cases hr : r < n
      · rw [if_pos ⟨rfl, hr⟩, if_pos hr]
      · rw [if_neg (by tauto), if_neg hr]
    · rw [numPosOf_eq] at h
      apply countNonneg_neg n j v _ _ h
      intro i hi
      rw [negateLoop_spec, if_pos ⟨rfl, hi⟩]
  · rename_i h
    rw [numPosOf_eq] at h
    exact ⟨fun _ _ _ => rfl, Or.inl (fun _ => rfl), by omega⟩

theorem countNonneg_congr (n j : Nat) (v u : Mat K)
    (h : ∀ i, i < n → u i j = v i j) :
    countNonneg n j u = countNonneg n j v := by
  unfold countNonneg
  congr 1
  apply Finset.filter_congr
  intro i hi
  rw [h i (Finset.mem_range.mp hi)]

/-- The consistency loop changes each column by at most a sign and leaves
every column `j < n` with at least `⌈n/2⌉` non-negative components. -/
theorem jacobiNormalize_spec (n : Nat) (v : Mat K) :
    (∀ c, (∀ r, jacobiNormalize n v r c = v r c) ∨
      (∀ r, jacobiNormalize n v r c = if r < n then -v r c else v r c)) ∧
    (∀ j, j < n → (n + 1) / 2 ≤ countNonneg n j (jacobiNormalize n v)) := by
  unfold jacobiNormalize
  have key := loop_inv
    (fun m (u : Mat K) =>
      (∀ c, m ≤ c → ∀ r, u r c = v r c) ∧
      (∀ c, (∀ r, u r c = v r c) ∨ (∀ r, u r c = if r < n then -v r c else v r c)) ∧
      (∀ j, j < m → (n + 1) / 2 ≤ countNonneg n j u))
    (normalizeStep n) 0 n v
    ⟨fun _ _ _ => rfl, fun _ => Or.inl (fun _ => rfl), fun j hj => absurd hj (Nat.not_lt_zero j)⟩
    (by
      intro k u _ ⟨h1, h2, h3⟩
      rw [Nat.zero_add]
      obtain ⟨s1, s2, s3⟩ := normalizeStep_spec n k u
      refine ⟨fun c hc r => ?_, fun c => ?_, fun j hj => ?_⟩
      · rw [s1 r c (by omega)]
        exact h1 c (by omega) r
      · by_cases hc : c = k
        · subst hc
          rcases s2 with s2 | s2
          · left; intro r; rw [s2 r, h1 c le_rfl r]
          · right; intro r; rw [s2 r, h1 c le_rfl r]
        · rcases h2 c with h2 | h2
          · left; intro r; rw [s1 r c hc, h2 r]
          · right; intro r; rw [s1 r c hc, h2 r]
      · rcases Nat.lt_succ_iff_lt_or_eq.mp hj with h | h
        · rw [countNonneg_congr n j u _ (fun i _ => s1 i j (by omega))]
          exact h3 j h
        · subst h
          exact s3)
  exact ⟨key.2.1, key.2.2⟩

end Jacobi

/-! ### Sorting the eigenvalues -/

section Jacobi
variable {K : Type} [LinearOrderedField K]

/-- The selection scan ends on an index `k` in `[j, n)` holding a largest
value of `w[j .. n-1]`, with `tmp = w[k]`. -/
theorem sortSelect_spec (w : Vec K) (n j : Nat) (hj : j < n) :
    j ≤ (sortSelect w n j).1 ∧ (sortSelect w n j).1 < n ∧
    (sortSelect w n j).2 = w (sortSelect w n j).1 ∧
    ∀ i, j ≤ i → i < n → w i ≤ w (sortSelect w n j).1 := by
  unfold sortSelect
  have key := loop_inv
    (fun m (st : Nat × K) => m ≤ n - (j + 1) →
      j ≤ st.1 ∧ st.1 < j + 1 + m ∧ st.2 = w st.1 ∧ ∀ i, j ≤ i → i < j + 1 + m → w i ≤ w st.1)
    (fun i (st : Nat × K) => if w i ≥ st.2 then (i, w i) else st) (j + 1) (n - (j + 1)) (j, w j)
    (by
      intro _
      refine ⟨le_rfl, by omega, rfl, fun i h1 h2 => ?_⟩
      have : i = j := by omega
      rw [this])
    (by
      intro k st hk hP hk1
      obtain ⟨p1, p2, p3, p4⟩ := hP (by omega)
      beta_reduce
      split
      · rename_i hge
        refine ⟨by simp only; omega, by simp only; omega, rfl, fun i h1 h2 => ?_⟩
        simp only
        rcases Nat.lt_or_ge i (j + 1 + k) with h | h
        · exact le_trans (p4 i h1 h) (by rw [← p3]; exact hge)
        · have : i = j + 1 + k := by omega
          rw [this]
      · rename_i hlt
        refine ⟨p1, by omega, p3, fun i h1 h2 => ?_⟩
        rcases Nat.lt_or_ge i (j + 1 + k) with h | h
        · exact p4 i h1 h
        · have : i = j + 1 + k := by omega
          rw [this, ← p3]
          exact le_of_lt (not_le.mp hlt))
  obtain ⟨p1, p2, p3, p4⟩ := key le_rfl
  exact ⟨p1, by omega, p3, fun i h1 h2 => p4 i h1 (by omega)⟩

omit [LinearOrderedField K] in
theorem swapColumns_spec (n j k : Nat) (v : Mat K) (r c : Nat) :
    swapColumns n j k v r c = if r < n then v r (swapIdx j k c) else v r c := by
  unfold swapColumns
  have key := loop_inv
    (fun m (u : Mat K) => ∀ r c, u r c = if r < m then v r (swapIdx j k c) else v r c)
    (fun i (v : Mat K) => Mat.set (Mat.set v i j (v i k)) i k (v i j)) 0 n v
    (by intro r c; simp)
    (by
      intro m u _ hu r c
      beta_reduce
      rw [Nat.zero_add]
      by_cases hr : r = m
      · subst hr
        have h1 : u r j = v r j := by rw [hu]; simp
        have h2 : u r k = v r k := by rw [hu]; simp
        rw [if_pos (Nat.lt_succ_self r)]
        unfold swapIdx
        by_cases hck : c = k
        · subst hck
          rw [matSet_same, h1]
          by_cases hcj : c = j
          · rw [if_pos hcj, hcj]
          · rw [if_neg hcj, if_pos rfl]
        · rw [matSet_ne _ _ _ _ _ _ (Or.inr hck)]
          by_cases hcj : c = j
          · subst hcj
            rw [matSet_same, h2, if_pos rfl]
          · rw [matSet_ne _ _ _ _ _ _ (Or.inr hcj), if_neg hcj, if_neg hck, hu]
            simp
      · rw [matSet_ne _ _ _ _ _ _ (Or.inl hr), matSet_ne _ _ _ _ _ _ (Or.inl hr), hu]
        by_cases h : r < m
        · rw [if_pos h, if_pos (by omega)]
        · rw [if_neg h, if_neg (by omega)])
  exact key r c

/-- One step of the sorting loop interchanges cells `j` and `k` of `w` and
columns `j` and `k` of `v`, for one `k` in `[j, n)` holding a largest value
of `w[j .. n-1]`. -/
theorem sortStep_spec (n j : Nat) (st : Vec K × Mat K) (hj : j < n) :
    ∃ k, j ≤ k ∧ k < n ∧ (∀ i, j ≤ i → i < n → st.1 i ≤ st.1 k) ∧
      (∀ r, (sortStep n j st).1 r = st.1 (swapIdx j k r)) ∧
      (∀ r c, (sortStep n j st).2 r c = if r < n then st.2 r (swapIdx j k c) else st.2 r c) := by
  obtain ⟨p1, p2, p3, p4⟩ := sortSelect_spec st.1 n j hj
  refine ⟨(sortSelect st.1 n j).1, p1, p2, p4, ?_, ?_⟩
  · intro r
    unfold sortStep
    simp only
    split
    · rename_i hk
      simp only
      unfold swapIdx
      by_cases hrj : r = j
      · subst hrj
        rw [vecSet_same, if_pos rfl, p3]
      · rw [vecSet_ne _ _ _ _ hrj, if_neg hrj]
        by_cases hrk : r = (sortSelect st.1 n j).1
        · rw [if_pos hrk, hrk, vecSet_same]
        · rw [vecSet_ne _ _ _ _ hrk, if_neg hrk]
    · rename_i hk
      rw [not_not.mp hk, swapIdx_self]
  · intro r c
    unfold sortStep
    simp only
    split
    · simp only
      rw [swapColumns_spec]
    · rename_i hk
      rw [not_not.mp hk, swapIdx_self]
      simp

/-- The sorting loop permutes the cells of `w` and the columns of `v` by the
same permutation of `0 .. n-1`, and leaves `w` in descending order. -/
theorem jacobiSort_spec (n : Nat) (w : Vec K) (v : Mat K) :
    (∃ p q : Nat → Nat,
      (∀ r, r < n → p r < n ∧ q r < n ∧ q (p r) = r ∧ p (q r) = r) ∧
      (∀ r, r < n → (jacobiSort n w v).1 r = w (p r)) ∧
      (∀ r c, r < n → c < n → (jacobiSort n w v).2 r c = v r (p c))) ∧
    (∀ j, j + 1 < n → (jacobiSort n w v).1 (j + 1) ≤ (jacobiSort n w v).1 j) := by
  unfold jacobiSort
  have key := loop_inv
    (fun m (st : Vec K × Mat K) => m ≤ n - 1 →
      (∃ p q : Nat → Nat,
        (∀ r, r < n → p r < n ∧ q r < n ∧ q (p r) = r ∧ p (q r) = r) ∧
        (∀ r, r < n → st.1 r = w (p r)) ∧
        (∀ r c, r < n → c < n → st.2 r c = v r (p c))) ∧
      (∀ j i, j < m → j ≤ i → i < n → st.1 i ≤ st.1 j))
    (sortStep n) 0 (n - 1) (w, v)
    (fun _ => ⟨⟨id, id, fun r hr => ⟨hr, hr, rfl, rfl⟩, fun _ _ => rfl, fun _ _ _ _ => rfl⟩,
      fun j i hj => absurd hj (Nat.not_lt_zero j)⟩)
    (by
      intro m st hm hP hm1
      obtain ⟨⟨p, q, hpq, hw, hv⟩, hs⟩ := hP (by omega)
      rw [Nat.zero_add]
      obtain ⟨k, k1, k2, k3, k4, k5⟩ := sortStep_spec n m st (by omega)
      have hm' : m < n := by omega
      have hsw : ∀ r, r < n → swapIdx m k r < n := fun r hr => swapIdx_lt n m k r hm' k2 hr
      refine ⟨⟨fun r => p (swapIdx m k r), fun r => swapIdx m k (q r), ?_, ?_, ?_⟩, ?_⟩
      · intro r hr
        obtain ⟨a1, a2, a3, a4⟩ := hpq r hr
        obtain ⟨b1, b2, b3, b4⟩ := hpq (swapIdx m k r) (hsw r hr)
        refine ⟨b1, hsw _ a2, ?_, ?_⟩
        · beta_reduce
          rw [b3, swapIdx_invol]
        · beta_reduce
          rw [swapIdx_invol, a4]
      · intro r hr
        rw [k4 r, hw _ (hsw r hr)]
      · intro r c hr hc
        rw [k5 r c, if_pos hr, hv r _ hr (hsw c hc)]
      · intro j i hj hji hi
        rw [k4 i, k4 j]
        rcases Nat.lt_succ_iff_lt_or_eq.mp hj with h | h
        · rw [swapIdx_of_lt m k j h k1]
          have hi' : swapIdx m k i < n := hsw i hi
          have hge : j ≤ swapIdx m k i := by
            rcases Nat.lt_or_ge i m with h1 | h1
            · rw [swapIdx_of_lt m k i h1 k1]; exact hji
            · have := (swapIdx_bounds n m k i k1 k2 h1 hi).1
              omega
          exact hs j _ h hge hi'
        · subst h
          have : swapIdx j k j = k := by unfold swapIdx; simp
          rw [this]
          obtain ⟨b1, b2⟩ := swapIdx_bounds n j k i k1 k2 hji hi
          exact k3 _ b1 b2)
  obtain ⟨hperm, hs⟩ := key le_rfl
  refine ⟨hperm, fun j hj => hs j (j + 1) (by omega) (by omega) hj⟩

end Jacobi

/-! ### Plane rotations keep the columns of `v` orthonormal -/

section Jacobi
variable {K : Type} [LinearOrderedField K]

theorem initV_spec (n : Nat) (v : Mat K) (r c : Nat) :
    initV n v r c = if r < n ∧ c < n then identity r c else v r c := by
  unfold initV
  have inner : ∀ (ip : Nat) (u : Mat K) (r c : Nat),
      loop (fun iq (v : Mat K) => Mat.set v ip iq 0) 0 n u r c
        = if r = ip ∧ c < n then 0 else u r c := by
    intro ip u
    have key := loop_inv
      (fun m (x : Mat K) => ∀ r c, x r c = if r = ip ∧ c < m then 0 else u r c)
      (fun iq (v : Mat K) => Mat.set v ip iq 0) 0 n u
      (by intro r c; simp)
      (by
        intro k x _ hx r c
        beta_reduce
        rw [Nat.zero_add]
        by_cases h : r = ip ∧ c = k
        · obtain ⟨h1, h2⟩ := h
          subst h1; subst h2
          rw [matSet_same, if_pos ⟨rfl, Nat.lt_succ_self c⟩]
        · rw [matSet_ne _ _ _ _ _ _ (by omega), hx]
          by_cases h1 : r = ip ∧ c < k
          · rw [if_pos h1, if_pos (by omega)]
          · rw [if_neg h1, if_neg (by omega)])
    exact key
  have key := loop_inv
    (fun m (x : Mat K) => m ≤ n → ∀ r c, x r c = if r < m ∧ c < n then identity r c else v r c)
    (fun ip (v : Mat K) => Mat.set (loop (fun iq (v : Mat K) => Mat.set v ip iq 0) 0 n v) ip ip 1)
    0 n v
    (by intro _ r c; simp)
    (by
      intro k x hk hx _ r c
      have hx' := hx (by omega)
      beta_reduce
      rw [Nat.zero_add]
      by_cases h : r = k ∧ c = k
      · obtain ⟨h1, h2⟩ := h
        subst h1; subst h2
        rw [matSet_same, if_pos ⟨Nat.lt_succ_self _, by omega⟩]
        unfold identity
        rw [if_pos rfl]
      · rw [matSet_ne _ _ _ _ _ _ (by omega), inner, hx']
        by_cases hr : r = k
        · subst hr
          by_cases hc : c < n
          · rw [if_pos ⟨rfl, hc⟩, if_pos ⟨Nat.lt_succ_self r, hc⟩]
            unfold identity
            rw [if_neg (by omega)]
          · rw [if_neg (by tauto), if_neg (by omega), if_neg (by tauto)]
        · rw [if_neg (by tauto)]
          by_cases h1 : r < k ∧ c < n
          · rw [if_pos h1, if_pos (by omega)]
          · rw [if_neg h1, if_neg (by omega)])
  exact key le_rfl r c

/-- The fourth rotation loop, on `v`: in every row `r < n` the cells of
columns `ip` and `iq` are rotated. -/
theorem rotateV_spec (s tau : K) (n ip iq : Nat) (hne : ip ≠ iq) (v : Mat K) (r c : Nat) :
    rotateV s tau n ip iq v r c =
      if r < n then
        (if c = ip then v r ip - s * (v r iq + v r ip * tau)
         else if c = iq then v r iq + s * (v r ip - v r iq * tau)
         else v r c)
      else v r c := by
  unfold rotateV
  have key := loop_inv
    (fun m (u : Mat K) => ∀ r c, u r c =
      if r < m then
        (if c = ip then v r ip - s * (v r iq + v r ip * tau)
         else if c = iq then v r iq + s * (v r ip - v r iq * tau)
         else v r c)
      else v r c)
    (fun j (v : Mat K) => VTK_ROTATE s tau v j ip j iq) 0 n v
    (by intro r c; simp)
    (by
      intro m u _ hu r c
      beta_reduce
      rw [Nat.zero_add]
      unfold VTK_ROTATE
      have h1 : u m ip = v m ip := by rw [hu]; simp
      have h2 : u m iq = v m iq := by rw [hu]; simp
      by_cases hr : r = m
      · subst hr
        rw [if_pos (Nat.lt_succ_self r)]
        by_cases hq : c = iq
        · subst hq
          rw [matSet_same, if_neg (Ne.symm hne), if_pos rfl, h1, h2]
        · rw [matSet_ne _ _ _ _ _ _ (Or.inr hq)]
          by_cases hp : c = ip
          · subst hp
            rw [matSet_same, if_pos rfl, h1, h2]
          · rw [matSet_ne _ _ _ _ _ _ (Or.inr hp), if_neg hp, if_neg hq, hu]
            simp
      · rw [matSet_ne _ _ _ _ _ _ (Or.inl hr), matSet_ne _ _ _ _ _ _ (Or.inl hr), hu]
        by_cases h : r < m
        · rw [if_pos h, if_pos (show r < m + 1 by omega)]
        · rw [if_neg h, if_neg (show ¬ r < m + 1 by omega)])
  exact key r c

/-- The rotation coefficients: with an exact square root, `c = 1/sqrt(1+t²)`,
`s = t·c` and `tau = s/(1+c)` satisfy `1 − s·tau = c`, `c² + s² = 1` and
`c > 0`. -/
theorem rotation_coeffs (sqrt : K → K) (hsqrt : ExactSqrt sqrt) (t : K) :
    0 < 1 / sqrt (1 + t * t) ∧
    1 - (t * (1 / sqrt (1 + t * t))) * ((t * (1 / sqrt (1 + t * t))) / (1 + 1 / sqrt (1 + t * t)))
      = 1 / sqrt (1 + t * t) ∧
    (1 / sqrt (1 + t * t)) * (1 / sqrt (1 + t * t))
      + (t * (1 / sqrt (1 + t * t))) * (t * (1 / sqrt (1 + t * t))) = 1 := by
  have hpos : 0 < 1 + t * t := by nlinarith [mul_self_nonneg t]
  obtain ⟨h1, h2⟩ := hsqrt (1 + t * t) (le_of_lt hpos)
  generalize sqrt (1 + t * t) = r at h1 h2
  have hr : 0 < r := by
    rcases lt_or_eq_of_le h1 with h | h
    · exact h
    · rw [← h] at h2
      nlinarith
  have hr' : r ≠ 0 := ne_of_gt hr
  have h1r : 1 + 1 / r ≠ 0 := by positivity
  refine ⟨by positivity, ?_, ?_⟩
  · field_simp
    nlinarith
  · field_simp
    nlinarith

theorem dot_lincomb (n : Nat) (x y u w : Nat → K) (a b c d : K) :
    ∑ k in Finset.range n, (a * x k + b * y k) * (c * u k + d * w k)
      = a * c * ∑ k in Finset.range n, x k * u k + a * d * ∑ k in Finset.range n, x k * w k
        + b * c * ∑ k in Finset.range n, y k * u k + b * d * ∑ k in Finset.range n, y k * w k := by
  simp only [Finset.mul_sum, ← Finset.sum_add_distrib]
  apply Finset.sum_congr rfl
  intro k _
  ring

/-- Rotating two columns of a matrix with orthonormal columns, with
`α² + s² = 1`, leaves the columns orthonormal. -/
theorem orthogonal_rotate (n p q : Nat) (v u : Mat K) (α s : K) (hpq : p ≠ q)
    (hp : p < n) (hq : q < n) (hαs : α * α + s * s = 1) (hv : Orthogonal n v)
    (hu : ∀ k c, k < n → u k c =
      if c = p then α * v k p - s * v k q
      else if c = q then s * v k p + α * v k q else v k c) :
    Orthogonal n u := by
  intro i j hi hj
  have hform : ∀ c, c < n → ∃ (a b : K) (f g : Nat), f < n ∧ g < n ∧
      (∀ k, k < n → u k c = a * v k f + b * v k g) ∧
      ((c = p ∧ a = α ∧ b = -s ∧ f = p ∧ g = q) ∨ (c = q ∧ a = s ∧ b = α ∧ f = p ∧ g = q) ∨
        (c ≠ p ∧ c ≠ q ∧ a = 1 ∧ b = 0 ∧ f = c ∧ g = c)) := by
    intro c hc
    by_cases h1 : c = p
    · refine ⟨α, -s, p, q, hp, hq, fun k hk => ?_, Or.inl ⟨h1, rfl, rfl, rfl, rfl⟩⟩
      rw [hu k c hk, if_pos h1]; ring
    · by_cases h2 : c = q
      · refine ⟨s, α, p, q, hp, hq, fun k hk => ?_, Or.inr (Or.inl ⟨h2, rfl, rfl, rfl, rfl⟩)⟩
        rw [hu k c hk, if_neg h1, if_pos h2]
      · refine ⟨1, 0, c, c, hc, hc, fun k hk => ?_, Or.inr (Or.inr ⟨h1, h2, rfl, rfl, rfl, rfl⟩)⟩
        rw [hu k c hk, if_neg h1, if_neg h2]; ring
  obtain ⟨a1, b1, f1, g1, hf1, hg1, e1, c1⟩ := hform i hi
  obtain ⟨a2, b2, f2, g2, hf2, hg2, e2, c2⟩ := hform j hj
  have hsum : ∑ k in Finset.range n, u k i * u k j
      = ∑ k in Finset.range n, (a1 * v k f1 + b1 * v k g1) * (a2 * v k f2 + b2 * v k g2) := by
    apply Finset.sum_congr rfl
    intro k hk
    rw [e1 k (Finset.mem_range.mp hk), e2 k (Finset.mem_range.mp hk)]
  rw [hsum, dot_lincomb, hv f1 f2 hf1 hf2, hv f1 g2 hf1 hg2, hv g1 f2 hg1 hf2, hv g1 g2 hg1 hg2]
  have hqp : q ≠ p := Ne.symm hpq
  unfold identity
  rcases c1 with ⟨h1, ha1, hb1, hf1', hg1'⟩ | ⟨h1, ha1, hb1, hf1', hg1'⟩ |
      ⟨h1, h1', ha1, hb1, hf1', hg1'⟩ <;>
    rcases c2 with ⟨h2, ha2, hb2, hf2', hg2'⟩ | ⟨h2, ha2, hb2, hf2', hg2'⟩ |
      ⟨h2, h2', ha2, hb2, hf2', hg2'⟩ <;>
    subst ha1 hb1 hf1' hg1' ha2 hb2 hf2' hg2'
  · subst h1 h2
    simp only [if_true, if_neg hpq, if_neg hqp]
    linear_combination hαs
  · subst h1 h2
    simp only [if_true, if_neg hpq, if_neg hqp]
    ring
  · subst h1
    simp only [if_neg (Ne.symm h2), if_neg (Ne.symm h2'), if_neg hpq]
    ring
  · subst h1 h2
    simp only [if_true, if_neg hpq, if_neg hqp]
    ring
  · subst h1 h2
    simp only [if_true, if_neg hpq, if_neg hqp]
    linear_combination hαs
  · subst h1
    simp only [if_neg (Ne.symm h2), if_neg (Ne.symm h2'), if_neg hqp]
    ring
  · subst h2
    simp only [if_neg h1, if_neg h1']
    ring
  · subst h2
    simp only [if_neg h1, if_neg h1']
    ring
  · ring

end Jacobi

/-! ### Properties kept through the sweeps -/

section Jacobi
variable {K : Type} [LinearOrderedField K]

theorem loop_add_sum (g : Nat → K) (lo cnt : Nat) (s : K) :
    loop (fun k sum => sum + g k) lo cnt s = s + ∑ k in Finset.range cnt, g (lo + k) := by
  induction cnt with
  | zero => simp [loop]
  | succ m ih =>
    rw [loop_succ, ih, Finset.sum_range_succ]
    ring

theorem offDiagSum_eq (n : Nat) (a : Mat K) :
    offDiagSum n a = ∑ ip in Finset.range (n - 1),
      ∑ k in Finset.range (n - (ip + 1)), |a ip (ip + 1 + k)| := by
  unfold offDiagSum
  have key := loop_inv
    (fun m (sm : K) => sm = ∑ ip in Finset.range m,
      ∑ k in Finset.range (n - (ip + 1)), |a ip (ip + 1 + k)|)
    (fun ip sm => loop (fun iq sm => sm + |a ip iq|) (ip + 1) (n - (ip + 1)) sm) 0 (n - 1) 0
    (by simp)
    (by
      intro k sm _ hsm
      beta_reduce
      rw [Nat.zero_add, loop_add_sum (fun iq => |a k iq|), Finset.sum_range_succ, hsm])
  exact key

theorem offDiagSum_nonneg (n : Nat) (a : Mat K) : 0 ≤ offDiagSum n a := by
  rw [offDiagSum_eq]
  exact Finset.sum_nonneg (fun _ _ => Finset.sum_nonneg (fun _ _ => abs_nonneg _))

/-- The `break` test `sm == 0.0` holds exactly when every entry strictly
above the diagonal is zero. -/
theorem offDiagSum_eq_zero_iff (n : Nat) (a : Mat K) :
    offDiagSum n a = 0 ↔ ∀ ip iq, ip < iq → iq < n → a ip iq = 0 := by
  rw [offDiagSum_eq]
  constructor
  · intro h ip iq h1 h2
    have h3 := (Finset.sum_eq_zero_iff_of_nonneg
      (fun _ _ => Finset.sum_nonneg (fun _ _ => abs_nonneg _))).mp h ip
      (Finset.mem_range.mpr (by omega))
    have h4 := (Finset.sum_eq_zero_iff_of_nonneg (fun _ _ => abs_nonneg _)).mp h3
      (iq - (ip + 1)) (Finset.mem_range.mpr (by omega))
    have h5 : ip + 1 + (iq - (ip + 1)) = iq := by omega
    rw [h5] at h4
    exact abs_eq_zero.mp h4
  · intro h
    apply Finset.sum_eq_zero
    intro ip hip
    apply Finset.sum_eq_zero
    intro k hk
    have h1 := Finset.mem_range.mp hip
    have h2 := Finset.mem_range.mp hk
    rw [h ip (ip + 1 + k) (by omega) (by omega), abs_zero]

/-- A property of the arrays kept by every entry step is kept by the double
loop of a sweep. -/
theorem sweepEntries_preserve (P : JState K → Prop) (sqrt : K → K) (n i : Nat) (tresh : K)
    (hentry : ∀ ip iq st, ip < iq → iq < n → P st → P (jacobiEntry sqrt n i tresh ip iq st))
    (st : JState K) (h : P st) : P (sweepEntries sqrt n i tresh st) := by
  unfold sweepEntries
  apply loop_preserve P _ 0 (n - 1) st h
  intro ip t hip ht
  rw [Nat.zero_add]
  apply loop_preserve P _ (ip + 1) (n - (ip + 1)) t ht
  intro k u hk hu
  exact hentry ip (ip + 1 + k) u (by omega) (by omega) hu

/-- A property kept by every entry step (for a non-negative threshold) and
by the loop closing a sweep holds for the arrays the rotation sequence
ends on. -/
theorem sweepLoop_preserve (P : JState K → Prop) (sqrt : K → K) (n : Nat)
    (hentry : ∀ i tresh ip iq st, 0 ≤ tresh → ip < iq → iq < n → P st →
      P (jacobiEntry sqrt n i tresh ip iq st))
    (hend : ∀ ip st, ip < n → P st → P (sweepEndStep ip st))
    (fuel i : Nat) (st : JState K) (h : P st) : P (sweepLoop sqrt n fuel i st).1 := by
  induction fuel generalizing i st with
  | zero => exact h
  | succ m ih =>
    unfold sweepLoop
    split
    · exact h
    · apply ih
      unfold sweepBody
      simp only
      apply loop_preserve P _ 0 n
      · apply sweepEntries_preserve P sqrt n i _ _ st h
        intro ip iq t h1 h2 ht
        apply hentry i _ ip iq t _ h1 h2 ht
        split
        · have := offDiagSum_nonneg n st.a
          positivity
        · exact le_rfl
      · intro k t hk ht
        rw [Nat.zero_add]
        exact hend k t hk ht

/-- A rotation keeps the columns of `v` orthonormal. -/
theorem jacobiRotate_orthogonal (sqrt : K → K) (hsqrt : ExactSqrt sqrt) (n : Nat) (g : K)
    (ip iq : Nat) (st : JState K) (h1 : ip < iq) (h2 : iq < n) (h : Orthogonal n st.v) :
    Orthogonal n (jacobiRotate sqrt n g ip iq st).v := by
  obtain ⟨c1, c2, c3⟩ := rotation_coeffs sqrt hsqrt (rotationT sqrt g ip iq st)
  unfold jacobiRotate
  simp only
  generalize rotationT sqrt g ip iq st = t at c1 c2 c3 ⊢
  generalize 1 / sqrt (1 + t * t) = c at c1 c2 c3 ⊢
  apply orthogonal_rotate n ip iq st.v _ c (t * c) (by omega) (by omega) h2 c3 h
  intro k c hk
  rw [rotateV_spec _ _ n ip iq (by omega), if_pos hk]
  split
  · linear_combination (st.v k ip) * c2
  · split
    · linear_combination (st.v k iq) * c2
    · rfl

/-- Every entry step keeps the columns of `v` orthonormal. -/
theorem jacobiEntry_orthogonal (sqrt : K → K) (hsqrt : ExactSqrt sqrt) (n i : Nat) (tresh : K)
    (ip iq : Nat) (st : JState K) (h1 : ip < iq) (h2 : iq < n) (h : Orthogonal n st.v) :
    Orthogonal n (jacobiEntry sqrt n i tresh ip iq st).v := by
  unfold jacobiEntry
  simp only
  split
  · exact h
  · split
    · exact jacobiRotate_orthogonal sqrt hsqrt n _ ip iq st h1 h2 h
    · exact h

theorem initStep_loop_v (n : Nat) (st : JState K) :
    (loop initStep 0 n st).v = st.v ∧ (loop initStep 0 n st).a = st.a :=
  loop_preserve (fun t : JState K => t.v = st.v ∧ t.a = st.a) initStep 0 n st ⟨rfl, rfl⟩
    (fun _ _ _ ht => ht)

theorem identity_orthogonal (n : Nat) (v : Mat K)
    (h : ∀ r c, r < n → c < n → v r c = identity r c) : Orthogonal n v := by
  intro i j hi hj
  have : ∑ k in Finset.range n, v k i * v k j
      = ∑ k in Finset.range n, identity k i * identity k j := by
    apply Finset.sum_congr rfl
    intro k hk
    rw [h k i (Finset.mem_range.mp hk) hi, h k j (Finset.mem_range.mp hk) hj]
  rw [this]
  have h2 : ∀ k, identity (K := K) k i = identity i k := by
    intro k
    unfold identity
    by_cases hki : k = i
    · rw [if_pos hki, if_pos hki.symm]
    · rw [if_neg hki, if_neg (Ne.symm hki)]
  simp only [h2]
  exact identity_mul n identity i j hi

/-- The rotation sequence leaves the columns of `v` orthonormal. -/
theorem jacobiSweeps_orthogonal (sqrt : K → K) (hsqrt : ExactSqrt sqrt) (a : Mat K) (n : Nat)
    (w : Vec K) (v : Mat K) : Orthogonal n (jacobiSweeps sqrt a n w v).1.v := by
  unfold jacobiSweeps
  apply sweepLoop_preserve (fun st => Orthogonal n st.v) sqrt n
  · intro i tresh ip iq st _ h1 h2 h
    exact jacobiEntry_orthogonal sqrt hsqrt n i tresh ip iq st h1 h2 h
  · intro ip st _ h
    exact h
  · unfold jacobiInit
    rw [(initStep_loop_v n _).1]
    apply identity_orthogonal
    intro r c hr hc
    show initV n v r c = identity r c
    rw [initV_spec, if_pos ⟨hr, hc⟩]

end Jacobi

/-! ### A loop of `VTK_ROTATE` over distinct cells -/

section Jacobi
variable {K : Type} [LinearOrderedField K]

/-- A loop of `VTK_ROTATE` over pairwise distinct cells: every pair of cells
is rotated from the values the loop starts with, every other cell is kept. -/
theorem rotateLoop_spec (s tau : K) (e1r e1c e2r e2c : Nat → Nat) (lo cnt : Nat) (a : Mat K)
    (h12 : ∀ j j1, lo ≤ j → j < lo + cnt → lo ≤ j1 → j1 < lo + cnt →
      (e1r j ≠ e2r j1 ∨ e1c j ≠ e2c j1))
    (h11 : ∀ j j1, lo ≤ j → j < lo + cnt → lo ≤ j1 → j1 < lo + cnt → j ≠ j1 →
      (e1r j ≠ e1r j1 ∨ e1c j ≠ e1c j1))
    (h22 : ∀ j j1, lo ≤ j → j < lo + cnt → lo ≤ j1 → j1 < lo + cnt → j ≠ j1 →
      (e2r j ≠ e2r j1 ∨ e2c j ≠ e2c j1)) :
    (∀ j, lo ≤ j → j < lo + cnt →
      loop (fun j a => VTK_ROTATE s tau a (e1r j) (e1c j) (e2r j) (e2c j)) lo cnt a
          (e1r j) (e1c j)
        = a (e1r j) (e1c j) - s * (a (e2r j) (e2c j) + a (e1r j) (e1c j) * tau) ∧
      loop (fun j a => VTK_ROTATE s tau a (e1r j) (e1c j) (e2r j) (e2c j)) lo cnt a
          (e2r j) (e2c j)
        = a (e2r j) (e2c j) + s * (a (e1r j) (e1c j) - a (e2r j) (e2c j) * tau)) ∧
    (∀ x y, (∀ j, lo ≤ j → j < lo + cnt → (x ≠ e1r j ∨ y ≠ e1c j) ∧ (x ≠ e2r j ∨ y ≠ e2c j)) →
      loop (fun j a => VTK_ROTATE s tau a (e1r j) (e1c j) (e2r j) (e2c j)) lo cnt a x y
        = a x y) := by
  have key := loop_inv
    (fun m (u : Mat K) => m ≤ cnt →
      (∀ j, lo ≤ j → j < lo + m →
        u (e1r j) (e1c j)
          = a (e1r j) (e1c j) - s * (a (e2r j) (e2c j) + a (e1r j) (e1c j) * tau) ∧
        u (e2r j) (e2c j)
          = a (e2r j) (e2c j) + s * (a (e1r j) (e1c j) - a (e2r j) (e2c j) * tau)) ∧
      (∀ x y, (∀ j, lo ≤ j → j < lo + m → (x ≠ e1r j ∨ y ≠ e1c j) ∧ (x ≠ e2r j ∨ y ≠ e2c j)) →
        u x y = a x y))
    (fun j a => VTK_ROTATE s tau a (e1r j) (e1c j) (e2r j) (e2c j)) lo cnt a
    (fun _ => ⟨fun j h1 h2 => by omega, fun _ _ _ => rfl⟩)
    (by
      intro m u hm hP hm1
      obtain ⟨p1, p2⟩ := hP (by omega)
      beta_reduce
      unfold VTK_ROTATE
      -- the two cells read by this iteration still hold their initial values
      have r1 : u (e1r (lo + m)) (e1c (lo + m)) = a (e1r (lo + m)) (e1c (lo + m)) := by
        apply p2
        intro j hj1 hj2
        exact ⟨h11 (lo + m) j (by omega) (by omega) hj1 (by omega) (by omega),
          h12 (lo + m) j (by omega) (by omega) hj1 (by omega)⟩
      have r2 : u (e2r (lo + m)) (e2c (lo + m)) = a (e2r (lo + m)) (e2c (lo + m)) := by
        apply p2
        intro j hj1 hj2
        refine ⟨?_, h22 (lo + m) j (by omega) (by omega) hj1 (by omega) (by omega)⟩
        have := h12 j (lo + m) hj1 (by omega) (by omega) (by omega)
        tauto
      refine ⟨fun j hj1 hj2 => ?_, fun x y hxy => ?_⟩
      · rcases Nat.lt_or_ge j (lo + m) with h | h
        · obtain ⟨q1, q2⟩ := p1 j hj1 h
          have d1 := h11 j (lo + m) hj1 (by omega) (by omega) (by omega) (by omega)
          have d2 := h12 j (lo + m) hj1 (by omega) (by omega) (by omega)
          have d3 := h12 (lo + m) j (by omega) (by omega) hj1 (by omega)
          have d4 := h22 j (lo + m) hj1 (by omega) (by omega) (by omega) (by omega)
          constructor
          · rw [matSet_ne _ _ _ _ _ _ d2, matSet_ne _ _ _ _ _ _ d1, q1]
          · rw [matSet_ne _ _ _ _ _ _ d4, matSet_ne _ _ _ _ _ _ (by tauto), q2]
        · have hjm : j = lo + m := by omega
          subst hjm
          have d2 := h12 (lo + m) (lo + m) (by omega) (by omega) (by omega) (by omega)
          constructor
          · rw [matSet_ne _ _ _ _ _ _ d2, matSet_same, r1, r2]
          · rw [matSet_same, r1, r2]
      · obtain ⟨d1, d2⟩ := hxy (lo + m) (by omega) (by omega)
        rw [matSet_ne _ _ _ _ _ _ d2, matSet_ne _ _ _ _ _ _ d1]
        exact p2 x y (fun j hj1 hj2 => hxy j hj1 (by omega)))
  exact key le_rfl

end Jacobi

/-! ### The rotation of `a`, seen on the symmetric matrix -/

section Jacobi
variable {K : Type} [LinearOrderedField K]

/-- The rotation of `a`, cell by cell: the seven families of cells the
write and the three loops touch, all strictly above the diagonal, and the
cells they keep. -/
theorem rotateA_spec (s tau : K) (n p q : Nat) (a : Mat K) (hpq : p < q) (hq : q < n) :
    rotateA s tau n p q a p q = 0 ∧
    (∀ r, r < p → rotateA s tau n p q a r p = a r p - s * (a r q + a r p * tau)) ∧
    (∀ r, r < p → rotateA s tau n p q a r q = a r q + s * (a r p - a r q * tau)) ∧
    (∀ c, p < c → c < q → rotateA s tau n p q a p c = a p c - s * (a c q + a p c * tau)) ∧
    (∀ r, p < r → r < q → rotateA s tau n p q a r q = a r q + s * (a p r - a r q * tau)) ∧
    (∀ c, q < c → c < n → rotateA s tau n p q a p c = a p c - s * (a q c + a p c * tau)) ∧
    (∀ c, q < c → c < n → rotateA s tau n p q a q c = a q c + s * (a p c - a q c * tau)) ∧
    (∀ r c, r ≠ p → r ≠ q → c ≠ p → c ≠ q → rotateA s tau n p q a r c = a r c) ∧
    (∀ r c, (c ≤ r ∨ n ≤ c) → rotateA s tau n p q a r c = a r c) := by
  unfold rotateA
  -- the matrix after the write `a[ip][iq] = 0.0`
  have z0 : ∀ r c, (r ≠ p ∨ c ≠ q) → Mat.set a p q 0 r c = a r c :=
    fun r c h => matSet_ne a p q r c 0 h
  generalize ha0 : Mat.set a p q 0 = a0 at z0
  have z00 : a0 p q = 0 := by rw [← ha0, matSet_same]
  -- first loop: rows above `p`
  obtain ⟨t1, u1⟩ := rotateLoop_spec s tau (fun j => j) (fun _ => p) (fun j => j) (fun _ => q)
    0 p a0 (by intros; beta_reduce; omega) (by intros; beta_reduce; omega) (by intros; beta_reduce; omega)
  generalize loop (fun j (a : Mat K) => VTK_ROTATE s tau a j p j q) 0 p a0 = a1 at t1 u1
  -- second loop: between `p` and `q`
  obtain ⟨t2, u2⟩ := rotateLoop_spec s tau (fun _ => p) (fun j => j) (fun j => j) (fun _ => q)
    (p + 1) (q - (p + 1)) a1 (by intros; beta_reduce; omega) (by intros; beta_reduce; omega) (by intros; beta_reduce; omega)
  generalize loop (fun j (a : Mat K) => VTK_ROTATE s tau a p j j q) (p + 1) (q - (p + 1)) a1
    = a2 at t2 u2
  -- third loop: columns right of `q`
  obtain ⟨t3, u3⟩ := rotateLoop_spec s tau (fun _ => p) (fun j => j) (fun _ => q) (fun j => j)
    (q + 1) (n - (q + 1)) a2 (by intros; beta_reduce; omega) (by intros; beta_reduce; omega) (by intros; beta_reduce; omega)
  generalize loop (fun j (a : Mat K) => VTK_ROTATE s tau a p j q j) (q + 1) (n - (q + 1)) a2
    = a3 at t3 u3
  refine ⟨?_, ?_, ?_, ?_, ?_, ?_, ?_, ?_, ?_⟩
  · rw [u3 p q (by intros; omega), u2 p q (by intros; omega), u1 p q (by intros; omega), z00]
  · intro r hr
    rw [u3 r p (by intros; omega), u2 r p (by intros; omega), (t1 r (by omega) (by omega)).1,
      z0 r p (by omega), z0 r q (by omega)]
  · intro r hr
    rw [u3 r q (by intros; omega), u2 r q (by intros; omega), (t1 r (by omega) (by omega)).2,
      z0 r p (by omega), z0 r q (by omega)]
  · intro c hc1 hc2
    rw [u3 p c (by intros; omega), (t2 c (by omega) (by omega)).1,
      u1 p c (by intros; omega), u1 c q (by intros; omega), z0 p c (by omega), z0 c q (by omega)]
  · intro r hr1 hr2
    rw [u3 r q (by intros; omega), (t2 r (by omega) (by omega)).2,
      u1 p r (by intros; omega), u1 r q (by intros; omega), z0 p r (by omega), z0 r q (by omega)]
  · intro c hc1 hc2
    rw [(t3 c (by omega) (by omega)).1, u2 p c (by intros; omega), u2 q c (by intros; omega),
      u1 p c (by intros; omega), u1 q c (by intros; omega), z0 p c (by omega), z0 q c (by omega)]
  · intro c hc1 hc2
    rw [(t3 c (by omega) (by omega)).2, u2 p c (by intros; omega), u2 q c (by intros; omega),
      u1 p c (by intros; omega), u1 q c (by intros; omega), z0 p c (by omega), z0 q c (by omega)]
  · intro r c h1 h2 h3 h4
    rw [u3 r c (by intros; omega), u2 r c (by intros; omega), u1 r c (by intros; omega),
      z0 r c (by omega)]
  · intro r c h
    rw [u3 r c (by intros; omega), u2 r c (by intros; omega), u1 r c (by intros; omega),
      z0 r c (by omega)]

omit [LinearOrderedField K] in
theorem symOf_symm (a : Mat K) (w : Vec K) (i j : Nat) : symOf a w i j = symOf a w j i := by
  unfold symOf
  by_cases h : i = j
  · rw [if_pos h, if_pos h.symm, h]
  · rw [if_neg h, if_neg (Ne.symm h)]
    by_cases h1 : i < j
    · rw [if_pos h1, if_neg (by omega)]
    · rw [if_neg h1, if_pos (by omega)]

/-- The rotation seen on the symmetric matrix `S` kept in `a` and `w`: rows
and columns `p` and `q` are rotated, `S[p][q]` becomes zero, the diagonal
moves by `h`, the rest is kept. -/
theorem symOf_rotate (s tau h : K) (n p q : Nat) (a : Mat K) (w : Vec K)
    (hpq : p < q) (hq : q < n) :
    (∀ k, k < n → k ≠ p → k ≠ q →
      symOf (rotateA s tau n p q a) (Vec.set (Vec.set w p (w p - h)) q (Vec.set w p (w p - h) q + h)) k p
        = symOf a w k p - s * (symOf a w k q + symOf a w k p * tau) ∧
      symOf (rotateA s tau n p q a) (Vec.set (Vec.set w p (w p - h)) q (Vec.set w p (w p - h) q + h)) k q
        = symOf a w k q + s * (symOf a w k p - symOf a w k q * tau)) ∧
    symOf (rotateA s tau n p q a) (Vec.set (Vec.set w p (w p - h)) q (Vec.set w p (w p - h) q + h)) p q
      = 0 ∧
    symOf (rotateA s tau n p q a) (Vec.set (Vec.set w p (w p - h)) q (Vec.set w p (w p - h) q + h)) p p
      = w p - h ∧
    symOf (rotateA s tau n p q a) (Vec.set (Vec.set w p (w p - h)) q (Vec.set w p (w p - h) q + h)) q q
      = w q + h ∧
    (∀ i j, i ≠ p → i ≠ q → j ≠ p → j ≠ q →
      symOf (rotateA s tau n p q a) (Vec.set (Vec.set w p (w p - h)) q (Vec.set w p (w p - h) q + h)) i j
        = symOf a w i j) := by
  obtain ⟨rA, rB, rC, rD, rE, rF, rG, rH, _⟩ := rotateA_spec s tau n p q a hpq hq
  have hw2 : Vec.set w p (w p - h) q = w q := vecSet_ne _ _ _ _ (by omega)
  rw [hw2]
  refine ⟨fun k hk hkp hkq => ?_, ?_, ?_, ?_, ?_⟩
  · unfold symOf
    rw [if_neg hkp, if_neg hkq, if_neg hkp, if_neg hkq]
    rcases Nat.lt_or_ge k p with h1 | h1
    · rw [if_pos h1, if_pos (show k < q by omega), if_pos h1, if_pos (show k < q by omega),
        rB k h1, rC k h1]
      exact ⟨rfl, rfl⟩
    · rcases Nat.lt_or_ge k q with h2 | h2
      · rw [if_neg (show ¬ k < p by omega), if_pos h2, if_neg (show ¬ k < p by omega), if_pos h2,
          rD k (by omega) h2, rE k (by omega) h2]
        exact ⟨rfl, rfl⟩
      · rw [if_neg (show ¬ k < p by omega), if_neg (show ¬ k < q by omega),
          if_neg (show ¬ k < p by omega), if_neg (show ¬ k < q by omega),
          rF k (by omega) hk, rG k (by omega) hk]
        exact ⟨rfl, rfl⟩
  · unfold symOf
    rw [if_neg (by omega), if_pos hpq, rA]
  · unfold symOf
    rw [if_pos rfl, vecSet_ne _ _ _ _ (by omega), vecSet_same]
  · unfold symOf
    rw [if_pos rfl, vecSet_same]
  · intro i j h1 h2 h3 h4
    unfold symOf
    rw [vecSet_ne _ _ _ _ h2, vecSet_ne _ _ _ _ h1, rH i j h1 h2 h3 h4, rH j i h3 h4 h1 h2]

end Jacobi

/-! ### The algebra of one Jacobi rotation -/

section Jacobi
variable {K : Type} [LinearOrderedField K]

/-- Two sums over `range n` whose terms agree except at `p` and `q`, where
the differences cancel, are equal. -/
theorem sum_eq_of_agree_off (n p q : Nat) (f g : Nat → K) (hp : p < n) (hq : q < n)
    (hpq : p ≠ q) (h : ∀ k, k < n → k ≠ p → k ≠ q → f k = g k)
    (h0 : (f p - g p) + (f q - g q) = 0) :
    ∑ k in Finset.range n, f k = ∑ k in Finset.range n, g k := by
  have hd : ∑ k in Finset.range n, (f k - g k) = (f p - g p) + (f q - g q) := by
    apply Finset.sum_eq_add_of_mem p q (Finset.mem_range.mpr hp) (Finset.mem_range.mpr hq) hpq
    intro c hc ⟨h1, h2⟩
    rw [h c (Finset.mem_range.mp hc) h1 h2, sub_self]
  rw [Finset.sum_sub_distrib, h0] at hd
  exact sub_eq_zero.mp hd

/-- The algebra of one Jacobi rotation: if `A0·V = V·S` and `V`, `S` are
rotated in the plane `(p, q)` with `α² + s² = 1`, `α·h = s·S[p][q]` and
`s·(S[q][q] − S[p][p]) + s·h = α·S[p][q]`, then `A0·V' = V'·S'`. -/
theorem eigen_rotate (n p q : Nat) (A0 v u S T : Mat K) (α s h : K) (hpq : p < q) (hq : q < n)
    (hS : ∀ i j, S i j = S j i) (hT : ∀ i j, T i j = T j i)
    (E1 : α * α + s * s = 1) (E2 : α * h = s * S p q)
    (E3 : s * (S q q - S p p) + s * h = α * S p q)
    (hu : ∀ k c, k < n → u k c =
      if c = p then α * v k p - s * v k q
      else if c = q then s * v k p + α * v k q else v k c)
    (hTp : ∀ k, k < n → k ≠ p → k ≠ q →
      T k p = α * S k p - s * S k q ∧ T k q = s * S k p + α * S k q)
    (hTpq : T p q = 0) (hTpp : T p p = S p p - h) (hTqq : T q q = S q q + h)
    (hTo : ∀ i j, i ≠ p → i ≠ q → j ≠ p → j ≠ q → T i j = S i j)
    (hinv : ∀ i j, i < n → j < n →
      ∑ k in Finset.range n, A0 i k * v k j = ∑ k in Finset.range n, v i k * S k j)
    (i j : Nat) (hi : i < n) (hj : j < n) :
    ∑ k in Finset.range n, A0 i k * u k j = ∑ k in Finset.range n, u i k * T k j := by
  have hp : p < n := by omega
  have hne : p ≠ q := by omega
  have uip : u i p = α * v i p - s * v i q := by rw [hu i p hi, if_pos rfl]
  have uiq : u i q = s * v i p + α * v i q := by
    rw [hu i q hi, if_neg (Ne.symm hne), if_pos rfl]
  have uio : ∀ k, k ≠ p → k ≠ q → u i k = v i k := by
    intro k h1 h2
    rw [hu i k hi, if_neg h1, if_neg h2]
  by_cases hjp : j = p
  · subst hjp
    have hL : ∑ k in Finset.range n, A0 i k * u k j
        = ∑ k in Finset.range n, v i k * (α * S k j - s * S k q) := by
      have e1 : ∑ k in Finset.range n, A0 i k * u k j
          = α * ∑ k in Finset.range n, A0 i k * v k j
            - s * ∑ k in Finset.range n, A0 i k * v k q := by
        rw [Finset.mul_sum, Finset.mul_sum, ← Finset.sum_sub_distrib]
        apply Finset.sum_congr rfl
        intro k hk
        rw [hu k j (Finset.mem_range.mp hk), if_pos rfl]
        ring
      rw [e1, hinv i j hi hj, hinv i q hi hq, Finset.mul_sum, Finset.mul_sum,
        ← Finset.sum_sub_distrib]
      apply Finset.sum_congr rfl
      intro k _
      ring
    rw [hL]
    symm
    apply sum_eq_of_agree_off n j q _ _ hp hq hne
    · intro k hk h1 h2
      rw [uio k h1 h2, (hTp k hk h1 h2).1]
    · rw [uip, uiq, hTpp, hT q j, hTpq, hS q j]
      linear_combination (-(v i j)) * E2 + (v i q) * E3
  · by_cases hjq : j = q
    · subst hjq
      have hL : ∑ k in Finset.range n, A0 i k * u k j
          = ∑ k in Finset.range n, v i k * (s * S k p + α * S k j) := by
        have e1 : ∑ k in Finset.range n, A0 i k * u k j
            = s * ∑ k in Finset.range n, A0 i k * v k p
              + α * ∑ k in Finset.range n, A0 i k * v k j := by
          rw [Finset.mul_sum, Finset.mul_sum, ← Finset.sum_add_distrib]
          apply Finset.sum_congr rfl
          intro k hk
          rw [hu k j (Finset.mem_range.mp hk), if_neg hjp, if_pos rfl]
          ring
        rw [e1, hinv i p hi hp, hinv i j hi hj, Finset.mul_sum, Finset.mul_sum,
          ← Finset.sum_add_distrib]
        apply Finset.sum_congr rfl
        intro k _
        ring
      rw [hL]
      symm
      apply sum_eq_of_agree_off n p j _ _ hp hq hne
      · intro k hk h1 h2
        rw [uio k h1 h2, (hTp k hk h1 h2).2]
      · rw [uip, uiq, hTqq, hTpq, hS j p]
        linear_combination (v i p) * E3 + (v i j) * E2
    · have hL : ∑ k in Finset.range n, A0 i k * u k j
          = ∑ k in Finset.range n, v i k * S k j := by
        rw [← hinv i j hi hj]
        apply Finset.sum_congr rfl
        intro k hk
        rw [hu k j (Finset.mem_range.mp hk), if_neg hjp, if_neg hjq]
      rw [hL]
      symm
      apply sum_eq_of_agree_off n p q _ _ hp hq hne
      · intro k hk h1 h2
        rw [uio k h1 h2, hTo k j h1 h2 hjp hjq]
      · obtain ⟨t1, t2⟩ := hTp j hj hjp hjq
        rw [uip, uiq, hT p j, hT q j, t1, t2, hS p j, hS q j]
        linear_combination (v i p * S j p + v i q * S j q) * E1

/-- The tangent of the rotation angle satisfies `t·(w[q] − w[p]) + t²·a =
a` for `a = a[p][q] ≠ 0`, with an exact square root. -/
theorem rotationT_eq (sqrt : K → K) (hsqrt : ExactSqrt sqrt) (ip iq : Nat) (st : JState K)
    (ha : st.a ip iq ≠ 0) :
    rotationT sqrt (100 * |st.a ip iq|) ip iq st * (st.w iq - st.w ip)
      + rotationT sqrt (100 * |st.a ip iq|) ip iq st
        * rotationT sqrt (100 * |st.a ip iq|) ip iq st * st.a ip iq = st.a ip iq := by
  unfold rotationT
  simp only
  have hg : 0 < 100 * |st.a ip iq| := by
    have := abs_pos.mpr ha
    positivity
  rw [if_neg (by intro h; linarith)]
  generalize st.w iq - st.w ip = d
  generalize st.a ip iq = a at ha
  generalize hθ : 0.5 * d / a = θ
  have hd : d = 2 * θ * a := by
    have h05 : (0.5 : K) = 1 / 2 := by norm_num
    rw [← hθ, h05]
    field_simp
    ring
  have hpos : 0 < 1 + θ * θ := by nlinarith [mul_self_nonneg θ]
  obtain ⟨h1, h2⟩ := hsqrt (1 + θ * θ) (le_of_lt hpos)
  generalize sqrt (1 + θ * θ) = r at h1 h2
  have hr : 0 < r := by
    rcases lt_or_eq_of_le h1 with h | h
    · exact h
    · rw [← h] at h2
      nlinarith
  have hden : 0 < |θ| + r := by
    have := abs_nonneg θ
    linarith
  have hden' : |θ| + r ≠ 0 := ne_of_gt hden
  rw [hd]
  split
  · rename_i hneg
    rw [abs_of_neg hneg] at hden' ⊢
    field_simp
    linear_combination (-(a * (-θ + r))) * h2
  · rename_i hnn
    rw [abs_of_nonneg (not_lt.mp hnn)] at hden' ⊢
    field_simp
    linear_combination (-(a * (θ + r))) * h2

end Jacobi

/-! ### The invariant `A0·V = V·S` through the rotation sequence -/

section Jacobi
variable {K : Type} [LinearOrderedField K]

/-- A rotation for a non-zero entry `a[ip][iq]` keeps the invariant
`A0·V = V·S`. -/
theorem jacobiRotate_eigen (sqrt : K → K) (hsqrt : ExactSqrt sqrt) (n : Nat) (A0 : Mat K)
    (ip iq : Nat) (st : JState K) (h1 : ip < iq) (h2 : iq < n) (ha : st.a ip iq ≠ 0)
    (h : EigenInv n A0 st) :
    EigenInv n A0 (jacobiRotate sqrt n (100 * |st.a ip iq|) ip iq st) := by
  obtain ⟨hinv, hwbz⟩ := h
  have hteq := rotationT_eq sqrt hsqrt ip iq st ha
  obtain ⟨c1, c2, c3⟩ := rotation_coeffs sqrt hsqrt (rotationT sqrt (100 * |st.a ip iq|) ip iq st)
  unfold jacobiRotate
  simp only
  generalize rotationT sqrt (100 * |st.a ip iq|) ip iq st = t at c1 c2 c3 hteq ⊢
  generalize 1 / sqrt (1 + t * t) = c at c1 c2 c3 ⊢
  obtain ⟨s1, s2, s3, s4, s5⟩ :=
    symOf_rotate (t * c) (t * c / (1 + c)) (t * st.a ip iq) n ip iq st.a st.w h1 h2
  have hSpq : symOf st.a st.w ip iq = st.a ip iq := by
    unfold symOf
    rw [if_neg (by omega), if_pos h1]
  have hSpp : symOf st.a st.w ip ip = st.w ip := by
    unfold symOf
    rw [if_pos rfl]
  have hSqq : symOf st.a st.w iq iq = st.w iq := by
    unfold symOf
    rw [if_pos rfl]
  constructor
  · intro i j hi hj
    dsimp only
    apply eigen_rotate n ip iq A0 st.v _ (symOf st.a st.w) _ c (t * c) (t * st.a ip iq) h1 h2
      (symOf_symm _ _) (symOf_symm _ _) c3
    · rw [hSpq]; ring
    · rw [hSpq, hSpp, hSqq]
      linear_combination c * hteq
    · intro k cc hk
      rw [rotateV_spec _ _ n ip iq (by omega), if_pos hk]
      split
      · linear_combination (st.v k ip) * c2
      · split
        · linear_combination (st.v k iq) * c2
        · rfl
    · intro k hk hkp hkq
      obtain ⟨e1, e2⟩ := s1 k hk hkp hkq
      constructor
      · rw [e1]
        linear_combination (symOf st.a st.w k ip) * c2
      · rw [e2]
        linear_combination (symOf st.a st.w k iq) * c2
    · exact s2
    · rw [s3, hSpp]
    · rw [s4, hSqq]
    · exact s5
    · exact hinv
    · exact hi
    · exact hj
  · intro k hk
    dsimp only
    by_cases hkq : k = iq
    · subst hkq
      rw [vecSet_same, vecSet_same, vecSet_ne _ _ _ _ (by omega), vecSet_ne _ _ _ _ (by omega),
        hwbz k hk]
      ring
    · rw [vecSet_ne _ _ _ _ hkq, vecSet_ne _ _ _ _ hkq]
      by_cases hkp : k = ip
      · subst hkp
        rw [vecSet_same, vecSet_same, hwbz k hk]
        ring
      · rw [vecSet_ne _ _ _ _ hkp, vecSet_ne _ _ _ _ hkp]
        exact hwbz k hk

/-- Every entry step keeps the invariant `A0·V = V·S`, for a threshold
that is not negative. -/
theorem jacobiEntry_eigen (sqrt : K → K) (hsqrt : ExactSqrt sqrt) (n i : Nat) (tresh : K)
    (A0 : Mat K) (ip iq : Nat) (st : JState K) (ht : 0 ≤ tresh) (h1 : ip < iq) (h2 : iq < n)
    (h : EigenInv n A0 st) :
    EigenInv n A0 (jacobiEntry sqrt n i tresh ip iq st) := by
  unfold jacobiEntry
  simp only
  split
  · rename_i hc
    obtain ⟨_, hc2, _⟩ := hc
    have hg : 100 * |st.a ip iq| = 0 := by linarith
    have ha : st.a ip iq = 0 := by
      have : |st.a ip iq| = 0 := by linarith
      exact abs_eq_zero.mp this
    have hset : Mat.set st.a ip iq 0 = st.a := by
      funext r c
      by_cases hrc : r = ip ∧ c = iq
      · obtain ⟨e1, e2⟩ := hrc
        rw [e1, e2, matSet_same, ha]
      · rw [matSet_ne _ _ _ _ _ _ (by omega)]
    rw [hset]
    exact h
  · split
    · rename_i hgt
      have ha : st.a ip iq ≠ 0 := by
        intro h0
        rw [h0, abs_zero] at hgt
        exact absurd hgt (not_lt.mpr ht)
      exact jacobiRotate_eigen sqrt hsqrt n A0 ip iq st h1 h2 ha h
    · exact h

/-- The loop closing a sweep keeps the invariant: `w` is already `b + z`. -/
theorem sweepEndStep_eigen (n : Nat) (A0 : Mat K) (ip : Nat) (st : JState K) (hip : ip < n)
    (h : EigenInv n A0 st) : EigenInv n A0 (sweepEndStep ip st) := by
  obtain ⟨hinv, hwbz⟩ := h
  unfold sweepEndStep
  simp only
  have hw : Vec.set st.w ip (Vec.set st.b ip (st.b ip + st.z ip) ip) = st.w := by
    funext k
    by_cases hk : k = ip
    · rw [hk, vecSet_same, vecSet_same, hwbz ip hip]
    · rw [vecSet_ne _ _ _ _ hk]
  constructor
  · rw [hw]
    exact hinv
  · intro k hk
    rw [hw]
    dsimp only
    by_cases hkp : k = ip
    · rw [hkp, vecSet_same, vecSet_same, hwbz ip hip]
      ring
    · rw [vecSet_ne _ _ _ _ hkp, vecSet_ne _ _ _ _ hkp]
      exact hwbz k hk

theorem jacobiInit_spec (a : Mat K) (n : Nat) (w : Vec K) (v : Mat K) :
    (jacobiInit a n w v).a = a ∧ (jacobiInit a n w v).v = initV n v ∧
    (∀ k, k < n → (jacobiInit a n w v).w k = a k k ∧ (jacobiInit a n w v).b k = a k k ∧
      (jacobiInit a n w v).z k = 0) := by
  unfold jacobiInit
  have key := loop_inv
    (fun m (st : JState K) => st.a = a ∧ st.v = initV n v ∧
      (∀ k, k < m → st.w k = a k k ∧ st.b k = a k k ∧ st.z k = 0))
    initStep 0 n { a := a, w := w, v := initV n v, b := fun _ => 0, z := fun _ => 0 }
    ⟨rfl, rfl, fun k hk => absurd hk (Nat.not_lt_zero k)⟩
    (by
      intro m st _ ⟨p1, p2, p3⟩
      rw [Nat.zero_add]
      unfold initStep
      simp only
      refine ⟨p1, p2, fun k hk => ?_⟩
      rcases Nat.lt_succ_iff_lt_or_eq.mp hk with h | h
      · rw [vecSet_ne _ _ _ _ (by omega), vecSet_ne _ _ _ _ (by omega),
          vecSet_ne _ _ _ _ (by omega)]
        exact p3 k h
      · subst h
        rw [vecSet_same, vecSet_same, vecSet_same, p1]
        exact ⟨rfl, rfl, rfl⟩)
  exact key

/-- For a symmetric input the rotation sequence ends with `A0·V = V·S`. -/
theorem jacobiSweeps_eigen (sqrt : K → K) (hsqrt : ExactSqrt sqrt) (a : Mat K) (n : Nat)
    (w : Vec K) (v : Mat K) (hsym : ∀ i j, i < n → j < n → a i j = a j i) :
    EigenInv n a (jacobiSweeps sqrt a n w v).1 := by
  unfold jacobiSweeps
  apply sweepLoop_preserve (EigenInv n a) sqrt n
  · intro i tresh ip iq st ht h1 h2 h
    exact jacobiEntry_eigen sqrt hsqrt n i tresh a ip iq st ht h1 h2 h
  · intro ip st hip h
    exact sweepEndStep_eigen n a ip st hip h
  · obtain ⟨i1, i2, i3⟩ := jacobiInit_spec a n w v
    constructor
    · intro i j hi hj
      have e1 : ∑ k in Finset.range n, a i k * (jacobiInit a n w v).v k j = a i j := by
        rw [← mul_identity n a i j hj]
        apply Finset.sum_congr rfl
        intro k hk
        rw [i2, initV_spec, if_pos ⟨Finset.mem_range.mp hk, hj⟩]
      have e2 : ∑ k in Finset.range n,
          (jacobiInit a n w v).v i k * symOf (jacobiInit a n w v).a (jacobiInit a n w v).w k j
          = symOf (jacobiInit a n w v).a (jacobiInit a n w v).w i j := by
        rw [← identity_mul n (symOf (jacobiInit a n w v).a (jacobiInit a n w v).w) i j hi]
        apply Finset.sum_congr rfl
        intro k hk
        rw [i2, initV_spec, if_pos ⟨hi, Finset.mem_range.mp hk⟩]
      rw [e1, e2, i1]
      unfold symOf
      by_cases hij : i = j
      · rw [if_pos hij, (i3 i hi).1, hij]
      · rw [if_neg hij]
        by_cases hlt : i < j
        · rw [if_pos hlt]
        · rw [if_neg hlt]
          exact hsym i j hi hj
    · intro k hk
      rw [(i3 k hk).1, (i3 k hk).2.1, (i3 k hk).2.2, add_zero]

/-- When the sweep loop ends before its passes are used up, it ended on the
`break`: every entry strictly above the diagonal is zero. -/
theorem sweepLoop_break (sqrt : K → K) (n fuel i : Nat) (st : JState K)
    (h : (sweepLoop sqrt n fuel i st).2 < i + fuel) :
    offDiagSum n (sweepLoop sqrt n fuel i st).1.a = 0 := by
  induction fuel generalizing i st with
  | zero =>
    unfold sweepLoop at h
    simp only at h
    omega
  | succ m ih =>
    unfold sweepLoop at h ⊢
    split
    · rename_i h0
      exact h0
    · rename_i h0
      rw [if_neg h0] at h
      exact ih (i + 1) _ (by omega)

end Jacobi

/-! ### Orthogonality of the returned eigenvectors -/

section Jacobi
variable {K : Type} [LinearOrderedField K]

/-- Permuting the columns of a matrix with orthonormal columns leaves them
orthonormal. -/
theorem orthogonal_perm (n : Nat) (v u : Mat K) (p q : Nat → Nat)
    (hpq : ∀ r, r < n → p r < n ∧ q r < n ∧ q (p r) = r ∧ p (q r) = r)
    (hu : ∀ r c, r < n → c < n → u r c = v r (p c)) (hv : Orthogonal n v) :
    Orthogonal n u := by
  intro i j hi hj
  have : ∑ k in Finset.range n, u k i * u k j
      = ∑ k in Finset.range n, v k (p i) * v k (p j) := by
    apply Finset.sum_congr rfl
    intro k hk
    rw [hu k i (Finset.mem_range.mp hk) hi, hu k j (Finset.mem_range.mp hk) hj]
  rw [this, hv (p i) (p j) (hpq i hi).1 (hpq j hj).1]
  unfold identity
  by_cases hij : i = j
  · rw [if_pos hij, if_pos (by rw [hij])]
  · rw [if_neg hij, if_neg]
    intro h
    apply hij
    rw [← (hpq i hi).2.2.1, ← (hpq j hj).2.2.1, h]

/-- Negating some columns of a matrix with orthonormal columns leaves them
orthonormal. -/
theorem orthogonal_signs (n : Nat) (v u : Mat K)
    (hu : ∀ c, (∀ r, u r c = v r c) ∨ (∀ r, u r c = if r < n then -v r c else v r c))
    (hv : Orthogonal n v) : Orthogonal n u := by
  have hform : ∀ c, ∃ e : K, (e = 1 ∨ e = -1) ∧ ∀ r, r < n → u r c = e * v r c := by
    intro c
    rcases hu c with h | h
    · exact ⟨1, Or.inl rfl, fun r _ => by rw [h r, one_mul]⟩
    · exact ⟨-1, Or.inr rfl, fun r hr => by rw [h r, if_pos hr]; ring⟩
  intro i j hi hj
  obtain ⟨e1, he1, f1⟩ := hform i
  obtain ⟨e2, he2, f2⟩ := hform j
  have : ∑ k in Finset.range n, u k i * u k j
      = e1 * e2 * ∑ k in Finset.range n, v k i * v k j := by
    rw [Finset.mul_sum]
    apply Finset.sum_congr rfl
    intro k hk
    rw [f1 k (Finset.mem_range.mp hk), f2 k (Finset.mem_range.mp hk)]
    ring
  rw [this, hv i j hi hj]
  unfold identity
  by_cases hij : i = j
  · subst hij
    obtain ⟨e3, he3, f3⟩ := hform i
    rw [if_pos rfl, mul_one]
    -- both signs describe the same column
    have key : ∀ k, k < n → e1 * v k i = e2 * v k i := fun k hk => by rw [← f1 k hk, ← f2 k hk]
    rcases he1 with h1 | h1 <;> rcases he2 with h2 | h2
    · rw [h1, h2]; ring
    · exfalso
      have hz : ∀ k, k < n → v k i = 0 := by
        intro k hk
        have := key k hk
        rw [h1, h2] at this
        linarith
      have hone := hv i i hi hi
      unfold identity at hone
      rw [if_pos rfl] at hone
      rw [Finset.sum_eq_zero (fun k hk => by rw [hz k (Finset.mem_range.mp hk), mul_zero])] at hone
      exact zero_ne_one hone
    · exfalso
      have hz : ∀ k, k < n → v k i = 0 := by
        intro k hk
        have := key k hk
        rw [h1, h2] at this
        linarith
      have hone := hv i i hi hi
      unfold identity at hone
      rw [if_pos rfl] at hone
      rw [Finset.sum_eq_zero (fun k hk => by rw [hz k (Finset.mem_range.mp hk), mul_zero])] at hone
      exact zero_ne_one hone
    · rw [h1, h2]; ring
  · rw [if_neg hij, mul_zero]

/-- C8: over exact arithmetic (an exact square root), the eigenvector
matrix `v` that `JacobiN` leaves on return, whichever value it returns, is
orthogonal: `VᵗV = I`. -/
theorem JacobiN_orthogonal (sqrt : K → K) (hsqrt : ExactSqrt sqrt) (a : Mat K) (n : Nat)
    (w : Vec K) (v : Mat K) : Orthogonal n (JacobiN sqrt a n w v).v := by
  have hpre := jacobiSweeps_orthogonal sqrt hsqrt a n w v
  unfold JacobiN
  simp only
  split
  · exact hpre
  · dsimp only
    obtain ⟨⟨p, q, hpq, _, hsv⟩, _⟩ :=
      jacobiSort_spec n (jacobiSweeps sqrt a n w v).1.w (jacobiSweeps sqrt a n w v).1.v
    obtain ⟨hsign, _⟩ := jacobiNormalize_spec n
      (jacobiSort n (jacobiSweeps sqrt a n w v).1.w (jacobiSweeps sqrt a n w v).1.v).2
    exact orthogonal_signs n _ _ hsign (orthogonal_perm n _ _ p q hpq hsv hpre)

theorem JacobiN_ret (sqrt : K → K) (a : Mat K) (n : Nat) (w : Vec K) (v : Mat K) :
    (JacobiN sqrt a n w v).ret = 1 ↔ (jacobiSweeps sqrt a n w v).2 < VTK_MAX_ROTATIONS := by
  unfold JacobiN
  simp only
  split
  · rename_i h
    constructor
    · intro h1; simp at h1
    · intro h1; omega
  · rename_i h
    constructor
    · intro _; omega
    · intro _; rfl

/-- What `JacobiN` leaves when it returns 1: the sorted, sign-normalised
arrays of the rotation sequence, which ended on the `break`. -/
theorem JacobiN_ok (sqrt : K → K) (a : Mat K) (n : Nat) (w : Vec K) (v : Mat K)
    (hret : (JacobiN sqrt a n w v).ret = 1) :
    offDiagSum n (jacobiSweeps sqrt a n w v).1.a = 0 ∧
    (JacobiN sqrt a n w v).w
      = (jacobiSort n (jacobiSweeps sqrt a n w v).1.w (jacobiSweeps sqrt a n w v).1.v).1 ∧
    (JacobiN sqrt a n w v).v = jacobiNormalize n
      (jacobiSort n (jacobiSweeps sqrt a n w v).1.w (jacobiSweeps sqrt a n w v).1.v).2 := by
  have hlt := (JacobiN_ret sqrt a n w v).mp hret
  refine ⟨?_, ?_, ?_⟩
  · unfold jacobiSweeps at hlt ⊢
    exact sweepLoop_break sqrt n VTK_MAX_ROTATIONS 0 _ (by omega)
  · unfold JacobiN
    simp only
    rw [if_neg (by omega)]
  · unfold JacobiN
    simp only
    rw [if_neg (by omega)]

end Jacobi

/-! ### Eigenpairs, order and sign of the returned arrays -/

section Jacobi
variable {K : Type} [LinearOrderedField K]

/-- C7: over exact arithmetic (an exact square root), for every `n` and
every symmetric `n`-by-`n` matrix `A`, if `JacobiN` returns 1 then
`A0·V = V·diag(w)`: `A0` times column `j` of `v` is `w[j]` times that
column. -/
theorem JacobiN_eigen (sqrt : K → K) (hsqrt : ExactSqrt sqrt) (a : Mat K) (n : Nat)
    (w : Vec K) (v : Mat K) (hsym : ∀ i j, i < n → j < n → a i j = a j i)
    (hret : (JacobiN sqrt a n w v).ret = 1) (i j : Nat) (hi : i < n) (hj : j < n) :
    matMul n a (JacobiN sqrt a n w v).v i j
      = (JacobiN sqrt a n w v).w j * (JacobiN sqrt a n w v).v i j := by
  obtain ⟨hbreak, hw, hv⟩ := JacobiN_ok sqrt a n w v hret
  obtain ⟨hinv, _⟩ := jacobiSweeps_eigen sqrt hsqrt a n w v hsym
  rw [hw, hv]
  generalize (jacobiSweeps sqrt a n w v).1 = pre at hbreak hinv
  have hzero := (offDiagSum_eq_zero_iff n pre.a).mp hbreak
  -- before sorting: the columns of `pre.v` are eigenvectors for `pre.w`
  have hpre : ∀ i j, i < n → j < n →
      ∑ k in Finset.range n, a i k * pre.v k j = pre.w j * pre.v i j := by
    intro i j hi hj
    rw [hinv i j hi hj]
    have hdiag : ∀ k, k ∈ Finset.range n →
        pre.v i k * symOf pre.a pre.w k j = if k = j then pre.v i k * pre.w k else 0 := by
      intro k hk
      have hk' := Finset.mem_range.mp hk
      unfold symOf
      by_cases hkj : k = j
      · rw [if_pos hkj, if_pos hkj]
      · rw [if_neg hkj, if_neg hkj]
        by_cases hlt : k < j
        · rw [if_pos hlt, hzero k j hlt hj, mul_zero]
        · rw [if_neg hlt, hzero j k (by omega) hk', mul_zero]
    rw [Finset.sum_congr rfl hdiag, Finset.sum_ite_eq', if_pos (Finset.mem_range.mpr hj)]
    ring
  obtain ⟨⟨p, q, hpq, hsw, hsv⟩, _⟩ := jacobiSort_spec n pre.w pre.v
  obtain ⟨hsign, _⟩ := jacobiNormalize_spec n (jacobiSort n pre.w pre.v).2
  have hsorted : ∀ i, i < n →
      ∑ k in Finset.range n, a i k * (jacobiSort n pre.w pre.v).2 k j
        = (jacobiSort n pre.w pre.v).1 j * (jacobiSort n pre.w pre.v).2 i j := by
    intro i hi
    rw [hsw j hj, hsv i j hi hj, ← hpre i (p j) hi (hpq j hj).1]
    apply Finset.sum_congr rfl
    intro k hk
    rw [hsv k j (Finset.mem_range.mp hk) hj]
  unfold matMul
  rcases hsign j with h | h
  · rw [h i, ← hsorted i hi]
    apply Finset.sum_congr rfl
    intro k _
    rw [h k]
  · rw [h i, if_pos hi, mul_neg, ← hsorted i hi, ← Finset.sum_neg_distrib]
    apply Finset.sum_congr rfl
    intro k hk
    rw [h k, if_pos (Finset.mem_range.mp hk), mul_neg]

/-- C9: whenever `JacobiN` returns 1 the eigenvalue array is in descending
order, and the sort applied one permutation of `0 .. n-1` to the cells of
`w` and to the columns of `v`: the values in `w` and their pairing with
the columns are unchanged. -/
theorem JacobiN_sorted (sqrt : K → K) (a : Mat K) (n : Nat) (w : Vec K) (v : Mat K)
    (hret : (JacobiN sqrt a n w v).ret = 1) :
    (∀ j, j + 1 < n → (JacobiN sqrt a n w v).w (j + 1) ≤ (JacobiN sqrt a n w v).w j) ∧
    ∃ p q : Nat → Nat,
      (∀ r, r < n → p r < n ∧ q r < n ∧ q (p r) = r ∧ p (q r) = r) ∧
      (∀ r, r < n → (JacobiN sqrt a n w v).w r = (jacobiSweeps sqrt a n w v).1.w (p r)) ∧
      (∀ r c, r < n → c < n →
        (jacobiSort n (jacobiSweeps sqrt a n w v).1.w (jacobiSweeps sqrt a n w v).1.v).2 r c
          = (jacobiSweeps sqrt a n w v).1.v r (p c)) := by
  obtain ⟨_, hw, _⟩ := JacobiN_ok sqrt a n w v hret
  rw [hw]
  obtain ⟨hperm, hdesc⟩ :=
    jacobiSort_spec n (jacobiSweeps sqrt a n w v).1.w (jacobiSweeps sqrt a n w v).1.v
  exact ⟨hdesc, hperm⟩

/-- C10: whenever `JacobiN` returns 1, every column of the returned
eigenvector matrix has at least `⌈n/2⌉` components that are `≥ 0`. -/
theorem JacobiN_majority (sqrt : K → K) (a : Mat K) (n : Nat) (w : Vec K) (v : Mat K)
    (hret : (JacobiN sqrt a n w v).ret = 1) (j : Nat) (hj : j < n) :
    (n + 1) / 2 ≤ countNonneg n j (JacobiN sqrt a n w v).v := by
  obtain ⟨_, _, hv⟩ := JacobiN_ok sqrt a n w v hret
  rw [hv]
  exact (jacobiNormalize_spec n _).2 j hj

/-- Witness for C9: on `sampleS` the call returns 1 and leaves `w`
descending, a permutation of the values before the sort. -/
theorem JacobiN_sorted_witness :
    (JacobiN tableSqrt sampleS 2 (fun _ => 0) (fun _ _ => 0)).ret = 1 ∧
    (∀ j, j + 1 < 2 → (JacobiN tableSqrt sampleS 2 (fun _ => 0) (fun _ _ => 0)).w (j + 1)
      ≤ (JacobiN tableSqrt sampleS 2 (fun _ => 0) (fun _ _ => 0)).w j) :=
  ⟨by decide!,
   (JacobiN_sorted tableSqrt sampleS 2 (fun _ => 0) (fun _ _ => 0) (by decide!)).1⟩

/-- Witness for C10: on `sampleS` the call returns 1 and column 1 of `v` has
at least one non-negative component. -/
theorem JacobiN_majority_witness :
    (JacobiN tableSqrt sampleS 2 (fun _ => 0) (fun _ _ => 0)).ret = 1 ∧
    (2 + 1) / 2 ≤ countNonneg 2 1 (JacobiN tableSqrt sampleS 2 (fun _ => 0) (fun _ _ => 0)).v :=
  ⟨by decide!,
   JacobiN_majority tableSqrt sampleS 2 (fun _ => 0) (fun _ _ => 0) (by decide!) 1 (by decide)⟩

end Jacobi

/-! ### Two-by-two inputs; the reals -/

section Jacobi
variable {K : Type} [LinearOrderedField K]

theorem sweepLoop_succ (sqrt : K → K) (n fuel i : Nat) (st : JState K) :
    sweepLoop sqrt n (fuel + 1) i st =
      if offDiagSum n st.a = 0 then (st, i)
      else sweepLoop sqrt n fuel (i + 1) (sweepBody sqrt n i (offDiagSum n st.a) st) := rfl

theorem sweepEnd_a (n : Nat) (st : JState K) : (loop sweepEndStep 0 n st).a = st.a :=
  loop_preserve (fun t : JState K => t.a = st.a) sweepEndStep 0 n st rfl (fun _ _ _ ht => ht)

/-- For `n = 2` the first sweep zeroes the only off-diagonal entry. -/
theorem sweepBody_two (sqrt : K → K) (st : JState K) (h0 : offDiagSum 2 st.a ≠ 0) :
    offDiagSum 2 (sweepBody sqrt 2 0 (offDiagSum 2 st.a) st).a = 0 := by
  have hsm : offDiagSum 2 st.a = |st.a 0 1| := by
    rw [offDiagSum_eq]
    simp
  rw [hsm] at h0 ⊢
  have hpos : 0 < |st.a 0 1| := lt_of_le_of_ne (abs_nonneg _) (Ne.symm h0)
  rw [offDiagSum_eq_zero_iff]
  intro ip iq h1 h2
  have hip : ip = 0 := by omega
  have hiq : iq = 1 := by omega
  subst hip hiq
  unfold sweepBody
  simp only
  rw [sweepEnd_a]
  have he : sweepEntries sqrt 2 0 (if 0 < 3 then 0.2 * |st.a 0 1| / ((2 * 2 : Nat) : K) else 0) st
      = jacobiEntry sqrt 2 0 (if 0 < 3 then 0.2 * |st.a 0 1| / ((2 * 2 : Nat) : K) else 0) 0 1 st :=
    rfl
  rw [he]
  unfold jacobiEntry
  simp only
  rw [if_neg (by omega), if_pos]
  · unfold jacobiRotate
    simp only
    exact (rotateA_spec _ _ 2 0 1 st.a (by omega) (by omega)).1
  · rw [if_pos (by omega)]
    have h4 : ((2 * 2 : Nat) : K) = 4 := by norm_num
    rw [h4]
    have : 0.2 * |st.a 0 1| / 4 = |st.a 0 1| * (1 / 20) := by norm_num; ring
    rw [this]
    nlinarith

/-- For `n = 2` the rotation sequence ends on the `break` after at most one
sweep: `JacobiN` returns 1. -/
theorem JacobiN_two_returns (sqrt : K → K) (a : Mat K) (w : Vec K) (v : Mat K) :
    (JacobiN sqrt a 2 w v).ret = 1 := by
  rw [JacobiN_ret]
  unfold jacobiSweeps VTK_MAX_ROTATIONS
  generalize jacobiInit a 2 w v = st
  rw [show (20 : Nat) = 18 + 1 + 1 from rfl, sweepLoop_succ]
  split
  · simp
  · rename_i h0
    rw [sweepLoop_succ, if_pos (sweepBody_two sqrt st h0)]
    simp

end Jacobi

theorem exactSqrt_real : ExactSqrt Real.sqrt :=
  fun x hx => ⟨Real.sqrt_nonneg x, Real.mul_self_sqrt hx⟩

/-- Witness for C7: over the reals, on the symmetric matrix `sampleS`,
`JacobiN` returns 1 and the entry `(0, 1)` of `A·V` is `w[1]·V[0][1]`. -/
theorem JacobiN_eigen_witness :
    ExactSqrt Real.sqrt ∧
    (JacobiN Real.sqrt (fun i j => ((sampleS i j : ℚ) : ℝ)) 2 (fun _ => 0) (fun _ _ => 0)).ret = 1 ∧
    matMul 2 (fun i j => ((sampleS i j : ℚ) : ℝ))
        (JacobiN Real.sqrt (fun i j => ((sampleS i j : ℚ) : ℝ)) 2 (fun _ => 0) (fun _ _ => 0)).v 0 1
      = (JacobiN Real.sqrt (fun i j => ((sampleS i j : ℚ) : ℝ)) 2 (fun _ => 0) (fun _ _ => 0)).w 1
        * (JacobiN Real.sqrt (fun i j => ((sampleS i j : ℚ) : ℝ)) 2 (fun _ => 0)
            (fun _ _ => 0)).v 0 1 :=
  ⟨exactSqrt_real, JacobiN_two_returns _ _ _ _,
   JacobiN_eigen Real.sqrt exactSqrt_real (fun i j => ((sampleS i j : ℚ) : ℝ)) 2 (fun _ => 0)
     (fun _ _ => 0)
     (by
       intro i j hi hj
       have h : sampleS i j = sampleS j i := by
         unfold sampleS
         interval_cases i <;> interval_cases j <;> rfl
       beta_reduce
       rw [h])
     (JacobiN_two_returns _ _ _ _) 0 1 (by decide) (by decide)⟩

/-- Witness for C8: over the reals, `JacobiN` leaves an orthogonal `v` on
`sampleS`. -/
theorem JacobiN_orthogonal_witness :
    ExactSqrt Real.sqrt ∧
    Orthogonal 2
      (JacobiN Real.sqrt (fun i j => ((sampleS i j : ℚ) : ℝ)) 2 (fun _ => 0) (fun _ _ => 0)).v :=
  ⟨exactSqrt_real,
   JacobiN_orthogonal Real.sqrt exactSqrt_real (fun i j => ((sampleS i j : ℚ) : ℝ)) 2
     (fun _ => 0) (fun _ _ => 0)⟩

/-! ### The linear equation; when the sweeps run out -/

section

variable {K : Type} [LinearOrderedField K]

/-- C20: `SolveLinear(c2, c3, r1, num_roots)` returns 1, sets
`num_roots = 1` and `r1 = -c3/c2`, a root of `c2·t + c3`, when `c2 ≠ 0`;
when `c2 = 0` it sets `num_roots = 0`, leaves `r1` as it was, and returns
`-1` if `c3 = 0` and `0` if `c3 ≠ 0`. -/
theorem SolveLinear_cases (c2 c3 r1 : K) :
    (c2 ≠ 0 →
      (SolveLinear c2 c3 r1).ret = 1 ∧ (SolveLinear c2 c3 r1).num_roots = 1 ∧
      (SolveLinear c2 c3 r1).r1 = -c3 / c2 ∧
      c2 * (SolveLinear c2 c3 r1).r1 + c3 = 0) ∧
    (c2 = 0 →
      (SolveLinear c2 c3 r1).num_roots = 0 ∧ (SolveLinear c2 c3 r1).r1 = r1 ∧
      (c3 = 0 → (SolveLinear c2 c3 r1).ret = -1) ∧
      (c3 ≠ 0 → (SolveLinear c2 c3 r1).ret = 0)) := by
  constructor
  · intro h
    simp only [SolveLinear, if_pos h]
    refine ⟨trivial, trivial, trivial, ?_⟩
    field_simp
    ring
  · intro h
    by_cases h3 : c3 = 0
    · simp [SolveLinear, h, h3]
    · simp [SolveLinear, h, h3]

/-- The equation `2·t + 4 = 0` has the root `-2`; `0·t + 0 = 0` is reported
with `-1` and `0·t + 4 = 0` with `0`, the cell `r1` keeping its `7`. -/
theorem SolveLinear_cases_witness :
    ((SolveLinear (2 : ℚ) 4 7).ret = 1 ∧ (SolveLinear (2 : ℚ) 4 7).num_roots = 1 ∧
      (SolveLinear (2 : ℚ) 4 7).r1 = -4 / 2 ∧
      2 * (SolveLinear (2 : ℚ) 4 7).r1 + 4 = 0) ∧
    ((SolveLinear (0 : ℚ) 0 7).r1 = 7 ∧ (SolveLinear (0 : ℚ) 0 7).ret = -1) ∧
    ((SolveLinear (0 : ℚ) 4 7).r1 = 7 ∧ (SolveLinear (0 : ℚ) 4 7).ret = 0) :=
  ⟨(SolveLinear_cases (2 : ℚ) 4 7).1 (by norm_num),
   ⟨((SolveLinear_cases (0 : ℚ) 0 7).2 rfl).2.1,
    ((SolveLinear_cases (0 : ℚ) 0 7).2 rfl).2.2.1 rfl⟩,
   ⟨((SolveLinear_cases (0 : ℚ) 4 7).2 rfl).2.1,
    ((SolveLinear_cases (0 : ℚ) 4 7).2 rfl).2.2.2 (by norm_num)⟩⟩

theorem sweepsDone_succ (sqrt : K → K) (n k i : Nat) (st : JState K) :
    sweepsDone sqrt n (k + 1) i st =
      sweepsDone sqrt n k (i + 1) (sweepBody sqrt n i (offDiagSum n st.a) st) := rfl

/-- The sweep loop uses up its passes exactly when the sum of the absolute
strictly-upper entries is non-zero at the start of each of them, and then
leaves the arrays of the loop without `break`. -/
theorem sweepLoop_count (sqrt : K → K) (n : Nat) :
    ∀ (fuel i : Nat) (st : JState K),
      (sweepLoop sqrt n fuel i st).2 ≤ i + fuel ∧
      ((sweepLoop sqrt n fuel i st).2 = i + fuel ↔
        ∀ k, k < fuel → offDiagSum n (sweepsDone sqrt n k i st).a ≠ 0) ∧
      ((sweepLoop sqrt n fuel i st).2 = i + fuel →
        (sweepLoop sqrt n fuel i st).1 = sweepsDone sqrt n fuel i st) := by
  intro fuel
  induction fuel with
  | zero =>
    intro i st
    refine ⟨le_refl _, ⟨fun _ k hk => absurd hk (Nat.not_lt_zero k), fun _ => rfl⟩, fun _ => rfl⟩
  | succ fuel ih =>
    intro i st
    by_cases hsm : offDiagSum n st.a = 0
    · have e : sweepLoop sqrt n (fuel + 1) i st = (st, i) := by
        show (if offDiagSum n st.a = 0 then (st, i) else _) = _
        rw [if_pos hsm]
      rw [e]
      refine ⟨by dsimp only; omega, ⟨fun h => by dsimp only at h; omega, fun h => ?_⟩,
        fun h => by dsimp only at h; omega⟩
      exact absurd hsm (h 0 (Nat.succ_pos fuel))
    · have e : sweepLoop sqrt n (fuel + 1) i st =
          sweepLoop sqrt n fuel (i + 1) (sweepBody sqrt n i (offDiagSum n st.a) st) := by
        show (if offDiagSum n st.a = 0 then (st, i) else _) = _
        rw [if_neg hsm]
      rw [e]
      obtain ⟨h1, h2, h3⟩ := ih (i + 1) (sweepBody sqrt n i (offDiagSum n st.a) st)
      have harith : i + 1 + fuel = i + (fuel + 1) := by omega
      rw [harith] at h1 h2 h3
      refine ⟨h1, ⟨fun h k hk => ?_, fun h => ?_⟩, fun h => ?_⟩
      · cases k with
        | zero => exact hsm
        | succ k =>
          rw [sweepsDone_succ]
          exact h2.1 h k (by omega)
      · refine h2.2 (fun k hk => ?_)
        have := h (k + 1) (by omega)
        rwa [sweepsDone_succ] at this
      · rw [sweepsDone_succ]
        exact h3 h

/-- The two ways `JacobiN` ends: on 0 with the arrays of the rotation
sequence as they are, when the passes are used up, and on 1 otherwise. -/
theorem JacobiN_zero_or_one (sqrt : K → K) (a : Mat K) (n : Nat) (w : Vec K) (v : Mat K) :
    ((JacobiN sqrt a n w v).ret = 0 → VTK_MAX_ROTATIONS ≤ (jacobiSweeps sqrt a n w v).2) ∧
    ((JacobiN sqrt a n w v).ret ≠ 0 →
      (jacobiSweeps sqrt a n w v).2 < VTK_MAX_ROTATIONS ∧ (JacobiN sqrt a n w v).ret = 1) ∧
    ((JacobiN sqrt a n w v).ret = 0 →
      (JacobiN sqrt a n w v).w = (jacobiSweeps sqrt a n w v).1.w ∧
      (JacobiN sqrt a n w v).v = (jacobiSweeps sqrt a n w v).1.v) := by
  unfold JacobiN
  simp only
  split
  · rename_i h
    exact ⟨fun _ => h, fun h1 => absurd rfl h1, fun _ => ⟨rfl, rfl⟩⟩
  · rename_i h
    refine ⟨fun h1 => ?_, fun _ => ⟨by omega, rfl⟩, fun h1 => ?_⟩
    · simp at h1
    · simp at h1

/-- C11: `JacobiN` returns 0 exactly when the sum of the absolute
strictly-upper off-diagonal entries was non-zero at the start of each of
the `VTK_MAX_ROTATIONS = 20` sweeps, and returns 1 otherwise; when it
returns 0, `w` and `v` are the diagonal values and the accumulated
rotations as the 20th sweep leaves them. -/
theorem JacobiN_nonconvergence (sqrt : K → K) (a : Mat K) (n : Nat) (w : Vec K) (v : Mat K) :
    ((JacobiN sqrt a n w v).ret = 0 ↔
      ∀ k, k < 20 →
        offDiagSum n (sweepsDone sqrt n k 0 (jacobiInit a n w v)).a ≠ 0) ∧
    ((JacobiN sqrt a n w v).ret ≠ 0 → (JacobiN sqrt a n w v).ret = 1) ∧
    ((JacobiN sqrt a n w v).ret = 0 →
      (JacobiN sqrt a n w v).w = (sweepsDone sqrt n 20 0 (jacobiInit a n w v)).w ∧
      (JacobiN sqrt a n w v).v = (sweepsDone sqrt n 20 0 (jacobiInit a n w v)).v) := by
  obtain ⟨h1, h2, h3⟩ := sweepLoop_count sqrt n 20 0 (jacobiInit a n w v)
  have hdef : jacobiSweeps sqrt a n w v = sweepLoop sqrt n 20 0 (jacobiInit a n w v) := rfl
  have hcases := JacobiN_zero_or_one sqrt a n w v
  have hret : (JacobiN sqrt a n w v).ret = 0 ↔ (jacobiSweeps sqrt a n w v).2 = 0 + 20 := by
    constructor
    · intro h
      have := hcases.1 h
      rw [hdef] at this ⊢
      simp only [VTK_MAX_ROTATIONS] at this
      omega
    · intro h
      by_contra hne
      have h1 := (hcases.2.1 hne).1
      simp only [VTK_MAX_ROTATIONS] at h1
      omega
  refine ⟨hret.trans (by rw [hdef]; exact h2), fun hne => (hcases.2.1 hne).2, ?_⟩
  intro h0
  have hfull := hret.1 h0
  rw [hdef] at hfull
  have hst := h3 hfull
  obtain ⟨hw, hv⟩ := hcases.2.2 h0
  rw [hw, hv, hdef, hst]
  exact ⟨rfl, rfl⟩

end

/-! ### The matrix of a unit quaternion -/

section

variable {K : Type} [LinearOrderedField K]

theorem loop_three {σ : Type} (f : Nat → σ → σ) (s : σ) :
    loop f 0 3 s = f 2 (f 1 (f 0 s)) := rfl

theorem loop_two_from_one {σ : Type} (f : Nat → σ → σ) (s : σ) :
    loop f 1 2 s = f 2 (f 1 s) := rfl

theorem loop_two {σ : Type} (f : Nat → σ → σ) (s : σ) :
    loop f 0 2 s = f 1 (f 0 s) := rfl

/-- An exact square root takes 1 to 1. -/
theorem exactSqrt_one (sqrt : K → K) (hsqrt : ExactSqrt sqrt) : sqrt 1 = 1 := by
  obtain ⟨h0, h1⟩ := hsqrt 1 zero_le_one
  have h : (sqrt 1 - 1) * (sqrt 1 + 1) = 0 := by linear_combination h1
  rcases mul_eq_zero.mp h with h | h
  · linarith
  · linarith

/-- The nine cells `vtkQuaternionToMatrix3x3` writes, for the factor
`f = 1/sqrt(ww + rr)` it computes. -/
theorem QuaternionToMatrix3x3_entries (sqrt : K → K) (q : Vec K) (A : Mat K) :
    let f := 1 / sqrt (q 0 * q 0 + (q 1 * q 1 + q 2 * q 2 + q 3 * q 3))
    let s := (q 0 * q 0 - (q 1 * q 1 + q 2 * q 2 + q 3 * q 3)) * f
    let M := QuaternionToMatrix3x3 sqrt q A
    M 0 0 = q 1 * q 1 * (f * 2) + s ∧ M 0 1 = (q 1 * q 2 - q 0 * q 3) * (f * 2) ∧
    M 0 2 = (q 1 * q 3 + q 0 * q 2) * (f * 2) ∧
    M 1 0 = (q 1 * q 2 + q 0 * q 3) * (f * 2) ∧ M 1 1 = q 2 * q 2 * (f * 2) + s ∧
    M 1 2 = (q 2 * q 3 - q 0 * q 1) * (f * 2) ∧
    M 2 0 = (q 1 * q 3 - q 0 * q 2) * (f * 2) ∧ M 2 1 = (q 2 * q 3 + q 0 * q 1) * (f * 2) ∧
    M 2 2 = q 3 * q 3 * (f * 2) + s :=
  ⟨rfl, rfl, rfl, rfl, rfl, rfl, rfl, rfl, rfl⟩

/-- Cells outside the 3-by-3 block keep their content. -/
theorem QuaternionToMatrix3x3_frame (sqrt : K → K) (q : Vec K) (A : Mat K) (i j : Nat)
    (h : 3 ≤ i ∨ 3 ≤ j) : QuaternionToMatrix3x3 sqrt q A i j = A i j := by
  simp only [QuaternionToMatrix3x3, Mat.set]
  repeat rw [if_neg (by omega)]

/-- The matrix of a unit quaternion is a proper rotation. -/
theorem quat_rotation (sqrt : K → K) (hsqrt : ExactSqrt sqrt) (q : Vec K) (A : Mat K)
    (hq : q 0 * q 0 + q 1 * q 1 + q 2 * q 2 + q 3 * q 3 = 1) :
    ProperRotation (QuaternionToMatrix3x3 sqrt q A) := by
  have hn : q 0 * q 0 + (q 1 * q 1 + q 2 * q 2 + q 3 * q 3) = 1 := by linear_combination hq
  obtain ⟨e00, e01, e02, e10, e11, e12, e20, e21, e22⟩ :=
    QuaternionToMatrix3x3_entries sqrt q A
  simp only [hn, exactSqrt_one sqrt hsqrt, div_one, mul_one, one_mul] at e00 e01 e02 e10 e11 e12 e20 e21 e22
  constructor
  · intro i j hi hj
    simp only [Finset.sum_range_succ, Finset.sum_range_zero, zero_add, identity]
    interval_cases i <;> interval_cases j <;>
      simp only [e00, e01, e02, e10, e11, e12, e20, e21, e22] <;> norm_num <;>
      first
      | linear_combination (q 0 * q 0 + q 1 * q 1 + q 2 * q 2 + q 3 * q 3 + 1) * hq
      | ring
  · simp only [Determinant3x3, e00, e01, e02, e10, e11, e12, e20, e21, e22]
    linear_combination ((q 0 * q 0 + q 1 * q 1 + q 2 * q 2 + q 3 * q 3) ^ 2
      + (q 0 * q 0 + q 1 * q 1 + q 2 * q 2 + q 3 * q 3) + 1) * hq

/-- A quaternion and its negative give the same matrix. -/
theorem quat_neg (sqrt : K → K) (q : Vec K) (A : Mat K) :
    QuaternionToMatrix3x3 sqrt (fun i => -q i) A = QuaternionToMatrix3x3 sqrt q A := by
  simp only [QuaternionToMatrix3x3, neg_mul_neg]

/-- C15: over exact real arithmetic the matrix `QuaternionToMatrix3x3`
produces for a unit quaternion `q` is a proper rotation (`A·Aᵗ = I`,
`det A = +1`), and `-q` produces the same matrix as `q`. -/
theorem QuaternionToMatrix3x3_unit (sqrt : K → K) (hsqrt : ExactSqrt sqrt) (q : Vec K)
    (A : Mat K) (hq : q 0 * q 0 + q 1 * q 1 + q 2 * q 2 + q 3 * q 3 = 1) :
    RowsOrthonormal (QuaternionToMatrix3x3 sqrt q A) ∧
    Determinant3x3 (QuaternionToMatrix3x3 sqrt q A) = 1 ∧
    QuaternionToMatrix3x3 sqrt (fun i => -q i) A = QuaternionToMatrix3x3 sqrt q A :=
  ⟨(quat_rotation sqrt hsqrt q A hq).1, (quat_rotation sqrt hsqrt q A hq).2,
    quat_neg sqrt q A⟩

/-- The unit quaternion `(3/5, 4/5, 0, 0)` over the reals. -/
theorem QuaternionToMatrix3x3_unit_witness :
    RowsOrthonormal (QuaternionToMatrix3x3 Real.sqrt (quatOf (3 / 5) (4 / 5) 0 0) (fun _ _ => 0)) ∧
    Determinant3x3 (QuaternionToMatrix3x3 Real.sqrt (quatOf (3 / 5) (4 / 5) 0 0) (fun _ _ => 0)) = 1 ∧
    QuaternionToMatrix3x3 Real.sqrt (fun i => -quatOf (3 / 5) (4 / 5) 0 0 i) (fun _ _ => 0)
      = QuaternionToMatrix3x3 Real.sqrt (quatOf (3 / 5) (4 / 5) 0 0) (fun _ _ => 0) :=
  QuaternionToMatrix3x3_unit Real.sqrt exactSqrt_real (quatOf (3 / 5) (4 / 5) 0 0)
    (fun _ _ => 0) (by simp only [quatOf]; norm_num)

end

/-! ### Small 3-by-3 helpers; the matrix of a quaternion that is not unit -/

section

variable {K : Type} [LinearOrderedField K]

omit [LinearOrderedField K] in
/-- The helper `vtkSwapVectors3` exchanges two rows on the columns `0 .. 2`. -/
theorem vtkSwapVectors3_spec (r1 r2 : Nat) (A : Mat K) (r c : Nat) :
    vtkSwapVectors3 r1 r2 A r c = if c < 3 then A (swapIdx r1 r2 r) c else A r c := by
  simp only [vtkSwapVectors3, loop_three, Mat.set, swapIdx]
  by_cases h0 : c = 0
  · subst h0; by_cases h1 : r = r1 <;> by_cases h2 : r = r2 <;> simp_all
  by_cases h1 : c = 1
  · subst h1; by_cases h1 : r = r1 <;> by_cases h2 : r = r2 <;> simp_all
  by_cases h2 : c = 2
  · subst h2; by_cases h1 : r = r1 <;> by_cases h2 : r = r2 <;> simp_all
  have h3 : ¬ c < 3 := by omega
  simp [h0, h1, h2, h3]

omit [LinearOrderedField K] in
theorem copy3x3_spec (A B : Mat K) (r c : Nat) :
    copy3x3 A B r c = if r < 3 ∧ c < 3 then A r c else B r c := by
  simp only [copy3x3, loop_three, Mat.set]
  by_cases hr : r < 3
  · by_cases hc : c < 3
    · interval_cases r <;> interval_cases c <;> simp
    · have : c ≠ 0 ∧ c ≠ 1 ∧ c ≠ 2 := by omega
      simp [this, hc]
  · have : r ≠ 0 ∧ r ≠ 1 ∧ r ≠ 2 := by omega
    simp [this, hr]

omit [LinearOrderedField K] in
theorem copy3_spec (x y : Vec K) (r : Nat) :
    copy3 x y r = if r < 3 then x r else y r := by
  simp only [copy3, loop_three, Vec.set]
  by_cases hr : r < 3
  · interval_cases r <;> simp
  · have : r ≠ 0 ∧ r ≠ 1 ∧ r ≠ 2 := by omega
    simp [this, hr]

theorem negate3x3_spec (B : Mat K) (r c : Nat) :
    negate3x3 B r c = if r < 3 ∧ c < 3 then -B r c else B r c := by
  simp only [negate3x3, loop_three, Mat.set]
  by_cases hr : r < 3
  · by_cases hc : c < 3
    · interval_cases r <;> interval_cases c <;> simp
    · have : c ≠ 0 ∧ c ≠ 1 ∧ c ≠ 2 := by omega
      simp [this, hc]
  · have : r ≠ 0 ∧ r ≠ 1 ∧ r ≠ 2 := by omega
    simp [this, hr]

theorem Identity3x3_spec (A : Mat K) (r c : Nat) :
    Identity3x3 A r c = if r < 3 ∧ c < 3 then identity r c else A r c := by
  simp only [Identity3x3, loop_three, Mat.set, identity]
  by_cases hr : r < 3
  · by_cases hc : c < 3
    · interval_cases r <;> interval_cases c <;> simp
    · have : c ≠ 0 ∧ c ≠ 1 ∧ c ≠ 2 := by omega
      simp [this, hc]
  · have : r ≠ 0 ∧ r ≠ 1 ∧ r ≠ 2 := by omega
    simp [this, hr]

omit [LinearOrderedField K] in
/-- The in-place call `Transpose3x3(V, V)` transposes the 3-by-3 block. -/
theorem Transpose3x3_aliased (A : Mat K) (r c : Nat) :
    Transpose3x3 true A A r c = if r < 3 ∧ c < 3 then A c r else A r c := by
  simp only [Transpose3x3, Mat.set, if_true]
  by_cases hr : r < 3
  · by_cases hc : c < 3
    · interval_cases r <;> interval_cases c <;> simp
    · have : c ≠ 0 ∧ c ≠ 1 ∧ c ≠ 2 := by omega
      simp [this, hc]
  · have : r ≠ 0 ∧ r ≠ 1 ∧ r ≠ 2 := by omega
    simp [this, hr]

theorem MultiplyMatrix3x3_spec (A B C : Mat K) (r c : Nat) :
    MultiplyMatrix3x3 A B C r c =
      if r < 3 ∧ c < 3 then A r 0 * B 0 c + A r 1 * B 1 c + A r 2 * B 2 c else C r c := by
  simp only [MultiplyMatrix3x3, loop_three, Mat.set]
  by_cases hr : r < 3
  · by_cases hc : c < 3
    · interval_cases r <;> interval_cases c <;> simp
    · have : c ≠ 0 ∧ c ≠ 1 ∧ c ≠ 2 := by omega
      simp [this, hc]
  · have : r ≠ 0 ∧ r ≠ 1 ∧ r ≠ 2 := by omega
    simp [this, hr]

/-- An exact square root is the non-negative number with the given square. -/
theorem exactSqrt_unique (sqrt : K → K) (hsqrt : ExactSqrt sqrt) (x y : K) (hy : 0 ≤ y)
    (hxy : y * y = x) : sqrt x = y := by
  have hx : 0 ≤ x := by rw [← hxy]; exact mul_self_nonneg y
  obtain ⟨h0, h1⟩ := hsqrt x hx
  have h : (sqrt x - y) * (sqrt x + y) = 0 := by linear_combination h1 - hxy
  rcases mul_eq_zero.mp h with h | h
  · linarith
  · have hs : sqrt x = 0 := by linarith
    have hy0 : y = 0 := by linarith
    rw [hs, hy0]

/-- What the code does with a scaled quaternion: the factor
`1/sqrt(ww + rr)` divides the products by the length, not by its square,
so the matrix of `k·q` is `k` times the matrix of `q`. -/
theorem quat_scale (sqrt : K → K) (hsqrt : ExactSqrt sqrt) (k : K) (hk : 0 < k) (q : Vec K)
    (A : Mat K) (i j : Nat) (hi : i < 3) (hj : j < 3) :
    QuaternionToMatrix3x3 sqrt (fun r => k * q r) A i j
      = k * QuaternionToMatrix3x3 sqrt q A i j := by
  obtain ⟨e00, e01, e02, e10, e11, e12, e20, e21, e22⟩ :=
    QuaternionToMatrix3x3_entries sqrt q A
  obtain ⟨d00, d01, d02, d10, d11, d12, d20, d21, d22⟩ :=
    QuaternionToMatrix3x3_entries sqrt (fun r => k * q r) A
  have hn0 : 0 ≤ q 0 * q 0 + (q 1 * q 1 + q 2 * q 2 + q 3 * q 3) :=
    add_nonneg (mul_self_nonneg _) (add_nonneg (add_nonneg (mul_self_nonneg _)
      (mul_self_nonneg _)) (mul_self_nonneg _))
  obtain ⟨hb0, hb⟩ := hsqrt _ hn0
  have hs : sqrt (k * q 0 * (k * q 0) + (k * q 1 * (k * q 1) + k * q 2 * (k * q 2)
      + k * q 3 * (k * q 3)))
      = k * sqrt (q 0 * q 0 + (q 1 * q 1 + q 2 * q 2 + q 3 * q 3)) := by
    apply exactSqrt_unique sqrt hsqrt
    · exact mul_nonneg hk.le hb0
    · linear_combination (k * k) * hb
  simp only [hs] at d00 d01 d02 d10 d11 d12 d20 d21 d22
  have hk0 : k ≠ 0 := ne_of_gt hk
  have hf : 1 / (k * sqrt (q 0 * q 0 + (q 1 * q 1 + q 2 * q 2 + q 3 * q 3)))
      = 1 / k * (1 / sqrt (q 0 * q 0 + (q 1 * q 1 + q 2 * q 2 + q 3 * q 3))) := by
    rw [one_div_mul_one_div]
  simp only [hf] at d00 d01 d02 d10 d11 d12 d20 d21 d22
  generalize 1 / sqrt (q 0 * q 0 + (q 1 * q 1 + q 2 * q 2 + q 3 * q 3)) = f at *
  interval_cases i <;> interval_cases j <;>
    simp only [e00, e01, e02, e10, e11, e12, e20, e21, e22,
      d00, d01, d02, d10, d11, d12, d20, d21, d22] <;> field_simp <;> ring

/-- C14, the code at the quaternion `(2, 0, 0, 0)`: the matrix written is
twice the identity, not the identity, which the quaternion `(1, 0, 0, 0)`
gives. -/
theorem QuaternionToMatrix3x3_two :
    Same3x3 (QuaternionToMatrix3x3 Real.sqrt (quatOf 2 0 0 0) (fun _ _ => 0))
      (fun i j => 2 * identity i j) ∧
    Same3x3 (QuaternionToMatrix3x3 Real.sqrt (quatOf 1 0 0 0) (fun _ _ => 0)) identity ∧
    QuaternionToMatrix3x3 Real.sqrt (quatOf 2 0 0 0) (fun _ _ => 0) 0 0 ≠
      QuaternionToMatrix3x3 Real.sqrt (quatOf 1 0 0 0) (fun _ _ => 0) 0 0 := by
  have h1 : Same3x3 (QuaternionToMatrix3x3 Real.sqrt (quatOf 1 0 0 0) (fun _ _ => 0))
      identity := by
    obtain ⟨e00, e01, e02, e10, e11, e12, e20, e21, e22⟩ :=
      QuaternionToMatrix3x3_entries Real.sqrt (quatOf (1 : ℝ) 0 0 0) (fun _ _ => 0)
    intro i j hi hj
    interval_cases i <;> interval_cases j <;>
      simp only [e00, e01, e02, e10, e11, e12, e20, e21, e22] <;>
      simp [quatOf, identity]
  have h2 : Same3x3 (QuaternionToMatrix3x3 Real.sqrt (quatOf 2 0 0 0) (fun _ _ => 0))
      (fun i j => 2 * identity i j) := by
    intro i j hi hj
    have e : quatOf (2 : ℝ) 0 0 0 = fun r => 2 * quatOf (1 : ℝ) 0 0 0 r := by
      funext r
      simp only [quatOf]
      split_ifs <;> norm_num
    rw [e, quat_scale Real.sqrt exactSqrt_real 2 (by norm_num) _ _ i j hi hj, h1 i j hi hj]
  refine ⟨h2, h1, ?_⟩
  rw [h2 0 0 (by norm_num) (by norm_num), h1 0 0 (by norm_num) (by norm_num)]
  simp [identity]

end

/-! ### Diagonal inputs of the eigensolver; equal eigenvalues -/

section

variable {K : Type} [LinearOrderedField K]

/-- On a matrix whose strictly-upper entries are all zero the sweep loop
breaks at once: `JacobiN` returns 1 with the sorted diagonal and the
sorted, sign-normalised identity. -/
theorem JacobiN_diagonal (sqrt : K → K) (a : Mat K) (n : Nat) (w : Vec K) (v : Mat K)
    (h : offDiagSum n a = 0) :
    (JacobiN sqrt a n w v).ret = 1 ∧
    (JacobiN sqrt a n w v).w
      = (jacobiSort n (jacobiInit a n w v).w (jacobiInit a n w v).v).1 ∧
    (JacobiN sqrt a n w v).v
      = jacobiNormalize n (jacobiSort n (jacobiInit a n w v).w (jacobiInit a n w v).v).2 := by
  have ha : (jacobiInit a n w v).a = a := (jacobiInit_spec a n w v).1
  have hs : jacobiSweeps sqrt a n w v = (jacobiInit a n w v, 0) := by
    show sweepLoop sqrt n 20 0 (jacobiInit a n w v) = _
    rw [sweepLoop_succ, if_pos (by rw [ha]; exact h)]
  have hret : (JacobiN sqrt a n w v).ret = 1 := by
    rw [JacobiN_ret, hs]
    simp [VTK_MAX_ROTATIONS]
  obtain ⟨_, hw, hv⟩ := JacobiN_ok sqrt a n w v hret
  rw [hs] at hw hv
  exact ⟨hret, hw, hv⟩

/-- C19: whenever the three eigenvalues `JacobiN` computes inside
`Diagonalize3x3` are all equal, the returned `V` is exactly the identity
matrix; in particular `Diagonalize3x3` of `c·I` returns `w = (c, c, c)` and
`V = I`, for every `c`. -/
theorem Diagonalize3x3_all_equal (sqrt : K → K) (A : Mat K) (w : Vec K) (V : Mat K) :
    ((JacobiN sqrt (copy3x3 A (fun _ _ => 0)) 3 w V).w 0
        = (JacobiN sqrt (copy3x3 A (fun _ _ => 0)) 3 w V).w 1 →
      (JacobiN sqrt (copy3x3 A (fun _ _ => 0)) 3 w V).w 0
        = (JacobiN sqrt (copy3x3 A (fun _ _ => 0)) 3 w V).w 2 →
      Same3x3 (Diagonalize3x3 sqrt A w V).V identity) ∧
    (∀ c : K, Same3x3 A (fun i j => c * identity i j) →
      (∀ i, i < 3 → (Diagonalize3x3 sqrt A w V).w i = c) ∧
      Same3x3 (Diagonalize3x3 sqrt A w V).V identity) := by
  have key : ∀ (h1 : (JacobiN sqrt (copy3x3 A (fun _ _ => 0)) 3 w V).w 0
        = (JacobiN sqrt (copy3x3 A (fun _ _ => 0)) 3 w V).w 1)
      (h2 : (JacobiN sqrt (copy3x3 A (fun _ _ => 0)) 3 w V).w 0
        = (JacobiN sqrt (copy3x3 A (fun _ _ => 0)) 3 w V).w 2),
      Diagonalize3x3 sqrt A w V =
        { w := (JacobiN sqrt (copy3x3 A (fun _ _ => 0)) 3 w V).w,
          V := Identity3x3 (JacobiN sqrt (copy3x3 A (fun _ _ => 0)) 3 w V).v } := by
    intro h1 h2
    unfold Diagonalize3x3
    simp only
    rw [if_pos ⟨h1, h2⟩]
  have hid : ∀ M : Mat K, Same3x3 (Identity3x3 M) identity := by
    intro M i j hi hj
    rw [Identity3x3_spec, if_pos ⟨hi, hj⟩]
  constructor
  · intro h1 h2
    rw [key h1 h2]
    exact hid _
  · intro c hA
    have hoff : offDiagSum 3 (copy3x3 A (fun _ _ => 0)) = 0 := by
      rw [offDiagSum_eq_zero_iff]
      intro ip iq h1 h2
      rw [copy3x3_spec, if_pos ⟨by omega, h2⟩, hA ip iq (by omega) h2]
      simp only [identity]
      rw [if_neg (by omega), mul_zero]
    obtain ⟨_, hw, _⟩ := JacobiN_diagonal sqrt (copy3x3 A (fun _ _ => 0)) 3 w V hoff
    obtain ⟨⟨p, q, hpq, hsw, _⟩, _⟩ := jacobiSort_spec 3
      (jacobiInit (copy3x3 A (fun _ _ => 0)) 3 w V).w
      (jacobiInit (copy3x3 A (fun _ _ => 0)) 3 w V).v
    have hwc : ∀ i, i < 3 → (JacobiN sqrt (copy3x3 A (fun _ _ => 0)) 3 w V).w i = c := by
      intro i hi
      rw [hw, hsw i hi]
      have hp := (hpq i hi).1
      rw [((jacobiInit_spec (copy3x3 A (fun _ _ => 0)) 3 w V).2.2 (p i) hp).1,
        copy3x3_spec, if_pos ⟨hp, hp⟩, hA (p i) (p i) hp hp]
      simp [identity]
    have h1 := (hwc 0 (by norm_num)).trans (hwc 1 (by norm_num)).symm
    have h2 := (hwc 0 (by norm_num)).trans (hwc 2 (by norm_num)).symm
    rw [key h1 h2]
    exact ⟨hwc, hid _⟩

/-- The matrix `5·I` over the rationals: its three computed eigenvalues
are equal, and `Diagonalize3x3` returns `w = (5, 5, 5)`, `V = I`. -/
theorem Diagonalize3x3_all_equal_witness :
    Same3x3 (Diagonalize3x3 smallSqrt (scaledIdentity 5) (fun _ => 0) (fun _ _ => 0)).V
      identity ∧
    ((∀ i, i < 3 →
      (Diagonalize3x3 smallSqrt (scaledIdentity 5) (fun _ => 0) (fun _ _ => 0)).w i = 5) ∧
    Same3x3 (Diagonalize3x3 smallSqrt (scaledIdentity 5) (fun _ => 0) (fun _ _ => 0)).V
      identity) :=
  ⟨(Diagonalize3x3_all_equal smallSqrt (scaledIdentity 5) (fun _ => 0) (fun _ _ => 0)).1
      (by decide!) (by decide!),
   (Diagonalize3x3_all_equal smallSqrt (scaledIdentity 5) (fun _ => 0) (fun _ _ => 0)).2 5
      (fun i j _ _ => by simp [scaledIdentity, identity])⟩

end

/-! ### Scaling and first pivot of the 3-by-3 factorisation -/

section

variable {K : Type} [LinearOrderedField K]

/-- The scaling loop writes `1/largest` for each of the three rows, where
`largest` bounds the three magnitudes of the row. -/
theorem scaleLoop3_spec (A : Mat K) (s : Vec K) (i : Nat) (hi : i < 3) :
    ∃ largest : K, scaleLoop3 A s i = 1 / largest ∧
      |A i 0| ≤ largest ∧ |A i 1| ≤ largest ∧ |A i 2| ≤ largest := by
  refine ⟨if |A i 2| > (if |A i 1| > |A i 0| then |A i 1| else |A i 0|) then |A i 2|
    else (if |A i 1| > |A i 0| then |A i 1| else |A i 0|), ?_, ?_, ?_, ?_⟩
  · simp only [scaleLoop3, loop_three, scaleStep3, Vec.set]
    interval_cases i <;> simp
  · split_ifs <;> linarith
  · split_ifs <;> linarith
  · split_ifs <;> linarith

theorem scaleLoop3_pos (A : Mat K) (s : Vec K) (i : Nat) (hi : i < 3)
    (h : A i 0 ≠ 0 ∨ A i 1 ≠ 0 ∨ A i 2 ≠ 0) : 0 < scaleLoop3 A s i := by
  obtain ⟨l, hl, h0, h1, h2⟩ := scaleLoop3_spec A s i hi
  rw [hl]
  apply one_div_pos.mpr
  rcases h with h | h | h
  · exact lt_of_lt_of_le (abs_pos.mpr h) h0
  · exact lt_of_lt_of_le (abs_pos.mpr h) h1
  · exact lt_of_lt_of_le (abs_pos.mpr h) h2

theorem scaled_abs_pos (s a : K) (hs : 0 < s) (ha : a ≠ 0) : 0 < s * |a| :=
  mul_pos hs (abs_pos.mpr ha)

theorem scaled_abs_nonneg (s a : K) (hs : 0 < s) : 0 ≤ s * |a| :=
  mul_nonneg hs.le (abs_nonneg a)

/-- The first pivot search picks a row with a non-zero entry in column 0,
when there is one and the scales are positive. -/
theorem firstPivot3_spec (A : Mat K) (s : Vec K) (h0 : 0 < s 0) (h1 : 0 < s 1)
    (h2 : 0 < s 2) (hc : A 0 0 ≠ 0 ∨ A 1 0 ≠ 0 ∨ A 2 0 ≠ 0) :
    firstPivot3 A s < 3 ∧ A (firstPivot3 A s) 0 ≠ 0 := by
  have n0 := scaled_abs_nonneg (s 0) (A 0 0) h0
  have n1 := scaled_abs_nonneg (s 1) (A 1 0) h1
  have n2 := scaled_abs_nonneg (s 2) (A 2 0) h2
  have p0 := scaled_abs_pos (s 0) (A 0 0) h0
  have p1 := scaled_abs_pos (s 1) (A 1 0) h1
  have p2 := scaled_abs_pos (s 2) (A 2 0) h2
  unfold firstPivot3
  by_cases c1 : s 1 * |A 1 0| ≥ s 0 * |A 0 0|
  · by_cases c2 : s 2 * |A 2 0| ≥ s 1 * |A 1 0|
    · simp only [c1, c2, if_true]
      refine ⟨by norm_num, fun hz => ?_⟩
      rw [hz, abs_zero, mul_zero] at c2
      rcases hc with h | h | h
      · have := p0 h; linarith
      · have := p1 h; linarith
      · exact h hz
    · simp only [c1, c2, if_true, if_false]
      refine ⟨by norm_num, fun hz => ?_⟩
      rw [hz, abs_zero, mul_zero] at c1 c2
      linarith
  · by_cases c2 : s 2 * |A 2 0| ≥ s 0 * |A 0 0|
    · simp only [c1, c2, if_true, if_false]
      refine ⟨by norm_num, fun hz => ?_⟩
      rw [hz, abs_zero, mul_zero] at c2
      rcases hc with h | h | h
      · have := p0 h; linarith
      · have := p1 h; linarith
      · exact h hz
    · simp only [c1, c2, if_false]
      refine ⟨by norm_num, fun hz => ?_⟩
      rw [hz, abs_zero, mul_zero] at c1 c2
      linarith

omit [LinearOrderedField K] in
theorem swap3_interchange (j m : Nat) (A : Mat K) (r c : Nat) (hc : c < 3) :
    (if m ≠ j then vtkSwapVectors3 m j A else A) r c = interchange j m A r c := by
  by_cases h : m = j
  · subst h
    rw [if_neg (by simp)]
    simp only [interchange, swapIdx_self]
  · rw [if_pos h, vtkSwapVectors3_spec, if_pos hc]
    simp only [interchange, swapIdx]
    by_cases h1 : r = m
    · by_cases h2 : r = j
      · exact absurd (h1.symm.trans h2) h
      · simp [h1, h]
    · by_cases h2 : r = j
      · have h3 : ¬ j = m := fun e => h e.symm
        simp [h2, h3]
      · simp [h1, h2]

/-- The determinant looks at the 3-by-3 block only. -/
theorem det_congr (A B : Mat K) (h : Same3x3 A B) : Determinant3x3 A = Determinant3x3 B := by
  simp only [Determinant3x3]
  rw [h 0 0, h 0 1, h 0 2, h 1 0, h 1 1, h 1 2, h 2 0, h 2 1, h 2 2] <;> norm_num

/-- A row interchange changes the sign of the determinant. -/
theorem det_interchange (j m : Nat) (hj : j < 3) (hm : m < 3) (A : Mat K) :
    Determinant3x3 (interchange j m A)
      = if j = m then Determinant3x3 A else -Determinant3x3 A := by
  interval_cases j <;> interval_cases m <;>
    simp [Determinant3x3, interchange, swapIdx] <;> ring

theorem det_row_ne (A : Mat K) (h : Determinant3x3 A ≠ 0) (i : Nat) (hi : i < 3) :
    A i 0 ≠ 0 ∨ A i 1 ≠ 0 ∨ A i 2 ≠ 0 := by
  by_contra hz
  push_neg at hz
  obtain ⟨z0, z1, z2⟩ := hz
  apply h
  interval_cases i <;> simp [Determinant3x3, z0, z1, z2]

theorem det_col0_ne (A : Mat K) (h : Determinant3x3 A ≠ 0) :
    A 0 0 ≠ 0 ∨ A 1 0 ≠ 0 ∨ A 2 0 ≠ 0 := by
  by_contra hz
  push_neg at hz
  obtain ⟨z0, z1, z2⟩ := hz
  apply h
  simp [Determinant3x3, z0, z1, z2]

end

/-! ### The three columns of the 3-by-3 factorisation -/

section

variable {K : Type} [LinearOrderedField K]

/-- Forward and back substitution with stored factors `L`, `U` (the
diagonal of `U` stored as reciprocals) solve `M·y = p` when `L·U = M`. -/
theorem lu3_algebra (M A : Mat K) (p : Vec K)
    (h00 : M 0 0 * A 0 0 = 1) (h01 : A 0 1 = M 0 1) (h02 : A 0 2 = M 0 2)
    (h10 : A 1 0 = M 1 0 * A 0 0) (h11 : (M 1 1 - A 1 0 * M 0 1) * A 1 1 = 1)
    (h12 : A 1 2 = M 1 2 - A 1 0 * M 0 2)
    (h20 : A 2 0 = M 2 0 * A 0 0) (h21 : A 2 1 = (M 2 1 - A 2 0 * M 0 1) * A 1 1)
    (h22 : (M 2 2 - A 2 0 * M 0 2 - A 2 1 * A 1 2) * A 2 2 = 1)
    (z0 z1 z2 y0 y1 y2 : K)
    (hz0 : z0 = p 0) (hz1 : z1 = p 1 - A 1 0 * z0) (hz2 : z2 = p 2 - A 2 0 * z0 - A 2 1 * z1)
    (hy2 : y2 = z2 * A 2 2) (hy1 : y1 = (z1 - A 1 2 * y2) * A 1 1)
    (hy0 : y0 = (z0 - A 0 1 * y1 - A 0 2 * y2) * A 0 0) :
    M 0 0 * y0 + M 0 1 * y1 + M 0 2 * y2 = p 0 ∧
    M 1 0 * y0 + M 1 1 * y1 + M 1 2 * y2 = p 1 ∧
    M 2 0 * y0 + M 2 1 * y1 + M 2 2 * y2 = p 2 := by
  have e0 : M 0 0 * y0 + M 0 1 * y1 + M 0 2 * y2 = z0 := by
    rw [hy0, h01, h02]
    linear_combination (z0 - M 0 1 * y1 - M 0 2 * y2) * h00
  have e1 : (M 1 1 - A 1 0 * M 0 1) * y1 + A 1 2 * y2 = z1 := by
    rw [hy1]
    linear_combination (z1 - A 1 2 * y2) * h11
  have e2 : (M 2 2 - A 2 0 * M 0 2 - A 2 1 * A 1 2) * y2 = z2 := by
    rw [hy2]
    linear_combination z2 * h22
  have m10 : M 1 0 = A 1 0 * M 0 0 := by
    linear_combination (-M 1 0) * h00 - M 0 0 * h10
  have m20 : M 2 0 = A 2 0 * M 0 0 := by
    linear_combination (-M 2 0) * h00 - M 0 0 * h20
  have m21 : M 2 1 - A 2 0 * M 0 1 = A 2 1 * (M 1 1 - A 1 0 * M 0 1) := by
    linear_combination (-(M 2 1 - A 2 0 * M 0 1)) * h11 - (M 1 1 - A 1 0 * M 0 1) * h21
  refine ⟨by rw [e0, hz0], ?_, ?_⟩
  · have : p 1 = z1 + A 1 0 * z0 := by rw [hz1]; ring
    rw [this]
    linear_combination y0 * m10 + A 1 0 * e0 + e1 - y2 * h12
  · have : p 2 = z2 + A 2 0 * z0 + A 2 1 * z1 := by rw [hz2]; ring
    rw [this]
    linear_combination y0 * m20 + A 2 0 * e0 + y1 * m21 + A 2 1 * e1 + e2

theorem firstColumn3_entries (s : LUState K) :
    (firstColumn3 s).index 0 = firstPivot3 s.A s.scale ∧
    (firstColumn3 s).A 0 0 = 1 / interchange 0 (firstPivot3 s.A s.scale) s.A 0 0 ∧
    (firstColumn3 s).A 0 1 = interchange 0 (firstPivot3 s.A s.scale) s.A 0 1 ∧
    (firstColumn3 s).A 0 2 = interchange 0 (firstPivot3 s.A s.scale) s.A 0 2 ∧
    (firstColumn3 s).A 1 0 = interchange 0 (firstPivot3 s.A s.scale) s.A 1 0
      * (1 / interchange 0 (firstPivot3 s.A s.scale) s.A 0 0) ∧
    (firstColumn3 s).A 1 1 = interchange 0 (firstPivot3 s.A s.scale) s.A 1 1 ∧
    (firstColumn3 s).A 1 2 = interchange 0 (firstPivot3 s.A s.scale) s.A 1 2 ∧
    (firstColumn3 s).A 2 0 = interchange 0 (firstPivot3 s.A s.scale) s.A 2 0
      * (1 / interchange 0 (firstPivot3 s.A s.scale) s.A 0 0) ∧
    (firstColumn3 s).A 2 1 = interchange 0 (firstPivot3 s.A s.scale) s.A 2 1 ∧
    (firstColumn3 s).A 2 2 = interchange 0 (firstPivot3 s.A s.scale) s.A 2 2 := by
  have key : ∀ r c, c < 3 →
      (if firstPivot3 s.A s.scale ≠ 0 then vtkSwapVectors3 (firstPivot3 s.A s.scale) 0 s.A
        else s.A) r c = interchange 0 (firstPivot3 s.A s.scale) s.A r c :=
    fun r c hc => swap3_interchange 0 _ s.A r c hc
  unfold firstColumn3
  simp only
  generalize (if firstPivot3 s.A s.scale ≠ 0 then
    vtkSwapVectors3 (firstPivot3 s.A s.scale) 0 s.A else s.A) = B1 at key
  simp only [← key _ _ (show 0 < 3 by norm_num), ← key _ _ (show 1 < 3 by norm_num),
    ← key _ _ (show 2 < 3 by norm_num)]
  exact ⟨rfl, rfl, rfl, rfl, rfl, rfl, rfl, rfl, rfl, rfl⟩

theorem firstColumn3_scale (s : LUState K) (h : ∀ i, i < 3 → 0 < s.scale i) :
    0 < (firstColumn3 s).scale 1 ∧ 0 < (firstColumn3 s).scale 2 := by
  unfold firstColumn3
  simp only
  split_ifs with hm
  · simp only [Vec.set]
    constructor <;> split_ifs <;> first | exact h 0 (by norm_num) | exact h 1 (by norm_num) | exact h 2 (by norm_num)
  · exact ⟨h 1 (by norm_num), h 2 (by norm_num)⟩

theorem secondColumn3_swap (s : LUState K)
    (hc : s.scale 2 * |s.A 2 1 - s.A 2 0 * s.A 0 1|
      ≥ s.scale 1 * |s.A 1 1 - s.A 1 0 * s.A 0 1|) :
    (secondColumn3 s).A 0 0 = s.A 0 0 ∧ (secondColumn3 s).A 0 1 = s.A 0 1 ∧
    (secondColumn3 s).A 0 2 = s.A 0 2 ∧ (secondColumn3 s).A 1 0 = s.A 2 0 ∧
    (secondColumn3 s).A 1 1 = 1 / (s.A 2 1 - s.A 2 0 * s.A 0 1) ∧
    (secondColumn3 s).A 1 2 = s.A 2 2 ∧
    (secondColumn3 s).A 2 0 = s.A 1 0 ∧
    (secondColumn3 s).A 2 1 = (s.A 1 1 - s.A 1 0 * s.A 0 1)
      * (1 / (s.A 2 1 - s.A 2 0 * s.A 0 1)) ∧
    (secondColumn3 s).A 2 2 = s.A 1 2 ∧
    (secondColumn3 s).index 0 = s.index 0 ∧ (secondColumn3 s).index 1 = 2 := by
  have hc' : s.scale 2 * |(Mat.set (Mat.set s.A 1 1 (s.A 1 1 - s.A 1 0 * s.A 0 1)) 2 1
      ((Mat.set s.A 1 1 (s.A 1 1 - s.A 1 0 * s.A 0 1)) 2 1
        - (Mat.set s.A 1 1 (s.A 1 1 - s.A 1 0 * s.A 0 1)) 2 0
          * (Mat.set s.A 1 1 (s.A 1 1 - s.A 1 0 * s.A 0 1)) 0 1)) 2 1|
      ≥ s.scale 1 * |(Mat.set (Mat.set s.A 1 1 (s.A 1 1 - s.A 1 0 * s.A 0 1)) 2 1
      ((Mat.set s.A 1 1 (s.A 1 1 - s.A 1 0 * s.A 0 1)) 2 1
        - (Mat.set s.A 1 1 (s.A 1 1 - s.A 1 0 * s.A 0 1)) 2 0
          * (Mat.set s.A 1 1 (s.A 1 1 - s.A 1 0 * s.A 0 1)) 0 1)) 1 1| := hc
  unfold secondColumn3
  simp only [if_pos hc']
  simp only [vtkSwapVectors3_spec, Mat.set, swapIdx]
  simp

theorem secondColumn3_keep (s : LUState K)
    (hc : ¬ s.scale 2 * |s.A 2 1 - s.A 2 0 * s.A 0 1|
      ≥ s.scale 1 * |s.A 1 1 - s.A 1 0 * s.A 0 1|) :
    (secondColumn3 s).A 0 0 = s.A 0 0 ∧ (secondColumn3 s).A 0 1 = s.A 0 1 ∧
    (secondColumn3 s).A 0 2 = s.A 0 2 ∧ (secondColumn3 s).A 1 0 = s.A 1 0 ∧
    (secondColumn3 s).A 1 1 = 1 / (s.A 1 1 - s.A 1 0 * s.A 0 1) ∧
    (secondColumn3 s).A 1 2 = s.A 1 2 ∧
    (secondColumn3 s).A 2 0 = s.A 2 0 ∧
    (secondColumn3 s).A 2 1 = (s.A 2 1 - s.A 2 0 * s.A 0 1)
      * (1 / (s.A 1 1 - s.A 1 0 * s.A 0 1)) ∧
    (secondColumn3 s).A 2 2 = s.A 2 2 ∧
    (secondColumn3 s).index 0 = s.index 0 ∧ (secondColumn3 s).index 1 = 1 := by
  have hc' : ¬ s.scale 2 * |(Mat.set (Mat.set s.A 1 1 (s.A 1 1 - s.A 1 0 * s.A 0 1)) 2 1
      ((Mat.set s.A 1 1 (s.A 1 1 - s.A 1 0 * s.A 0 1)) 2 1
        - (Mat.set s.A 1 1 (s.A 1 1 - s.A 1 0 * s.A 0 1)) 2 0
          * (Mat.set s.A 1 1 (s.A 1 1 - s.A 1 0 * s.A 0 1)) 0 1)) 2 1|
      ≥ s.scale 1 * |(Mat.set (Mat.set s.A 1 1 (s.A 1 1 - s.A 1 0 * s.A 0 1)) 2 1
      ((Mat.set s.A 1 1 (s.A 1 1 - s.A 1 0 * s.A 0 1)) 2 1
        - (Mat.set s.A 1 1 (s.A 1 1 - s.A 1 0 * s.A 0 1)) 2 0
          * (Mat.set s.A 1 1 (s.A 1 1 - s.A 1 0 * s.A 0 1)) 0 1)) 1 1| := hc
  unfold secondColumn3
  simp only [if_neg hc']
  simp only [Mat.set]
  simp

theorem thirdColumn3_entries (s : LUState K) :
    (thirdColumn3 s).A 0 0 = s.A 0 0 ∧ (thirdColumn3 s).A 0 1 = s.A 0 1 ∧
    (thirdColumn3 s).A 0 2 = s.A 0 2 ∧ (thirdColumn3 s).A 1 0 = s.A 1 0 ∧
    (thirdColumn3 s).A 1 1 = s.A 1 1 ∧
    (thirdColumn3 s).A 1 2 = s.A 1 2 - s.A 1 0 * s.A 0 2 ∧
    (thirdColumn3 s).A 2 0 = s.A 2 0 ∧ (thirdColumn3 s).A 2 1 = s.A 2 1 ∧
    (thirdColumn3 s).A 2 2 = 1 / (s.A 2 2 - (s.A 2 0 * s.A 0 2
      + s.A 2 1 * (s.A 1 2 - s.A 1 0 * s.A 0 2))) ∧
    (thirdColumn3 s).index 0 = s.index 0 ∧ (thirdColumn3 s).index 1 = s.index 1 ∧
    (thirdColumn3 s).index 2 = 2 :=
  ⟨rfl, rfl, rfl, rfl, rfl, rfl, rfl, rfl, rfl, rfl, rfl, rfl⟩

end

/-! ### The 3-by-3 factorisation as a product -/

section

variable {K : Type} [LinearOrderedField K]

/-- What `vtkLUFactor3x3` leaves for a matrix with non-zero determinant:
with `M` the matrix after the two recorded row interchanges, the stored
entries are the factors of `M = L·U`, the diagonal of `U` stored as
reciprocals of the three non-zero pivots. -/
theorem LUFactor3x3_spec (B : Mat K) (idx : Nat → Nat) (hdet : Determinant3x3 B ≠ 0)
    (F : LUState K) (hF : F = LUFactor3x3 B idx)
    (M : Mat K) (hM : M = interchange 1 (F.index 1) (interchange 0 (F.index 0) B)) :
    F.index 0 < 3 ∧ (F.index 1 = 1 ∨ F.index 1 = 2) ∧ F.index 2 = 2 ∧
    M 0 0 * F.A 0 0 = 1 ∧ F.A 0 1 = M 0 1 ∧ F.A 0 2 = M 0 2 ∧
    F.A 1 0 = M 1 0 * F.A 0 0 ∧ (M 1 1 - F.A 1 0 * M 0 1) * F.A 1 1 = 1 ∧
    F.A 1 2 = M 1 2 - F.A 1 0 * M 0 2 ∧
    F.A 2 0 = M 2 0 * F.A 0 0 ∧ F.A 2 1 = (M 2 1 - F.A 2 0 * M 0 1) * F.A 1 1 ∧
    (M 2 2 - F.A 2 0 * M 0 2 - F.A 2 1 * F.A 1 2) * F.A 2 2 = 1 := by
  have hsc : ∀ i, i < 3 → 0 < scaleLoop3 B (fun _ => 0) i :=
    fun i hi => scaleLoop3_pos B _ i hi (det_row_ne B hdet i hi)
  obtain ⟨hm0, hp0⟩ := firstPivot3_spec B (scaleLoop3 B (fun _ => 0)) (hsc 0 (by norm_num))
    (hsc 1 (by norm_num)) (hsc 2 (by norm_num)) (det_col0_ne B hdet)
  generalize hs0 : (LUState.mk B idx (scaleLoop3 B (fun _ => 0)) 0 : LUState K) = s0 at *
  have hs0A : s0.A = B := by rw [← hs0]
  have hs0s : s0.scale = scaleLoop3 B (fun _ => 0) := by rw [← hs0]
  have hF2 : F = thirdColumn3 (secondColumn3 (firstColumn3 s0)) := by rw [hF, ← hs0]; rfl
  obtain ⟨i0, a00, a01, a02, a10, a11, a12, a20, a21, a22⟩ := firstColumn3_entries s0
  obtain ⟨hs1, hs2⟩ := firstColumn3_scale s0 (by rw [hs0s]; exact hsc)
  rw [hs0A, hs0s] at i0 a00 a01 a02 a10 a11 a12 a20 a21 a22
  generalize hm : firstPivot3 B (scaleLoop3 B (fun _ => 0)) = m0 at *
  generalize hN : interchange 0 m0 B = N at *
  have hN00 : N 0 0 ≠ 0 := by
    rw [← hN]
    simpa [interchange, swapIdx] using hp0
  have hdN : Determinant3x3 N ≠ 0 := by
    rw [← hN, det_interchange 0 m0 (by norm_num) hm0]
    split_ifs
    · exact hdet
    · exact neg_ne_zero.mpr hdet
  generalize hst1 : firstColumn3 s0 = st1 at *
  obtain ⟨t00, t01, t02, t10, t11, t12, t20, t21, t22, ti0, ti1, ti2⟩ :=
    thirdColumn3_entries (secondColumn3 st1)
  have hdetN : Determinant3x3 N = N 0 0 *
      ((N 1 1 - N 1 0 * (1 / N 0 0) * N 0 1) * (N 2 2 - N 2 0 * (1 / N 0 0) * N 0 2)
        - (N 2 1 - N 2 0 * (1 / N 0 0) * N 0 1) * (N 1 2 - N 1 0 * (1 / N 0 0) * N 0 2)) := by
    simp only [Determinant3x3]
    field_simp
    ring
  generalize ha : N 1 1 - N 1 0 * (1 / N 0 0) * N 0 1 = a at hdetN
  generalize hb : N 2 1 - N 2 0 * (1 / N 0 0) * N 0 1 = b at hdetN
  generalize hd : N 1 2 - N 1 0 * (1 / N 0 0) * N 0 2 = d at hdetN
  generalize he : N 2 2 - N 2 0 * (1 / N 0 0) * N 0 2 = e at hdetN
  have hr : N 0 0 * (1 / N 0 0) = 1 := mul_one_div_cancel hN00
  by_cases hc : st1.scale 2 * |st1.A 2 1 - st1.A 2 0 * st1.A 0 1|
      ≥ st1.scale 1 * |st1.A 1 1 - st1.A 1 0 * st1.A 0 1|
  · obtain ⟨c00, c01, c02, c10, c11, c12, c20, c21, c22, ci0, ci1⟩ :=
      secondColumn3_swap st1 hc
    simp only [a21, a20, a01, a11, a10, hb, ha] at hc c11 c21
    have hb0 : b ≠ 0 := by
      intro hz
      rw [hz, abs_zero, mul_zero] at hc
      have h1 := scaled_abs_nonneg (st1.scale 1) a hs1
      have h2 : |a| = 0 := by
        rcases (mul_eq_zero.mp (le_antisymm hc h1)) with h | h
        · exact absurd h (ne_of_gt hs1)
        · exact h
      rw [abs_eq_zero] at h2
      apply hdN
      rw [hdetN, hz, h2]
      ring
    have hbb : b * (1 / b) = 1 := mul_one_div_cancel hb0
    have hi0 : F.index 0 = m0 := by rw [hF2, ti0, ci0, i0]
    have hi1 : F.index 1 = 2 := by rw [hF2, ti1, ci1]
    have hMe : M = interchange 1 2 N := by rw [hM, hi0, hi1, hN]
    have hu : d - a * (1 / b) * e ≠ 0 := by
      intro hz
      apply hdN
      rw [hdetN]
      have : a * e - b * d = 0 := by linear_combination (-b) * hz - a * e * hbb
      rw [this, mul_zero]
    have m00 : M 0 0 = N 0 0 := by rw [hMe]; rfl
    have m01 : M 0 1 = N 0 1 := by rw [hMe]; rfl
    have m02 : M 0 2 = N 0 2 := by rw [hMe]; rfl
    have m10 : M 1 0 = N 2 0 := by rw [hMe]; rfl
    have m11 : M 1 1 = N 2 1 := by rw [hMe]; rfl
    have m12 : M 1 2 = N 2 2 := by rw [hMe]; rfl
    have m20 : M 2 0 = N 1 0 := by rw [hMe]; rfl
    have m21 : M 2 1 = N 1 1 := by rw [hMe]; rfl
    have m22 : M 2 2 = N 1 2 := by rw [hMe]; rfl
    refine ⟨by rw [hi0]; exact hm0, Or.inr hi1, by rw [hF2, ti2], ?_⟩
    rw [hF2, t00, t01, t02, t10, t11, t12, t20, t21, t22,
      c00, c01, c02, c10, c11, c12, c20, c21, c22,
      a00, a01, a02, a10, a12, a20, a22, m00, m01, m02, m10, m11, m12, m20, m21, m22]
    refine ⟨hr, rfl, rfl, rfl, ?_, rfl, rfl, ?_, ?_⟩
    · rw [hb]; exact hbb
    · rw [ha]
    · have : N 1 2 - N 1 0 * (1 / N 0 0) * N 0 2
          - a * (1 / b) * (N 2 2 - N 2 0 * (1 / N 0 0) * N 0 2) = d - a * (1 / b) * e := by
        rw [hd, he]
      rw [this]
      have h2 : N 1 2 - (N 1 0 * (1 / N 0 0) * N 0 2
          + a * (1 / b) * (N 2 2 - N 2 0 * (1 / N 0 0) * N 0 2)) = d - a * (1 / b) * e := by
        rw [← hd, ← he]; ring
      rw [h2]
      exact mul_one_div_cancel hu
  · obtain ⟨c00, c01, c02, c10, c11, c12, c20, c21, c22, ci0, ci1⟩ :=
      secondColumn3_keep st1 hc
    simp only [a21, a20, a01, a11, a10, hb, ha] at hc c11 c21
    have ha0 : a ≠ 0 := by
      intro hz
      rw [hz, abs_zero, mul_zero] at hc
      exact hc (scaled_abs_nonneg (st1.scale 2) _ hs2)
    have haa : a * (1 / a) = 1 := mul_one_div_cancel ha0
    have hi0 : F.index 0 = m0 := by rw [hF2, ti0, ci0, i0]
    have hi1 : F.index 1 = 1 := by rw [hF2, ti1, ci1]
    have hMe : M = N := by
      rw [hM, hi0, hi1, hN]
      funext r c
      simp only [interchange, swapIdx_self]
    have hu : e - b * (1 / a) * d ≠ 0 := by
      intro hz
      apply hdN
      rw [hdetN]
      have : a * e - b * d = 0 := by linear_combination a * hz + b * d * haa
      rw [this, mul_zero]
    refine ⟨by rw [hi0]; exact hm0, Or.inl hi1, by rw [hF2, ti2], ?_⟩
    rw [hF2, t00, t01, t02, t10, t11, t12, t20, t21, t22,
      c00, c01, c02, c10, c11, c12, c20, c21, c22,
      a00, a01, a02, a10, a12, a20, a22, hMe]
    refine ⟨hr, rfl, rfl, rfl, ?_, rfl, rfl, ?_, ?_⟩
    · rw [ha]; exact haa
    · rw [hb]
    · have : N 2 2 - N 2 0 * (1 / N 0 0) * N 0 2
          - b * (1 / a) * (N 1 2 - N 1 0 * (1 / N 0 0) * N 0 2) = e - b * (1 / a) * d := by
        rw [hd, he]
      rw [this]
      have h2 : N 2 2 - (N 2 0 * (1 / N 0 0) * N 0 2
          + b * (1 / a) * (N 1 2 - N 1 0 * (1 / N 0 0) * N 0 2)) = e - b * (1 / a) * d := by
        rw [← hd, ← he]; ring
      rw [h2]
      exact mul_one_div_cancel hu

end

/-! ### Solving a 3-by-3 system -/

section

variable {K : Type} [LinearOrderedField K]

/-- The value `vtkLUSolve3x3` leaves in `x`: forward and back substitution
on the right-hand side with its cells interchanged as `index` records. -/
theorem LUSolve3x3_spec (A : Mat K) (idx : Nat → Nat) (x : Vec K) (h0 : idx 0 < 3)
    (h1 : idx 1 = 1 ∨ idx 1 = 2) (h2 : idx 2 = 2) (p : Vec K)
    (hp : p = interchangeVec 1 (idx 1) (interchangeVec 0 (idx 0) x)) :
    LUSolve3x3 A idx x 2 = (p 2 - A 2 0 * p 0 - A 2 1 * (p 1 - A 1 0 * p 0)) * A 2 2 ∧
    LUSolve3x3 A idx x 1 = ((p 1 - A 1 0 * p 0) - A 1 2 * LUSolve3x3 A idx x 2) * A 1 1 ∧
    LUSolve3x3 A idx x 0
      = (p 0 - A 0 1 * LUSolve3x3 A idx x 1 - A 0 2 * LUSolve3x3 A idx x 2) * A 0 0 := by
  subst hp
  generalize hi : idx 0 = i0 at h0
  rcases h1 with h1 | h1 <;> interval_cases i0 <;>
    simp [LUSolve3x3, Vec.set, interchangeVec, swapIdx, hi, h1, h2]

/-- C12: over exact real arithmetic, for every 3-by-3 matrix `A` with
non-zero determinant and every 3-vector `x`, the vector `y` that
`LinearSolve3x3(A, x, y)` produces satisfies `A·y = x`.  (`A` and `x` are
`const` parameters, read only; the factorisation works on a copy and
stores the reciprocals of the three pivots, by which the substitution
multiplies.) -/
theorem LinearSolve3x3_solves (A : Mat K) (x y : Vec K) (hdet : Determinant3x3 A ≠ 0) :
    ∀ i, i < 3 → ∑ k in Finset.range 3, A i k * LinearSolve3x3 A x y k = x i := by
  have hB : Same3x3 (copy3x3 A (fun _ _ => 0)) A := by
    intro i j hi hj
    rw [copy3x3_spec, if_pos ⟨hi, hj⟩]
  have hdB : Determinant3x3 (copy3x3 A (fun _ _ => 0)) ≠ 0 := by
    rw [det_congr _ _ hB]; exact hdet
  have hL : LinearSolve3x3 A x y = LUSolve3x3
      (LUFactor3x3 (copy3x3 A (fun _ _ => 0)) (fun _ => 0)).A
      (LUFactor3x3 (copy3x3 A (fun _ _ => 0)) (fun _ => 0)).index (copy3 x y) := rfl
  rw [hL]
  generalize hF : LUFactor3x3 (copy3x3 A (fun _ _ => 0)) (fun _ => 0) = F
  obtain ⟨i0, i1, i2, h00, h01, h02, h10, h11, h12, h20, h21, h22⟩ :=
    LUFactor3x3_spec (copy3x3 A (fun _ _ => 0)) (fun _ => 0) hdB F hF.symm _ rfl
  obtain ⟨s2, s1, s0⟩ := LUSolve3x3_spec F.A F.index (copy3 x y) i0 i1 i2 _ rfl
  obtain ⟨r0, r1, r2⟩ := lu3_algebra _ _ _ h00 h01 h02 h10 h11 h12 h20 h21 h22
    _ _ _ _ _ _ rfl rfl rfl s2 s1 s0
  have hi1 : F.index 1 < 3 := by rcases i1 with h | h <;> omega
  have hsol : ∀ i, i < 3 → matVec 3 (copy3x3 A (fun _ _ => 0))
      (LUSolve3x3 F.A F.index (copy3 x y)) i = copy3 x y i := by
    apply solves_of_interchange 3 0 (F.index 0) _ _ _ (by norm_num) i0
    apply solves_of_interchange 3 1 (F.index 1) _ _ _ (by norm_num) hi1
    intro i hi
    simp only [matVec, Finset.sum_range_succ, Finset.sum_range_zero, zero_add]
    interval_cases i
    · exact r0
    · exact r1
    · exact r2
  intro i hi
  have := hsol i hi
  simp only [matVec] at this
  rw [copy3_spec, if_pos hi] at this
  rw [← this]
  apply Finset.sum_congr rfl
  intro k hk
  rw [hB i k hi (Finset.mem_range.mp hk)]

/-- The system with matrix `[[2,1,1],[4,3,3],[8,7,9]]`, determinant 4, and
right-hand side `(4, 10, 24)`. -/
theorem LinearSolve3x3_solves_witness :
    Determinant3x3 sampleA ≠ 0 ∧
    ∀ i, i < 3 → ∑ k in Finset.range 3, sampleA i k * LinearSolve3x3 sampleA sampleB
      (fun _ => 0) k = sampleB i :=
  ⟨by decide!, LinearSolve3x3_solves sampleA sampleB (fun _ => 0) (by decide!)⟩

end

/-! ### Unit quaternions from the eigensolver; row interchanges and negation -/

section

variable {K : Type} [LinearOrderedField K]

/-- The matrix `v` that `JacobiN` leaves has orthonormal columns, whichever
value is returned. -/
theorem JacobiN_columns (sqrt : K → K) (hsqrt : ExactSqrt sqrt) (a : Mat K) (n : Nat)
    (w : Vec K) (v : Mat K) : Orthogonal n (JacobiN sqrt a n w v).v := by
  have hpre := jacobiSweeps_orthogonal sqrt hsqrt a n w v
  unfold JacobiN
  simp only
  split
  · exact hpre
  · dsimp only
    obtain ⟨⟨p, q, hpq, _, hsv⟩, _⟩ :=
      jacobiSort_spec n (jacobiSweeps sqrt a n w v).1.w (jacobiSweeps sqrt a n w v).1.v
    obtain ⟨hsign, _⟩ := jacobiNormalize_spec n
      (jacobiSort n (jacobiSweeps sqrt a n w v).1.w (jacobiSweeps sqrt a n w v).1.v).2
    exact orthogonal_signs n _ _ hsign (orthogonal_perm n _ _ p q hpq hsv hpre)

/-- The quaternion `Matrix3x3ToQuaternion` writes has length 1, for every
matrix. -/
theorem Matrix3x3ToQuaternion_unit (sqrt : K → K) (hsqrt : ExactSqrt sqrt) (A : Mat K)
    (quat : Vec K) :
    Matrix3x3ToQuaternion sqrt A quat 0 * Matrix3x3ToQuaternion sqrt A quat 0
      + Matrix3x3ToQuaternion sqrt A quat 1 * Matrix3x3ToQuaternion sqrt A quat 1
      + Matrix3x3ToQuaternion sqrt A quat 2 * Matrix3x3ToQuaternion sqrt A quat 2
      + Matrix3x3ToQuaternion sqrt A quat 3 * Matrix3x3ToQuaternion sqrt A quat 3 = 1 := by
  have h := JacobiN_columns sqrt hsqrt (hornMatrix A) 4 (fun _ => 0) (fun _ _ => 0) 0 0
    (by norm_num) (by norm_num)
  simp only [Finset.sum_range_succ, Finset.sum_range_zero, zero_add, identity, if_true] at h
  exact h

theorem firstPivot3_lt (A : Mat K) (s : Vec K) : firstPivot3 A s < 3 := by
  unfold firstPivot3
  simp only
  split_ifs <;> norm_num

theorem rows_reindex (A B : Mat K) (σ : Nat → Nat) (hσ : ∀ i, i < 3 → σ i < 3)
    (hinj : ∀ i j, i < 3 → j < 3 → σ i = σ j → i = j)
    (hB : ∀ i k, i < 3 → k < 3 → B i k = A (σ i) k) (hA : RowsOrthonormal A) :
    RowsOrthonormal B := by
  intro i j hi hj
  have : ∑ k in Finset.range 3, B i k * B j k = ∑ k in Finset.range 3, A (σ i) k * A (σ j) k :=
    Finset.sum_congr rfl (fun k hk => by
      rw [hB i k hi (Finset.mem_range.mp hk), hB j k hj (Finset.mem_range.mp hk)])
  rw [this, hA (σ i) (σ j) (hσ i hi) (hσ j hj)]
  simp only [identity]
  by_cases h : i = j
  · rw [if_pos h, if_pos (by rw [h])]
  · rw [if_neg h, if_neg (fun e => h (hinj i j hi hj e))]

theorem rows_swap3 (r1 r2 : Nat) (h1 : r1 < 3) (h2 : r2 < 3) (A : Mat K)
    (hA : RowsOrthonormal A) : RowsOrthonormal (vtkSwapVectors3 r1 r2 A) := by
  apply rows_reindex A _ (swapIdx r1 r2) (fun i hi => swapIdx_lt 3 r1 r2 i h1 h2 hi) _ _ hA
  · intro i j _ _ e
    have := congrArg (swapIdx r1 r2) e
    rwa [swapIdx_invol, swapIdx_invol] at this
  · intro i k _ hk
    rw [vtkSwapVectors3_spec, if_pos hk]

theorem det_swap3 (r1 r2 : Nat) (h1 : r1 < 3) (h2 : r2 < 3) (hne : r1 ≠ r2) (A : Mat K) :
    Determinant3x3 (vtkSwapVectors3 r1 r2 A) = -Determinant3x3 A := by
  have h : Same3x3 (vtkSwapVectors3 r1 r2 A) (interchange r1 r2 A) := by
    intro i k _ hk
    rw [vtkSwapVectors3_spec, if_pos hk]
    rfl
  rw [det_congr _ _ h, det_interchange r1 r2 h1 h2, if_neg hne]

theorem rows_negate3 (A : Mat K) (hA : RowsOrthonormal A) : RowsOrthonormal (negate3x3 A) := by
  intro i j hi hj
  rw [← hA i j hi hj]
  apply Finset.sum_congr rfl
  intro k hk
  have hk3 := Finset.mem_range.mp hk
  rw [negate3x3_spec, negate3x3_spec, if_pos ⟨hi, hk3⟩, if_pos ⟨hj, hk3⟩]
  ring

theorem det_negate3 (A : Mat K) : Determinant3x3 (negate3x3 A) = -Determinant3x3 A := by
  simp only [Determinant3x3, negate3x3_spec]
  norm_num
  ring

end

/-! ### The steps of `Orthogonalize3x3` -/

section

variable {K : Type} [LinearOrderedField K]

/-- The pivoting of `vtkOrthogonalize3x3` interchanges rows: the matrix it
leaves has the determinant of the input up to the sign `e` of the
interchanges, which the un-pivoting at the end applies again. -/
theorem orthoPivot_spec (B : Mat K) :
    (orthoPivot B).2.1 < 3 ∧ ((orthoPivot B).2.2 = 1 ∨ (orthoPivot B).2.2 = 2) ∧
    Determinant3x3 (orthoPivot B).1
      = (if (orthoPivot B).2.2 ≠ 1 then -1 else 1)
        * ((if (orthoPivot B).2.1 ≠ 0 then -1 else 1) * Determinant3x3 B) := by
  unfold orthoPivot
  simp only
  have hm0 := firstPivot3_lt B (scaleLoop3 B fun _ => 0)
  refine ⟨hm0, ?_, ?_⟩
  · split_ifs <;> simp
  · have aux : ∀ (c : Prop) [Decidable c] (X : Mat K),
        Determinant3x3 (if (if c then 2 else 1) = 2 then vtkSwapVectors3 2 1 X else X)
          = (if (if c then 2 else 1) ≠ 1 then -1 else 1) * Determinant3x3 X := by
      intro c _ X
      by_cases hc : c
      · simp [hc, det_swap3 2 1 (by norm_num) (by norm_num) (by norm_num)]
      · simp [hc]
    by_cases h0 : firstPivot3 B (scaleLoop3 B fun _ => 0) ≠ 0
    · simp only [if_pos h0]
      rw [aux, det_swap3 _ 0 hm0 (by norm_num) h0 B]
      ring
    · simp only [if_neg h0]
      rw [aux, one_mul]

/-- What `vtkOrthogonalize3x3` returns, for every input: a matrix with
orthonormal rows whose determinant is `-1` or `+1` with the sign the flip
and the row interchanges leave. -/
theorem Orthogonalize3x3_spec (sqrt : K → K) (hsqrt : ExactSqrt sqrt) (A B : Mat K) :
    RowsOrthonormal (Orthogonalize3x3 sqrt A B) ∧
    (0 < Determinant3x3 A → Determinant3x3 (Orthogonalize3x3 sqrt A B) = 1) ∧
    (Determinant3x3 A < 0 → Determinant3x3 (Orthogonalize3x3 sqrt A B) = -1) := by
  have hcopy : Determinant3x3 (copy3x3 A B) = Determinant3x3 A :=
    det_congr _ _ (fun i j hi hj => by rw [copy3x3_spec, if_pos ⟨hi, hj⟩])
  obtain ⟨hi0, hi1, hdP⟩ := orthoPivot_spec (copy3x3 A B)
  rw [hcopy] at hdP
  unfold Orthogonalize3x3
  simp only
  generalize orthoPivot (copy3x3 A B) = p at hi0 hi1 hdP
  obtain ⟨P, i0, i1⟩ := p
  dsimp only at hi0 hi1 hdP ⊢
  generalize hq : Matrix3x3ToQuaternion sqrt (if Determinant3x3 P < 0 then negate3x3 P else P)
    (fun _ => 0) = q
  have hunit := Matrix3x3ToQuaternion_unit sqrt hsqrt
    (if Determinant3x3 P < 0 then negate3x3 P else P) (fun _ => 0)
  rw [hq] at hunit
  obtain ⟨hQ1, hQ2⟩ := quat_rotation sqrt hsqrt q
    (if Determinant3x3 P < 0 then negate3x3 P else P) hunit
  generalize QuaternionToMatrix3x3 sqrt q (if Determinant3x3 P < 0 then negate3x3 P else P)
    = Q at hQ1 hQ2
  have hT1 : RowsOrthonormal (if Determinant3x3 P < 0 then negate3x3 Q else Q) ∧
      Determinant3x3 (if Determinant3x3 P < 0 then negate3x3 Q else Q)
        = if Determinant3x3 P < 0 then -1 else 1 := by
    split_ifs
    · exact ⟨rows_negate3 Q hQ1, by rw [det_negate3, hQ2]⟩
    · exact ⟨hQ1, hQ2⟩
  generalize (if Determinant3x3 P < 0 then negate3x3 Q else Q) = T1 at hT1
  obtain ⟨hT1r, hT1d⟩ := hT1
  have hi1' : i1 < 3 := by rcases hi1 with h | h <;> omega
  have hT2 : RowsOrthonormal (if i1 ≠ 1 then vtkSwapVectors3 i1 1 T1 else T1) ∧
      Determinant3x3 (if i1 ≠ 1 then vtkSwapVectors3 i1 1 T1 else T1)
        = (if i1 ≠ 1 then -1 else 1) * Determinant3x3 T1 := by
    split_ifs with h
    · exact ⟨rows_swap3 i1 1 hi1' (by norm_num) T1 hT1r,
        by rw [det_swap3 i1 1 hi1' (by norm_num) h]; ring⟩
    · exact ⟨hT1r, by rw [one_mul]⟩
  generalize (if i1 ≠ 1 then vtkSwapVectors3 i1 1 T1 else T1) = T2 at hT2
  obtain ⟨hT2r, hT2d⟩ := hT2
  have hT3 : RowsOrthonormal (if i0 ≠ 0 then vtkSwapVectors3 i0 0 T2 else T2) ∧
      Determinant3x3 (if i0 ≠ 0 then vtkSwapVectors3 i0 0 T2 else T2)
        = (if i0 ≠ 0 then -1 else 1) * Determinant3x3 T2 := by
    split_ifs with h
    · exact ⟨rows_swap3 i0 0 hi0 (by norm_num) T2 hT2r,
        by rw [det_swap3 i0 0 hi0 (by norm_num) h]; ring⟩
    · exact ⟨hT2r, by rw [one_mul]⟩
  obtain ⟨hT3r, hT3d⟩ := hT3
  have he0 : (if i0 ≠ 0 then (-1 : K) else 1) = 1 ∨ (if i0 ≠ 0 then (-1 : K) else 1) = -1 := by
    split_ifs
    · exact Or.inr rfl
    · exact Or.inl rfl
  have he1 : (if i1 ≠ 1 then (-1 : K) else 1) = 1 ∨ (if i1 ≠ 1 then (-1 : K) else 1) = -1 := by
    split_ifs
    · exact Or.inr rfl
    · exact Or.inl rfl
  generalize (if i0 ≠ 0 then (-1 : K) else 1) = e0 at he0 hdP hT3d
  generalize (if i1 ≠ 1 then (-1 : K) else 1) = e1 at he1 hdP hT2d
  refine ⟨hT3r, ?_, ?_⟩
  · intro hpos
    rw [hT3d, hT2d, hT1d]
    rcases he0 with h0 | h0 <;> rcases he1 with h1 | h1 <;> subst h0 <;> subst h1 <;>
      split_ifs with hd <;> first | (exfalso; rw [hdP] at hd; linarith) | norm_num
  · intro hneg
    rw [hT3d, hT2d, hT1d]
    rcases he0 with h0 | h0 <;> rcases he1 with h1 | h1 <;> subst h0 <;> subst h1 <;>
      split_ifs with hd <;> first | (exfalso; rw [hdP] at hd; linarith) | norm_num

end

/-! ### What `Orthogonalize3x3` returns -/

section

variable {K : Type} [LinearOrderedField K]

/-- C16, as the code has it: over exact real arithmetic, for every 3-by-3
matrix `A` with non-zero determinant the matrix `B` that
`Orthogonalize3x3(A, B)` returns is orthogonal, `B·Bᵗ = I`, with
`det B = +1` when `det A > 0` and `det B = -1` when `det A < 0`: the flip
removed before the quaternion step is put back. -/
theorem Orthogonalize3x3_orthogonal (sqrt : K → K) (hsqrt : ExactSqrt sqrt) (A B : Mat K)
    (hdet : Determinant3x3 A ≠ 0) :
    RowsOrthonormal (Orthogonalize3x3 sqrt A B) ∧
    (0 < Determinant3x3 A → Determinant3x3 (Orthogonalize3x3 sqrt A B) = 1) ∧
    (Determinant3x3 A < 0 → Determinant3x3 (Orthogonalize3x3 sqrt A B) = -1) ∧
    (Determinant3x3 (Orthogonalize3x3 sqrt A B) = 1 ∨
      Determinant3x3 (Orthogonalize3x3 sqrt A B) = -1) := by
  obtain ⟨h1, h2, h3⟩ := Orthogonalize3x3_spec sqrt hsqrt A B
  refine ⟨h1, h2, h3, ?_⟩
  rcases lt_or_gt_of_ne hdet with h | h
  · exact Or.inr (h3 h)
  · exact Or.inl (h2 h)

/-- The matrix `2·I` over the reals, of determinant 8. -/
theorem Orthogonalize3x3_orthogonal_witness :
    RowsOrthonormal (Orthogonalize3x3 Real.sqrt (fun i j => 2 * identity i j) (fun _ _ => 0)) ∧
    (0 < Determinant3x3 (fun i j => 2 * identity i j : Mat ℝ) →
      Determinant3x3 (Orthogonalize3x3 Real.sqrt (fun i j => 2 * identity i j)
        (fun _ _ => 0)) = 1) ∧
    (Determinant3x3 (fun i j => 2 * identity i j : Mat ℝ) < 0 →
      Determinant3x3 (Orthogonalize3x3 Real.sqrt (fun i j => 2 * identity i j)
        (fun _ _ => 0)) = -1) ∧
    (Determinant3x3 (Orthogonalize3x3 Real.sqrt (fun i j => 2 * identity i j)
        (fun _ _ => 0)) = 1 ∨
      Determinant3x3 (Orthogonalize3x3 Real.sqrt (fun i j => 2 * identity i j)
        (fun _ _ => 0)) = -1) :=
  Orthogonalize3x3_orthogonal Real.sqrt exactSqrt_real (fun i j => 2 * identity i j)
    (fun _ _ => 0) (by simp [Determinant3x3, identity])

/-- C16 as stated fails at `A = -I`, whose determinant is `-1`: the matrix
`Orthogonalize3x3` returns has determinant `-1`, so it is not a proper
rotation. -/
theorem Orthogonalize3x3_reflection :
    Determinant3x3 (fun i j => -identity i j : Mat ℝ) ≠ 0 ∧
    Determinant3x3 (Orthogonalize3x3 Real.sqrt (fun i j => -identity i j) (fun _ _ => 0))
      = -1 ∧
    ¬ ProperRotation (Orthogonalize3x3 Real.sqrt (fun i j => -identity i j) (fun _ _ => 0)) := by
  have hd : Determinant3x3 (fun i j => -identity i j : Mat ℝ) = -1 := by
    simp [Determinant3x3, identity]
  have h := (Orthogonalize3x3_spec Real.sqrt exactSqrt_real (fun i j => -identity i j)
    (fun _ _ => 0)).2.2 (by rw [hd]; norm_num)
  refine ⟨by rw [hd]; norm_num, h, fun hp => ?_⟩
  have := hp.2
  rw [h] at this
  norm_num at this

end

/-! ### Orthonormal rows and columns of a 3-by-3 matrix -/

section

variable {K : Type} [LinearOrderedField K]

/-- The nine dot products of the rows, written out. -/
theorem rows_dots (V : Mat K) (h : RowsOrthonormal V) (i j : Nat) (hi : i < 3) (hj : j < 3) :
    V i 0 * V j 0 + V i 1 * V j 1 + V i 2 * V j 2 = if i = j then 1 else 0 := by
  have := h i j hi hj
  simpa only [Finset.sum_range_succ, Finset.sum_range_zero, zero_add, identity] using this

/-- A 3-by-3 matrix with orthonormal rows has determinant `1` or `-1`. -/
theorem det_rows_sq (V : Mat K) (h : RowsOrthonormal V) :
    Determinant3x3 V * Determinant3x3 V = 1 := by
  have h00 := rows_dots V h 0 0 (by norm_num) (by norm_num)
  have h01 := rows_dots V h 0 1 (by norm_num) (by norm_num)
  have h02 := rows_dots V h 0 2 (by norm_num) (by norm_num)
  have h10 := rows_dots V h 1 0 (by norm_num) (by norm_num)
  have h11 := rows_dots V h 1 1 (by norm_num) (by norm_num)
  have h12 := rows_dots V h 1 2 (by norm_num) (by norm_num)
  have h20 := rows_dots V h 2 0 (by norm_num) (by norm_num)
  have h21 := rows_dots V h 2 1 (by norm_num) (by norm_num)
  have h22 := rows_dots V h 2 2 (by norm_num) (by norm_num)
  norm_num at h00 h01 h02 h10 h11 h12 h20 h21 h22
  simp only [Determinant3x3]
  linear_combination (((V 1 0 * V 1 0 + V 1 1 * V 1 1 + V 1 2 * V 1 2)) * ((V 2 0 * V 2 0 + V 2 1 * V 2 1 + V 2 2 * V 2 2)) - ((V 1 0 * V 2 0 + V 1 1 * V 2 1 + V 1 2 * V 2 2)) * ((V 2 0 * V 1 0 + V 2 1 * V 1 1 + V 2 2 * V 1 2))) * h00 + ((V 2 0 * V 2 0 + V 2 1 * V 2 1 + V 2 2 * V 2 2)) * h11 + h22 - ((V 2 0 * V 1 0 + V 2 1 * V 1 1 + V 2 2 * V 1 2)) * h12 - (((V 1 0 * V 0 0 + V 1 1 * V 0 1 + V 1 2 * V 0 2)) * ((V 2 0 * V 2 0 + V 2 1 * V 2 1 + V 2 2 * V 2 2)) - ((V 1 0 * V 2 0 + V 1 1 * V 2 1 + V 1 2 * V 2 2)) * ((V 2 0 * V 0 0 + V 2 1 * V 0 1 + V 2 2 * V 0 2))) * h01 + (((V 1 0 * V 0 0 + V 1 1 * V 0 1 + V 1 2 * V 0 2)) * ((V 2 0 * V 1 0 + V 2 1 * V 1 1 + V 2 2 * V 1 2)) - ((V 1 0 * V 1 0 + V 1 1 * V 1 1 + V 1 2 * V 1 2)) * ((V 2 0 * V 0 0 + V 2 1 * V 0 1 + V 2 2 * V 0 2))) * h02

/-- A 3-by-3 matrix with orthonormal rows has orthonormal columns. -/
theorem cols_of_rows (V : Mat K) (h : RowsOrthonormal V) (i j : Nat) (hi : i < 3) (hj : j < 3) :
    V 0 i * V 0 j + V 1 i * V 1 j + V 2 i * V 2 j = if i = j then 1 else 0 := by
  have h00 := rows_dots V h 0 0 (by norm_num) (by norm_num)
  have h01 := rows_dots V h 0 1 (by norm_num) (by norm_num)
  have h02 := rows_dots V h 0 2 (by norm_num) (by norm_num)
  have h10 := rows_dots V h 1 0 (by norm_num) (by norm_num)
  have h11 := rows_dots V h 1 1 (by norm_num) (by norm_num)
  have h12 := rows_dots V h 1 2 (by norm_num) (by norm_num)
  have h20 := rows_dots V h 2 0 (by norm_num) (by norm_num)
  have h21 := rows_dots V h 2 1 (by norm_num) (by norm_num)
  have h22 := rows_dots V h 2 2 (by norm_num) (by norm_num)
  norm_num at h00 h01 h02 h10 h11 h12 h20 h21 h22
  have hD := det_rows_sq V h
  simp only [Determinant3x3] at hD
  have e00 : (V 0 0 * (V 1 1 * V 2 2 - V 1 2 * V 2 1) - V 0 1 * (V 1 0 * V 2 2 - V 1 2 * V 2 0) + V 0 2 * (V 1 0 * V 2 1 - V 1 1 * V 2 0)) * V 0 0 = (V 1 1 * V 2 2 - V 1 2 * V 2 1) := by
    linear_combination (V 1 1 * V 2 2 - V 1 2 * V 2 1) * h00 + (-(V 0 1 * V 2 2 - V 0 2 * V 2 1)) * h10 + (V 0 1 * V 1 2 - V 0 2 * V 1 1) * h20
  have e01 : (V 0 0 * (V 1 1 * V 2 2 - V 1 2 * V 2 1) - V 0 1 * (V 1 0 * V 2 2 - V 1 2 * V 2 0) + V 0 2 * (V 1 0 * V 2 1 - V 1 1 * V 2 0)) * V 1 0 = (-(V 0 1 * V 2 2 - V 0 2 * V 2 1)) := by
    linear_combination (V 1 1 * V 2 2 - V 1 2 * V 2 1) * h01 + (-(V 0 1 * V 2 2 - V 0 2 * V 2 1)) * h11 + (V 0 1 * V 1 2 - V 0 2 * V 1 1) * h21
  have e02 : (V 0 0 * (V 1 1 * V 2 2 - V 1 2 * V 2 1) - V 0 1 * (V 1 0 * V 2 2 - V 1 2 * V 2 0) + V 0 2 * (V 1 0 * V 2 1 - V 1 1 * V 2 0)) * V 2 0 = (V 0 1 * V 1 2 - V 0 2 * V 1 1) := by
    linear_combination (V 1 1 * V 2 2 - V 1 2 * V 2 1) * h02 + (-(V 0 1 * V 2 2 - V 0 2 * V 2 1)) * h12 + (V 0 1 * V 1 2 - V 0 2 * V 1 1) * h22
  have e10 : (V 0 0 * (V 1 1 * V 2 2 - V 1 2 * V 2 1) - V 0 1 * (V 1 0 * V 2 2 - V 1 2 * V 2 0) + V 0 2 * (V 1 0 * V 2 1 - V 1 1 * V 2 0)) * V 0 1 = (-(V 1 0 * V 2 2 - V 1 2 * V 2 0)) := by
    linear_combination (-(V 1 0 * V 2 2 - V 1 2 * V 2 0)) * h00 + (V 0 0 * V 2 2 - V 0 2 * V 2 0) * h10 + (-(V 0 0 * V 1 2 - V 0 2 * V 1 0)) * h20
  have e11 : (V 0 0 * (V 1 1 * V 2 2 - V 1 2 * V 2 1) - V 0 1 * (V 1 0 * V 2 2 - V 1 2 * V 2 0) + V 0 2 * (V 1 0 * V 2 1 - V 1 1 * V 2 0)) * V 1 1 = (V 0 0 * V 2 2 - V 0 2 * V 2 0) := by
    linear_combination (-(V 1 0 * V 2 2 - V 1 2 * V 2 0)) * h01 + (V 0 0 * V 2 2 - V 0 2 * V 2 0) * h11 + (-(V 0 0 * V 1 2 - V 0 2 * V 1 0)) * h21
  have e12 : (V 0 0 * (V 1 1 * V 2 2 - V 1 2 * V 2 1) - V 0 1 * (V 1 0 * V 2 2 - V 1 2 * V 2 0) + V 0 2 * (V 1 0 * V 2 1 - V 1 1 * V 2 0)) * V 2 1 = (-(V 0 0 * V 1 2 - V 0 2 * V 1 0)) := by
    linear_combination (-(V 1 0 * V 2 2 - V 1 2 * V 2 0)) * h02 + (V 0 0 * V 2 2 - V 0 2 * V 2 0) * h12 + (-(V 0 0 * V 1 2 - V 0 2 * V 1 0)) * h22
  have e20 : (V 0 0 * (V 1 1 * V 2 2 - V 1 2 * V 2 1) - V 0 1 * (V 1 0 * V 2 2 - V 1 2 * V 2 0) + V 0 2 * (V 1 0 * V 2 1 - V 1 1 * V 2 0)) * V 0 2 = (V 1 0 * V 2 1 - V 1 1 * V 2 0) := by
    linear_combination (V 1 0 * V 2 1 - V 1 1 * V 2 0) * h00 + (-(V 0 0 * V 2 1 - V 0 1 * V 2 0)) * h10 + (V 0 0 * V 1 1 - V 0 1 * V 1 0) * h20
  have e21 : (V 0 0 * (V 1 1 * V 2 2 - V 1 2 * V 2 1) - V 0 1 * (V 1 0 * V 2 2 - V 1 2 * V 2 0) + V 0 2 * (V 1 0 * V 2 1 - V 1 1 * V 2 0)) * V 1 2 = (-(V 0 0 * V 2 1 - V 0 1 * V 2 0)) := by
    linear_combination (V 1 0 * V 2 1 - V 1 1 * V 2 0) * h01 + (-(V 0 0 * V 2 1 - V 0 1 * V 2 0)) * h11 + (V 0 0 * V 1 1 - V 0 1 * V 1 0) * h21
  have e22 : (V 0 0 * (V 1 1 * V 2 2 - V 1 2 * V 2 1) - V 0 1 * (V 1 0 * V 2 2 - V 1 2 * V 2 0) + V 0 2 * (V 1 0 * V 2 1 - V 1 1 * V 2 0)) * V 2 2 = (V 0 0 * V 1 1 - V 0 1 * V 1 0) := by
    linear_combination (V 1 0 * V 2 1 - V 1 1 * V 2 0) * h02 + (-(V 0 0 * V 2 1 - V 0 1 * V 2 0)) * h12 + (V 0 0 * V 1 1 - V 0 1 * V 1 0) * h22
  interval_cases i <;> interval_cases j
  · norm_num
    linear_combination (1 - (V 0 0 * V 0 0 + V 1 0 * V 1 0 + V 2 0 * V 2 0)) * hD + (V 0 0 * (V 1 1 * V 2 2 - V 1 2 * V 2 1) - V 0 1 * (V 1 0 * V 2 2 - V 1 2 * V 2 0) + V 0 2 * (V 1 0 * V 2 1 - V 1 1 * V 2 0)) * (V 0 0 * e00 + V 1 0 * e01 + V 2 0 * e02)
  · norm_num
    linear_combination (0 - (V 0 0 * V 0 1 + V 1 0 * V 1 1 + V 2 0 * V 2 1)) * hD + (V 0 0 * (V 1 1 * V 2 2 - V 1 2 * V 2 1) - V 0 1 * (V 1 0 * V 2 2 - V 1 2 * V 2 0) + V 0 2 * (V 1 0 * V 2 1 - V 1 1 * V 2 0)) * (V 0 1 * e00 + V 1 1 * e01 + V 2 1 * e02)
  · norm_num
    linear_combination (0 - (V 0 0 * V 0 2 + V 1 0 * V 1 2 + V 2 0 * V 2 2)) * hD + (V 0 0 * (V 1 1 * V 2 2 - V 1 2 * V 2 1) - V 0 1 * (V 1 0 * V 2 2 - V 1 2 * V 2 0) + V 0 2 * (V 1 0 * V 2 1 - V 1 1 * V 2 0)) * (V 0 2 * e00 + V 1 2 * e01 + V 2 2 * e02)
  · norm_num
    linear_combination (0 - (V 0 1 * V 0 0 + V 1 1 * V 1 0 + V 2 1 * V 2 0)) * hD + (V 0 0 * (V 1 1 * V 2 2 - V 1 2 * V 2 1) - V 0 1 * (V 1 0 * V 2 2 - V 1 2 * V 2 0) + V 0 2 * (V 1 0 * V 2 1 - V 1 1 * V 2 0)) * (V 0 0 * e10 + V 1 0 * e11 + V 2 0 * e12)
  · norm_num
    linear_combination (1 - (V 0 1 * V 0 1 + V 1 1 * V 1 1 + V 2 1 * V 2 1)) * hD + (V 0 0 * (V 1 1 * V 2 2 - V 1 2 * V 2 1) - V 0 1 * (V 1 0 * V 2 2 - V 1 2 * V 2 0) + V 0 2 * (V 1 0 * V 2 1 - V 1 1 * V 2 0)) * (V 0 1 * e10 + V 1 1 * e11 + V 2 1 * e12)
  · norm_num
    linear_combination (0 - (V 0 1 * V 0 2 + V 1 1 * V 1 2 + V 2 1 * V 2 2)) * hD + (V 0 0 * (V 1 1 * V 2 2 - V 1 2 * V 2 1) - V 0 1 * (V 1 0 * V 2 2 - V 1 2 * V 2 0) + V 0 2 * (V 1 0 * V 2 1 - V 1 1 * V 2 0)) * (V 0 2 * e10 + V 1 2 * e11 + V 2 2 * e12)
  · norm_num
    linear_combination (0 - (V 0 2 * V 0 0 + V 1 2 * V 1 0 + V 2 2 * V 2 0)) * hD + (V 0 0 * (V 1 1 * V 2 2 - V 1 2 * V 2 1) - V 0 1 * (V 1 0 * V 2 2 - V 1 2 * V 2 0) + V 0 2 * (V 1 0 * V 2 1 - V 1 1 * V 2 0)) * (V 0 0 * e20 + V 1 0 * e21 + V 2 0 * e22)
  · norm_num
    linear_combination (0 - (V 0 2 * V 0 1 + V 1 2 * V 1 1 + V 2 2 * V 2 1)) * hD + (V 0 0 * (V 1 1 * V 2 2 - V 1 2 * V 2 1) - V 0 1 * (V 1 0 * V 2 2 - V 1 2 * V 2 0) + V 0 2 * (V 1 0 * V 2 1 - V 1 1 * V 2 0)) * (V 0 1 * e20 + V 1 1 * e21 + V 2 1 * e22)
  · norm_num
    linear_combination (1 - (V 0 2 * V 0 2 + V 1 2 * V 1 2 + V 2 2 * V 2 2)) * hD + (V 0 0 * (V 1 1 * V 2 2 - V 1 2 * V 2 1) - V 0 1 * (V 1 0 * V 2 2 - V 1 2 * V 2 0) + V 0 2 * (V 1 0 * V 2 1 - V 1 1 * V 2 0)) * (V 0 2 * e20 + V 1 2 * e21 + V 2 2 * e22)

end

/-! ### Row negation, transposition, and the three-distinct path -/

section

variable {K : Type} [LinearOrderedField K]

theorem negateRow_spec (r : Nat) (V : Mat K) (i c : Nat) :
    negateRow r V i c = if i = r ∧ c < 3 then -V i c else V i c := by
  simp only [negateRow, Mat.set]
  by_cases hi : i = r
  · subst hi
    by_cases hc : c < 3
    · interval_cases c <;> simp
    · have : c ≠ 0 ∧ c ≠ 1 ∧ c ≠ 2 := by omega
      simp [this, hc]
  · simp [hi]

theorem rows_negateRow (r : Nat) (V : Mat K) (h : RowsOrthonormal V) :
    RowsOrthonormal (negateRow r V) := by
  intro i j hi hj
  have hij := h i j hi hj
  simp only [Finset.sum_range_succ, Finset.sum_range_zero, zero_add, negateRow_spec] at hij ⊢
  by_cases h1 : i = r <;> by_cases h2 : j = r
  · simp only [h1, h2, true_and, show (0 : Nat) < 3 by norm_num, show (1 : Nat) < 3 by norm_num,
      show (2 : Nat) < 3 by norm_num, if_true] at hij ⊢
    linear_combination hij
  · have h3 : i ≠ j := fun e => h2 (e ▸ h1)
    simp only [h1, h2, true_and, false_and, show (0 : Nat) < 3 by norm_num,
      show (1 : Nat) < 3 by norm_num, show (2 : Nat) < 3 by norm_num, if_true, if_false,
      identity] at hij ⊢
    rw [if_neg (fun e => h2 e.symm)] at hij ⊢
    linear_combination -hij
  · simp only [h1, h2, true_and, false_and, show (0 : Nat) < 3 by norm_num,
      show (1 : Nat) < 3 by norm_num, show (2 : Nat) < 3 by norm_num, if_true, if_false,
      identity] at hij ⊢
    linear_combination -hij
  · simp only [h1, h2, false_and, if_false] at hij ⊢
    exact hij

theorem det_negateRow (r : Nat) (hr : r < 3) (V : Mat K) :
    Determinant3x3 (negateRow r V) = -Determinant3x3 V := by
  simp only [Determinant3x3, negateRow_spec]
  interval_cases r <;> norm_num <;> ring

theorem det_transpose (V : Mat K) :
    Determinant3x3 (Transpose3x3 true V V) = Determinant3x3 V := by
  simp only [Determinant3x3, Transpose3x3_aliased]
  norm_num
  ring

theorem rows_transpose (V : Mat K) (h : RowsOrthonormal V) :
    RowsOrthonormal (Transpose3x3 true V V) := by
  intro i j hi hj
  have := cols_of_rows V h i j hi hj
  simp only [Finset.sum_range_succ, Finset.sum_range_zero, zero_add, Transpose3x3_aliased,
    identity]
  simp only [hi, hj, true_and, show (0 : Nat) < 3 by norm_num, show (1 : Nat) < 3 by norm_num,
    show (2 : Nat) < 3 by norm_num, if_true]
  exact this

/-- Transposing back keeps a proper rotation. -/
theorem rotation_transpose (V : Mat K) (h : ProperRotation V) :
    ProperRotation (Transpose3x3 true V V) :=
  ⟨rows_transpose V h.1, by rw [det_transpose]; exact h.2⟩

theorem argMaxCol0_lt (V : Mat K) : argMaxCol0 V < 3 := by
  simp only [argMaxCol0, loop_two_from_one]
  split_ifs <;> norm_num

/-- The tail of `vtkDiagonalize3x3` for three distinct eigenvalues turns
orthonormal rows into a proper rotation. -/
theorem alignDistinct_rotation (w : Vec K) (V : Mat K) (h : RowsOrthonormal V) :
    ProperRotation (alignDistinct w V).V := by
  unfold alignDistinct
  simp only
  apply rotation_transpose
  have h1 : RowsOrthonormal (if argMaxCol0 V ≠ 0 then vtkSwapVectors3 (argMaxCol0 V) 0 V
      else V) := by
    split_ifs
    · exact rows_swap3 _ _ (argMaxCol0_lt V) (by norm_num) V h
    · exact h
  generalize (if argMaxCol0 V ≠ 0 then vtkSwapVectors3 (argMaxCol0 V) 0 V else V) = V1 at h1
  have h2 : RowsOrthonormal (if |V1 1 1| < |V1 2 1| then vtkSwapVectors3 2 1 V1 else V1) := by
    split_ifs
    · exact rows_swap3 _ _ (by norm_num) (by norm_num) V1 h1
    · exact h1
  generalize (if |V1 1 1| < |V1 2 1| then vtkSwapVectors3 2 1 V1 else V1) = V2 at h2
  have h3 : RowsOrthonormal (loop (fun i V => if V i i < 0 then negateRow i V else V) 0 2 V2) := by
    apply loop_preserve RowsOrthonormal _ 0 2 V2 h2
    intro k t _ ht
    dsimp only
    split_ifs
    · exact rows_negateRow _ t ht
    · exact ht
  generalize (loop (fun i V => if V i i < 0 then negateRow i V else V) 0 2 V2) = V3 at h3
  have hsq := det_rows_sq V3 h3
  split_ifs with hd
  · refine ⟨rows_negateRow 2 V3 h3, ?_⟩
    rw [det_negateRow 2 (by norm_num)]
    have : (Determinant3x3 V3 + 1) * (Determinant3x3 V3 - 1) = 0 := by linear_combination hsq
    rcases mul_eq_zero.mp this with e | e
    · linarith
    · linarith
  · refine ⟨h3, ?_⟩
    have : (Determinant3x3 V3 + 1) * (Determinant3x3 V3 - 1) = 0 := by linear_combination hsq
    rcases mul_eq_zero.mp this with e | e
    · exfalso; apply hd; linarith
    · linarith

end

/-! ### Frames built from cross products -/

section

variable {K : Type} [LinearOrderedField K]

/-- The modelled `Normalize` on a vector of non-zero length: division of
the three cells by a non-zero `d` with `d·d` the squared length. -/
theorem Normalize_spec (sqrt : K → K) (hsqrt : ExactSqrt sqrt) (x : Vec K)
    (hx : x 0 * x 0 + x 1 * x 1 + x 2 * x 2 ≠ 0) :
    ∃ d : K, d ≠ 0 ∧ d * d = x 0 * x 0 + x 1 * x 1 + x 2 * x 2 ∧
      Normalize sqrt x 0 = x 0 / d ∧ Normalize sqrt x 1 = x 1 / d ∧
      Normalize sqrt x 2 = x 2 / d := by
  have h0 : 0 ≤ x 0 * x 0 + x 1 * x 1 + x 2 * x 2 :=
    add_nonneg (add_nonneg (mul_self_nonneg _) (mul_self_nonneg _)) (mul_self_nonneg _)
  obtain ⟨_, hd⟩ := hsqrt _ h0
  have hne : sqrt (x 0 * x 0 + x 1 * x 1 + x 2 * x 2) ≠ 0 := by
    intro hz
    rw [hz, mul_zero] at hd
    exact hx hd.symm
  refine ⟨sqrt (x 0 * x 0 + x 1 * x 1 + x 2 * x 2), hne, hd, ?_, ?_, ?_⟩ <;>
    simp [Normalize, hne, Vec.set]

/-- A matrix whose rows are three given orthonormal vectors. -/
theorem rows_of_vectors (M : Mat K) (x0 x1 x2 : Vec K)
    (h0 : ∀ t, t < 3 → M 0 t = x0 t) (h1 : ∀ t, t < 3 → M 1 t = x1 t)
    (h2 : ∀ t, t < 3 → M 2 t = x2 t)
    (d00 : x0 0 * x0 0 + x0 1 * x0 1 + x0 2 * x0 2 = 1)
    (d11 : x1 0 * x1 0 + x1 1 * x1 1 + x1 2 * x1 2 = 1)
    (d22 : x2 0 * x2 0 + x2 1 * x2 1 + x2 2 * x2 2 = 1)
    (d01 : x0 0 * x1 0 + x0 1 * x1 1 + x0 2 * x1 2 = 0)
    (d02 : x0 0 * x2 0 + x0 1 * x2 1 + x0 2 * x2 2 = 0)
    (d12 : x1 0 * x2 0 + x1 1 * x2 1 + x1 2 * x2 2 = 0) : RowsOrthonormal M := by
  have a0 := h0 0 (by norm_num)
  have a1 := h0 1 (by norm_num)
  have a2 := h0 2 (by norm_num)
  have j0 := h1 0 (by norm_num)
  have j1 := h1 1 (by norm_num)
  have j2 := h1 2 (by norm_num)
  have k0 := h2 0 (by norm_num)
  have k1 := h2 1 (by norm_num)
  have k2 := h2 2 (by norm_num)
  intro r s hr hs
  simp only [Finset.sum_range_succ, Finset.sum_range_zero, zero_add, identity]
  interval_cases r <;> interval_cases s <;>
    simp only [a0, a1, a2, j0, j1, j2, k0, k1, k2] <;> norm_num <;>
    first
    | exact d00
    | exact d11
    | exact d22
    | exact d01
    | exact d02
    | exact d12
    | linear_combination d01
    | linear_combination d02
    | linear_combination d12

theorem det_of_vectors (M : Mat K) (x0 x1 x2 : Vec K)
    (h0 : ∀ t, t < 3 → M 0 t = x0 t) (h1 : ∀ t, t < 3 → M 1 t = x1 t)
    (h2 : ∀ t, t < 3 → M 2 t = x2 t) :
    Determinant3x3 M = x0 0 * (x1 1 * x2 2 - x1 2 * x2 1) - x0 1 * (x1 0 * x2 2 - x1 2 * x2 0)
      + x0 2 * (x1 0 * x2 1 - x1 1 * x2 0) := by
  simp only [Determinant3x3]
  rw [h0 0 (by norm_num), h0 1 (by norm_num), h0 2 (by norm_num), h1 0 (by norm_num),
    h1 1 (by norm_num), h1 2 (by norm_num), h2 0 (by norm_num), h2 1 (by norm_num),
    h2 2 (by norm_num)]

/-- A row `m` of length 1, a row `n` of length 1 orthogonal to it and the
row `n × m`, placed in the rows `a`, `k`, `j` with `(a, j, k)` a cyclic
shift of `(0, 1, 2)`, make a proper rotation. -/
theorem frame_rotation (M : Mat K) (m n c : Vec K) (a j k : Nat)
    (h : (a = 0 ∧ j = 1 ∧ k = 2) ∨ (a = 1 ∧ j = 2 ∧ k = 0) ∨ (a = 2 ∧ j = 0 ∧ k = 1))
    (hMa : ∀ t, t < 3 → M a t = m t) (hMj : ∀ t, t < 3 → M j t = c t)
    (hMk : ∀ t, t < 3 → M k t = n t)
    (hm : m 0 * m 0 + m 1 * m 1 + m 2 * m 2 = 1)
    (hn : n 0 * n 0 + n 1 * n 1 + n 2 * n 2 = 1)
    (hmn : m 0 * n 0 + m 1 * n 1 + m 2 * n 2 = 0)
    (hc0 : c 0 = n 1 * m 2 - n 2 * m 1) (hc1 : c 1 = n 2 * m 0 - n 0 * m 2)
    (hc2 : c 2 = n 0 * m 1 - n 1 * m 0) : ProperRotation M := by
  have dcc : c 0 * c 0 + c 1 * c 1 + c 2 * c 2 = 1 := by
    rw [hc0, hc1, hc2]
    linear_combination (m 0 * m 0 + m 1 * m 1 + m 2 * m 2) * hn + hm
      - (m 0 * n 0 + m 1 * n 1 + m 2 * n 2) * hmn
  have dcm : c 0 * m 0 + c 1 * m 1 + c 2 * m 2 = 0 := by
    rw [hc0, hc1, hc2]; ring
  have dcn : c 0 * n 0 + c 1 * n 1 + c 2 * n 2 = 0 := by
    rw [hc0, hc1, hc2]; ring
  have ddet : m 0 * (c 1 * n 2 - c 2 * n 1) - m 1 * (c 0 * n 2 - c 2 * n 0)
      + m 2 * (c 0 * n 1 - c 1 * n 0) = 1 := by
    rw [hc0, hc1, hc2]
    linear_combination (m 0 * m 0 + m 1 * m 1 + m 2 * m 2) * hn + hm
      - (m 0 * n 0 + m 1 * n 1 + m 2 * n 2) * hmn
  rcases h with ⟨e1, e2, e3⟩ | ⟨e1, e2, e3⟩ | ⟨e1, e2, e3⟩
  · rw [e1] at hMa; rw [e2] at hMj; rw [e3] at hMk
    refine ⟨rows_of_vectors M m c n hMa hMj hMk hm dcc hn ?_ hmn dcn, ?_⟩
    · linear_combination dcm
    · rw [det_of_vectors M m c n hMa hMj hMk]
      linear_combination ddet
  · rw [e1] at hMa; rw [e2] at hMj; rw [e3] at hMk
    refine ⟨rows_of_vectors M n m c hMk hMa hMj hn hm dcc ?_ ?_ ?_, ?_⟩
    · linear_combination hmn
    · linear_combination dcn
    · linear_combination dcm
    · rw [det_of_vectors M n m c hMk hMa hMj]
      linear_combination ddet
  · rw [e1] at hMa; rw [e2] at hMj; rw [e3] at hMk
    refine ⟨rows_of_vectors M c n m hMj hMk hMa dcc hn hm dcn dcm ?_, ?_⟩
    · linear_combination hmn
    · rw [det_of_vectors M c n m hMj hMk hMa]
      linear_combination ddet

/-- The search for the largest element of row `i`. -/
theorem argMaxRow_spec (V : Mat K) (i : Nat) :
    argMaxRow V i < 3 ∧ ∀ c, c < 3 → |V i c| ≤ |V i (argMaxRow V i)| := by
  simp only [argMaxRow, loop_two_from_one]
  by_cases h1 : |V i 0| < |V i 1|
  · by_cases h2 : |V i 1| < |V i 2|
    · simp only [h1, h2, if_true]
      refine ⟨by norm_num, fun c hc => ?_⟩
      interval_cases c <;> linarith
    · simp only [h1, h2, if_true, if_false]
      refine ⟨by norm_num, fun c hc => ?_⟩
      interval_cases c <;> linarith
  · by_cases h2 : |V i 0| < |V i 2|
    · simp only [h1, h2, if_true, if_false]
      refine ⟨by norm_num, fun c hc => ?_⟩
      interval_cases c <;> linarith
    · simp only [h1, h2, if_false]
      refine ⟨by norm_num, fun c hc => ?_⟩
      interval_cases c <;> linarith

end

/-! ### The frame of the two-equal path, entry by entry -/

section

variable {K : Type} [LinearOrderedField K]

omit [LinearOrderedField K] in
theorem setRow_same (V : Mat K) (r : Nat) (x : Vec K) : setRow V r x r = x := by
  simp [setRow]

theorem pair_frame0 (sqrt : K → K) (hsqrt : ExactSqrt sqrt) (V : Mat K)
    (hunit : V 0 0 * V 0 0 + V 0 1 * V 0 1 + V 0 2 * V 0 2 = 1) (hne : V 0 0 ≠ 0) :
    ProperRotation
      (setRow (setRow (setRow (Mat.set (Mat.set (Mat.set (Mat.set V 1 0 0) 1 1 0) 1 2 0) 1 1 1) 2 (Cross ((Mat.set (Mat.set (Mat.set (Mat.set V 1 0 0) 1 1 0) 1 2 0) 1 1 1) 0) ((Mat.set (Mat.set (Mat.set (Mat.set V 1 0 0) 1 1 0) 1 2 0) 1 1 1) 1) ((Mat.set (Mat.set (Mat.set (Mat.set V 1 0 0) 1 1 0) 1 2 0) 1 1 1) 2))) 2 (Normalize sqrt ((setRow (Mat.set (Mat.set (Mat.set (Mat.set V 1 0 0) 1 1 0) 1 2 0) 1 1 1) 2 (Cross ((Mat.set (Mat.set (Mat.set (Mat.set V 1 0 0) 1 1 0) 1 2 0) 1 1 1) 0) ((Mat.set (Mat.set (Mat.set (Mat.set V 1 0 0) 1 1 0) 1 2 0) 1 1 1) 1) ((Mat.set (Mat.set (Mat.set (Mat.set V 1 0 0) 1 1 0) 1 2 0) 1 1 1) 2))) 2))) 1 (Cross ((setRow (setRow (Mat.set (Mat.set (Mat.set (Mat.set V 1 0 0) 1 1 0) 1 2 0) 1 1 1) 2 (Cross ((Mat.set (Mat.set (Mat.set (Mat.set V 1 0 0) 1 1 0) 1 2 0) 1 1 1) 0) ((Mat.set (Mat.set (Mat.set (Mat.set V 1 0 0) 1 1 0) 1 2 0) 1 1 1) 1) ((Mat.set (Mat.set (Mat.set (Mat.set V 1 0 0) 1 1 0) 1 2 0) 1 1 1) 2))) 2 (Normalize sqrt ((setRow (Mat.set (Mat.set (Mat.set (Mat.set V 1 0 0) 1 1 0) 1 2 0) 1 1 1) 2 (Cross ((Mat.set (Mat.set (Mat.set (Mat.set V 1 0 0) 1 1 0) 1 2 0) 1 1 1) 0) ((Mat.set (Mat.set (Mat.set (Mat.set V 1 0 0) 1 1 0) 1 2 0) 1 1 1) 1) ((Mat.set (Mat.set (Mat.set (Mat.set V 1 0 0) 1 1 0) 1 2 0) 1 1 1) 2))) 2))) 2) ((setRow (setRow (Mat.set (Mat.set (Mat.set (Mat.set V 1 0 0) 1 1 0) 1 2 0) 1 1 1) 2 (Cross ((Mat.set (Mat.set (Mat.set (Mat.set V 1 0 0) 1 1 0) 1 2 0) 1 1 1) 0) ((Mat.set (Mat.set (Mat.set (Mat.set V 1 0 0) 1 1 0) 1 2 0) 1 1 1) 1) ((Mat.set (Mat.set (Mat.set (Mat.set V 1 0 0) 1 1 0) 1 2 0) 1 1 1) 2))) 2 (Normalize sqrt ((setRow (Mat.set (Mat.set (Mat.set (Mat.set V 1 0 0) 1 1 0) 1 2 0) 1 1 1) 2 (Cross ((Mat.set (Mat.set (Mat.set (Mat.set V 1 0 0) 1 1 0) 1 2 0) 1 1 1) 0) ((Mat.set (Mat.set (Mat.set (Mat.set V 1 0 0) 1 1 0) 1 2 0) 1 1 1) 1) ((Mat.set (Mat.set (Mat.set (Mat.set V 1 0 0) 1 1 0) 1 2 0) 1 1 1) 2))) 2))) 0) ((setRow (setRow (Mat.set (Mat.set (Mat.set (Mat.set V 1 0 0) 1 1 0) 1 2 0) 1 1 1) 2 (Cross ((Mat.set (Mat.set (Mat.set (Mat.set V 1 0 0) 1 1 0) 1 2 0) 1 1 1) 0) ((Mat.set (Mat.set (Mat.set (Mat.set V 1 0 0) 1 1 0) 1 2 0) 1 1 1) 1) ((Mat.set (Mat.set (Mat.set (Mat.set V 1 0 0) 1 1 0) 1 2 0) 1 1 1) 2))) 2 (Normalize sqrt ((setRow (Mat.set (Mat.set (Mat.set (Mat.set V 1 0 0) 1 1 0) 1 2 0) 1 1 1) 2 (Cross ((Mat.set (Mat.set (Mat.set (Mat.set V 1 0 0) 1 1 0) 1 2 0) 1 1 1) 0) ((Mat.set (Mat.set (Mat.set (Mat.set V 1 0 0) 1 1 0) 1 2 0) 1 1 1) 1) ((Mat.set (Mat.set (Mat.set (Mat.set V 1 0 0) 1 1 0) 1 2 0) 1 1 1) 2))) 2))) 1))) := by
  simp only [setRow_same]
  generalize hV3 : (Mat.set (Mat.set (Mat.set (Mat.set V 1 0 0) 1 1 0) 1 2 0) 1 1 1) = V3
  have m0 : V3 0 0 = V 0 0 := by rw [← hV3]; rfl
  have m1 : V3 0 1 = V 0 1 := by rw [← hV3]; rfl
  have m2 : V3 0 2 = V 0 2 := by rw [← hV3]; rfl
  have u0 : V3 1 0 = 0 := by rw [← hV3]; rfl
  have u1 : V3 1 1 = 1 := by rw [← hV3]; rfl
  have u2 : V3 1 2 = 0 := by rw [← hV3]; rfl
  generalize hx : Cross (V3 0) (V3 1) (V3 2) = x
  have x0 : x 0 = V3 0 1 * V3 1 2 - V3 0 2 * V3 1 1 := by rw [← hx]; rfl
  have x1 : x 1 = V3 0 2 * V3 1 0 - V3 0 0 * V3 1 2 := by rw [← hx]; rfl
  have x2 : x 2 = V3 0 0 * V3 1 1 - V3 0 1 * V3 1 0 := by rw [← hx]; rfl
  simp only [m0, m1, m2, u0, u1, u2, mul_zero, mul_one, sub_zero, zero_sub] at x0 x1 x2
  have hxx : x 0 * x 0 + x 1 * x 1 + x 2 * x 2 ≠ 0 := by
    rw [x0, x1, x2]
    have : 0 < V 0 0 * V 0 0 := mul_self_pos.mpr hne
    nlinarith [mul_self_nonneg (V 0 0), mul_self_nonneg (V 0 1), mul_self_nonneg (V 0 2)]
  obtain ⟨d, hd, hdd, n0, n1, n2⟩ := Normalize_spec sqrt hsqrt x hxx
  generalize Normalize sqrt x = n at n0 n1 n2
  simp only [x0, x1, x2] at n0 n1 n2 hdd
  apply frame_rotation _ (V3 0) n (Cross n (V3 0) (V3 1)) 0 1 2
    (by norm_num)
  · intro t ht
    rfl
  · intro t ht
    rfl
  · intro t ht
    rfl
  · rw [m0, m1, m2]; exact hunit
  · rw [n0, n1, n2]
    field_simp
    linear_combination -hdd
  · rw [m0, m1, m2, n0, n1, n2]
    field_simp
    ring
  · rfl
  · rfl
  · rfl

theorem pair_frame1 (sqrt : K → K) (hsqrt : ExactSqrt sqrt) (V : Mat K)
    (hunit : V 1 0 * V 1 0 + V 1 1 * V 1 1 + V 1 2 * V 1 2 = 1) (hne : V 1 1 ≠ 0) :
    ProperRotation
      (setRow (setRow (setRow (Mat.set (Mat.set (Mat.set (Mat.set V 2 0 0) 2 1 0) 2 2 0) 2 2 1) 0 (Cross ((Mat.set (Mat.set (Mat.set (Mat.set V 2 0 0) 2 1 0) 2 2 0) 2 2 1) 1) ((Mat.set (Mat.set (Mat.set (Mat.set V 2 0 0) 2 1 0) 2 2 0) 2 2 1) 2) ((Mat.set (Mat.set (Mat.set (Mat.set V 2 0 0) 2 1 0) 2 2 0) 2 2 1) 0))) 0 (Normalize sqrt ((setRow (Mat.set (Mat.set (Mat.set (Mat.set V 2 0 0) 2 1 0) 2 2 0) 2 2 1) 0 (Cross ((Mat.set (Mat.set (Mat.set (Mat.set V 2 0 0) 2 1 0) 2 2 0) 2 2 1) 1) ((Mat.set (Mat.set (Mat.set (Mat.set V 2 0 0) 2 1 0) 2 2 0) 2 2 1) 2) ((Mat.set (Mat.set (Mat.set (Mat.set V 2 0 0) 2 1 0) 2 2 0) 2 2 1) 0))) 0))) 2 (Cross ((setRow (setRow (Mat.set (Mat.set (Mat.set (Mat.set V 2 0 0) 2 1 0) 2 2 0) 2 2 1) 0 (Cross ((Mat.set (Mat.set (Mat.set (Mat.set V 2 0 0) 2 1 0) 2 2 0) 2 2 1) 1) ((Mat.set (Mat.set (Mat.set (Mat.set V 2 0 0) 2 1 0) 2 2 0) 2 2 1) 2) ((Mat.set (Mat.set (Mat.set (Mat.set V 2 0 0) 2 1 0) 2 2 0) 2 2 1) 0))) 0 (Normalize sqrt ((setRow (Mat.set (Mat.set (Mat.set (Mat.set V 2 0 0) 2 1 0) 2 2 0) 2 2 1) 0 (Cross ((Mat.set (Mat.set (Mat.set (Mat.set V 2 0 0) 2 1 0) 2 2 0) 2 2 1) 1) ((Mat.set (Mat.set (Mat.set (Mat.set V 2 0 0) 2 1 0) 2 2 0) 2 2 1) 2) ((Mat.set (Mat.set (Mat.set (Mat.set V 2 0 0) 2 1 0) 2 2 0) 2 2 1) 0))) 0))) 0) ((setRow (setRow (Mat.set (Mat.set (Mat.set (Mat.set V 2 0 0) 2 1 0) 2 2 0) 2 2 1) 0 (Cross ((Mat.set (Mat.set (Mat.set (Mat.set V 2 0 0) 2 1 0) 2 2 0) 2 2 1) 1) ((Mat.set (Mat.set (Mat.set (Mat.set V 2 0 0) 2 1 0) 2 2 0) 2 2 1) 2) ((Mat.set (Mat.set (Mat.set (Mat.set V 2 0 0) 2 1 0) 2 2 0) 2 2 1) 0))) 0 (Normalize sqrt ((setRow (Mat.set (Mat.set (Mat.set (Mat.set V 2 0 0) 2 1 0) 2 2 0) 2 2 1) 0 (Cross ((Mat.set (Mat.set (Mat.set (Mat.set V 2 0 0) 2 1 0) 2 2 0) 2 2 1) 1) ((Mat.set (Mat.set (Mat.set (Mat.set V 2 0 0) 2 1 0) 2 2 0) 2 2 1) 2) ((Mat.set (Mat.set (Mat.set (Mat.set V 2 0 0) 2 1 0) 2 2 0) 2 2 1) 0))) 0))) 1) ((setRow (setRow (Mat.set (Mat.set (Mat.set (Mat.set V 2 0 0) 2 1 0) 2 2 0) 2 2 1) 0 (Cross ((Mat.set (Mat.set (Mat.set (Mat.set V 2 0 0) 2 1 0) 2 2 0) 2 2 1) 1) ((Mat.set (Mat.set (Mat.set (Mat.set V 2 0 0) 2 1 0) 2 2 0) 2 2 1) 2) ((Mat.set (Mat.set (Mat.set (Mat.set V 2 0 0) 2 1 0) 2 2 0) 2 2 1) 0))) 0 (Normalize sqrt ((setRow (Mat.set (Mat.set (Mat.set (Mat.set V 2 0 0) 2 1 0) 2 2 0) 2 2 1) 0 (Cross ((Mat.set (Mat.set (Mat.set (Mat.set V 2 0 0) 2 1 0) 2 2 0) 2 2 1) 1) ((Mat.set (Mat.set (Mat.set (Mat.set V 2 0 0) 2 1 0) 2 2 0) 2 2 1) 2) ((Mat.set (Mat.set (Mat.set (Mat.set V 2 0 0) 2 1 0) 2 2 0) 2 2 1) 0))) 0))) 2))) := by
  simp only [setRow_same]
  generalize hV3 : (Mat.set (Mat.set (Mat.set (Mat.set V 2 0 0) 2 1 0) 2 2 0) 2 2 1) = V3
  have m0 : V3 1 0 = V 1 0 := by rw [← hV3]; rfl
  have m1 : V3 1 1 = V 1 1 := by rw [← hV3]; rfl
  have m2 : V3 1 2 = V 1 2 := by rw [← hV3]; rfl
  have u0 : V3 2 0 = 0 := by rw [← hV3]; rfl
  have u1 : V3 2 1 = 0 := by rw [← hV3]; rfl
  have u2 : V3 2 2 = 1 := by rw [← hV3]; rfl
  generalize hx : Cross (V3 1) (V3 2) (V3 0) = x
  have x0 : x 0 = V3 1 1 * V3 2 2 - V3 1 2 * V3 2 1 := by rw [← hx]; rfl
  have x1 : x 1 = V3 1 2 * V3 2 0 - V3 1 0 * V3 2 2 := by rw [← hx]; rfl
  have x2 : x 2 = V3 1 0 * V3 2 1 - V3 1 1 * V3 2 0 := by rw [← hx]; rfl
  simp only [m0, m1, m2, u0, u1, u2, mul_zero, mul_one, sub_zero, zero_sub] at x0 x1 x2
  have hxx : x 0 * x 0 + x 1 * x 1 + x 2 * x 2 ≠ 0 := by
    rw [x0, x1, x2]
    have : 0 < V 1 1 * V 1 1 := mul_self_pos.mpr hne
    nlinarith [mul_self_nonneg (V 1 0), mul_self_nonneg (V 1 1), mul_self_nonneg (V 1 2)]
  obtain ⟨d, hd, hdd, n0, n1, n2⟩ := Normalize_spec sqrt hsqrt x hxx
  generalize Normalize sqrt x = n at n0 n1 n2
  simp only [x0, x1, x2] at n0 n1 n2 hdd
  apply frame_rotation _ (V3 1) n (Cross n (V3 1) (V3 2)) 1 2 0
    (by norm_num)
  · intro t ht
    rfl
  · intro t ht
    rfl
  · intro t ht
    rfl
  · rw [m0, m1, m2]; exact hunit
  · rw [n0, n1, n2]
    field_simp
    linear_combination -hdd
  · rw [m0, m1, m2, n0, n1, n2]
    field_simp
    ring
  · rfl
  · rfl
  · rfl

theorem pair_frame2 (sqrt : K → K) (hsqrt : ExactSqrt sqrt) (V : Mat K)
    (hunit : V 2 0 * V 2 0 + V 2 1 * V 2 1 + V 2 2 * V 2 2 = 1) (hne : V 2 2 ≠ 0) :
    ProperRotation
      (setRow (setRow (setRow (Mat.set (Mat.set (Mat.set (Mat.set V 0 0 0) 0 1 0) 0 2 0) 0 0 1) 1 (Cross ((Mat.set (Mat.set (Mat.set (Mat.set V 0 0 0) 0 1 0) 0 2 0) 0 0 1) 2) ((Mat.set (Mat.set (Mat.set (Mat.set V 0 0 0) 0 1 0) 0 2 0) 0 0 1) 0) ((Mat.set (Mat.set (Mat.set (Mat.set V 0 0 0) 0 1 0) 0 2 0) 0 0 1) 1))) 1 (Normalize sqrt ((setRow (Mat.set (Mat.set (Mat.set (Mat.set V 0 0 0) 0 1 0) 0 2 0) 0 0 1) 1 (Cross ((Mat.set (Mat.set (Mat.set (Mat.set V 0 0 0) 0 1 0) 0 2 0) 0 0 1) 2) ((Mat.set (Mat.set (Mat.set (Mat.set V 0 0 0) 0 1 0) 0 2 0) 0 0 1) 0) ((Mat.set (Mat.set (Mat.set (Mat.set V 0 0 0) 0 1 0) 0 2 0) 0 0 1) 1))) 1))) 0 (Cross ((setRow (setRow (Mat.set (Mat.set (Mat.set (Mat.set V 0 0 0) 0 1 0) 0 2 0) 0 0 1) 1 (Cross ((Mat.set (Mat.set (Mat.set (Mat.set V 0 0 0) 0 1 0) 0 2 0) 0 0 1) 2) ((Mat.set (Mat.set (Mat.set (Mat.set V 0 0 0) 0 1 0) 0 2 0) 0 0 1) 0) ((Mat.set (Mat.set (Mat.set (Mat.set V 0 0 0) 0 1 0) 0 2 0) 0 0 1) 1))) 1 (Normalize sqrt ((setRow (Mat.set (Mat.set (Mat.set (Mat.set V 0 0 0) 0 1 0) 0 2 0) 0 0 1) 1 (Cross ((Mat.set (Mat.set (Mat.set (Mat.set V 0 0 0) 0 1 0) 0 2 0) 0 0 1) 2) ((Mat.set (Mat.set (Mat.set (Mat.set V 0 0 0) 0 1 0) 0 2 0) 0 0 1) 0) ((Mat.set (Mat.set (Mat.set (Mat.set V 0 0 0) 0 1 0) 0 2 0) 0 0 1) 1))) 1))) 1) ((setRow (setRow (Mat.set (Mat.set (Mat.set (Mat.set V 0 0 0) 0 1 0) 0 2 0) 0 0 1) 1 (Cross ((Mat.set (Mat.set (Mat.set (Mat.set V 0 0 0) 0 1 0) 0 2 0) 0 0 1) 2) ((Mat.set (Mat.set (Mat.set (Mat.set V 0 0 0) 0 1 0) 0 2 0) 0 0 1) 0) ((Mat.set (Mat.set (Mat.set (Mat.set V 0 0 0) 0 1 0) 0 2 0) 0 0 1) 1))) 1 (Normalize sqrt ((setRow (Mat.set (Mat.set (Mat.set (Mat.set V 0 0 0) 0 1 0) 0 2 0) 0 0 1) 1 (Cross ((Mat.set (Mat.set (Mat.set (Mat.set V 0 0 0) 0 1 0) 0 2 0) 0 0 1) 2) ((Mat.set (Mat.set (Mat.set (Mat.set V 0 0 0) 0 1 0) 0 2 0) 0 0 1) 0) ((Mat.set (Mat.set (Mat.set (Mat.set V 0 0 0) 0 1 0) 0 2 0) 0 0 1) 1))) 1))) 2) ((setRow (setRow (Mat.set (Mat.set (Mat.set (Mat.set V 0 0 0) 0 1 0) 0 2 0) 0 0 1) 1 (Cross ((Mat.set (Mat.set (Mat.set (Mat.set V 0 0 0) 0 1 0) 0 2 0) 0 0 1) 2) ((Mat.set (Mat.set (Mat.set (Mat.set V 0 0 0) 0 1 0) 0 2 0) 0 0 1) 0) ((Mat.set (Mat.set (Mat.set (Mat.set V 0 0 0) 0 1 0) 0 2 0) 0 0 1) 1))) 1 (Normalize sqrt ((setRow (Mat.set (Mat.set (Mat.set (Mat.set V 0 0 0) 0 1 0) 0 2 0) 0 0 1) 1 (Cross ((Mat.set (Mat.set (Mat.set (Mat.set V 0 0 0) 0 1 0) 0 2 0) 0 0 1) 2) ((Mat.set (Mat.set (Mat.set (Mat.set V 0 0 0) 0 1 0) 0 2 0) 0 0 1) 0) ((Mat.set (Mat.set (Mat.set (Mat.set V 0 0 0) 0 1 0) 0 2 0) 0 0 1) 1))) 1))) 0))) := by
  simp only [setRow_same]
  generalize hV3 : (Mat.set (Mat.set (Mat.set (Mat.set V 0 0 0) 0 1 0) 0 2 0) 0 0 1) = V3
  have m0 : V3 2 0 = V 2 0 := by rw [← hV3]; rfl
  have m1 : V3 2 1 = V 2 1 := by rw [← hV3]; rfl
  have m2 : V3 2 2 = V 2 2 := by rw [← hV3]; rfl
  have u0 : V3 0 0 = 1 := by rw [← hV3]; rfl
  have u1 : V3 0 1 = 0 := by rw [← hV3]; rfl
  have u2 : V3 0 2 = 0 := by rw [← hV3]; rfl
  generalize hx : Cross (V3 2) (V3 0) (V3 1) = x
  have x0 : x 0 = V3 2 1 * V3 0 2 - V3 2 2 * V3 0 1 := by rw [← hx]; rfl
  have x1 : x 1 = V3 2 2 * V3 0 0 - V3 2 0 * V3 0 2 := by rw [← hx]; rfl
  have x2 : x 2 = V3 2 0 * V3 0 1 - V3 2 1 * V3 0 0 := by rw [← hx]; rfl
  simp only [m0, m1, m2, u0, u1, u2, mul_zero, mul_one, sub_zero, zero_sub] at x0 x1 x2
  have hxx : x 0 * x 0 + x 1 * x 1 + x 2 * x 2 ≠ 0 := by
    rw [x0, x1, x2]
    have : 0 < V 2 2 * V 2 2 := mul_self_pos.mpr hne
    nlinarith [mul_self_nonneg (V 2 0), mul_self_nonneg (V 2 1), mul_self_nonneg (V 2 2)]
  obtain ⟨d, hd, hdd, n0, n1, n2⟩ := Normalize_spec sqrt hsqrt x hxx
  generalize Normalize sqrt x = n at n0 n1 n2
  simp only [x0, x1, x2] at n0 n1 n2 hdd
  apply frame_rotation _ (V3 2) n (Cross n (V3 2) (V3 0)) 2 0 1
    (by norm_num)
  · intro t ht
    rfl
  · intro t ht
    rfl
  · intro t ht
    rfl
  · rw [m0, m1, m2]; exact hunit
  · rw [n0, n1, n2]
    field_simp
    linear_combination -hdd
  · rw [m0, m1, m2, n0, n1, n2]
    field_simp
    ring
  · rfl
  · rfl
  · rfl

end

/-! ### The eigenvector matrix of `Diagonalize3x3` is a proper rotation -/

section

variable {K : Type} [LinearOrderedField K]

/-- The body run when two eigenvalues are equal turns orthonormal rows
into a proper rotation. -/
theorem alignPair_rotation (sqrt : K → K) (hsqrt : ExactSqrt sqrt) (i : Nat) (hi : i < 3)
    (w : Vec K) (V : Mat K) (h : RowsOrthonormal V) :
    ProperRotation (alignPair sqrt i w V).V := by
  unfold alignPair
  simp only
  apply rotation_transpose
  obtain ⟨hmx, hmax⟩ := argMaxRow_spec V i
  generalize argMaxRow V i = mx at hmx hmax ⊢
  have hrow := rows_dots V h i i hi hi
  rw [if_pos rfl] at hrow
  have hne : V i mx ≠ 0 := by
    intro hz
    rw [hz, abs_zero] at hmax
    have z0 := abs_eq_zero.mp (le_antisymm (hmax 0 (by norm_num)) (abs_nonneg _))
    have z1 := abs_eq_zero.mp (le_antisymm (hmax 1 (by norm_num)) (abs_nonneg _))
    have z2 := abs_eq_zero.mp (le_antisymm (hmax 2 (by norm_num)) (abs_nonneg _))
    rw [z0, z1, z2] at hrow
    norm_num at hrow
  have hV1 : ∀ c, c < 3 → (if mx ≠ i then vtkSwapVectors3 i mx V else V) mx c = V i c := by
    intro c hc
    split_ifs with hmi
    · rw [vtkSwapVectors3_spec, if_pos hc]
      simp [swapIdx, hmi]
    · rw [not_not.mp hmi]
  generalize (if mx ≠ i then vtkSwapVectors3 i mx V else V) = V1 at hV1 ⊢
  have hV2 : ((if V1 mx mx < 0 then negateRow mx V1 else V1) mx 0
        * (if V1 mx mx < 0 then negateRow mx V1 else V1) mx 0
      + (if V1 mx mx < 0 then negateRow mx V1 else V1) mx 1
        * (if V1 mx mx < 0 then negateRow mx V1 else V1) mx 1
      + (if V1 mx mx < 0 then negateRow mx V1 else V1) mx 2
        * (if V1 mx mx < 0 then negateRow mx V1 else V1) mx 2 = 1) ∧
      (if V1 mx mx < 0 then negateRow mx V1 else V1) mx mx ≠ 0 := by
    split_ifs
    · simp only [negateRow_spec, true_and, show (0 : Nat) < 3 by norm_num,
        show (1 : Nat) < 3 by norm_num, show (2 : Nat) < 3 by norm_num, hmx, if_true,
        hV1 0 (by norm_num), hV1 1 (by norm_num), hV1 2 (by norm_num), hV1 mx hmx]
      exact ⟨by linear_combination hrow, neg_ne_zero.mpr hne⟩
    · simp only [hV1 0 (by norm_num), hV1 1 (by norm_num), hV1 2 (by norm_num), hV1 mx hmx]
      exact ⟨hrow, hne⟩
  generalize (if V1 mx mx < 0 then negateRow mx V1 else V1) = V2 at hV2 ⊢
  obtain ⟨hunit, hnz⟩ := hV2
  interval_cases mx
  · exact pair_frame0 sqrt hsqrt V2 hunit hnz
  · exact pair_frame1 sqrt hsqrt V2 hunit hnz
  · exact pair_frame2 sqrt hsqrt V2 hunit hnz

/-- The matrix `Diagonalize3x3` works on after `JacobiN` and the first
transposition has orthonormal rows. -/
theorem JacobiN_three_rows (sqrt : K → K) (hsqrt : ExactSqrt sqrt) (a : Mat K) (w : Vec K)
    (v : Mat K) :
    RowsOrthonormal (Transpose3x3 true (JacobiN sqrt a 3 w v).v (JacobiN sqrt a 3 w v).v) := by
  have hcols := JacobiN_columns sqrt hsqrt a 3 w v
  intro i j hi hj
  have := hcols i j hi hj
  simp only [Finset.sum_range_succ, Finset.sum_range_zero, zero_add, Transpose3x3_aliased]
    at this ⊢
  simp only [hi, hj, true_and, show (0 : Nat) < 3 by norm_num, show (1 : Nat) < 3 by norm_num,
    show (2 : Nat) < 3 by norm_num, if_true]
  exact this

/-- The eigenvector matrix `Diagonalize3x3` returns is a proper rotation,
on each of its three paths. -/
theorem Diagonalize3x3_rotation (sqrt : K → K) (hsqrt : ExactSqrt sqrt) (A : Mat K)
    (w : Vec K) (V : Mat K) : ProperRotation (Diagonalize3x3 sqrt A w V).V := by
  have hrows := JacobiN_three_rows sqrt hsqrt (copy3x3 A (fun _ _ => 0)) w V
  unfold Diagonalize3x3
  simp only
  split_ifs with h0 h1 h2 h3
  · constructor
    · intro i j hi hj
      simp only [Finset.sum_range_succ, Finset.sum_range_zero, zero_add, Identity3x3_spec]
      interval_cases i <;> interval_cases j <;> simp [identity]
    · simp [Determinant3x3, Identity3x3_spec, identity]
  · exact alignPair_rotation sqrt hsqrt 0 (by norm_num) _ _ hrows
  · exact alignPair_rotation sqrt hsqrt 1 (by norm_num) _ _ hrows
  · exact alignPair_rotation sqrt hsqrt 2 (by norm_num) _ _ hrows
  · exact alignDistinct_rotation _ _ hrows

end

/-! ### The 4-by-4 matrix of a rotation -/

section

variable {K : Type} [LinearOrderedField K]

/-- The sixteen cells of the matrix `N` that `vtkMatrix3x3ToQuaternion`
builds. -/
theorem hornMatrix_entries (R : Mat K) :
    hornMatrix R 0 0 = R 0 0 + R 1 1 + R 2 2 ∧
    hornMatrix R 0 1 = R 2 1 - R 1 2 ∧
    hornMatrix R 0 2 = R 0 2 - R 2 0 ∧
    hornMatrix R 0 3 = R 1 0 - R 0 1 ∧
    hornMatrix R 1 0 = R 2 1 - R 1 2 ∧
    hornMatrix R 1 1 = R 0 0 - R 1 1 - R 2 2 ∧
    hornMatrix R 1 2 = R 1 0 + R 0 1 ∧
    hornMatrix R 1 3 = R 0 2 + R 2 0 ∧
    hornMatrix R 2 0 = R 0 2 - R 2 0 ∧
    hornMatrix R 2 1 = R 1 0 + R 0 1 ∧
    hornMatrix R 2 2 = -R 0 0 + R 1 1 - R 2 2 ∧
    hornMatrix R 2 3 = R 2 1 + R 1 2 ∧
    hornMatrix R 3 0 = R 1 0 - R 0 1 ∧
    hornMatrix R 3 1 = R 0 2 + R 2 0 ∧
    hornMatrix R 3 2 = R 2 1 + R 1 2 ∧
    hornMatrix R 3 3 = -R 0 0 - R 1 1 + R 2 2 :=
  ⟨rfl, rfl, rfl, rfl, rfl, rfl, rfl, rfl, rfl, rfl, rfl, rfl, rfl, rfl, rfl, rfl⟩

theorem hornMatrix_symm (R : Mat K) (i j : Nat) (hi : i < 4) (hj : j < 4) :
    hornMatrix R i j = hornMatrix R j i := by
  interval_cases i <;> interval_cases j <;> rfl

/-- A proper rotation is its own cofactor matrix. -/
theorem rotation_cofactors (R : Mat K) (h : ProperRotation R) :
    R 0 0 = (R 1 1 * R 2 2 - R 1 2 * R 2 1) ∧
    R 0 1 = (-(R 1 0 * R 2 2 - R 1 2 * R 2 0)) ∧
    R 0 2 = (R 1 0 * R 2 1 - R 1 1 * R 2 0) ∧
    R 1 0 = (-(R 0 1 * R 2 2 - R 0 2 * R 2 1)) ∧
    R 1 1 = (R 0 0 * R 2 2 - R 0 2 * R 2 0) ∧
    R 1 2 = (-(R 0 0 * R 2 1 - R 0 1 * R 2 0)) ∧
    R 2 0 = (R 0 1 * R 1 2 - R 0 2 * R 1 1) ∧
    R 2 1 = (-(R 0 0 * R 1 2 - R 0 2 * R 1 0)) ∧
    R 2 2 = (R 0 0 * R 1 1 - R 0 1 * R 1 0) := by
  have h00 := rows_dots R h.1 0 0 (by norm_num) (by norm_num)
  have h01 := rows_dots R h.1 0 1 (by norm_num) (by norm_num)
  have h02 := rows_dots R h.1 0 2 (by norm_num) (by norm_num)
  have h10 := rows_dots R h.1 1 0 (by norm_num) (by norm_num)
  have h11 := rows_dots R h.1 1 1 (by norm_num) (by norm_num)
  have h12 := rows_dots R h.1 1 2 (by norm_num) (by norm_num)
  have h20 := rows_dots R h.1 2 0 (by norm_num) (by norm_num)
  have h21 := rows_dots R h.1 2 1 (by norm_num) (by norm_num)
  have h22 := rows_dots R h.1 2 2 (by norm_num) (by norm_num)
  norm_num at h00 h01 h02 h10 h11 h12 h20 h21 h22
  have hD := h.2
  simp only [Determinant3x3] at hD
  refine ⟨?_, ?_, ?_, ?_, ?_, ?_, ?_, ?_, ?_⟩
  · linear_combination (R 1 1 * R 2 2 - R 1 2 * R 2 1) * h00 + (-(R 0 1 * R 2 2 - R 0 2 * R 2 1)) * h10 + (R 0 1 * R 1 2 - R 0 2 * R 1 1) * h20 - R 0 0 * hD
  · linear_combination (-(R 1 0 * R 2 2 - R 1 2 * R 2 0)) * h00 + (R 0 0 * R 2 2 - R 0 2 * R 2 0) * h10 + (-(R 0 0 * R 1 2 - R 0 2 * R 1 0)) * h20 - R 0 1 * hD
  · linear_combination (R 1 0 * R 2 1 - R 1 1 * R 2 0) * h00 + (-(R 0 0 * R 2 1 - R 0 1 * R 2 0)) * h10 + (R 0 0 * R 1 1 - R 0 1 * R 1 0) * h20 - R 0 2 * hD
  · linear_combination (R 1 1 * R 2 2 - R 1 2 * R 2 1) * h01 + (-(R 0 1 * R 2 2 - R 0 2 * R 2 1)) * h11 + (R 0 1 * R 1 2 - R 0 2 * R 1 1) * h21 - R 1 0 * hD
  · linear_combination (-(R 1 0 * R 2 2 - R 1 2 * R 2 0)) * h01 + (R 0 0 * R 2 2 - R 0 2 * R 2 0) * h11 + (-(R 0 0 * R 1 2 - R 0 2 * R 1 0)) * h21 - R 1 1 * hD
  · linear_combination (R 1 0 * R 2 1 - R 1 1 * R 2 0) * h01 + (-(R 0 0 * R 2 1 - R 0 1 * R 2 0)) * h11 + (R 0 0 * R 1 1 - R 0 1 * R 1 0) * h21 - R 1 2 * hD
  · linear_combination (R 1 1 * R 2 2 - R 1 2 * R 2 1) * h02 + (-(R 0 1 * R 2 2 - R 0 2 * R 2 1)) * h12 + (R 0 1 * R 1 2 - R 0 2 * R 1 1) * h22 - R 2 0 * hD
  · linear_combination (-(R 1 0 * R 2 2 - R 1 2 * R 2 0)) * h02 + (R 0 0 * R 2 2 - R 0 2 * R 2 0) * h12 + (-(R 0 0 * R 1 2 - R 0 2 * R 1 0)) * h22 - R 2 1 * hD
  · linear_combination (R 1 0 * R 2 1 - R 1 1 * R 2 0) * h02 + (-(R 0 0 * R 2 1 - R 0 1 * R 2 0)) * h12 + (R 0 0 * R 1 1 - R 0 1 * R 1 0) * h22 - R 2 2 * hD

/-- For a proper rotation the matrix `N + I` has rank one: its 2-by-2
minors through a diagonal cell vanish. -/
theorem horn_rank_one (R : Mat K) (h : ProperRotation R) (m i j : Nat) (hm : m < 4)
    (hi : i < 4) (hj : j < 4) :
    (hornMatrix R m i + identity m i) * (hornMatrix R m j + identity m j)
      = (hornMatrix R m m + identity m m) * (hornMatrix R i j + identity i j) := by
  have hr00 := rows_dots R h.1 0 0 (by norm_num) (by norm_num)
  have hr01 := rows_dots R h.1 0 1 (by norm_num) (by norm_num)
  have hr02 := rows_dots R h.1 0 2 (by norm_num) (by norm_num)
  have hr11 := rows_dots R h.1 1 1 (by norm_num) (by norm_num)
  have hr12 := rows_dots R h.1 1 2 (by norm_num) (by norm_num)
  have hr22 := rows_dots R h.1 2 2 (by norm_num) (by norm_num)
  have hc00 := cols_of_rows R h.1 0 0 (by norm_num) (by norm_num)
  have hc01 := cols_of_rows R h.1 0 1 (by norm_num) (by norm_num)
  have hc02 := cols_of_rows R h.1 0 2 (by norm_num) (by norm_num)
  have hc11 := cols_of_rows R h.1 1 1 (by norm_num) (by norm_num)
  have hc12 := cols_of_rows R h.1 1 2 (by norm_num) (by norm_num)
  have hc22 := cols_of_rows R h.1 2 2 (by norm_num) (by norm_num)
  norm_num at hr00 hr01 hr02 hr11 hr12 hr22 hc00 hc01 hc02 hc11 hc12 hc22
  obtain ⟨hf00, hf01, hf02, hf10, hf11, hf12, hf20, hf21, hf22⟩ := rotation_cofactors R h
  have p00 : hornMatrix R 0 0 + identity 0 0 = R 0 0 + R 1 1 + R 2 2 + 1 := rfl
  have p01 : hornMatrix R 0 1 + identity 0 1 = R 2 1 - R 1 2 + 0 := rfl
  have p02 : hornMatrix R 0 2 + identity 0 2 = R 0 2 - R 2 0 + 0 := rfl
  have p03 : hornMatrix R 0 3 + identity 0 3 = R 1 0 - R 0 1 + 0 := rfl
  have p10 : hornMatrix R 1 0 + identity 1 0 = R 2 1 - R 1 2 + 0 := rfl
  have p11 : hornMatrix R 1 1 + identity 1 1 = R 0 0 - R 1 1 - R 2 2 + 1 := rfl
  have p12 : hornMatrix R 1 2 + identity 1 2 = R 1 0 + R 0 1 + 0 := rfl
  have p13 : hornMatrix R 1 3 + identity 1 3 = R 0 2 + R 2 0 + 0 := rfl
  have p20 : hornMatrix R 2 0 + identity 2 0 = R 0 2 - R 2 0 + 0 := rfl
  have p21 : hornMatrix R 2 1 + identity 2 1 = R 1 0 + R 0 1 + 0 := rfl
  have p22 : hornMatrix R 2 2 + identity 2 2 = -R 0 0 + R 1 1 - R 2 2 + 1 := rfl
  have p23 : hornMatrix R 2 3 + identity 2 3 = R 2 1 + R 1 2 + 0 := rfl
  have p30 : hornMatrix R 3 0 + identity 3 0 = R 1 0 - R 0 1 + 0 := rfl
  have p31 : hornMatrix R 3 1 + identity 3 1 = R 0 2 + R 2 0 + 0 := rfl
  have p32 : hornMatrix R 3 2 + identity 3 2 = R 2 1 + R 1 2 + 0 := rfl
  have p33 : hornMatrix R 3 3 + identity 3 3 = -R 0 0 - R 1 1 + R 2 2 + 1 := rfl
  interval_cases m <;> interval_cases i <;> interval_cases j
  · simp only [p00, p01, p02, p03, p10, p11, p12, p13, p20, p21, p22, p23, p30, p31, p32, p33]
  · simp only [p00, p01, p02, p03, p10, p11, p12, p13, p20, p21, p22, p23, p30, p31, p32, p33]
  · simp only [p00, p01, p02, p03, p10, p11, p12, p13, p20, p21, p22, p23, p30, p31, p32, p33]
  · simp only [p00, p01, p02, p03, p10, p11, p12, p13, p20, p21, p22, p23, p30, p31, p32, p33]
  · simp only [p00, p01, p02, p03, p10, p11, p12, p13, p20, p21, p22, p23, p30, p31, p32, p33]; ring
  · simp only [p00, p01, p02, p03, p10, p11, p12, p13, p20, p21, p22, p23, p30, p31, p32, p33]; linear_combination (1) * hr11 + (1) * hr22 + (-1) * hc00 + (-2) * hf00
  · simp only [p00, p01, p02, p03, p10, p11, p12, p13, p20, p21, p22, p23, p30, p31, p32, p33]; linear_combination (-1) * hr01 + (-1) * hc01 + (-1) * hf01 + (-1) * hf10
  · simp only [p00, p01, p02, p03, p10, p11, p12, p13, p20, p21, p22, p23, p30, p31, p32, p33]; linear_combination (-1) * hr02 + (-1) * hc02 + (-1) * hf02 + (-1) * hf20
  · simp only [p00, p01, p02, p03, p10, p11, p12, p13, p20, p21, p22, p23, p30, p31, p32, p33]; ring
  · simp only [p00, p01, p02, p03, p10, p11, p12, p13, p20, p21, p22, p23, p30, p31, p32, p33]; linear_combination (-1) * hr01 + (-1) * hc01 + (-1) * hf01 + (-1) * hf10
  · simp only [p00, p01, p02, p03, p10, p11, p12, p13, p20, p21, p22, p23, p30, p31, p32, p33]; linear_combination (1) * hr00 + (1) * hr22 + (-1) * hc11 + (-2) * hf11
  · simp only [p00, p01, p02, p03, p10, p11, p12, p13, p20, p21, p22, p23, p30, p31, p32, p33]; linear_combination (-1) * hr12 + (-1) * hc12 + (-1) * hf12 + (-1) * hf21
  · simp only [p00, p01, p02, p03, p10, p11, p12, p13, p20, p21, p22, p23, p30, p31, p32, p33]; ring
  · simp only [p00, p01, p02, p03, p10, p11, p12, p13, p20, p21, p22, p23, p30, p31, p32, p33]; linear_combination (-1) * hr02 + (-1) * hc02 + (-1) * hf02 + (-1) * hf20
  · simp only [p00, p01, p02, p03, p10, p11, p12, p13, p20, p21, p22, p23, p30, p31, p32, p33]; linear_combination (-1) * hr12 + (-1) * hc12 + (-1) * hf12 + (-1) * hf21
  · simp only [p00, p01, p02, p03, p10, p11, p12, p13, p20, p21, p22, p23, p30, p31, p32, p33]; linear_combination (-1) * hr22 + (1) * hc00 + (1) * hc11 + (-2) * hf22
  · simp only [p00, p01, p02, p03, p10, p11, p12, p13, p20, p21, p22, p23, p30, p31, p32, p33]; linear_combination (1) * hr11 + (1) * hr22 + (-1) * hc00 + (-2) * hf00
  · simp only [p00, p01, p02, p03, p10, p11, p12, p13, p20, p21, p22, p23, p30, p31, p32, p33]; ring
  · simp only [p00, p01, p02, p03, p10, p11, p12, p13, p20, p21, p22, p23, p30, p31, p32, p33]; linear_combination (1) * hr02 + (-1) * hc02 + (-1) * hf02 + (1) * hf20
  · simp only [p00, p01, p02, p03, p10, p11, p12, p13, p20, p21, p22, p23, p30, p31, p32, p33]; linear_combination (-1) * hr01 + (1) * hc01 + (1) * hf01 + (-1) * hf10
  · simp only [p00, p01, p02, p03, p10, p11, p12, p13, p20, p21, p22, p23, p30, p31, p32, p33]
  · simp only [p00, p01, p02, p03, p10, p11, p12, p13, p20, p21, p22, p23, p30, p31, p32, p33]
  · simp only [p00, p01, p02, p03, p10, p11, p12, p13, p20, p21, p22, p23, p30, p31, p32, p33]
  · simp only [p00, p01, p02, p03, p10, p11, p12, p13, p20, p21, p22, p23, p30, p31, p32, p33]
  · simp only [p00, p01, p02, p03, p10, p11, p12, p13, p20, p21, p22, p23, p30, p31, p32, p33]; linear_combination (1) * hr02 + (-1) * hc02 + (-1) * hf02 + (1) * hf20
  · simp only [p00, p01, p02, p03, p10, p11, p12, p13, p20, p21, p22, p23, p30, p31, p32, p33]; ring
  · simp only [p00, p01, p02, p03, p10, p11, p12, p13, p20, p21, p22, p23, p30, p31, p32, p33]; linear_combination (-1) * hr22 + (1) * hc00 + (1) * hc11 + (2) * hf22
  · simp only [p00, p01, p02, p03, p10, p11, p12, p13, p20, p21, p22, p23, p30, p31, p32, p33]; linear_combination (1) * hr12 + (1) * hc12 + (-1) * hf12 + (-1) * hf21
  · simp only [p00, p01, p02, p03, p10, p11, p12, p13, p20, p21, p22, p23, p30, p31, p32, p33]; linear_combination (-1) * hr01 + (1) * hc01 + (1) * hf01 + (-1) * hf10
  · simp only [p00, p01, p02, p03, p10, p11, p12, p13, p20, p21, p22, p23, p30, p31, p32, p33]; ring
  · simp only [p00, p01, p02, p03, p10, p11, p12, p13, p20, p21, p22, p23, p30, p31, p32, p33]; linear_combination (1) * hr12 + (1) * hc12 + (-1) * hf12 + (-1) * hf21
  · simp only [p00, p01, p02, p03, p10, p11, p12, p13, p20, p21, p22, p23, p30, p31, p32, p33]; linear_combination (1) * hr00 + (1) * hr22 + (-1) * hc11 + (2) * hf11
  · simp only [p00, p01, p02, p03, p10, p11, p12, p13, p20, p21, p22, p23, p30, p31, p32, p33]; linear_combination (1) * hr00 + (1) * hr22 + (-1) * hc11 + (-2) * hf11
  · simp only [p00, p01, p02, p03, p10, p11, p12, p13, p20, p21, p22, p23, p30, p31, p32, p33]; linear_combination (-1) * hr12 + (1) * hc12 + (1) * hf12 + (-1) * hf21
  · simp only [p00, p01, p02, p03, p10, p11, p12, p13, p20, p21, p22, p23, p30, p31, p32, p33]; ring
  · simp only [p00, p01, p02, p03, p10, p11, p12, p13, p20, p21, p22, p23, p30, p31, p32, p33]; linear_combination (1) * hr01 + (-1) * hc01 + (1) * hf01 + (-1) * hf10
  · simp only [p00, p01, p02, p03, p10, p11, p12, p13, p20, p21, p22, p23, p30, p31, p32, p33]; linear_combination (-1) * hr12 + (1) * hc12 + (1) * hf12 + (-1) * hf21
  · simp only [p00, p01, p02, p03, p10, p11, p12, p13, p20, p21, p22, p23, p30, p31, p32, p33]; linear_combination (-1) * hr22 + (1) * hc00 + (1) * hc11 + (2) * hf22
  · simp only [p00, p01, p02, p03, p10, p11, p12, p13, p20, p21, p22, p23, p30, p31, p32, p33]; ring
  · simp only [p00, p01, p02, p03, p10, p11, p12, p13, p20, p21, p22, p23, p30, p31, p32, p33]; linear_combination (1) * hr02 + (1) * hc02 + (-1) * hf02 + (-1) * hf20
  · simp only [p00, p01, p02, p03, p10, p11, p12, p13, p20, p21, p22, p23, p30, p31, p32, p33]
  · simp only [p00, p01, p02, p03, p10, p11, p12, p13, p20, p21, p22, p23, p30, p31, p32, p33]
  · simp only [p00, p01, p02, p03, p10, p11, p12, p13, p20, p21, p22, p23, p30, p31, p32, p33]
  · simp only [p00, p01, p02, p03, p10, p11, p12, p13, p20, p21, p22, p23, p30, p31, p32, p33]
  · simp only [p00, p01, p02, p03, p10, p11, p12, p13, p20, p21, p22, p23, p30, p31, p32, p33]; linear_combination (1) * hr01 + (-1) * hc01 + (1) * hf01 + (-1) * hf10
  · simp only [p00, p01, p02, p03, p10, p11, p12, p13, p20, p21, p22, p23, p30, p31, p32, p33]; linear_combination (1) * hr02 + (1) * hc02 + (-1) * hf02 + (-1) * hf20
  · simp only [p00, p01, p02, p03, p10, p11, p12, p13, p20, p21, p22, p23, p30, p31, p32, p33]; ring
  · simp only [p00, p01, p02, p03, p10, p11, p12, p13, p20, p21, p22, p23, p30, p31, p32, p33]; linear_combination (1) * hr11 + (1) * hr22 + (-1) * hc00 + (2) * hf00
  · simp only [p00, p01, p02, p03, p10, p11, p12, p13, p20, p21, p22, p23, p30, p31, p32, p33]; linear_combination (-1) * hr22 + (1) * hc00 + (1) * hc11 + (-2) * hf22
  · simp only [p00, p01, p02, p03, p10, p11, p12, p13, p20, p21, p22, p23, p30, p31, p32, p33]; linear_combination (1) * hr12 + (-1) * hc12 + (1) * hf12 + (-1) * hf21
  · simp only [p00, p01, p02, p03, p10, p11, p12, p13, p20, p21, p22, p23, p30, p31, p32, p33]; linear_combination (-1) * hr02 + (1) * hc02 + (-1) * hf02 + (1) * hf20
  · simp only [p00, p01, p02, p03, p10, p11, p12, p13, p20, p21, p22, p23, p30, p31, p32, p33]; ring
  · simp only [p00, p01, p02, p03, p10, p11, p12, p13, p20, p21, p22, p23, p30, p31, p32, p33]; linear_combination (1) * hr12 + (-1) * hc12 + (1) * hf12 + (-1) * hf21
  · simp only [p00, p01, p02, p03, p10, p11, p12, p13, p20, p21, p22, p23, p30, p31, p32, p33]; linear_combination (1) * hr00 + (1) * hr22 + (-1) * hc11 + (2) * hf11
  · simp only [p00, p01, p02, p03, p10, p11, p12, p13, p20, p21, p22, p23, p30, p31, p32, p33]; linear_combination (1) * hr01 + (1) * hc01 + (-1) * hf01 + (-1) * hf10
  · simp only [p00, p01, p02, p03, p10, p11, p12, p13, p20, p21, p22, p23, p30, p31, p32, p33]; ring
  · simp only [p00, p01, p02, p03, p10, p11, p12, p13, p20, p21, p22, p23, p30, p31, p32, p33]; linear_combination (-1) * hr02 + (1) * hc02 + (-1) * hf02 + (1) * hf20
  · simp only [p00, p01, p02, p03, p10, p11, p12, p13, p20, p21, p22, p23, p30, p31, p32, p33]; linear_combination (1) * hr01 + (1) * hc01 + (-1) * hf01 + (-1) * hf10
  · simp only [p00, p01, p02, p03, p10, p11, p12, p13, p20, p21, p22, p23, p30, p31, p32, p33]; linear_combination (1) * hr11 + (1) * hr22 + (-1) * hc00 + (2) * hf00
  · simp only [p00, p01, p02, p03, p10, p11, p12, p13, p20, p21, p22, p23, p30, p31, p32, p33]; ring
  · simp only [p00, p01, p02, p03, p10, p11, p12, p13, p20, p21, p22, p23, p30, p31, p32, p33]
  · simp only [p00, p01, p02, p03, p10, p11, p12, p13, p20, p21, p22, p23, p30, p31, p32, p33]
  · simp only [p00, p01, p02, p03, p10, p11, p12, p13, p20, p21, p22, p23, p30, p31, p32, p33]
  · simp only [p00, p01, p02, p03, p10, p11, p12, p13, p20, p21, p22, p23, p30, p31, p32, p33]

end

/-! ### A rotation is the matrix of a unit quaternion -/

section

variable {K : Type} [LinearOrderedField K]

/-- A proper rotation `R` has a unit quaternion `q`: the matrix `N` built
from `R` is `4·q·qᵗ − I`. -/
theorem rotation_quaternion (sqrt : K → K) (hsqrt : ExactSqrt sqrt) (R : Mat K)
    (h : ProperRotation R) :
    ∃ q : Vec K, q 0 * q 0 + q 1 * q 1 + q 2 * q 2 + q 3 * q 3 = 1 ∧
      RankOne 4 q (hornMatrix R) := by
  have htr : (hornMatrix R 0 0 + identity 0 0) + (hornMatrix R 1 1 + identity 1 1)
      + (hornMatrix R 2 2 + identity 2 2) + (hornMatrix R 3 3 + identity 3 3) = 4 := by
    have e0 : hornMatrix R 0 0 + identity 0 0 = R 0 0 + R 1 1 + R 2 2 + 1 := rfl
    have e1 : hornMatrix R 1 1 + identity 1 1 = R 0 0 - R 1 1 - R 2 2 + 1 := rfl
    have e2 : hornMatrix R 2 2 + identity 2 2 = -R 0 0 + R 1 1 - R 2 2 + 1 := rfl
    have e3 : hornMatrix R 3 3 + identity 3 3 = -R 0 0 - R 1 1 + R 2 2 + 1 := rfl
    rw [e0, e1, e2, e3]
    ring
  have hex : ∃ m, m < 4 ∧ 1 ≤ hornMatrix R m m + identity m m := by
    by_contra hno
    push_neg at hno
    have h0 := hno 0 (by norm_num)
    have h1 := hno 1 (by norm_num)
    have h2 := hno 2 (by norm_num)
    have h3 := hno 3 (by norm_num)
    linarith
  obtain ⟨m, hm, hP⟩ := hex
  obtain ⟨hs0, hss⟩ := hsqrt (hornMatrix R m m + identity m m) (by linarith)
  generalize sqrt (hornMatrix R m m + identity m m) = s at hs0 hss
  have hsne : s ≠ 0 := by
    intro hz
    rw [hz, mul_zero] at hss
    linarith
  have hrank : ∀ i j, i < 4 → j < 4 →
      hornMatrix R i j = 4 * ((hornMatrix R m i + identity m i) / (2 * s))
        * ((hornMatrix R m j + identity m j) / (2 * s)) - identity i j := by
    intro i j hi hj
    have key := horn_rank_one R h m i j hm hi hj
    rw [eq_sub_iff_add_eq]
    field_simp
    linear_combination (-4) * key + 4 * (hornMatrix R i j + identity i j) * hss
  refine ⟨fun i => (hornMatrix R m i + identity m i) / (2 * s), ?_, hrank⟩
  have r0 := hrank 0 0 (by norm_num) (by norm_num)
  have r1 := hrank 1 1 (by norm_num) (by norm_num)
  have r2 := hrank 2 2 (by norm_num) (by norm_num)
  have r3 := hrank 3 3 (by norm_num) (by norm_num)
  dsimp only
  linear_combination (1 / 4) * htr - (1 / 4) * r0 - (1 / 4) * r1 - (1 / 4) * r2 - (1 / 4) * r3

/-- The matrix `QuaternionToMatrix3x3` writes for the unit quaternion of a
proper rotation `R`, or for its negative, is `R`. -/
theorem quat_of_rank_one (sqrt : K → K) (hsqrt : ExactSqrt sqrt) (R : Mat K) (q quat : Vec K)
    (A : Mat K) (hunit : q 0 * q 0 + q 1 * q 1 + q 2 * q 2 + q 3 * q 3 = 1)
    (hN : RankOne 4 q (hornMatrix R)) (e : K) (he : e * e = 1)
    (hquat : ∀ k, k < 4 → quat k = e * q k) :
    Same3x3 (QuaternionToMatrix3x3 sqrt quat A) R := by
  have qq : ∀ i j, i < 4 → j < 4 → quat i * quat j = q i * q j := by
    intro i j hi hj
    rw [hquat i hi, hquat j hj]
    linear_combination (q i * q j) * he
  have q00 := qq 0 0 (by norm_num) (by norm_num)
  have q01 := qq 0 1 (by norm_num) (by norm_num)
  have q02 := qq 0 2 (by norm_num) (by norm_num)
  have q03 := qq 0 3 (by norm_num) (by norm_num)
  have q11 := qq 1 1 (by norm_num) (by norm_num)
  have q22 := qq 2 2 (by norm_num) (by norm_num)
  have q33 := qq 3 3 (by norm_num) (by norm_num)
  have q12 := qq 1 2 (by norm_num) (by norm_num)
  have q13 := qq 1 3 (by norm_num) (by norm_num)
  have q23 := qq 2 3 (by norm_num) (by norm_num)
  have n00 : R 0 0 + R 1 1 + R 2 2 = 4 * q 0 * q 0 - 1 := hN 0 0 (by norm_num) (by norm_num)
  have n11 : R 0 0 - R 1 1 - R 2 2 = 4 * q 1 * q 1 - 1 := hN 1 1 (by norm_num) (by norm_num)
  have n22 : -R 0 0 + R 1 1 - R 2 2 = 4 * q 2 * q 2 - 1 := hN 2 2 (by norm_num) (by norm_num)
  have n33 : -R 0 0 - R 1 1 + R 2 2 = 4 * q 3 * q 3 - 1 := hN 3 3 (by norm_num) (by norm_num)
  have n01 : R 2 1 - R 1 2 = 4 * q 0 * q 1 - 0 := hN 0 1 (by norm_num) (by norm_num)
  have n02 : R 0 2 - R 2 0 = 4 * q 0 * q 2 - 0 := hN 0 2 (by norm_num) (by norm_num)
  have n03 : R 1 0 - R 0 1 = 4 * q 0 * q 3 - 0 := hN 0 3 (by norm_num) (by norm_num)
  have n12 : R 1 0 + R 0 1 = 4 * q 1 * q 2 - 0 := hN 1 2 (by norm_num) (by norm_num)
  have n13 : R 0 2 + R 2 0 = 4 * q 1 * q 3 - 0 := hN 1 3 (by norm_num) (by norm_num)
  have n23 : R 2 1 + R 1 2 = 4 * q 2 * q 3 - 0 := hN 2 3 (by norm_num) (by norm_num)
  have hn : q 0 * q 0 + (q 1 * q 1 + q 2 * q 2 + q 3 * q 3) = 1 := by
    linear_combination hunit
  obtain ⟨e00, e01, e02, e10, e11, e12, e20, e21, e22⟩ :=
    QuaternionToMatrix3x3_entries sqrt quat A
  simp only [q00, q01, q02, q03, q11, q22, q33, q12, q13, q23, hn,
    exactSqrt_one sqrt hsqrt, div_one, mul_one, one_mul] at e00 e01 e02 e10 e11 e12 e20 e21 e22
  intro i j hi hj
  interval_cases i <;> interval_cases j
  · rw [e00]
    linear_combination (-1) * hunit + (-1 / 2) * n00 + (-1 / 2) * n11
  · rw [e01]
    linear_combination (1 / 2) * n03 + (-1 / 2) * n12
  · rw [e02]
    linear_combination (-1 / 2) * n02 + (-1 / 2) * n13
  · rw [e10]
    linear_combination (-1 / 2) * n03 + (-1 / 2) * n12
  · rw [e11]
    linear_combination (-1) * hunit + (-1 / 2) * n00 + (-1 / 2) * n22
  · rw [e12]
    linear_combination (1 / 2) * n01 + (-1 / 2) * n23
  · rw [e20]
    linear_combination (1 / 2) * n02 + (-1 / 2) * n13
  · rw [e21]
    linear_combination (-1 / 2) * n01 + (-1 / 2) * n23
  · rw [e22]
    linear_combination (1) * hunit + (1 / 2) * n11 + (1 / 2) * n22

end

/-! ### The rotation sequence on `4·q·qᵗ − I` -/

section

variable {K : Type} [LinearOrderedField K]

/-- A square matrix with orthonormal columns has orthonormal rows. -/
theorem rows_of_cols (n : Nat) (v : Mat K) (h : Orthogonal n v) (i j : Nat) (hi : i < n)
    (hj : j < n) : ∑ c in Finset.range n, v i c * v j c = identity i j := by
  have h1 : (Matrix.of (fun (a b : Fin n) => v a b)).transpose
      * Matrix.of (fun (a b : Fin n) => v a b) = 1 := by
    ext a b
    rw [Matrix.mul_apply]
    simp only [Matrix.transpose_apply, Matrix.of_apply]
    rw [Fin.sum_univ_eq_sum_range (fun k => v k a * v k b) n, h a b a.2 b.2, Matrix.one_apply]
    simp only [identity, Fin.ext_iff]
  have h2 := Matrix.mul_eq_one_comm.mp h1
  have h3 := congrFun (congrFun h2 ⟨i, hi⟩) ⟨j, hj⟩
  rw [Matrix.mul_apply] at h3
  simp only [Matrix.transpose_apply, Matrix.of_apply] at h3
  rw [Fin.sum_univ_eq_sum_range (fun k => v i k * v j k) n, Matrix.one_apply] at h3
  rw [h3]
  simp only [identity, Fin.ext_iff]

/-- The squared components of `q` along the columns of an orthogonal `v`
add up to the squared length of `q`. -/
theorem colDot_sq_sum (n : Nat) (q : Vec K) (v : Mat K) (h : Orthogonal n v) :
    ∑ j in Finset.range n, colDot n q v j * colDot n q v j
      = ∑ k in Finset.range n, q k * q k := by
  have e1 : ∀ j, colDot n q v j * colDot n q v j
      = ∑ k in Finset.range n, ∑ l in Finset.range n, q k * q l * (v k j * v l j) := by
    intro j
    unfold colDot
    rw [Finset.sum_mul_sum]
    apply Finset.sum_congr rfl
    intro k _
    apply Finset.sum_congr rfl
    intro l _
    ring
  simp only [e1]
  rw [Finset.sum_comm]
  apply Finset.sum_congr rfl
  intro k hk
  rw [Finset.sum_comm]
  have e2 : ∀ l, l ∈ Finset.range n →
      ∑ j in Finset.range n, q k * q l * (v k j * v l j) = q k * q l * identity k l := by
    intro l hl
    rw [← Finset.mul_sum, rows_of_cols n v h k l (Finset.mem_range.mp hk) (Finset.mem_range.mp hl)]
  rw [Finset.sum_congr rfl e2]
  simp only [identity, mul_ite, mul_one, mul_zero]
  rw [Finset.sum_ite_eq (Finset.range n) k (fun l => q k * q l), if_pos hk]

/-- Under the invariant `A0·V = V·S` with `V` orthogonal, an input
`A0 = 4·q·qᵗ − I` keeps the form `S = 4·u·uᵗ − I`, `u` the components of
`q` along the columns of `V`. -/
theorem sym_rank_one (n : Nat) (q : Vec K) (A0 : Mat K) (st : JState K)
    (hA : RankOne n q A0) (hE : EigenInv n A0 st) (hO : Orthogonal n st.v)
    (i j : Nat) (hi : i < n) (hj : j < n) :
    symOf st.a st.w i j = 4 * colDot n q st.v i * colDot n q st.v j - identity i j := by
  have x1 : ∑ k in Finset.range n, st.v k i * (∑ l in Finset.range n, A0 k l * st.v l j)
      = symOf st.a st.w i j := by
    have : ∀ k, k ∈ Finset.range n →
        st.v k i * (∑ l in Finset.range n, A0 k l * st.v l j)
          = ∑ l in Finset.range n, st.v k i * st.v k l * symOf st.a st.w l j := by
      intro k hk
      rw [hE.1 k j (Finset.mem_range.mp hk) hj, Finset.mul_sum]
      apply Finset.sum_congr rfl
      intro l _
      ring
    rw [Finset.sum_congr rfl this, Finset.sum_comm]
    have e2 : ∀ l, l ∈ Finset.range n →
        ∑ k in Finset.range n, st.v k i * st.v k l * symOf st.a st.w l j
          = identity i l * symOf st.a st.w l j := by
      intro l hl
      rw [← Finset.sum_mul, hO i l hi (Finset.mem_range.mp hl)]
    rw [Finset.sum_congr rfl e2]
    exact identity_mul n _ i j hi
  have x2 : ∑ k in Finset.range n, st.v k i * (∑ l in Finset.range n, A0 k l * st.v l j)
      = 4 * colDot n q st.v i * colDot n q st.v j - identity i j := by
    have : ∀ k, k ∈ Finset.range n →
        st.v k i * (∑ l in Finset.range n, A0 k l * st.v l j)
          = 4 * colDot n q st.v j * (q k * st.v k i) - st.v k i * st.v k j := by
      intro k hk
      have hk' := Finset.mem_range.mp hk
      have : ∑ l in Finset.range n, A0 k l * st.v l j
          = 4 * q k * colDot n q st.v j - st.v k j := by
        have e3 : ∀ l, l ∈ Finset.range n →
            A0 k l * st.v l j = 4 * q k * (q l * st.v l j) - identity k l * st.v l j := by
          intro l hl
          rw [hA k l hk' (Finset.mem_range.mp hl)]
          ring
        rw [Finset.sum_congr rfl e3, Finset.sum_sub_distrib, ← Finset.mul_sum,
          identity_mul n st.v k j hk']
        rfl
      rw [this]
      ring
    rw [Finset.sum_congr rfl this, Finset.sum_sub_distrib, ← Finset.mul_sum, hO i j hi hj]
    unfold colDot
    ring
  rw [← x1, x2]

end

/-! ### One entry step on `4·q·qᵗ − I` -/

section

variable {K : Type} [LinearOrderedField K]

/-- An entry that is zero already leaves `v` as it is. -/
theorem entry_v_same (sqrt : K → K) (n i : Nat) (tresh : K) (ip iq : Nat) (st : JState K)
    (ht : 0 ≤ tresh) (ha : st.a ip iq = 0) :
    (jacobiEntry sqrt n i tresh ip iq st).v = st.v := by
  unfold jacobiEntry
  simp only
  split_ifs with h1 h2
  · rfl
  · rw [ha, abs_zero] at h2
    exact absurd h2 (not_lt.mpr ht)
  · rfl

/-- The columns of `v` other than `ip` and `iq` are kept. -/
theorem entry_v_col (sqrt : K → K) (n i : Nat) (tresh : K) (ip iq : Nat) (st : JState K)
    (hne : ip ≠ iq) (k j : Nat) (h1 : j ≠ ip) (h2 : j ≠ iq) :
    (jacobiEntry sqrt n i tresh ip iq st).v k j = st.v k j := by
  unfold jacobiEntry
  simp only
  split_ifs
  · rfl
  · show rotateV _ _ n ip iq st.v k j = st.v k j
    rw [rotateV_spec _ _ n ip iq hne, if_neg h1, if_neg h2]
    split_ifs <;> rfl
  · rfl

/-- In a sweep with threshold zero that is not past the fourth, the entry
`a[ip][iq]` is zero after its turn. -/
theorem entry_a_zero (sqrt : K → K) (n i : Nat) (ip iq : Nat) (st : JState K)
    (h1 : ip < iq) (h2 : iq < n) (hi : i ≤ 3) :
    (jacobiEntry sqrt n i 0 ip iq st).a ip iq = 0 := by
  unfold jacobiEntry
  simp only
  split_ifs with c1 c2
  · omega
  · exact (rotateA_spec _ _ n ip iq st.a h1 h2).1
  · exact abs_eq_zero.mp (le_antisymm (not_lt.mp c2) (abs_nonneg _))

/-- One entry of a sweep on an input `4·q·qᵗ − I`: the invariants are
kept, and a component of `q` along a column of `v` that is zero stays
zero. -/
theorem entry_step (sqrt : K → K) (hsqrt : ExactSqrt sqrt) (n : Nat) (q : Vec K) (A0 : Mat K)
    (hA : RankOne n q A0) (i : Nat) (tresh : K) (ht : 0 ≤ tresh) (ip iq : Nat)
    (h1 : ip < iq) (h2 : iq < n) (st : JState K)
    (hG : EigenInv n A0 st ∧ Orthogonal n st.v) :
    (EigenInv n A0 (jacobiEntry sqrt n i tresh ip iq st) ∧
      Orthogonal n (jacobiEntry sqrt n i tresh ip iq st).v) ∧
    (∀ j, j < n → colDot n q st.v j = 0 →
      colDot n q (jacobiEntry sqrt n i tresh ip iq st).v j = 0) := by
  refine ⟨⟨jacobiEntry_eigen sqrt hsqrt n i tresh A0 ip iq st ht h1 h2 hG.1,
    jacobiEntry_orthogonal sqrt hsqrt n i tresh ip iq st h1 h2 hG.2⟩, ?_⟩
  intro j hj hz
  by_cases ha : st.a ip iq = 0
  · rw [entry_v_same sqrt n i tresh ip iq st ht ha]
    exact hz
  · have hS := sym_rank_one n q A0 st hA hG.1 hG.2 ip iq (by omega) h2
    have hsym : symOf st.a st.w ip iq = st.a ip iq := by
      unfold symOf
      rw [if_neg (by omega), if_pos h1]
    have hid : (identity ip iq : K) = 0 := by
      unfold identity
      rw [if_neg (by omega)]
    rw [hsym, hid, sub_zero] at hS
    have hj1 : j ≠ ip := by
      intro e
      apply ha
      rw [hS, ← e, hz]
      ring
    have hj2 : j ≠ iq := by
      intro e
      apply ha
      rw [hS, ← e, hz]
      ring
    unfold colDot at hz ⊢
    rw [← hz]
    apply Finset.sum_congr rfl
    intro k _
    rw [entry_v_col sqrt n i tresh ip iq st (by omega) k j hj1 hj2]

/-- With threshold zero, one of the two components is zero after the
entry's turn. -/
theorem entry_zero (sqrt : K → K) (hsqrt : ExactSqrt sqrt) (n : Nat) (q : Vec K) (A0 : Mat K)
    (hA : RankOne n q A0) (i : Nat) (hi : i ≤ 3) (ip iq : Nat)
    (h1 : ip < iq) (h2 : iq < n) (st : JState K)
    (hG : EigenInv n A0 st ∧ Orthogonal n st.v) :
    colDot n q (jacobiEntry sqrt n i 0 ip iq st).v ip = 0 ∨
    colDot n q (jacobiEntry sqrt n i 0 ip iq st).v iq = 0 := by
  obtain ⟨hG', _⟩ := entry_step sqrt hsqrt n q A0 hA i 0 (le_refl 0) ip iq h1 h2 st hG
  have hS := sym_rank_one n q A0 _ hA hG'.1 hG'.2 ip iq (by omega) h2
  have hsym : symOf (jacobiEntry sqrt n i 0 ip iq st).a (jacobiEntry sqrt n i 0 ip iq st).w ip iq
      = (jacobiEntry sqrt n i 0 ip iq st).a ip iq := by
    unfold symOf
    rw [if_neg (by omega), if_pos h1]
  have hid : (identity ip iq : K) = 0 := by
    unfold identity
    rw [if_neg (by omega)]
  rw [hsym, entry_a_zero sqrt n i ip iq st h1 h2 hi, hid, sub_zero] at hS
  have : colDot n q (jacobiEntry sqrt n i 0 ip iq st).v ip
      * colDot n q (jacobiEntry sqrt n i 0 ip iq st).v iq = 0 := by
    linear_combination (-1 / 4) * hS
  exact mul_eq_zero.mp this

theorem loop_at {σ : Type} (f : Nat → σ → σ) (lo : Nat) (s : σ) :
    loop f lo 1 s = f lo s ∧ loop f lo 2 s = f (lo + 1) (f lo s) ∧
    loop f lo 3 s = f (lo + 2) (f (lo + 1) (f lo s)) :=
  ⟨rfl, rfl, rfl⟩

/-- The six entries of a sweep on a 4-by-4 matrix, in the order of the
double loop. -/
theorem sweepEntries_four (sqrt : K → K) (i : Nat) (t : K) (st : JState K) :
    sweepEntries sqrt 4 i t st =
      jacobiEntry sqrt 4 i t 2 3 (jacobiEntry sqrt 4 i t 1 3 (jacobiEntry sqrt 4 i t 1 2
        (jacobiEntry sqrt 4 i t 0 3 (jacobiEntry sqrt 4 i t 0 2
          (jacobiEntry sqrt 4 i t 0 1 st))))) := by
  unfold sweepEntries
  show loop (fun ip st => loop (jacobiEntry sqrt 4 i t ip) (ip + 1) (4 - (ip + 1)) st) 0 3 st = _
  rw [(loop_at _ 0 st).2.2]
  show loop (jacobiEntry sqrt 4 i t 2) 3 1 (loop (jacobiEntry sqrt 4 i t 1) 2 2
    (loop (jacobiEntry sqrt 4 i t 0) 1 3 st)) = _
  rw [(loop_at _ 3 _).1, (loop_at _ 2 _).2.1, (loop_at _ 1 _).2.2]

end

/-! ### Convergence within four sweeps on `4·q·qᵗ − I` -/

section

variable {K : Type} [LinearOrderedField K]

/-- A complete pass over the six entries with threshold zero, not past the
fourth sweep, on an input `4·q·qᵗ − I`: the invariants are kept and every
entry strictly above the diagonal is zero at the end. -/
theorem sweepEntries_zero (sqrt : K → K) (hsqrt : ExactSqrt sqrt) (q : Vec K) (A0 : Mat K)
    (hA : RankOne 4 q A0) (i : Nat) (hi : i ≤ 3) (st : JState K)
    (hG : EigenInv 4 A0 st ∧ Orthogonal 4 st.v) :
    (EigenInv 4 A0 (sweepEntries sqrt 4 i 0 st) ∧ Orthogonal 4 (sweepEntries sqrt 4 i 0 st).v) ∧
    offDiagSum 4 (sweepEntries sqrt 4 i 0 st).a = 0 := by
  rw [sweepEntries_four]
  have step := fun ip iq (h1 : ip < iq) (h2 : iq < 4) (s : JState K)
      (hs : EigenInv 4 A0 s ∧ Orthogonal 4 s.v) =>
    entry_step sqrt hsqrt 4 q A0 hA i 0 (le_refl 0) ip iq h1 h2 s hs
  have zero := fun ip iq (h1 : ip < iq) (h2 : iq < 4) (s : JState K)
      (hs : EigenInv 4 A0 s ∧ Orthogonal 4 s.v) =>
    entry_zero sqrt hsqrt 4 q A0 hA i hi ip iq h1 h2 s hs
  have keep : ∀ (s s' : JState K) (p r : Nat),
      (∀ j, j < 4 → colDot 4 q s.v j = 0 → colDot 4 q s'.v j = 0) → p < 4 → r < 4 →
      (colDot 4 q s.v p = 0 ∨ colDot 4 q s.v r = 0) →
      (colDot 4 q s'.v p = 0 ∨ colDot 4 q s'.v r = 0) := by
    intro s s' p r hk hp hr h
    rcases h with h | h
    · exact Or.inl (hk p hp h)
    · exact Or.inr (hk r hr h)
  generalize h1 : jacobiEntry sqrt 4 i 0 0 1 st = s1
  obtain ⟨g1, k1⟩ := step 0 1 (by norm_num) (by norm_num) st hG
  have z1 := zero 0 1 (by norm_num) (by norm_num) st hG
  rw [h1] at g1 k1 z1
  generalize h2 : jacobiEntry sqrt 4 i 0 0 2 s1 = s2
  obtain ⟨g2, k2⟩ := step 0 2 (by norm_num) (by norm_num) s1 g1
  have z2 := zero 0 2 (by norm_num) (by norm_num) s1 g1
  rw [h2] at g2 k2 z2
  generalize h3 : jacobiEntry sqrt 4 i 0 0 3 s2 = s3
  obtain ⟨g3, k3⟩ := step 0 3 (by norm_num) (by norm_num) s2 g2
  have z3 := zero 0 3 (by norm_num) (by norm_num) s2 g2
  rw [h3] at g3 k3 z3
  generalize h4 : jacobiEntry sqrt 4 i 0 1 2 s3 = s4
  obtain ⟨g4, k4⟩ := step 1 2 (by norm_num) (by norm_num) s3 g3
  have z4 := zero 1 2 (by norm_num) (by norm_num) s3 g3
  rw [h4] at g4 k4 z4
  generalize h5 : jacobiEntry sqrt 4 i 0 1 3 s4 = s5
  obtain ⟨g5, k5⟩ := step 1 3 (by norm_num) (by norm_num) s4 g4
  have z5 := zero 1 3 (by norm_num) (by norm_num) s4 g4
  rw [h5] at g5 k5 z5
  generalize h6 : jacobiEntry sqrt 4 i 0 2 3 s5 = s6
  obtain ⟨g6, k6⟩ := step 2 3 (by norm_num) (by norm_num) s5 g5
  have z6 := zero 2 3 (by norm_num) (by norm_num) s5 g5
  rw [h6] at g6 k6 z6
  have f01 := keep s5 s6 0 1 k6 (by norm_num) (by norm_num)
    (keep s4 s5 0 1 k5 (by norm_num) (by norm_num)
    (keep s3 s4 0 1 k4 (by norm_num) (by norm_num)
    (keep s2 s3 0 1 k3 (by norm_num) (by norm_num)
    (keep s1 s2 0 1 k2 (by norm_num) (by norm_num) z1))))
  have f02 := keep s5 s6 0 2 k6 (by norm_num) (by norm_num)
    (keep s4 s5 0 2 k5 (by norm_num) (by norm_num)
    (keep s3 s4 0 2 k4 (by norm_num) (by norm_num)
    (keep s2 s3 0 2 k3 (by norm_num) (by norm_num) z2)))
  have f03 := keep s5 s6 0 3 k6 (by norm_num) (by norm_num)
    (keep s4 s5 0 3 k5 (by norm_num) (by norm_num)
    (keep s3 s4 0 3 k4 (by norm_num) (by norm_num) z3))
  have f12 := keep s5 s6 1 2 k6 (by norm_num) (by norm_num)
    (keep s4 s5 1 2 k5 (by norm_num) (by norm_num) z4)
  have f13 := keep s5 s6 1 3 k6 (by norm_num) (by norm_num) z5
  refine ⟨g6, ?_⟩
  rw [offDiagSum_eq_zero_iff]
  intro ip iq hpq hq4
  have hS := sym_rank_one 4 q A0 s6 hA g6.1 g6.2 ip iq (by omega) hq4
  have hsym : symOf s6.a s6.w ip iq = s6.a ip iq := by
    unfold symOf
    rw [if_neg (by omega), if_pos hpq]
  have hid : (identity ip iq : K) = 0 := by
    unfold identity
    rw [if_neg (by omega)]
  rw [hsym, hid, sub_zero] at hS
  rw [hS]
  have hz : colDot 4 q s6.v ip = 0 ∨ colDot 4 q s6.v iq = 0 := by
    interval_cases iq <;> interval_cases ip <;> assumption
  rcases hz with hz | hz <;> rw [hz] <;> ring

/-- One sweep keeps the invariants `A0·V = V·S` and `VᵗV = I`. -/
theorem sweepBody_good (sqrt : K → K) (hsqrt : ExactSqrt sqrt) (n : Nat) (A0 : Mat K) (i : Nat)
    (sm : K) (hsm : 0 ≤ sm) (st : JState K) (hG : EigenInv n A0 st ∧ Orthogonal n st.v) :
    EigenInv n A0 (sweepBody sqrt n i sm st) ∧ Orthogonal n (sweepBody sqrt n i sm st).v := by
  unfold sweepBody
  simp only
  apply loop_preserve (fun t : JState K => EigenInv n A0 t ∧ Orthogonal n t.v) _ 0 n
  · apply sweepEntries_preserve (fun t : JState K => EigenInv n A0 t ∧ Orthogonal n t.v)
      sqrt n i _ _ st hG
    intro ip iq t h1 h2 ht
    have h0 : (0 : K) ≤ if i < 3 then 0.2 * sm / ((n * n : Nat) : K) else 0 := by
      split
      · positivity
      · exact le_rfl
    exact ⟨jacobiEntry_eigen sqrt hsqrt n i _ A0 ip iq t h0 h1 h2 ht.1,
      jacobiEntry_orthogonal sqrt hsqrt n i _ ip iq t h1 h2 ht.2⟩
  · intro k t hk ht
    rw [Nat.zero_add]
    exact ⟨sweepEndStep_eigen n A0 k t hk ht.1, ht.2⟩

/-- The fourth sweep (`i = 3`, threshold zero) on an input `4·q·qᵗ − I`
leaves every entry strictly above the diagonal zero. -/
theorem sweepBody_fourth (sqrt : K → K) (hsqrt : ExactSqrt sqrt) (q : Vec K) (A0 : Mat K)
    (hA : RankOne 4 q A0) (sm : K) (st : JState K)
    (hG : EigenInv 4 A0 st ∧ Orthogonal 4 st.v) :
    offDiagSum 4 (sweepBody sqrt 4 3 sm st).a = 0 := by
  unfold sweepBody
  simp only
  rw [sweepEnd_a, if_neg (by norm_num)]
  exact (sweepEntries_zero sqrt hsqrt q A0 hA 3 (le_refl 3) st hG).2

/-- The sweep loop started on arrays whose `a` is already diagonal stops at
once. -/
theorem sweepLoop_done (sqrt : K → K) (n fuel i : Nat) (st : JState K)
    (h : offDiagSum n st.a = 0) : sweepLoop sqrt n fuel i st = (st, i) := by
  cases fuel with
  | zero => rfl
  | succ m => rw [sweepLoop_succ, if_pos h]

/-- On an input `4·q·qᵗ − I` the sweep loop ends with `i ≤ 4`. -/
theorem sweepLoop_bound (sqrt : K → K) (hsqrt : ExactSqrt sqrt) (q : Vec K) (A0 : Mat K)
    (hA : RankOne 4 q A0) (d : Nat) :
    ∀ (i fuel : Nat) (st : JState K), i + d = 3 → d + 1 ≤ fuel →
      (EigenInv 4 A0 st ∧ Orthogonal 4 st.v) → (sweepLoop sqrt 4 fuel i st).2 ≤ 4 := by
  induction d with
  | zero =>
    intro i fuel st hi hf hG
    obtain ⟨m, rfl⟩ : ∃ m, fuel = m + 1 := ⟨fuel - 1, by omega⟩
    have hi3 : i = 3 := by omega
    subst hi3
    rw [sweepLoop_succ]
    split
    · norm_num
    · rw [sweepLoop_done sqrt 4 m _ _ (sweepBody_fourth sqrt hsqrt q A0 hA _ st hG)]
  | succ d ih =>
    intro i fuel st hi hf hG
    obtain ⟨m, rfl⟩ : ∃ m, fuel = m + 1 := ⟨fuel - 1, by omega⟩
    rw [sweepLoop_succ]
    split
    · show i ≤ 4
      omega
    · exact ih (i + 1) m _ (by omega) (by omega)
        (sweepBody_good sqrt hsqrt 4 A0 i _ (offDiagSum_nonneg 4 st.a) st hG)

/-- The arrays set up before the first sweep satisfy the invariants, for a
symmetric input. -/
theorem jacobiInit_good (a : Mat K) (n : Nat) (w : Vec K) (v : Mat K)
    (hsym : ∀ i j, i < n → j < n → a i j = a j i) :
    EigenInv n a (jacobiInit a n w v) ∧ Orthogonal n (jacobiInit a n w v).v := by
  obtain ⟨i1, i2, i3⟩ := jacobiInit_spec a n w v
  refine ⟨⟨?_, ?_⟩, ?_⟩
  · intro i j hi hj
    have e1 : ∑ k in Finset.range n, a i k * (jacobiInit a n w v).v k j = a i j := by
      rw [← mul_identity n a i j hj]
      apply Finset.sum_congr rfl
      intro k hk
      rw [i2, initV_spec, if_pos ⟨Finset.mem_range.mp hk, hj⟩]
    have e2 : ∑ k in Finset.range n,
        (jacobiInit a n w v).v i k * symOf (jacobiInit a n w v).a (jacobiInit a n w v).w k j
        = symOf (jacobiInit a n w v).a (jacobiInit a n w v).w i j := by
      rw [← identity_mul n (symOf (jacobiInit a n w v).a (jacobiInit a n w v).w) i j hi]
      apply Finset.sum_congr rfl
      intro k hk
      rw [i2, initV_spec, if_pos ⟨hi, Finset.mem_range.mp hk⟩]
    rw [e1, e2, i1]
    unfold symOf
    by_cases hij : i = j
    · rw [if_pos hij, (i3 i hi).1, hij]
    · rw [if_neg hij]
      by_cases hlt : i < j
      · rw [if_pos hlt]
      · rw [if_neg hlt]
        exact hsym i j hi hj
  · intro k hk
    rw [(i3 k hk).1, (i3 k hk).2.1, (i3 k hk).2.2, add_zero]
  · rw [i2]
    apply identity_orthogonal
    intro r c hr hc
    rw [initV_spec, if_pos ⟨hr, hc⟩]

/-- On an input `4·q·qᵗ − I` (symmetric) `JacobiN` returns 1: the rotation
sequence ends on the `break` within four sweeps, with the invariants. -/
theorem JacobiN_rank_one (sqrt : K → K) (hsqrt : ExactSqrt sqrt) (q : Vec K) (A0 : Mat K)
    (hA : RankOne 4 q A0) (w : Vec K) (v : Mat K) :
    (JacobiN sqrt A0 4 w v).ret = 1 ∧
    EigenInv 4 A0 (jacobiSweeps sqrt A0 4 w v).1 ∧
    Orthogonal 4 (jacobiSweeps sqrt A0 4 w v).1.v := by
  have hsym : ∀ i j, i < 4 → j < 4 → A0 i j = A0 j i := by
    intro i j hi hj
    rw [hA i j hi hj, hA j i hj hi]
    unfold identity
    by_cases hij : i = j
    · rw [hij]
    · rw [if_neg hij, if_neg (Ne.symm hij)]
      ring
  refine ⟨?_, jacobiSweeps_eigen sqrt hsqrt A0 4 w v hsym,
    jacobiSweeps_orthogonal sqrt hsqrt A0 4 w v⟩
  rw [JacobiN_ret]
  have hb := sweepLoop_bound sqrt hsqrt q A0 hA 3 0 VTK_MAX_ROTATIONS (jacobiInit A0 4 w v)
    (by norm_num) (by unfold VTK_MAX_ROTATIONS; norm_num) (jacobiInit_good A0 4 w v hsym)
  unfold jacobiSweeps
  unfold VTK_MAX_ROTATIONS at hb ⊢
  omega

end

/-! ### The eigenvector of the largest eigenvalue -/

section

variable {K : Type} [LinearOrderedField K]

/-- A vector is rebuilt from its components along the columns of an
orthogonal `v`. -/
theorem colDot_expand (n : Nat) (q : Vec K) (v : Mat K) (h : Orthogonal n v) (k : Nat)
    (hk : k < n) : ∑ j in Finset.range n, colDot n q v j * v k j = q k := by
  unfold colDot
  simp only [Finset.sum_mul]
  rw [Finset.sum_comm]
  have e : ∀ i, i ∈ Finset.range n →
      ∑ j in Finset.range n, q i * v i j * v k j = q i * identity i k := by
    intro i hi
    rw [← rows_of_cols n v h i k (Finset.mem_range.mp hi) hk, Finset.mul_sum]
    apply Finset.sum_congr rfl
    intro j _
    ring
  rw [Finset.sum_congr rfl e]
  unfold identity
  simp only [mul_ite, mul_one, mul_zero]
  rw [Finset.sum_ite_eq']
  simp [hk]

/-- When the rotation sequence on `4·q·qᵗ − I`, `q` a unit vector, has made
`a` diagonal, the column of `v` belonging to a largest eigenvalue is `q` or
`−q`. -/
theorem top_column (q : Vec K) (A0 : Mat K) (st : JState K)
    (hunit : q 0 * q 0 + q 1 * q 1 + q 2 * q 2 + q 3 * q 3 = 1)
    (hA : RankOne 4 q A0) (hE : EigenInv 4 A0 st) (hO : Orthogonal 4 st.v)
    (hoff : offDiagSum 4 st.a = 0) (m : Nat) (hm : m < 4)
    (hmax : ∀ j, j < 4 → st.w j ≤ st.w m) :
    ∃ e : K, e * e = 1 ∧ ∀ k, k < 4 → st.v k m = e * q k := by
  have hsum := colDot_sq_sum 4 q st.v hO
  simp only [Finset.sum_range_succ, Finset.sum_range_zero, zero_add] at hsum
  rw [hunit] at hsum
  have hw : ∀ j, j < 4 → st.w j = 4 * colDot 4 q st.v j * colDot 4 q st.v j - 1 := by
    intro j hj
    have := sym_rank_one 4 q A0 st hA hE hO j j hj hj
    unfold symOf identity at this
    rw [if_pos rfl, if_pos rfl] at this
    exact this
  have hz : ∀ i j, i < j → j < 4 → colDot 4 q st.v i * colDot 4 q st.v j = 0 := by
    intro i j hij hj
    have h1 := sym_rank_one 4 q A0 st hA hE hO i j (by omega) hj
    unfold symOf identity at h1
    rw [if_neg (by omega), if_pos hij, if_neg (by omega),
      (offDiagSum_eq_zero_iff 4 st.a).mp hoff i j hij hj] at h1
    linear_combination (-(1 : K) / 4) * h1
  have hexp := fun k hk => colDot_expand 4 q st.v hO k hk
  simp only [Finset.sum_range_succ, Finset.sum_range_zero, zero_add] at hexp
  have hle : ∀ j, j < 4 →
      colDot 4 q st.v j * colDot 4 q st.v j ≤ colDot 4 q st.v m * colDot 4 q st.v m := by
    intro j hj
    have := hmax j hj
    rw [hw j hj, hw m hm] at this
    linarith
  have h0 := hle 0 (by norm_num)
  have h1 := hle 1 (by norm_num)
  have h2 := hle 2 (by norm_num)
  have h3 := hle 3 (by norm_num)
  have hne : colDot 4 q st.v m ≠ 0 := by
    intro hc
    rw [hc] at h0 h1 h2 h3
    linarith
  have hoth : ∀ j, j < 4 → j ≠ m → colDot 4 q st.v j = 0 := by
    intro j hj hjm
    rcases Nat.lt_or_gt_of_ne hjm with h | h
    · rcases mul_eq_zero.mp (hz j m h hm) with h' | h'
      · exact h'
      · exact absurd h' hne
    · rcases mul_eq_zero.mp (hz m j h hj) with h' | h'
      · exact absurd h' hne
      · exact h'
  refine ⟨colDot 4 q st.v m, ?_, ?_⟩
  · interval_cases m
    · rw [hoth 1 (by norm_num) (by norm_num), hoth 2 (by norm_num) (by norm_num),
        hoth 3 (by norm_num) (by norm_num)] at hsum
      linarith
    · rw [hoth 0 (by norm_num) (by norm_num), hoth 2 (by norm_num) (by norm_num),
        hoth 3 (by norm_num) (by norm_num)] at hsum
      linarith
    · rw [hoth 0 (by norm_num) (by norm_num), hoth 1 (by norm_num) (by norm_num),
        hoth 3 (by norm_num) (by norm_num)] at hsum
      linarith
    · rw [hoth 0 (by norm_num) (by norm_num), hoth 1 (by norm_num) (by norm_num),
        hoth 2 (by norm_num) (by norm_num)] at hsum
      linarith
  · intro k hk
    have hq := hexp k hk
    have hone : colDot 4 q st.v m * colDot 4 q st.v m = 1 := by
      interval_cases m
      · rw [hoth 1 (by norm_num) (by norm_num), hoth 2 (by norm_num) (by norm_num),
          hoth 3 (by norm_num) (by norm_num)] at hsum
        linarith
      · rw [hoth 0 (by norm_num) (by norm_num), hoth 2 (by norm_num) (by norm_num),
          hoth 3 (by norm_num) (by norm_num)] at hsum
        linarith
      · rw [hoth 0 (by norm_num) (by norm_num), hoth 1 (by norm_num) (by norm_num),
          hoth 3 (by norm_num) (by norm_num)] at hsum
        linarith
      · rw [hoth 0 (by norm_num) (by norm_num), hoth 1 (by norm_num) (by norm_num),
          hoth 2 (by norm_num) (by norm_num)] at hsum
        linarith
    have hqk : q k = colDot 4 q st.v m * st.v k m := by
      interval_cases m
      · rw [hoth 1 (by norm_num) (by norm_num), hoth 2 (by norm_num) (by norm_num),
          hoth 3 (by norm_num) (by norm_num)] at hq
        linarith
      · rw [hoth 0 (by norm_num) (by norm_num), hoth 2 (by norm_num) (by norm_num),
          hoth 3 (by norm_num) (by norm_num)] at hq
        linarith
      · rw [hoth 0 (by norm_num) (by norm_num), hoth 1 (by norm_num) (by norm_num),
          hoth 3 (by norm_num) (by norm_num)] at hq
        linarith
      · rw [hoth 0 (by norm_num) (by norm_num), hoth 1 (by norm_num) (by norm_num),
          hoth 2 (by norm_num) (by norm_num)] at hq
        linarith
    rw [hqk]
    linear_combination (-(st.v k m)) * hone

/-- The quaternion `Matrix3x3ToQuaternion` leaves is the first column of the
eigenvector array of `JacobiN` on the 4-by-4 matrix built from `A`. -/
theorem Matrix3x3ToQuaternion_eq (sqrt : K → K) (A : Mat K) (quat : Vec K) (k : Nat)
    (hk : k < 4) :
    Matrix3x3ToQuaternion sqrt A quat k
      = (JacobiN sqrt (hornMatrix A) 4 (fun _ => 0) (fun _ _ => 0)).v k 0 := by
  interval_cases k <;> rfl

/-- For a proper rotation `R`, `Matrix3x3ToQuaternion` leaves `q` or `−q`,
`q` a unit quaternion with `4·q·qᵗ − I` the 4-by-4 matrix built from `R`. -/
theorem Matrix3x3ToQuaternion_rotation (sqrt : K → K) (hsqrt : ExactSqrt sqrt) (R : Mat K)
    (hR : ProperRotation R) (quat : Vec K) :
    ∃ (q : Vec K) (e : K), q 0 * q 0 + q 1 * q 1 + q 2 * q 2 + q 3 * q 3 = 1 ∧
      RankOne 4 q (hornMatrix R) ∧ e * e = 1 ∧
      ∀ k, k < 4 → Matrix3x3ToQuaternion sqrt R quat k = e * q k := by
  obtain ⟨q, hunit, hN⟩ := rotation_quaternion sqrt hsqrt R hR
  obtain ⟨hret, hE, hO⟩ :=
    JacobiN_rank_one sqrt hsqrt q (hornMatrix R) hN (fun _ => 0) (fun _ _ => 0)
  obtain ⟨hoff, _, hv⟩ := JacobiN_ok sqrt (hornMatrix R) 4 (fun _ => 0) (fun _ _ => 0) hret
  generalize jacobiSweeps sqrt (hornMatrix R) 4 (fun _ => 0) (fun _ _ => 0) = r
    at hE hO hoff hv
  obtain ⟨⟨p, pinv, hperm, hsw, hsv⟩, hsorted⟩ := jacobiSort_spec 4 r.1.w r.1.v
  have s1 := hsorted 0 (by norm_num)
  have s2 := hsorted 1 (by norm_num)
  have s3 := hsorted 2 (by norm_num)
  have hmax : ∀ j, j < 4 → r.1.w j ≤ r.1.w (p 0) := by
    intro j hj
    obtain ⟨_, hq4, _, hpq⟩ := hperm j hj
    rw [← hsw 0 (by norm_num)]
    have : r.1.w j = (jacobiSort 4 r.1.w r.1.v).1 (pinv j) := by
      rw [hsw (pinv j) hq4, hpq]
    rw [this]
    generalize pinv j = c at hq4
    interval_cases c
    · exact le_refl _
    · exact s1
    · exact le_trans s2 s1
    · exact le_trans s3 (le_trans s2 s1)
  obtain ⟨e, he, hcol⟩ := top_column q (hornMatrix R) r.1 hunit hN hE hO hoff (p 0)
    (hperm 0 (by norm_num)).1 hmax
  rcases (jacobiNormalize_spec 4 (jacobiSort 4 r.1.w r.1.v).2).1 0 with h | h
  · refine ⟨q, e, hunit, hN, he, ?_⟩
    intro k hk
    rw [Matrix3x3ToQuaternion_eq sqrt R quat k hk, hv, h k, hsv k 0 hk (by norm_num),
      hcol k hk]
  · refine ⟨q, -e, hunit, hN, by linear_combination he, ?_⟩
    intro k hk
    rw [Matrix3x3ToQuaternion_eq sqrt R quat k hk, hv, h k, if_pos hk,
      hsv k 0 hk (by norm_num), hcol k hk]
    ring

/-- The round trip through the quaternion gives back a proper rotation. -/
theorem quaternion_round_trip (sqrt : K → K) (hsqrt : ExactSqrt sqrt) (R : Mat K)
    (hR : ProperRotation R) (quat : Vec K) (A : Mat K) :
    Same3x3 (QuaternionToMatrix3x3 sqrt (Matrix3x3ToQuaternion sqrt R quat) A) R := by
  obtain ⟨q, e, hunit, hN, he, hq⟩ := Matrix3x3ToQuaternion_rotation sqrt hsqrt R hR quat
  exact quat_of_rank_one sqrt hsqrt R q _ A hunit hN e he hq

end

/-! ### The quaternion of the identity -/

section

variable {K : Type} [LinearOrderedField K]

/-- The consistency loop leaves alone a column that already has `⌈n/2⌉`
non-negative components. -/
theorem jacobiNormalize_keep (n : Nat) (v : Mat K) (c : Nat)
    (h : (n + 1) / 2 ≤ countNonneg n c v) (r : Nat) : jacobiNormalize n v r c = v r c := by
  unfold jacobiNormalize
  have key := loop_inv (fun _ (u : Mat K) => ∀ r, u r c = v r c) (normalizeStep n) 0 n v
    (fun _ => rfl)
    (by
      intro k u _ hu r
      rw [Nat.zero_add]
      by_cases hk : c = k
      · subst hk
        unfold normalizeStep
        rw [numPosOf_eq, countNonneg_congr n c v u (fun i _ => hu i), if_neg (by omega)]
        exact hu r
      · rw [(normalizeStep_spec n k u).1 r c hk]
        exact hu r)
  exact key r

/-- For the identity matrix `Matrix3x3ToQuaternion` leaves the quaternion
`(1, 0, 0, 0)`. -/
theorem Matrix3x3ToQuaternion_identity (sqrt : K → K) (quat : Vec K) (k : Nat) (hk : k < 4) :
    Matrix3x3ToQuaternion sqrt identity quat k = quatOf 1 0 0 0 k := by
  have hd : ∀ i, i < 4 → hornMatrix (identity : Mat K) i i = if i = 0 then 3 else -1 := by
    intro i hi
    interval_cases i
    · rw [(hornMatrix_entries _).1]; simp [identity]; norm_num
    · rw [(hornMatrix_entries _).2.2.2.2.2.1]; simp [identity]
    · rw [(hornMatrix_entries _).2.2.2.2.2.2.2.2.2.2.1]; simp [identity]
    · rw [(hornMatrix_entries _).2.2.2.2.2.2.2.2.2.2.2.2.2.2.2]; simp [identity]
  have hoff : offDiagSum 4 (hornMatrix (identity : Mat K)) = 0 := by
    rw [offDiagSum_eq_zero_iff]
    intro ip iq h1 h2
    obtain ⟨_, e01, e02, e03, _, _, e12, e13, _, _, _, e23, _⟩ :=
      hornMatrix_entries (identity : Mat K)
    interval_cases iq <;> interval_cases ip <;>
      first
      | (rw [e01]; simp [identity])
      | (rw [e02]; simp [identity])
      | (rw [e03]; simp [identity])
      | (rw [e12]; simp [identity])
      | (rw [e13]; simp [identity])
      | (rw [e23]; simp [identity])
  obtain ⟨_, _, hv⟩ :=
    JacobiN_diagonal sqrt (hornMatrix (identity : Mat K)) 4 (fun _ => 0) (fun _ _ => 0) hoff
  obtain ⟨_, i2, i3⟩ :=
    jacobiInit_spec (hornMatrix (identity : Mat K)) 4 (fun _ => 0) (fun _ _ => 0)
  generalize jacobiInit (hornMatrix (identity : Mat K)) 4 (fun _ => 0) (fun _ _ => 0) = st
    at hv i2 i3
  obtain ⟨⟨p, pinv, hperm, hsw, hsv⟩, hsorted⟩ := jacobiSort_spec 4 st.w st.v
  have hw : ∀ i, i < 4 → st.w i = if i = 0 then 3 else -1 := by
    intro i hi
    rw [(i3 i hi).1, hd i hi]
  have s1 := hsorted 0 (by norm_num)
  have s2 := hsorted 1 (by norm_num)
  have s3 := hsorted 2 (by norm_num)
  have hp0 : p 0 = 0 := by
    by_contra hne
    obtain ⟨_, hq4, _, hpq⟩ := hperm 0 (by norm_num)
    have hle : st.w 0 ≤ st.w (p 0) := by
      rw [← hsw 0 (by norm_num)]
      have : st.w 0 = (jacobiSort 4 st.w st.v).1 (pinv 0) := by
        rw [hsw (pinv 0) hq4, hpq]
      rw [this]
      generalize pinv 0 = c at hq4
      interval_cases c
      · exact le_refl _
      · exact s1
      · exact le_trans s2 s1
      · exact le_trans s3 (le_trans s2 s1)
    rw [hw 0 (by norm_num), hw (p 0) (hperm 0 (by norm_num)).1, if_pos rfl, if_neg hne] at hle
    linarith
  have hcol : ∀ r, r < 4 → (jacobiSort 4 st.w st.v).2 r 0 = identity r 0 := by
    intro r hr
    rw [hsv r 0 hr (by norm_num), hp0, i2, initV_spec, if_pos ⟨hr, by norm_num⟩]
  have hcount : (4 + 1) / 2 ≤ countNonneg 4 0 (jacobiSort 4 st.w st.v).2 := by
    unfold countNonneg
    have hf : (Finset.range 4).filter (fun i => 0 ≤ (jacobiSort 4 st.w st.v).2 i 0)
        = Finset.range 4 := by
      apply Finset.filter_true_of_mem
      intro i hi
      rw [hcol i (Finset.mem_range.mp hi)]
      unfold identity
      split <;> norm_num
    rw [hf, Finset.card_range]
    norm_num
  rw [Matrix3x3ToQuaternion_eq sqrt identity quat k hk, hv,
    jacobiNormalize_keep 4 _ 0 hcount k, hcol k hk]
  interval_cases k <;> simp [identity, quatOf]

end

/-! ### Round trip through the quaternion; the rotation of `Diagonalize3x3` -/

section

variable {K : Type} [LinearOrderedField K]

/-- The identity matrix is a proper rotation. -/
theorem identity_rotation : ProperRotation (identity : Mat K) := by
  constructor
  · intro i j hi hj
    interval_cases i <;> interval_cases j <;>
      simp [identity, Finset.sum_range_succ]
  · simp [Determinant3x3, identity]

/-- C13: with an exact square root, for every proper rotation matrix `R`
(`R·Rᵗ = I`, `det R = +1`) `QuaternionToMatrix3x3` applied to the quaternion
that `Matrix3x3ToQuaternion` leaves for `R` gives `R` back on its nine
cells; and for the identity matrix `Matrix3x3ToQuaternion` leaves
`(1, 0, 0, 0)`. -/
theorem Matrix3x3ToQuaternion_round_trip (sqrt : K → K) (hsqrt : ExactSqrt sqrt) (R : Mat K)
    (hR : ProperRotation R) (quat : Vec K) (A : Mat K) :
    Same3x3 (QuaternionToMatrix3x3 sqrt (Matrix3x3ToQuaternion sqrt R quat) A) R ∧
    (∀ k, k < 4 → Matrix3x3ToQuaternion sqrt identity quat k = quatOf 1 0 0 0 k) :=
  ⟨quaternion_round_trip sqrt hsqrt R hR quat A,
    fun k hk => Matrix3x3ToQuaternion_identity sqrt quat k hk⟩

/-- The identity over the reals: it is a proper rotation,
`Matrix3x3ToQuaternion` leaves `(1, 0, 0, 0)` for it, and
`QuaternionToMatrix3x3` of that quaternion is the identity again. -/
theorem Matrix3x3ToQuaternion_round_trip_witness :
    ExactSqrt Real.sqrt ∧ ProperRotation (identity : Mat ℝ) ∧
    (Same3x3 (QuaternionToMatrix3x3 Real.sqrt
        (Matrix3x3ToQuaternion Real.sqrt identity (fun _ => 0)) (fun _ _ => 0)) identity ∧
      (∀ k, k < 4 →
        Matrix3x3ToQuaternion Real.sqrt identity (fun _ => 0) k = quatOf 1 0 0 0 k)) :=
  ⟨exactSqrt_real, identity_rotation,
    Matrix3x3ToQuaternion_round_trip Real.sqrt exactSqrt_real identity identity_rotation
      (fun _ => 0) (fun _ _ => 0)⟩

/-- C18: with an exact square root, the eigenvector matrix `V` returned by
`Diagonalize3x3` is a proper rotation (`V·Vᵗ = I` and `det V = +1`, so the
determinant is positive) on each of its paths: all three eigenvalues
equal, exactly two equal (for each position of the pair), and three
distinct.  This holds for every input, so in particular for every
symmetric `A` on which the internal `JacobiN` call converges. -/
theorem Diagonalize3x3_proper (sqrt : K → K) (hsqrt : ExactSqrt sqrt) (A : Mat K)
    (w : Vec K) (V : Mat K) :
    ProperRotation (Diagonalize3x3 sqrt A w V).V ∧
    0 < Determinant3x3 (Diagonalize3x3 sqrt A w V).V := by
  have h := Diagonalize3x3_rotation sqrt hsqrt A w V
  refine ⟨h, ?_⟩
  rw [h.2]
  exact one_pos

/-- The symmetric matrix `diag(3, 2, 1)` over the reals, with three
distinct eigenvalues: the returned `V` is a proper rotation. -/
theorem Diagonalize3x3_proper_witness :
    ExactSqrt Real.sqrt ∧
    (ProperRotation (Diagonalize3x3 Real.sqrt
        (fun i j => if i = j then 3 - (i : ℝ) else 0) (fun _ => 0) (fun _ _ => 0)).V ∧
      0 < Determinant3x3 (Diagonalize3x3 Real.sqrt
        (fun i j => if i = j then 3 - (i : ℝ) else 0) (fun _ => 0) (fun _ _ => 0)).V) :=
  ⟨exactSqrt_real, Diagonalize3x3_proper Real.sqrt exactSqrt_real _ _ _⟩

end

/-! ### The two outcomes of an entry step -/

section

variable {K : Type} [LinearOrderedField K]

/-- The tangent of a rotation that is carried out is not zero. -/
theorem rotationT_ne_zero (sqrt : K → K) (hsqrt : ExactSqrt sqrt) (ip iq : Nat)
    (st : JState K) (ha : st.a ip iq ≠ 0) :
    rotationT sqrt (100 * |st.a ip iq|) ip iq st ≠ 0 := by
  unfold rotationT
  simp only
  have hg : (0 : K) < 100 * |st.a ip iq| := by
    have := abs_pos.mpr ha
    positivity
  rw [if_neg (by intro h; linarith)]
  generalize 0.5 * (st.w iq - st.w ip) / st.a ip iq = theta
  have hpos : 0 < 1 + theta * theta := by nlinarith [mul_self_nonneg theta]
  obtain ⟨h1, h2⟩ := hsqrt (1 + theta * theta) (le_of_lt hpos)
  have hr : 0 < sqrt (1 + theta * theta) := by
    rcases lt_or_eq_of_le h1 with h | h
    · exact h
    · rw [← h] at h2
      nlinarith
  have hden : 0 < |theta| + sqrt (1 + theta * theta) := by
    have := abs_nonneg theta
    linarith
  have ht : (1 : K) / (|theta| + sqrt (1 + theta * theta)) ≠ 0 := by positivity
  split_ifs
  · exact neg_ne_zero.mpr ht
  · exact ht

/-- One entry step either leaves `a` and `v` as they are, or the entry is
not zero and `a` and `v` are rotated with a sine `s ≠ 0` and a cosine
`1 − s·tau ≠ 0`. -/
theorem jacobiEntry_cases (sqrt : K → K) (hsqrt : ExactSqrt sqrt) (n i : Nat) (tresh : K)
    (ht : 0 ≤ tresh) (ip iq : Nat) (st : JState K) :
    ((jacobiEntry sqrt n i tresh ip iq st).a = st.a ∧
      (jacobiEntry sqrt n i tresh ip iq st).v = st.v) ∨
    (st.a ip iq ≠ 0 ∧ ∃ s tau : K, s ≠ 0 ∧ 1 - s * tau ≠ 0 ∧
      (jacobiEntry sqrt n i tresh ip iq st).a = rotateA s tau n ip iq st.a ∧
      (jacobiEntry sqrt n i tresh ip iq st).v = rotateV s tau n ip iq st.v) := by
  unfold jacobiEntry
  simp only
  split_ifs with h1 h2
  · left
    refine ⟨?_, rfl⟩
    have hg : (100 : K) * |st.a ip iq| = 0 := by
      have := h1.2.1
      linarith
    have ha : st.a ip iq = 0 := by
      rcases mul_eq_zero.mp hg with h | h
      · norm_num at h
      · exact abs_eq_zero.mp h
    funext r c
    show Mat.set st.a ip iq 0 r c = st.a r c
    by_cases hrc : r = ip ∧ c = iq
    · rw [hrc.1, hrc.2, matSet_same, ha]
    · rw [matSet_ne _ _ _ _ _ _ (by tauto)]
  · right
    have ha : st.a ip iq ≠ 0 := by
      intro h0
      rw [h0, abs_zero] at h2
      exact absurd h2 (not_lt.mpr ht)
    have htne := rotationT_ne_zero sqrt hsqrt ip iq st ha
    obtain ⟨c1, c2, _⟩ := rotation_coeffs sqrt hsqrt (rotationT sqrt (100 * |st.a ip iq|) ip iq st)
    refine ⟨ha, _, _, ?_, ?_, rfl, rfl⟩
    · exact mul_ne_zero htne (ne_of_gt c1)
    · rw [c2]
      exact ne_of_gt c1
  · left
    exact ⟨rfl, rfl⟩

end

/-! ### A pattern of zeros that every entry step keeps -/

section

variable {K : Type} [LinearOrderedField K]

/-- A rotation applied to a pair of which exactly one member is zero leaves
both members non-zero. -/
theorem pair_rotate (s tau x y : K) (hs : s ≠ 0) (hc : 1 - s * tau ≠ 0)
    (h : (x = 0 ∧ y ≠ 0) ∨ (x ≠ 0 ∧ y = 0)) :
    x - s * (y + x * tau) ≠ 0 ∧ y + s * (x - y * tau) ≠ 0 := by
  rcases h with ⟨hx, hy⟩ | ⟨hx, hy⟩
  · subst hx
    constructor
    · have : (0 : K) - s * (y + 0 * tau) = -(s * y) := by ring
      rw [this]
      exact neg_ne_zero.mpr (mul_ne_zero hs hy)
    · have : y + s * (0 - y * tau) = y * (1 - s * tau) := by ring
      rw [this]
      exact mul_ne_zero hy hc
  · subst hy
    constructor
    · have : x - s * (0 + x * tau) = x * (1 - s * tau) := by ring
      rw [this]
      exact mul_ne_zero hx hc
    · have : (0 : K) + s * (x - 0 * tau) = s * x := by ring
      rw [this]
      exact mul_ne_zero hs hx

/-- Every entry step keeps the pattern: a zero entry is not rotated, and the
rotation of a non-zero entry of the last three indices moves the zero. -/
theorem entry_pattern (sqrt : K → K) (hsqrt : ExactSqrt sqrt) (o i : Nat) (tresh : K)
    (ht : 0 ≤ tresh) (ip iq : Nat) (h1 : ip < iq) (h2 : iq < o + 3) (st : JState K)
    (hP : ChainPattern o st.a ∧ UnitColumns o st.v) :
    ChainPattern o (jacobiEntry sqrt (o + 3) i tresh ip iq st).a ∧
    UnitColumns o (jacobiEntry sqrt (o + 3) i tresh ip iq st).v := by
  rcases jacobiEntry_cases sqrt hsqrt (o + 3) i tresh ht ip iq st with
    ⟨ea, ev⟩ | ⟨ha, s, tau, hs, hc, ea, ev⟩
  · rw [ea, ev]
    exact hP
  · obtain ⟨⟨hz, hone⟩, hU⟩ := hP
    have hpo : o ≤ ip := by
      by_contra hlt
      exact ha (hz ip iq (by omega) h1 h2)
    rw [ea, ev]
    obtain ⟨r1, r2, r3, r4, r5, r6, r7, r8, r9⟩ := rotateA_spec s tau (o + 3) ip iq st.a h1 h2
    refine ⟨⟨?_, ?_⟩, ?_⟩
    · intro r c hr hrc hc3
      by_cases hcp : c = ip
      · subst hcp
        rw [r2 r (by omega), hz r c hr hrc hc3, hz r iq hr (by omega) h2]
        ring
      · by_cases hcq : c = iq
        · subst hcq
          rw [r3 r (by omega), hz r c hr hrc hc3, hz r ip hr (by omega) (by omega)]
          ring
        · rw [r8 r c (by omega) (by omega) hcp hcq]
          exact hz r c hr hrc hc3
    · have hcases : (ip = o ∧ iq = o + 1) ∨ (ip = o ∧ iq = o + 2) ∨
          (ip = o + 1 ∧ iq = o + 2) := by omega
      unfold OneZero at hone ⊢
      rcases hcases with ⟨e1, e2⟩ | ⟨e1, e2⟩ | ⟨e1, e2⟩
      · subst e1; subst e2
        rw [r1, r6 (ip + 2) (by omega) (by omega), r7 (ip + 2) (by omega) (by omega)]
        have hp := pair_rotate s tau (st.a ip (ip + 2)) (st.a (ip + 1) (ip + 2)) hs hc
          (by rcases hone with h | h | h <;> tauto)
        exact Or.inl ⟨rfl, hp.1, hp.2⟩
      · subst e1; subst e2
        rw [r1, r4 (ip + 1) (by omega) (by omega), r5 (ip + 1) (by omega) (by omega)]
        have hp := pair_rotate s tau (st.a ip (ip + 1)) (st.a (ip + 1) (ip + 2)) hs hc
          (by rcases hone with h | h | h <;> tauto)
        exact Or.inr (Or.inl ⟨hp.1, rfl, hp.2⟩)
      · subst e1; subst e2
        rw [r1, r2 o (by omega), r3 o (by omega)]
        have hp := pair_rotate s tau (st.a o (o + 1)) (st.a o (o + 2)) hs hc
          (by rcases hone with h | h | h <;> tauto)
        exact Or.inr (Or.inr ⟨hp.1, hp.2, rfl⟩)
    · intro k j hk hj
      rw [rotateV_spec s tau (o + 3) ip iq (by omega), if_pos hk, if_neg (by omega),
        if_neg (by omega)]
      exact hU k j hk hj

end

/-! ### Inputs on which the exact sweeps never end -/

section

variable {K : Type} [LinearOrderedField K]

/-- With the pattern, the sum the `break` test looks at is not zero. -/
theorem pattern_offDiag (o : Nat) (a : Mat K) (h : ChainPattern o a) :
    offDiagSum (o + 3) a ≠ 0 := by
  intro h0
  rw [offDiagSum_eq_zero_iff] at h0
  have z1 := h0 o (o + 1) (by omega) (by omega)
  have z2 := h0 o (o + 2) (by omega) (by omega)
  have z3 := h0 (o + 1) (o + 2) (by omega) (by omega)
  rcases h.2 with h | h | h <;> tauto

/-- One sweep keeps the pattern. -/
theorem sweepBody_pattern (sqrt : K → K) (hsqrt : ExactSqrt sqrt) (o i : Nat) (sm : K)
    (hsm : 0 ≤ sm) (st : JState K) (hP : ChainPattern o st.a ∧ UnitColumns o st.v) :
    ChainPattern o (sweepBody sqrt (o + 3) i sm st).a ∧
    UnitColumns o (sweepBody sqrt (o + 3) i sm st).v := by
  unfold sweepBody
  simp only
  apply loop_preserve (fun t : JState K => ChainPattern o t.a ∧ UnitColumns o t.v) _ 0 (o + 3)
  · apply sweepEntries_preserve (fun t : JState K => ChainPattern o t.a ∧ UnitColumns o t.v)
      sqrt (o + 3) i _ _ st hP
    intro ip iq t h1 h2 ht
    have h0 : (0 : K) ≤ if i < 3 then 0.2 * sm / (((o + 3) * (o + 3) : Nat) : K) else 0 := by
      split
      · positivity
      · exact le_rfl
    exact entry_pattern sqrt hsqrt o i _ h0 ip iq h1 h2 t ht
  · intro k t _ ht
    exact ht

/-- With the pattern the sweep loop never reaches its `break`: it uses up
all its passes, and the pattern holds at its end. -/
theorem sweepLoop_pattern (sqrt : K → K) (hsqrt : ExactSqrt sqrt) (o fuel : Nat) :
    ∀ (i : Nat) (st : JState K), (ChainPattern o st.a ∧ UnitColumns o st.v) →
      (sweepLoop sqrt (o + 3) fuel i st).2 = i + fuel ∧
      ChainPattern o (sweepLoop sqrt (o + 3) fuel i st).1.a ∧
      UnitColumns o (sweepLoop sqrt (o + 3) fuel i st).1.v := by
  induction fuel with
  | zero =>
    intro i st hP
    exact ⟨rfl, hP⟩
  | succ m ih =>
    intro i st hP
    rw [sweepLoop_succ, if_neg (pattern_offDiag o st.a hP.1)]
    obtain ⟨e, hp⟩ := ih (i + 1) _
      (sweepBody_pattern sqrt hsqrt o i _ (offDiagSum_nonneg (o + 3) st.a) st hP)
    exact ⟨by rw [e]; omega, hp⟩

/-- On an input with the pattern `JacobiN` returns 0: the arrays are those
of the twentieth sweep, the strictly-upper entries of `a` are not all zero,
and the columns of `v` left of the last three are those of the identity. -/
theorem JacobiN_pattern (sqrt : K → K) (hsqrt : ExactSqrt sqrt) (o : Nat) (a : Mat K)
    (w : Vec K) (v : Mat K) (hP : ChainPattern o a) :
    (JacobiN sqrt a (o + 3) w v).ret = 0 ∧
    (JacobiN sqrt a (o + 3) w v).w = (jacobiSweeps sqrt a (o + 3) w v).1.w ∧
    (JacobiN sqrt a (o + 3) w v).v = (jacobiSweeps sqrt a (o + 3) w v).1.v ∧
    ChainPattern o (jacobiSweeps sqrt a (o + 3) w v).1.a ∧
    UnitColumns o (jacobiSweeps sqrt a (o + 3) w v).1.v := by
  obtain ⟨i1, i2, _⟩ := jacobiInit_spec a (o + 3) w v
  have hinit : ChainPattern o (jacobiInit a (o + 3) w v).a ∧
      UnitColumns o (jacobiInit a (o + 3) w v).v := by
    rw [i1, i2]
    refine ⟨hP, ?_⟩
    intro k j hk hj
    rw [initV_spec, if_pos ⟨hk, by omega⟩]
  obtain ⟨e, hp⟩ := sweepLoop_pattern sqrt hsqrt o VTK_MAX_ROTATIONS 0 _ hinit
  have hdef : jacobiSweeps sqrt a (o + 3) w v
      = sweepLoop sqrt (o + 3) VTK_MAX_ROTATIONS 0 (jacobiInit a (o + 3) w v) := rfl
  rw [← hdef] at e hp
  have hge : (jacobiSweeps sqrt a (o + 3) w v).2 ≥ VTK_MAX_ROTATIONS := by omega
  refine ⟨?_, ?_, ?_, hp⟩
  · unfold JacobiN
    simp only
    rw [if_pos hge]
  · unfold JacobiN
    simp only
    rw [if_pos hge]
  · unfold JacobiN
    simp only
    rw [if_pos hge]

end

/-! ### The sum of squared entries under an orthogonal change of basis -/

section

variable {K : Type} [LinearOrderedField K]

/-- The sum of the squared entries is kept under `C·V = V·S` with `V`
orthogonal. -/
theorem frobenius_eq (n : Nat) (C V S : Mat K) (hO : Orthogonal n V)
    (hE : ∀ i j, i < n → j < n →
      ∑ k in Finset.range n, C i k * V k j = ∑ k in Finset.range n, V i k * S k j) :
    ∑ i in Finset.range n, ∑ j in Finset.range n, C i j * C i j
      = ∑ i in Finset.range n, ∑ j in Finset.range n, S i j * S i j := by
  have hVtV : (Matrix.of (fun (a b : Fin n) => V a b)).transpose
      * Matrix.of (fun (a b : Fin n) => V a b) = 1 := by
    ext a b
    rw [Matrix.mul_apply]
    simp only [Matrix.transpose_apply, Matrix.of_apply]
    rw [Fin.sum_univ_eq_sum_range (fun k => V k a * V k b) n, hO a b a.2 b.2, Matrix.one_apply]
    simp only [identity, Fin.ext_iff]
  have hVVt := Matrix.mul_eq_one_comm.mp hVtV
  have hCV : Matrix.of (fun (a b : Fin n) => C a b) * Matrix.of (fun (a b : Fin n) => V a b)
      = Matrix.of (fun (a b : Fin n) => V a b) * Matrix.of (fun (a b : Fin n) => S a b) := by
    ext a b
    rw [Matrix.mul_apply, Matrix.mul_apply]
    simp only [Matrix.of_apply]
    rw [Fin.sum_univ_eq_sum_range (fun k => C a k * V k b) n,
      Fin.sum_univ_eq_sum_range (fun k => V a k * S k b) n]
    exact hE a b a.2 b.2
  generalize Matrix.of (fun (a b : Fin n) => V a b) = MV at hVtV hVVt hCV
  generalize hMC : Matrix.of (fun (a b : Fin n) => C a b) = MC at hCV
  generalize hMS : Matrix.of (fun (a b : Fin n) => S a b) = MS at hCV
  have hC : MC = MV * MS * MV.transpose := by
    calc MC = MC * (MV * MV.transpose) := by rw [hVVt, Matrix.mul_one]
      _ = (MC * MV) * MV.transpose := by rw [Matrix.mul_assoc]
      _ = MV * MS * MV.transpose := by rw [hCV]
  have htr : (MC * MC.transpose).trace = (MS * MS.transpose).trace := by
    rw [hC]
    simp only [Matrix.transpose_mul, Matrix.transpose_transpose]
    calc (MV * MS * MV.transpose * (MV * (MS.transpose * MV.transpose))).trace
        = (MV * MS * (MV.transpose * MV) * (MS.transpose * MV.transpose)).trace := by
          simp only [Matrix.mul_assoc]
      _ = (MV * (MS * MS.transpose * MV.transpose)).trace := by
          rw [hVtV, Matrix.mul_one]
          simp only [Matrix.mul_assoc]
      _ = (MS * MS.transpose * MV.transpose * MV).trace := by rw [Matrix.trace_mul_comm]
      _ = (MS * MS.transpose).trace := by
          rw [Matrix.mul_assoc (MS * MS.transpose), hVtV, Matrix.mul_one]
  have hsum : ∀ (X : Mat K), (Matrix.of (fun (a b : Fin n) => X a b)
      * (Matrix.of (fun (a b : Fin n) => X a b)).transpose).trace
      = ∑ i in Finset.range n, ∑ j in Finset.range n, X i j * X i j := by
    intro X
    rw [Matrix.trace]
    simp only [Matrix.diag_apply, Matrix.mul_apply, Matrix.transpose_apply, Matrix.of_apply]
    rw [Fin.sum_univ_eq_sum_range (fun i => ∑ j : Fin n, X i j * X i j) n]
    apply Finset.sum_congr rfl
    intro i _
    rw [Fin.sum_univ_eq_sum_range (fun j => X i j * X i j) n]
  rw [← hsum C, ← hsum S, hMC, hMS]
  exact htr

end

/-! ### The eigenvalues `Diagonalize3x3` returns, up to order -/

section

variable {K : Type} [LinearOrderedField K]

/-- Exchanging two of the first three cells keeps the sum of their squares. -/
theorem swap_cells_sq (w : Vec K) (a b : Nat) (ha : a < 3) (hb : b < 3) :
    Vec.set (Vec.set w a (w b)) b (w a) 0 * Vec.set (Vec.set w a (w b)) b (w a) 0
      + Vec.set (Vec.set w a (w b)) b (w a) 1 * Vec.set (Vec.set w a (w b)) b (w a) 1
      + Vec.set (Vec.set w a (w b)) b (w a) 2 * Vec.set (Vec.set w a (w b)) b (w a) 2
      = w 0 * w 0 + w 1 * w 1 + w 2 * w 2 := by
  interval_cases a <;> interval_cases b <;> simp [Vec.set] <;> ring

/-- The eigenvalues `Diagonalize3x3` returns are those of its `JacobiN`
call in some order: the sum of their squares is the same. -/
theorem Diagonalize3x3_w_sq (sqrt : K → K) (A : Mat K) (w : Vec K) (V : Mat K) :
    (Diagonalize3x3 sqrt A w V).w 0 * (Diagonalize3x3 sqrt A w V).w 0
      + (Diagonalize3x3 sqrt A w V).w 1 * (Diagonalize3x3 sqrt A w V).w 1
      + (Diagonalize3x3 sqrt A w V).w 2 * (Diagonalize3x3 sqrt A w V).w 2
    = (JacobiN sqrt (copy3x3 A (fun _ _ => 0)) 3 w V).w 0
        * (JacobiN sqrt (copy3x3 A (fun _ _ => 0)) 3 w V).w 0
      + (JacobiN sqrt (copy3x3 A (fun _ _ => 0)) 3 w V).w 1
        * (JacobiN sqrt (copy3x3 A (fun _ _ => 0)) 3 w V).w 1
      + (JacobiN sqrt (copy3x3 A (fun _ _ => 0)) 3 w V).w 2
        * (JacobiN sqrt (copy3x3 A (fun _ _ => 0)) 3 w V).w 2 := by
  have hpair : ∀ (i : Nat) (u : Vec K) (X : Mat K), i < 3 →
      (alignPair sqrt i u X).w 0 * (alignPair sqrt i u X).w 0
        + (alignPair sqrt i u X).w 1 * (alignPair sqrt i u X).w 1
        + (alignPair sqrt i u X).w 2 * (alignPair sqrt i u X).w 2
      = u 0 * u 0 + u 1 * u 1 + u 2 * u 2 := by
    intro i u X hi
    unfold alignPair
    simp only
    split_ifs
    · exact swap_cells_sq u _ i (argMaxRow_spec X i).1 hi
    · rfl
  have hdist : ∀ (u : Vec K) (X : Mat K),
      (alignDistinct u X).w 0 * (alignDistinct u X).w 0
        + (alignDistinct u X).w 1 * (alignDistinct u X).w 1
        + (alignDistinct u X).w 2 * (alignDistinct u X).w 2
      = u 0 * u 0 + u 1 * u 1 + u 2 * u 2 := by
    intro u X
    unfold alignDistinct
    simp only
    have h1 : ∀ u1 : Vec K, (if argMaxCol0 X ≠ 0
        then Vec.set (Vec.set u (argMaxCol0 X) (u 0)) 0 (u (argMaxCol0 X)) else u) = u1 →
        u1 0 * u1 0 + u1 1 * u1 1 + u1 2 * u1 2 = u 0 * u 0 + u 1 * u 1 + u 2 * u 2 := by
      intro u1 h
      rw [← h]
      split_ifs
      · exact swap_cells_sq u _ 0 (argMaxCol0_lt X) (by norm_num)
      · rfl
    generalize hu1 : (if argMaxCol0 X ≠ 0
        then Vec.set (Vec.set u (argMaxCol0 X) (u 0)) 0 (u (argMaxCol0 X)) else u) = u1
    rw [← h1 u1 hu1]
    split_ifs <;> first | exact swap_cells_sq u1 2 1 (by norm_num) (by norm_num) | rfl
  unfold Diagonalize3x3
  simp only
  split_ifs
  · rfl
  · exact hpair 0 _ _ (by norm_num)
  · exact hpair 1 _ _ (by norm_num)
  · exact hpair 2 _ _ (by norm_num)
  · exact hdist _ _

end

/-! ### `Orthogonalize3x3` on the sample matrix -/

section

variable {K : Type} [LinearOrderedField K]

/-- The nine cells of `sampleChain`. -/
theorem sampleChain_cells :
    (sampleChain : Mat K) 0 0 = 2 ∧ (sampleChain : Mat K) 0 1 = 1 ∧
    (sampleChain : Mat K) 0 2 = 0 ∧ (sampleChain : Mat K) 1 0 = 1 ∧
    (sampleChain : Mat K) 1 1 = 3 ∧ (sampleChain : Mat K) 1 2 = 1 ∧
    (sampleChain : Mat K) 2 0 = 0 ∧ (sampleChain : Mat K) 2 1 = 1 ∧
    (sampleChain : Mat K) 2 2 = 2 := by
  simp [sampleChain]

/-- The pivoting of `vtkOrthogonalize3x3` interchanges no rows of a matrix
with the cells of `sampleChain`. -/
theorem orthoPivot_chain (X : Mat K) (hX : Same3x3 X sampleChain) :
    orthoPivot X = (X, 0, 1) := by
  obtain ⟨c00, c01, c02, c10, c11, c12, c20, c21, c22⟩ := sampleChain_cells (K := K)
  have x00 : X 0 0 = 2 := by rw [hX 0 0 (by norm_num) (by norm_num), c00]
  have x01 : X 0 1 = 1 := by rw [hX 0 1 (by norm_num) (by norm_num), c01]
  have x02 : X 0 2 = 0 := by rw [hX 0 2 (by norm_num) (by norm_num), c02]
  have x10 : X 1 0 = 1 := by rw [hX 1 0 (by norm_num) (by norm_num), c10]
  have x11 : X 1 1 = 3 := by rw [hX 1 1 (by norm_num) (by norm_num), c11]
  have x12 : X 1 2 = 1 := by rw [hX 1 2 (by norm_num) (by norm_num), c12]
  have x20 : X 2 0 = 0 := by rw [hX 2 0 (by norm_num) (by norm_num), c20]
  have x21 : X 2 1 = 1 := by rw [hX 2 1 (by norm_num) (by norm_num), c21]
  have x22 : X 2 2 = 2 := by rw [hX 2 2 (by norm_num) (by norm_num), c22]
  have s0 : scaleLoop3 X (fun _ => 0) 0 = 1 / 2 := by
    simp only [scaleLoop3, loop_three, scaleStep3, Vec.set, x00, x01, x02]
    norm_num
  have s1 : scaleLoop3 X (fun _ => 0) 1 = 1 / 3 := by
    simp only [scaleLoop3, loop_three, scaleStep3, Vec.set, x10, x11, x12]
    norm_num
  have s2 : scaleLoop3 X (fun _ => 0) 2 = 1 / 2 := by
    simp only [scaleLoop3, loop_three, scaleStep3, Vec.set, x20, x21, x22]
    norm_num
  have hp : firstPivot3 X (scaleLoop3 X (fun _ => 0)) = 0 := by
    simp only [firstPivot3, s0, s1, s2, x00, x10, x20]
    norm_num
  unfold orthoPivot
  simp only [hp, ne_eq, not_true_eq_false, if_false, s1, s2, x11, x21]
  norm_num

/-- On a matrix with the cells of `sampleChain` the rotation sequence of
`Matrix3x3ToQuaternion` never reaches its `break`, and the quaternion left
is `(1, 0, 0, 0)`. -/
theorem Matrix3x3ToQuaternion_chain (sqrt : K → K) (hsqrt : ExactSqrt sqrt) (X : Mat K)
    (hX : Same3x3 X sampleChain) (quat : Vec K) (k : Nat) (hk : k < 4) :
    Matrix3x3ToQuaternion sqrt X quat k = quatOf 1 0 0 0 k := by
  obtain ⟨c00, c01, c02, c10, c11, c12, c20, c21, c22⟩ := sampleChain_cells (K := K)
  have x01 : X 0 1 = 1 := by rw [hX 0 1 (by norm_num) (by norm_num), c01]
  have x02 : X 0 2 = 0 := by rw [hX 0 2 (by norm_num) (by norm_num), c02]
  have x10 : X 1 0 = 1 := by rw [hX 1 0 (by norm_num) (by norm_num), c10]
  have x12 : X 1 2 = 1 := by rw [hX 1 2 (by norm_num) (by norm_num), c12]
  have x20 : X 2 0 = 0 := by rw [hX 2 0 (by norm_num) (by norm_num), c20]
  have x21 : X 2 1 = 1 := by rw [hX 2 1 (by norm_num) (by norm_num), c21]
  obtain ⟨_, e01, e02, e03, _, _, e12, e13, _, _, _, e23, _⟩ := hornMatrix_entries X
  have hP : ChainPattern 1 (hornMatrix X) := by
    constructor
    · intro r c hr hrc hc
      have hr0 : r = 0 := by omega
      subst hr0
      interval_cases c
      · rw [e01, x21, x12]; ring
      · rw [e02, x02, x20]; ring
      · rw [e03, x10, x01]; ring
    · right; left
      show hornMatrix X 1 2 ≠ 0 ∧ hornMatrix X 1 3 = 0 ∧ hornMatrix X 2 3 ≠ 0
      rw [e12, e13, e23, x10, x01, x02, x20, x21, x12]
      norm_num
  obtain ⟨_, _, _, _, hU⟩ :=
    JacobiN_pattern sqrt hsqrt 1 (hornMatrix X) (fun _ => 0) (fun _ _ => 0) hP
  obtain ⟨_, _, hv, _, _⟩ :=
    JacobiN_pattern sqrt hsqrt 1 (hornMatrix X) (fun _ => 0) (fun _ _ => 0) hP
  rw [Matrix3x3ToQuaternion_eq sqrt X quat k hk, hv, hU k 0 hk (by norm_num)]
  interval_cases k <;> simp [identity, quatOf]

/-- The matrix of the quaternion `(1, 0, 0, 0)` is the identity. -/
theorem QuaternionToMatrix3x3_one (sqrt : K → K) (hsqrt : ExactSqrt sqrt) (q : Vec K)
    (hq : ∀ k, k < 4 → q k = quatOf 1 0 0 0 k) (A : Mat K) :
    Same3x3 (QuaternionToMatrix3x3 sqrt q A) identity := by
  obtain ⟨e00, e01, e02, e10, e11, e12, e20, e21, e22⟩ :=
    QuaternionToMatrix3x3_entries sqrt q A
  have q0 : q 0 = 1 := by rw [hq 0 (by norm_num)]; simp [quatOf]
  have q1 : q 1 = 0 := by rw [hq 1 (by norm_num)]; simp [quatOf]
  have q2 : q 2 = 0 := by rw [hq 2 (by norm_num)]; simp [quatOf]
  have q3 : q 3 = 0 := by rw [hq 3 (by norm_num)]; simp [quatOf]
  have h1 := exactSqrt_one sqrt hsqrt
  intro i j hi hj
  interval_cases i <;> interval_cases j <;>
    simp only [e00, e01, e02, e10, e11, e12, e20, e21, e22, q0, q1, q2, q3] <;>
    norm_num [h1, identity]

/-- For a matrix with the cells of `sampleChain`, `Orthogonalize3x3` returns
the identity on the nine cells. -/
theorem Orthogonalize3x3_chain (sqrt : K → K) (hsqrt : ExactSqrt sqrt) (A B : Mat K)
    (hA : Same3x3 A sampleChain) : Same3x3 (Orthogonalize3x3 sqrt A B) identity := by
  have hX : Same3x3 (copy3x3 A B) sampleChain := by
    intro i j hi hj
    rw [copy3x3_spec, if_pos ⟨hi, hj⟩, hA i j hi hj]
  obtain ⟨c00, c01, c02, c10, c11, c12, c20, c21, c22⟩ := sampleChain_cells (K := K)
  have hd : ¬ Determinant3x3 (copy3x3 A B) < 0 := by
    rw [det_congr _ _ hX]
    simp only [Determinant3x3, c00, c01, c02, c10, c11, c12, c20, c21, c22]
    norm_num
  unfold Orthogonalize3x3
  simp only [orthoPivot_chain _ hX, if_neg hd, ne_eq, not_true_eq_false, if_false]
  exact QuaternionToMatrix3x3_one sqrt hsqrt _
    (fun k hk => Matrix3x3ToQuaternion_chain sqrt hsqrt _ hX _ k hk) _

end

/-! ### The eigensolver on the sample matrix -/

section

variable {K : Type} [LinearOrderedField K]

/-- Orthonormal rows of a 3-by-3 matrix give orthonormal columns, as sums. -/
theorem orthogonal_of_rows (V : Mat K) (h : RowsOrthonormal V) : Orthogonal 3 V := by
  intro i j hi hj
  have := cols_of_rows V h i j hi hj
  simp only [Finset.sum_range_succ, Finset.sum_range_zero, zero_add, identity]
  exact this

/-- If `A = V·diag(w)·Vᵗ` on the nine cells with `V` orthogonal, the squared
entries of `A` add up to the squares of `w`. -/
theorem spectral_frobenius (A V : Mat K) (w : Vec K) (hO : Orthogonal 3 V)
    (hA : ∀ i j, i < 3 → j < 3 → A i j = ∑ m in Finset.range 3, V i m * w m * V j m) :
    ∑ i in Finset.range 3, ∑ j in Finset.range 3, A i j * A i j
      = w 0 * w 0 + w 1 * w 1 + w 2 * w 2 := by
  have hE : ∀ i j, i < 3 → j < 3 →
      ∑ k in Finset.range 3, A i k * V k j
        = ∑ k in Finset.range 3, V i k * (fun a b : Nat => if a = b then w a else 0) k j := by
    intro i j hi hj
    calc ∑ k in Finset.range 3, A i k * V k j
        = ∑ k in Finset.range 3, ∑ m in Finset.range 3, V i m * w m * V k m * V k j := by
          apply Finset.sum_congr rfl
          intro k hk
          rw [hA i k hi (Finset.mem_range.mp hk), Finset.sum_mul]
      _ = ∑ m in Finset.range 3, ∑ k in Finset.range 3, V i m * w m * V k m * V k j :=
          Finset.sum_comm
      _ = ∑ m in Finset.range 3, V i m * (w m * identity m j) := by
          apply Finset.sum_congr rfl
          intro m hm
          rw [← hO m j (Finset.mem_range.mp hm) hj, Finset.mul_sum, Finset.mul_sum]
          apply Finset.sum_congr rfl
          intro k _
          ring
      _ = ∑ k in Finset.range 3, V i k * (fun a b : Nat => if a = b then w a else 0) k j := by
          apply Finset.sum_congr rfl
          intro k _
          simp only [identity]
          split_ifs <;> ring
  rw [frobenius_eq 3 A V (fun a b : Nat => if a = b then w a else 0) hO hE]
  simp [Finset.sum_range_succ]

/-- For a matrix with the cells of `sampleChain` the rotation sequence of
`Diagonalize3x3` never reaches its `break`, and the squares of the values
left in `w` add up to less than the squared entries of the matrix. -/
theorem JacobiN_chain (sqrt : K → K) (hsqrt : ExactSqrt sqrt) (C : Mat K)
    (hC : Same3x3 C sampleChain) (w : Vec K) (v : Mat K) :
    (JacobiN sqrt C 3 w v).ret = 0 ∧
    (JacobiN sqrt C 3 w v).w 0 * (JacobiN sqrt C 3 w v).w 0
      + (JacobiN sqrt C 3 w v).w 1 * (JacobiN sqrt C 3 w v).w 1
      + (JacobiN sqrt C 3 w v).w 2 * (JacobiN sqrt C 3 w v).w 2 < 21 := by
  obtain ⟨c00, c01, c02, c10, c11, c12, c20, c21, c22⟩ := sampleChain_cells (K := K)
  have x00 : C 0 0 = 2 := by rw [hC 0 0 (by norm_num) (by norm_num), c00]
  have x01 : C 0 1 = 1 := by rw [hC 0 1 (by norm_num) (by norm_num), c01]
  have x02 : C 0 2 = 0 := by rw [hC 0 2 (by norm_num) (by norm_num), c02]
  have x10 : C 1 0 = 1 := by rw [hC 1 0 (by norm_num) (by norm_num), c10]
  have x11 : C 1 1 = 3 := by rw [hC 1 1 (by norm_num) (by norm_num), c11]
  have x12 : C 1 2 = 1 := by rw [hC 1 2 (by norm_num) (by norm_num), c12]
  have x20 : C 2 0 = 0 := by rw [hC 2 0 (by norm_num) (by norm_num), c20]
  have x21 : C 2 1 = 1 := by rw [hC 2 1 (by norm_num) (by norm_num), c21]
  have x22 : C 2 2 = 2 := by rw [hC 2 2 (by norm_num) (by norm_num), c22]
  have hP : ChainPattern 0 C := by
    constructor
    · intro r c hr
      omega
    · right; left
      show C 0 1 ≠ 0 ∧ C 0 2 = 0 ∧ C 1 2 ≠ 0
      rw [x01, x02, x12]
      norm_num
  have hsym : ∀ i j, i < 3 → j < 3 → C i j = C j i := by
    intro i j hi hj
    interval_cases i <;> interval_cases j <;>
      simp only [x00, x01, x02, x10, x11, x12, x20, x21, x22]
  have hJ : (JacobiN sqrt C 3 w v).ret = 0 ∧
      (JacobiN sqrt C 3 w v).w = (jacobiSweeps sqrt C 3 w v).1.w ∧
      (JacobiN sqrt C 3 w v).v = (jacobiSweeps sqrt C 3 w v).1.v ∧
      ChainPattern 0 (jacobiSweeps sqrt C 3 w v).1.a ∧
      UnitColumns 0 (jacobiSweeps sqrt C 3 w v).1.v := JacobiN_pattern sqrt hsqrt 0 C w v hP
  obtain ⟨hret, hw, _, hpat, _⟩ := hJ
  have hE := jacobiSweeps_eigen sqrt hsqrt C 3 w v hsym
  have hO := jacobiSweeps_orthogonal sqrt hsqrt C 3 w v
  refine ⟨hret, ?_⟩
  rw [hw]
  generalize (jacobiSweeps sqrt C 3 w v).1 = st at hpat hE hO
  have hF := frobenius_eq 3 C st.v (symOf st.a st.w) hO hE.1
  have hL : ∑ i in Finset.range 3, ∑ j in Finset.range 3, C i j * C i j = 21 := by
    simp only [Finset.sum_range_succ, Finset.sum_range_zero, zero_add,
      x00, x01, x02, x10, x11, x12, x20, x21, x22]
    norm_num
  have hR : ∑ i in Finset.range 3, ∑ j in Finset.range 3,
      symOf st.a st.w i j * symOf st.a st.w i j
      = st.w 0 * st.w 0 + st.w 1 * st.w 1 + st.w 2 * st.w 2
        + 2 * (st.a 0 1 * st.a 0 1 + st.a 0 2 * st.a 0 2 + st.a 1 2 * st.a 1 2) := by
    simp only [Finset.sum_range_succ, Finset.sum_range_zero, zero_add, symOf]
    norm_num
    ring
  rw [hL, hR] at hF
  have n1 := mul_self_nonneg (st.a 0 1)
  have n2 := mul_self_nonneg (st.a 0 2)
  have n3 := mul_self_nonneg (st.a 1 2)
  have hone : OneZero (st.a 0 1) (st.a 0 2) (st.a 1 2) := hpat.2
  rcases hone with ⟨_, h2, _⟩ | ⟨h1, _, _⟩ | ⟨h1, _, _⟩
  · have := mul_self_pos.mpr h2
    linarith
  · have := mul_self_pos.mpr h1
    linarith
  · have := mul_self_pos.mpr h1
    linarith

end

/-! ### The sample matrix in exact arithmetic: the factors do not recombine -/

section

variable {K : Type} [LinearOrderedField K]

/-- For a matrix with the cells of `sampleChain` the product
`U·diag(w)·VT` of what `SingularValueDecomposition3x3` returns is not the
matrix: neither internal rotation sequence reaches its `break`. -/
theorem svd_chain (sqrt : K → K) (hsqrt : ExactSqrt sqrt) (A : Mat K)
    (hA : Same3x3 A sampleChain) (U : Mat K) (w : Vec K) (VT : Mat K) :
    ¬ Same3x3 (svdProduct (SingularValueDecomposition3x3 sqrt A U w VT).U
      (SingularValueDecomposition3x3 sqrt A U w VT).w
      (SingularValueDecomposition3x3 sqrt A U w VT).VT) A := by
  obtain ⟨c00, c01, c02, c10, c11, c12, c20, c21, c22⟩ := sampleChain_cells (K := K)
  have hB : Same3x3 (copy3x3 A (fun _ _ => 0)) sampleChain := by
    intro i j hi hj
    rw [copy3x3_spec, if_pos ⟨hi, hj⟩, hA i j hi hj]
  have hd : ¬ Determinant3x3 (copy3x3 A (fun _ _ => 0)) < 0 := by
    rw [det_congr _ _ hB]
    simp only [Determinant3x3, c00, c01, c02, c10, c11, c12, c20, c21, c22]
    norm_num
  unfold SingularValueDecomposition3x3
  simp only [if_neg hd]
  generalize copy3x3 A (fun _ _ => 0) = B at hB
  have hUo := Orthogonalize3x3_chain sqrt hsqrt B U hB
  generalize Orthogonalize3x3 sqrt B U = Uo at hUo
  have hsymS : ∀ i j, i < 3 → j < 3 → (sampleChain : Mat K) i j = sampleChain j i := by
    intro i j hi hj
    interval_cases i <;> interval_cases j <;>
      simp only [c00, c01, c02, c10, c11, c12, c20, c21, c22]
  have hM : Same3x3 (MultiplyMatrix3x3 (Transpose3x3 true B B) Uo VT) sampleChain := by
    intro i j hi hj
    rw [MultiplyMatrix3x3_spec, if_pos ⟨hi, hj⟩,
      hUo 0 j (by norm_num) hj, hUo 1 j (by norm_num) hj, hUo 2 j (by norm_num) hj,
      Transpose3x3_aliased, Transpose3x3_aliased, Transpose3x3_aliased,
      if_pos ⟨hi, by norm_num⟩, if_pos ⟨hi, by norm_num⟩, if_pos ⟨hi, by norm_num⟩,
      hB 0 i (by norm_num) hi, hB 1 i (by norm_num) hi, hB 2 i (by norm_num) hi,
      hsymS 0 i (by norm_num) hi, hsymS 1 i (by norm_num) hi, hsymS 2 i (by norm_num) hi]
    interval_cases j <;> simp [identity]
  generalize MultiplyMatrix3x3 (Transpose3x3 true B B) Uo VT = M at hM
  have hC : Same3x3 (copy3x3 M (fun _ _ => 0)) sampleChain := by
    intro i j hi hj
    rw [copy3x3_spec, if_pos ⟨hi, hj⟩, hM i j hi hj]
  have hlt := (JacobiN_chain sqrt hsqrt (copy3x3 M (fun _ _ => 0)) hC w M).2
  rw [← Diagonalize3x3_w_sq sqrt M w M] at hlt
  have hrot := Diagonalize3x3_rotation sqrt hsqrt M w M
  generalize Diagonalize3x3 sqrt M w M = D at hlt hrot
  intro hsame
  have hO := orthogonal_of_rows D.V hrot.1
  have hSp : ∀ i j, i < 3 → j < 3 →
      A i j = ∑ m in Finset.range 3, D.V i m * D.w m * D.V j m := by
    intro i j hi hj
    rw [← hsame i j hi hj]
    unfold svdProduct
    apply Finset.sum_congr rfl
    intro m hm
    have hm3 := Finset.mem_range.mp hm
    rw [MultiplyMatrix3x3_spec, if_pos ⟨hi, hm3⟩, Transpose3x3_aliased, if_pos ⟨hm3, hj⟩,
      hUo i 0 hi (by norm_num), hUo i 1 hi (by norm_num), hUo i 2 hi (by norm_num)]
    interval_cases i <;> simp [identity]
  have hF := spectral_frobenius A D.V D.w hO hSp
  have hL : ∑ i in Finset.range 3, ∑ j in Finset.range 3, A i j * A i j = 21 := by
    simp only [Finset.sum_range_succ, Finset.sum_range_zero, zero_add]
    rw [hA 0 0 (by norm_num) (by norm_num), hA 0 1 (by norm_num) (by norm_num),
      hA 0 2 (by norm_num) (by norm_num), hA 1 0 (by norm_num) (by norm_num),
      hA 1 1 (by norm_num) (by norm_num), hA 1 2 (by norm_num) (by norm_num),
      hA 2 0 (by norm_num) (by norm_num), hA 2 1 (by norm_num) (by norm_num),
      hA 2 2 (by norm_num) (by norm_num), c00, c01, c02, c10, c11, c12, c20, c21, c22]
    norm_num
  rw [hL] at hF
  linarith

end

/-! ### Eigenpairs on return 1; the polar factor from a quaternion -/

section

variable {K : Type} [LinearOrderedField K]

/-- When `JacobiN` returns 1 on a symmetric input, every column of `v` is
an eigenvector of the input for the value in the same cell of `w`. -/
theorem JacobiN_pairs (sqrt : K → K) (hsqrt : ExactSqrt sqrt) (a : Mat K) (n : Nat)
    (w : Vec K) (v : Mat K) (hsym : ∀ i j, i < n → j < n → a i j = a j i)
    (hret : (JacobiN sqrt a n w v).ret = 1) (i j : Nat) (hi : i < n) (hj : j < n) :
    ∑ k in Finset.range n, a i k * (JacobiN sqrt a n w v).v k j
      = (JacobiN sqrt a n w v).w j * (JacobiN sqrt a n w v).v i j := by
  obtain ⟨hbreak, hw, hv⟩ := JacobiN_ok sqrt a n w v hret
  obtain ⟨hinv, _⟩ := jacobiSweeps_eigen sqrt hsqrt a n w v hsym
  rw [hw, hv]
  generalize (jacobiSweeps sqrt a n w v).1 = pre at hbreak hinv
  have hzero := (offDiagSum_eq_zero_iff n pre.a).mp hbreak
  have hpre : ∀ i j, i < n → j < n →
      ∑ k in Finset.range n, a i k * pre.v k j = pre.w j * pre.v i j := by
    intro i j hi hj
    rw [hinv i j hi hj]
    have hdiag : ∀ k, k ∈ Finset.range n →
        pre.v i k * symOf pre.a pre.w k j = if k = j then pre.v i k * pre.w k else 0 := by
      intro k hk
      have hk' := Finset.mem_range.mp hk
      unfold symOf
      by_cases hkj : k = j
      · rw [if_pos hkj, if_pos hkj]
      · rw [if_neg hkj, if_neg hkj]
        by_cases hlt : k < j
        · rw [if_pos hlt, hzero k j hlt hj, mul_zero]
        · rw [if_neg hlt, hzero j k (by omega) hk', mul_zero]
    rw [Finset.sum_congr rfl hdiag, Finset.sum_ite_eq', if_pos (Finset.mem_range.mpr hj)]
    ring
  obtain ⟨⟨p, q, hpq, hsw, hsv⟩, _⟩ := jacobiSort_spec n pre.w pre.v
  obtain ⟨hsign, _⟩ := jacobiNormalize_spec n (jacobiSort n pre.w pre.v).2
  have hsorted : ∀ i, i < n →
      ∑ k in Finset.range n, a i k * (jacobiSort n pre.w pre.v).2 k j
        = (jacobiSort n pre.w pre.v).1 j * (jacobiSort n pre.w pre.v).2 i j := by
    intro i hi
    rw [hsw j hj, hsv i j hi hj, ← hpre i (p j) hi (hpq j hj).1]
    apply Finset.sum_congr rfl
    intro k hk
    rw [hsv k j (Finset.mem_range.mp hk) hj]
  rcases hsign j with h | h
  · rw [h i, ← hsorted i hi]
    apply Finset.sum_congr rfl
    intro k _
    rw [h k]
  · rw [h i, if_pos hi, mul_neg, ← hsorted i hi, ← Finset.sum_neg_distrib]
    apply Finset.sum_congr rfl
    intro k hk
    rw [h k, if_pos (Finset.mem_range.mp hk), mul_neg]

/-- The matrix `Q` of a unit eigenvector `q` of the 4-by-4 matrix built from
`B` makes `Qᵗ·B` symmetric: `Q` is an orthogonal factor of a polar
decomposition of `B`. -/
theorem polar_symmetric (sqrt : K → K) (hsqrt : ExactSqrt sqrt) (B : Mat K) (q : Vec K)
    (lam : K) (A : Mat K)
    (hq : q 0 * q 0 + q 1 * q 1 + q 2 * q 2 + q 3 * q 3 = 1)
    (hE : ∀ k, k < 4 → ∑ l in Finset.range 4, hornMatrix B k l * q l = lam * q k)
    (i j : Nat) (hi : i < 3) (hj : j < 3) :
    ∑ k in Finset.range 3, QuaternionToMatrix3x3 sqrt q A k i * B k j
      = ∑ k in Finset.range 3, QuaternionToMatrix3x3 sqrt q A k j * B k i := by
  have hn : q 0 * q 0 + (q 1 * q 1 + q 2 * q 2 + q 3 * q 3) = 1 := by linear_combination hq
  obtain ⟨e00, e01, e02, e10, e11, e12, e20, e21, e22⟩ :=
    QuaternionToMatrix3x3_entries sqrt q A
  simp only [hn, exactSqrt_one sqrt hsqrt, div_one, mul_one, one_mul]
    at e00 e01 e02 e10 e11 e12 e20 e21 e22
  obtain ⟨n00, n01, n02, n03, n10, n11, n12, n13, n20, n21, n22, n23, n30, n31, n32, n33⟩ :=
    hornMatrix_entries B
  have E0 := hE 0 (by norm_num)
  have E1 := hE 1 (by norm_num)
  have E2 := hE 2 (by norm_num)
  have E3 := hE 3 (by norm_num)
  simp only [Finset.sum_range_succ, Finset.sum_range_zero, zero_add,
    n00, n01, n02, n03, n10, n11, n12, n13, n20, n21, n22, n23, n30, n31, n32, n33]
    at E0 E1 E2 E3
  simp only [Finset.sum_range_succ, Finset.sum_range_zero, zero_add]
  interval_cases i <;> interval_cases j <;>
    simp only [e00, e01, e02, e10, e11, e12, e20, e21, e22]
  · linear_combination q 3 * E0 - q 2 * E1 + q 1 * E2 - q 0 * E3
  · linear_combination -q 2 * E0 - q 3 * E1 + q 0 * E2 + q 1 * E3
  · linear_combination -q 3 * E0 + q 2 * E1 - q 1 * E2 + q 0 * E3
  · linear_combination q 1 * E0 - q 0 * E1 - q 3 * E2 + q 2 * E3
  · linear_combination q 2 * E0 + q 3 * E1 - q 0 * E2 - q 1 * E3
  · linear_combination -q 1 * E0 + q 0 * E1 + q 3 * E2 - q 2 * E3

end

/-! ### Pivoting and flip inside `Orthogonalize3x3` -/

section

variable {K : Type} [LinearOrderedField K]

/-- A row interchange moves from one factor of `Yᵗ·Z` to the other. -/
theorem pairing_swap (r1 r2 : Nat) (h1 : r1 < 3) (h2 : r2 < 3) (Y Z : Mat K) (i j : Nat)
    (hi : i < 3) (hj : j < 3) :
    ∑ k in Finset.range 3, vtkSwapVectors3 r1 r2 Y k i * Z k j
      = ∑ k in Finset.range 3, Y k i * vtkSwapVectors3 r1 r2 Z k j := by
  simp only [Finset.sum_range_succ, Finset.sum_range_zero, zero_add, vtkSwapVectors3_spec,
    if_pos hi, if_pos hj]
  interval_cases r1 <;> interval_cases r2 <;> simp [swapIdx] <;> ring

/-- A negation moves from one factor of `Yᵗ·Z` to the other. -/
theorem pairing_negate (Y Z : Mat K) (i j : Nat) (hi : i < 3) (hj : j < 3) :
    ∑ k in Finset.range 3, negate3x3 Y k i * Z k j
      = ∑ k in Finset.range 3, Y k i * negate3x3 Z k j := by
  simp only [Finset.sum_range_succ, Finset.sum_range_zero, zero_add, negate3x3_spec]
  simp [hi, hj]

/-- The matrix the pivoting leaves, in terms of the two rows chosen. -/
theorem orthoPivot_rows (B : Mat K) :
    (orthoPivot B).1 =
      if (orthoPivot B).2.2 = 2 then
        vtkSwapVectors3 2 1
          (if (orthoPivot B).2.1 ≠ 0 then vtkSwapVectors3 (orthoPivot B).2.1 0 B else B)
      else (if (orthoPivot B).2.1 ≠ 0 then vtkSwapVectors3 (orthoPivot B).2.1 0 B else B) :=
  rfl

/-- The product `Uᵗ·A` for the matrix `U` that `Orthogonalize3x3` returns is
the product `Qᵗ·X` of the matrix `X` handed to `Matrix3x3ToQuaternion` and
the matrix `Q` of the quaternion: pivoting and flip are undone on `Q` as
they were done on `X`. -/
theorem Orthogonalize3x3_pairing (sqrt : K → K) (A B : Mat K) (i j : Nat) (hi : i < 3)
    (hj : j < 3) :
    ∑ k in Finset.range 3, Orthogonalize3x3 sqrt A B k i * A k j
      = ∑ k in Finset.range 3,
          QuaternionToMatrix3x3 sqrt
            (Matrix3x3ToQuaternion sqrt (orthoQuatInput A B) (fun _ => 0))
            (orthoQuatInput A B) k i * orthoQuatInput A B k j := by
  obtain ⟨hi0, hi1, _⟩ := orthoPivot_spec (copy3x3 A B)
  have hrows := orthoPivot_rows (copy3x3 A B)
  have hcopy : ∀ (Y : Mat K), ∑ k in Finset.range 3, Y k i * A k j
      = ∑ k in Finset.range 3, Y k i * copy3x3 A B k j := by
    intro Y
    apply Finset.sum_congr rfl
    intro k hk
    rw [copy3x3_spec, if_pos ⟨Finset.mem_range.mp hk, hj⟩]
  unfold Orthogonalize3x3 orthoQuatInput
  simp only
  rw [hcopy]
  generalize copy3x3 A B = B0 at hi0 hi1 hrows
  generalize orthoPivot B0 = p at hi0 hi1 hrows
  obtain ⟨P, i0, i1⟩ := p
  dsimp only at hi0 hi1 hrows ⊢
  generalize QuaternionToMatrix3x3 sqrt
    (Matrix3x3ToQuaternion sqrt (if Determinant3x3 P < 0 then negate3x3 P else P) (fun _ => 0))
    (if Determinant3x3 P < 0 then negate3x3 P else P) = Q
  have step1 : ∀ (T : Mat K), ∑ k in Finset.range 3,
      (if i0 ≠ 0 then vtkSwapVectors3 i0 0 T else T) k i * B0 k j
      = ∑ k in Finset.range 3,
        T k i * (if i0 ≠ 0 then vtkSwapVectors3 i0 0 B0 else B0) k j := by
    intro T
    split_ifs
    · exact pairing_swap i0 0 hi0 (by norm_num) T B0 i j hi hj
    · rfl
  rw [step1]
  generalize (if i0 ≠ 0 then vtkSwapVectors3 i0 0 B0 else B0) = B1 at hrows
  have step2 : ∀ (T : Mat K), ∑ k in Finset.range 3,
      (if i1 ≠ 1 then vtkSwapVectors3 i1 1 T else T) k i * B1 k j
      = ∑ k in Finset.range 3, T k i * P k j := by
    intro T
    rw [hrows]
    rcases hi1 with h | h
    · subst h
      simp
    · subst h
      simp only [ne_eq, OfNat.ofNat_ne_one, not_false_eq_true, if_true]
      exact pairing_swap 2 1 (by norm_num) (by norm_num) T B1 i j hi hj
  rw [step2]
  split_ifs
  · exact pairing_negate Q P i j hi hj
  · rfl

end

/-! ### `Orthogonalize3x3` returns a polar factor when its sweeps end -/

section

variable {K : Type} [LinearOrderedField K]

/-- When the rotation sequence inside `Orthogonalize3x3` ends on its
`break`, the matrix `U` returned makes `Uᵗ·A` symmetric. -/
theorem Orthogonalize3x3_polar (sqrt : K → K) (hsqrt : ExactSqrt sqrt) (A B : Mat K)
    (hret : (JacobiN sqrt (hornMatrix (orthoQuatInput A B)) 4
      (fun _ => 0) (fun _ _ => 0)).ret = 1)
    (i j : Nat) (hi : i < 3) (hj : j < 3) :
    ∑ k in Finset.range 3, Orthogonalize3x3 sqrt A B k i * A k j
      = ∑ k in Finset.range 3, Orthogonalize3x3 sqrt A B k j * A k i := by
  rw [Orthogonalize3x3_pairing sqrt A B i j hi hj, Orthogonalize3x3_pairing sqrt A B j i hj hi]
  generalize orthoQuatInput A B = X at hret
  apply polar_symmetric sqrt hsqrt X (Matrix3x3ToQuaternion sqrt X (fun _ => 0))
    ((JacobiN sqrt (hornMatrix X) 4 (fun _ => 0) (fun _ _ => 0)).w 0) X
    (Matrix3x3ToQuaternion_unit sqrt hsqrt X (fun _ => 0)) _ i j hi hj
  intro k hk
  rw [Matrix3x3ToQuaternion_eq sqrt X _ k hk,
    ← JacobiN_pairs sqrt hsqrt (hornMatrix X) 4 (fun _ => 0) (fun _ _ => 0)
      (fun a b ha hb => hornMatrix_symm X a b ha hb) hret k 0 hk (by norm_num)]
  apply Finset.sum_congr rfl
  intro l hl
  rw [Matrix3x3ToQuaternion_eq sqrt X _ l (Finset.mem_range.mp hl)]

end

/-! ### The matrix of the eigenpairs through row interchanges and negations -/

section

variable {K : Type} [LinearOrderedField K]

/-- Exchanging two rows together with their eigenvalues keeps
`Rᵗ·diag(w)·R`. -/
theorem spectral_swap (a b : Nat) (ha : a < 3) (hb : b < 3) (w : Vec K) (R : Mat K)
    (i j : Nat) (hi : i < 3) (hj : j < 3) :
    spectralSum (Vec.set (Vec.set w a (w b)) b (w a)) (vtkSwapVectors3 a b R) i j
      = spectralSum w R i j := by
  simp only [spectralSum, Finset.sum_range_succ, Finset.sum_range_zero, zero_add,
    vtkSwapVectors3_spec, if_pos hi, if_pos hj]
  interval_cases a <;> interval_cases b <;> simp [swapIdx, Vec.set] <;> ring

/-- The same with the two rows named in the other order. -/
theorem spectral_swap_rev (a b : Nat) (ha : a < 3) (hb : b < 3) (w : Vec K) (R : Mat K)
    (i j : Nat) (hi : i < 3) (hj : j < 3) :
    spectralSum (Vec.set (Vec.set w a (w b)) b (w a)) (vtkSwapVectors3 b a R) i j
      = spectralSum w R i j := by
  simp only [spectralSum, Finset.sum_range_succ, Finset.sum_range_zero, zero_add,
    vtkSwapVectors3_spec, if_pos hi, if_pos hj]
  interval_cases a <;> interval_cases b <;> simp [swapIdx, Vec.set] <;> ring

/-- Negating a row keeps `Rᵗ·diag(w)·R`. -/
theorem spectral_negate (r : Nat) (w : Vec K) (R : Mat K) (i j : Nat) (hi : i < 3)
    (hj : j < 3) : spectralSum w (negateRow r R) i j = spectralSum w R i j := by
  simp only [spectralSum, Finset.sum_range_succ, Finset.sum_range_zero, zero_add,
    negateRow_spec, hi, hj, and_true]
  by_cases h0 : (0 : Nat) = r <;> by_cases h1 : (1 : Nat) = r <;> by_cases h2 : (2 : Nat) = r <;>
    simp [h0, h1, h2]

/-- With the rows transposed back to columns, `V·diag(w)·Vᵗ` is the matrix
`Rᵗ·diag(w)·R` of the rows. -/
theorem spectral_transpose (w : Vec K) (R : Mat K) (i j : Nat) (hi : i < 3) (hj : j < 3) :
    ∑ k in Finset.range 3, Transpose3x3 true R R i k * w k * Transpose3x3 true R R j k
      = spectralSum w R i j := by
  simp only [spectralSum, Finset.sum_range_succ, Finset.sum_range_zero, zero_add,
    Transpose3x3_aliased, hi, hj, true_and, show (0 : Nat) < 3 by norm_num,
    show (1 : Nat) < 3 by norm_num, show (2 : Nat) < 3 by norm_num, if_true]

/-- The tail of `vtkDiagonalize3x3` for three distinct eigenvalues keeps
the matrix of the eigenpairs. -/
theorem alignDistinct_spectral (w : Vec K) (V : Mat K) (i j : Nat) (hi : i < 3) (hj : j < 3) :
    ∑ k in Finset.range 3,
        (alignDistinct w V).V i k * (alignDistinct w V).w k * (alignDistinct w V).V j k
      = spectralSum w V i j := by
  unfold alignDistinct
  simp only
  rw [spectral_transpose _ _ i j hi hj]
  have h1 : spectralSum
      (if argMaxCol0 V ≠ 0 then Vec.set (Vec.set w (argMaxCol0 V) (w 0)) 0 (w (argMaxCol0 V))
        else w)
      (if argMaxCol0 V ≠ 0 then vtkSwapVectors3 (argMaxCol0 V) 0 V else V) i j
      = spectralSum w V i j := by
    split_ifs
    · exact spectral_swap _ 0 (argMaxCol0_lt V) (by norm_num) w V i j hi hj
    · rfl
  rw [← h1]
  generalize (if argMaxCol0 V ≠ 0
    then Vec.set (Vec.set w (argMaxCol0 V) (w 0)) 0 (w (argMaxCol0 V)) else w) = w1
  generalize (if argMaxCol0 V ≠ 0 then vtkSwapVectors3 (argMaxCol0 V) 0 V else V) = V1
  have h2 : spectralSum
      (if |V1 1 1| < |V1 2 1| then Vec.set (Vec.set w1 2 (w1 1)) 1 (w1 2) else w1)
      (if |V1 1 1| < |V1 2 1| then vtkSwapVectors3 2 1 V1 else V1) i j
      = spectralSum w1 V1 i j := by
    split_ifs
    · exact spectral_swap 2 1 (by norm_num) (by norm_num) w1 V1 i j hi hj
    · rfl
  rw [← h2]
  generalize (if |V1 1 1| < |V1 2 1| then Vec.set (Vec.set w1 2 (w1 1)) 1 (w1 2) else w1) = w2
  generalize (if |V1 1 1| < |V1 2 1| then vtkSwapVectors3 2 1 V1 else V1) = V2
  have h3 : spectralSum w2 (loop (fun i V => if V i i < 0 then negateRow i V else V) 0 2 V2) i j
      = spectralSum w2 V2 i j := by
    apply loop_preserve (fun T : Mat K => spectralSum w2 T i j = spectralSum w2 V2 i j) _ 0 2 V2 rfl
    intro k t _ ht
    dsimp only
    split_ifs
    · rw [spectral_negate _ w2 t i j hi hj]
      exact ht
    · exact ht
  rw [← h3]
  generalize (loop (fun i V => if V i i < 0 then negateRow i V else V) 0 2 V2) = V3
  split_ifs
  · exact spectral_negate 2 w2 V3 i j hi hj
  · rfl

end

/-! ### The matrix of the eigenpairs on the two-equal path -/

section

variable {K : Type} [LinearOrderedField K]

/-- What the body run for two equal eigenvalues leaves in the column
`maxI`: the independent eigenvector up to its sign, with its eigenvalue in
`w[maxI]`, the other two cells of `w` holding the other two values. -/
theorem alignPair_row (sqrt : K → K) (i : Nat) (w : Vec K) (V : Mat K) :
    (∃ e : K, e * e = 1 ∧
      ∀ c, c < 3 → (alignPair sqrt i w V).V c (argMaxRow V i) = e * V i c) ∧
    (alignPair sqrt i w V).w (argMaxRow V i) = w i ∧
    (∀ k, k < 3 → k ≠ argMaxRow V i →
      (alignPair sqrt i w V).w k = if k = i then w (argMaxRow V i) else w k) := by
  obtain ⟨hmx, _⟩ := argMaxRow_spec V i
  unfold alignPair
  simp only
  generalize argMaxRow V i = mx at hmx ⊢
  refine ⟨?_, ?_, ?_⟩
  · have hV1 : ∀ c, c < 3 → (if mx ≠ i then vtkSwapVectors3 i mx V else V) mx c = V i c := by
      intro c hc
      split_ifs with hmi
      · rw [vtkSwapVectors3_spec, if_pos hc]
        simp [swapIdx, hmi]
      · rw [not_not.mp hmi]
    generalize (if mx ≠ i then vtkSwapVectors3 i mx V else V) = V1 at hV1 ⊢
    have hV2 : ∃ e : K, e * e = 1 ∧ ∀ c, c < 3 →
        (if V1 mx mx < 0 then negateRow mx V1 else V1) mx c = e * V i c := by
      split_ifs
      · refine ⟨-1, by norm_num, fun c hc => ?_⟩
        rw [negateRow_spec, if_pos ⟨rfl, hc⟩, hV1 c hc]
        ring
      · exact ⟨1, by norm_num, fun c hc => by rw [hV1 c hc, one_mul]⟩
    generalize (if V1 mx mx < 0 then negateRow mx V1 else V1) = V2 at hV2 ⊢
    obtain ⟨e, he, hrow⟩ := hV2
    refine ⟨e, he, fun c hc => ?_⟩
    rw [Transpose3x3_aliased, if_pos ⟨hc, hmx⟩, ← hrow c hc]
    interval_cases mx <;> rfl
  · split_ifs with hmi
    · rw [vecSet_ne _ _ _ _ hmi, vecSet_same]
    · rw [not_not.mp hmi]
  · intro k hk hkm
    split_ifs with hmi hki hki
    · rw [hki, vecSet_same]
    · rw [vecSet_ne _ _ _ _ hki, vecSet_ne _ _ _ _ hkm]
    · exfalso
      exact hkm (hki.trans (not_not.mp hmi).symm)
    · rfl

/-- The body run for two equal eigenvalues keeps the matrix of the
eigenpairs: the two rebuilt rows span the plane of the double eigenvalue. -/
theorem alignPair_spectral (sqrt : K → K) (hsqrt : ExactSqrt sqrt) (i : Nat) (hi : i < 3)
    (w : Vec K) (V : Mat K) (hrows : RowsOrthonormal V)
    (heq : w ((i + 1) % 3) = w ((i + 2) % 3)) (a b : Nat) (ha : a < 3) (hb : b < 3) :
    ∑ k in Finset.range 3,
        (alignPair sqrt i w V).V a k * (alignPair sqrt i w V).w k * (alignPair sqrt i w V).V b k
      = spectralSum w V a b := by
  obtain ⟨hmx, _⟩ := argMaxRow_spec V i
  obtain ⟨⟨e, he, hrow⟩, hwm, hwk⟩ := alignPair_row sqrt i w V
  have hrot := alignPair_rotation sqrt hsqrt i hi w V hrows
  have hD := rows_dots _ hrot.1 a b ha hb
  have hV := cols_of_rows V hrows a b ha hb
  generalize alignPair sqrt i w V = D at hrow hwm hwk hD
  generalize argMaxRow V i = mx at hmx hrow hwm hwk
  have hra := hrow a ha
  have hrb := hrow b hb
  -- the value shared by the other two cells
  have hother : ∀ k, k < 3 → k ≠ i → w k = w ((i + 1) % 3) := by
    intro k hk hki
    interval_cases i <;> interval_cases k <;> simp_all
  have hDw : ∀ k, k < 3 → k ≠ mx → D.w k = w ((i + 1) % 3) := by
    intro k hk hkm
    rw [hwk k hk hkm]
    split_ifs with hki
    · exact hother mx hmx (fun h => hkm (hki.trans h.symm))
    · exact hother k hk hki
  generalize w ((i + 1) % 3) = mu at hother hDw
  have lhs : ∑ k in Finset.range 3, D.V a k * D.w k * D.V b k
      = mu * (D.V a 0 * D.V b 0 + D.V a 1 * D.V b 1 + D.V a 2 * D.V b 2)
        + (w i - mu) * (D.V a mx * D.V b mx) := by
    simp only [Finset.sum_range_succ, Finset.sum_range_zero, zero_add]
    interval_cases mx
    · rw [hwm, hDw 1 (by norm_num) (by norm_num), hDw 2 (by norm_num) (by norm_num)]
      ring
    · rw [hwm, hDw 0 (by norm_num) (by norm_num), hDw 2 (by norm_num) (by norm_num)]
      ring
    · rw [hwm, hDw 0 (by norm_num) (by norm_num), hDw 1 (by norm_num) (by norm_num)]
      ring
  have rhs : spectralSum w V a b
      = mu * (V 0 a * V 0 b + V 1 a * V 1 b + V 2 a * V 2 b)
        + (w i - mu) * (V i a * V i b) := by
    simp only [spectralSum, Finset.sum_range_succ, Finset.sum_range_zero, zero_add]
    interval_cases i
    · rw [hother 1 (by norm_num) (by norm_num), hother 2 (by norm_num) (by norm_num)]
      ring
    · rw [hother 0 (by norm_num) (by norm_num), hother 2 (by norm_num) (by norm_num)]
      ring
    · rw [hother 0 (by norm_num) (by norm_num), hother 1 (by norm_num) (by norm_num)]
      ring
  rw [lhs, rhs, hD, hV, hra, hrb]
  linear_combination (w i - mu) * (V i a * V i b) * he

end

/-! ### `Diagonalize3x3` diagonalises when its sweeps end -/

section

variable {K : Type} [LinearOrderedField K]

/-- When `JacobiN` returns 1 on a symmetric 3-by-3 input, the input is
`V·diag(w)·Vᵗ` for the arrays returned. -/
theorem JacobiN_spectral (sqrt : K → K) (hsqrt : ExactSqrt sqrt) (C : Mat K) (w : Vec K)
    (v : Mat K) (hsym : ∀ i j, i < 3 → j < 3 → C i j = C j i)
    (hret : (JacobiN sqrt C 3 w v).ret = 1) (i j : Nat) (hi : i < 3) (hj : j < 3) :
    spectralSum (JacobiN sqrt C 3 w v).w
      (Transpose3x3 true (JacobiN sqrt C 3 w v).v (JacobiN sqrt C 3 w v).v) i j = C i j := by
  have hpairs := fun a b ha hb => JacobiN_pairs sqrt hsqrt C 3 w v hsym hret a b ha hb
  have hrows := rows_of_cols 3 _ (JacobiN_columns sqrt hsqrt C 3 w v)
  generalize JacobiN sqrt C 3 w v = r at hpairs hrows
  have e1 : spectralSum r.w (Transpose3x3 true r.v r.v) i j
      = ∑ k in Finset.range 3, (r.w k * r.v i k) * r.v j k := by
    unfold spectralSum
    apply Finset.sum_congr rfl
    intro k hk
    have hk3 := Finset.mem_range.mp hk
    rw [Transpose3x3_aliased, Transpose3x3_aliased, if_pos ⟨hk3, hi⟩, if_pos ⟨hk3, hj⟩]
    ring
  rw [e1]
  symm
  calc C i j = ∑ m in Finset.range 3, C i m * identity m j := (mul_identity 3 C i j hj).symm
    _ = ∑ m in Finset.range 3, ∑ k in Finset.range 3, C i m * r.v m k * r.v j k := by
        apply Finset.sum_congr rfl
        intro m hm
        rw [← hrows m j (Finset.mem_range.mp hm) hj, Finset.mul_sum]
        apply Finset.sum_congr rfl
        intro k _
        ring
    _ = ∑ k in Finset.range 3, ∑ m in Finset.range 3, C i m * r.v m k * r.v j k :=
        Finset.sum_comm
    _ = ∑ k in Finset.range 3, (r.w k * r.v i k) * r.v j k := by
        apply Finset.sum_congr rfl
        intro k hk
        rw [← hpairs i k hi (Finset.mem_range.mp hk), Finset.sum_mul]

/-- When its `JacobiN` call returns 1 on a symmetric input `M`, the arrays
`Diagonalize3x3` returns satisfy `V·diag(w)·Vᵗ = M`, on each of its paths. -/
theorem Diagonalize3x3_spectral (sqrt : K → K) (hsqrt : ExactSqrt sqrt) (M : Mat K)
    (w : Vec K) (V : Mat K) (hsym : ∀ i j, i < 3 → j < 3 → M i j = M j i)
    (hret : (JacobiN sqrt (copy3x3 M (fun _ _ => 0)) 3 w V).ret = 1)
    (i j : Nat) (hi : i < 3) (hj : j < 3) :
    ∑ k in Finset.range 3, (Diagonalize3x3 sqrt M w V).V i k * (Diagonalize3x3 sqrt M w V).w k
      * (Diagonalize3x3 sqrt M w V).V j k = M i j := by
  have hC : ∀ a b, a < 3 → b < 3 → copy3x3 M (fun _ _ => 0) a b = M a b := by
    intro a b ha hb
    rw [copy3x3_spec, if_pos ⟨ha, hb⟩]
  have hsymC : ∀ a b, a < 3 → b < 3 →
      copy3x3 M (fun _ _ => 0) a b = copy3x3 M (fun _ _ => 0) b a := by
    intro a b ha hb
    rw [hC a b ha hb, hC b a hb ha, hsym a b ha hb]
  have hspec := JacobiN_spectral sqrt hsqrt _ w V hsymC hret i j hi hj
  have hrowsT := JacobiN_three_rows sqrt hsqrt (copy3x3 M (fun _ _ => 0)) w V
  rw [hC i j hi hj] at hspec
  rw [← hspec]
  unfold Diagonalize3x3
  simp only
  generalize JacobiN sqrt (copy3x3 M (fun _ _ => 0)) 3 w V = r at hrowsT ⊢
  split_ifs with h0 h1 h2 h3
  · have hcols := cols_of_rows _ hrowsT i j hi hj
    simp only [spectralSum, Finset.sum_range_succ, Finset.sum_range_zero, zero_add,
      Identity3x3_spec] at hcols ⊢
    rw [← h0.1, ← h0.2]
    have : Transpose3x3 true r.v r.v 0 i * r.w 0 * Transpose3x3 true r.v r.v 0 j
        + Transpose3x3 true r.v r.v 1 i * r.w 0 * Transpose3x3 true r.v r.v 1 j
        + Transpose3x3 true r.v r.v 2 i * r.w 0 * Transpose3x3 true r.v r.v 2 j
        = r.w 0 * (if i = j then 1 else 0) := by
      rw [← hcols]
      ring
    rw [this]
    interval_cases i <;> interval_cases j <;> simp [identity]
  · exact alignPair_spectral sqrt hsqrt 0 (by norm_num) r.w _ hrowsT h1 i j hi hj
  · exact alignPair_spectral sqrt hsqrt 1 (by norm_num) r.w _ hrowsT h2 i j hi hj
  · exact alignPair_spectral sqrt hsqrt 2 (by norm_num) r.w _ hrowsT h3 i j hi hj
  · exact alignDistinct_spectral r.w _ i j hi hj

end

/-! ### Recombining the factors -/

section

variable {K : Type} [LinearOrderedField K]

/-- The algebra of the recombination: with `U` orthogonal, `M = Bᵗ·U`
symmetric and `M = V·diag(w)·Vᵗ`, the product `(U·V)·diag(w)·Vᵗ` is `B`. -/
theorem svd_recombine (Uo Bf M DV : Mat K) (dw : Vec K) (hU : RowsOrthonormal Uo)
    (hM : ∀ m j, m < 3 → j < 3 → M m j = Bf 0 m * Uo 0 j + Bf 1 m * Uo 1 j + Bf 2 m * Uo 2 j)
    (hsym : ∀ m j, m < 3 → j < 3 → M m j = M j m)
    (hS : ∀ m j, m < 3 → j < 3 →
      ∑ k in Finset.range 3, DV m k * dw k * DV j k = M m j)
    (i j : Nat) (hi : i < 3) (hj : j < 3) :
    ∑ k in Finset.range 3,
      (Uo i 0 * DV 0 k + Uo i 1 * DV 1 k + Uo i 2 * DV 2 k) * dw k * DV j k = Bf i j := by
  have key : ∑ k in Finset.range 3,
      (Uo i 0 * DV 0 k + Uo i 1 * DV 1 k + Uo i 2 * DV 2 k) * dw k * DV j k
      = Uo i 0 * (∑ k in Finset.range 3, DV 0 k * dw k * DV j k)
        + Uo i 1 * (∑ k in Finset.range 3, DV 1 k * dw k * DV j k)
        + Uo i 2 * (∑ k in Finset.range 3, DV 2 k * dw k * DV j k) := by
    simp only [Finset.sum_range_succ, Finset.sum_range_zero, zero_add]
    ring
  rw [key, hS 0 j (by norm_num) hj, hS 1 j (by norm_num) hj, hS 2 j (by norm_num) hj,
    hsym 0 j (by norm_num) hj, hsym 1 j (by norm_num) hj, hsym 2 j (by norm_num) hj,
    hM j 0 hj (by norm_num), hM j 1 hj (by norm_num), hM j 2 hj (by norm_num)]
  have u0 := rows_dots Uo hU i 0 hi (by norm_num)
  have u1 := rows_dots Uo hU i 1 hi (by norm_num)
  have u2 := rows_dots Uo hU i 2 hi (by norm_num)
  interval_cases i
  · simp only [if_true, show ¬ (0 : Nat) = 1 by norm_num, show ¬ (0 : Nat) = 2 by norm_num,
      if_false] at u0 u1 u2
    linear_combination Bf 0 j * u0 + Bf 1 j * u1 + Bf 2 j * u2
  · simp only [if_true, show ¬ (1 : Nat) = 0 by norm_num, show ¬ (1 : Nat) = 2 by norm_num,
      if_false] at u0 u1 u2
    linear_combination Bf 0 j * u0 + Bf 1 j * u1 + Bf 2 j * u2
  · simp only [if_true, show ¬ (2 : Nat) = 0 by norm_num, show ¬ (2 : Nat) = 1 by norm_num,
      if_false] at u0 u1 u2
    linear_combination Bf 0 j * u0 + Bf 1 j * u1 + Bf 2 j * u2

/-- The function `SingularValueDecomposition3x3` in terms of the matrices
it hands to `Orthogonalize3x3` and `Diagonalize3x3`. -/
theorem SingularValueDecomposition3x3_eq (sqrt : K → K) (A U : Mat K) (w : Vec K)
    (VT : Mat K) :
    SingularValueDecomposition3x3 sqrt A U w VT =
      { U := MultiplyMatrix3x3 (Orthogonalize3x3 sqrt (svdFlipped A) U)
          (Diagonalize3x3 sqrt (svdSymmetric sqrt A U VT) w (svdSymmetric sqrt A U VT)).V
          (Orthogonalize3x3 sqrt (svdFlipped A) U),
        w := if Determinant3x3 (copy3x3 A (fun _ _ => 0)) < 0 then
            Vec.set (Vec.set (Vec.set
              (Diagonalize3x3 sqrt (svdSymmetric sqrt A U VT) w (svdSymmetric sqrt A U VT)).w 0
              (-(Diagonalize3x3 sqrt (svdSymmetric sqrt A U VT) w
                (svdSymmetric sqrt A U VT)).w 0)) 1
              (-(Diagonalize3x3 sqrt (svdSymmetric sqrt A U VT) w
                (svdSymmetric sqrt A U VT)).w 1)) 2
              (-(Diagonalize3x3 sqrt (svdSymmetric sqrt A U VT) w
                (svdSymmetric sqrt A U VT)).w 2)
          else (Diagonalize3x3 sqrt (svdSymmetric sqrt A U VT) w (svdSymmetric sqrt A U VT)).w,
        VT := Transpose3x3 true
          (Diagonalize3x3 sqrt (svdSymmetric sqrt A U VT) w (svdSymmetric sqrt A U VT)).V
          (Diagonalize3x3 sqrt (svdSymmetric sqrt A U VT) w (svdSymmetric sqrt A U VT)).V } :=
  rfl

end

/-! ### The decomposition recombines when both sweeps end -/

section

variable {K : Type} [LinearOrderedField K]

/-- When both rotation sequences end on their `break`, the arrays
`SingularValueDecomposition3x3` returns recombine to `A`. -/
theorem svd_product (sqrt : K → K) (hsqrt : ExactSqrt sqrt) (A U : Mat K) (w : Vec K)
    (VT : Mat K) (hconv : SvdConverges sqrt A U w VT) :
    Same3x3 (svdProduct (SingularValueDecomposition3x3 sqrt A U w VT).U
      (SingularValueDecomposition3x3 sqrt A U w VT).w
      (SingularValueDecomposition3x3 sqrt A U w VT).VT) A := by
  obtain ⟨hret1, hret2⟩ := hconv
  have hpolar := fun a b ha hb =>
    Orthogonalize3x3_polar sqrt hsqrt (svdFlipped A) U hret1 a b ha hb
  have hU := (Orthogonalize3x3_spec sqrt hsqrt (svdFlipped A) U).1
  have hM : ∀ m j, m < 3 → j < 3 → svdSymmetric sqrt A U VT m j
      = svdFlipped A 0 m * Orthogonalize3x3 sqrt (svdFlipped A) U 0 j
        + svdFlipped A 1 m * Orthogonalize3x3 sqrt (svdFlipped A) U 1 j
        + svdFlipped A 2 m * Orthogonalize3x3 sqrt (svdFlipped A) U 2 j := by
    intro m j hm hj
    unfold svdSymmetric
    rw [MultiplyMatrix3x3_spec, if_pos ⟨hm, hj⟩, Transpose3x3_aliased, Transpose3x3_aliased,
      Transpose3x3_aliased, if_pos ⟨hm, by norm_num⟩, if_pos ⟨hm, by norm_num⟩,
      if_pos ⟨hm, by norm_num⟩]
  have hsym : ∀ m j, m < 3 → j < 3 →
      svdSymmetric sqrt A U VT m j = svdSymmetric sqrt A U VT j m := by
    intro m j hm hj
    rw [hM m j hm hj, hM j m hj hm]
    have := hpolar j m hj hm
    simp only [Finset.sum_range_succ, Finset.sum_range_zero, zero_add] at this
    linear_combination this
  have hS := fun a b ha hb => Diagonalize3x3_spectral sqrt hsqrt (svdSymmetric sqrt A U VT) w
    (svdSymmetric sqrt A U VT) hsym hret2 a b ha hb
  rw [SingularValueDecomposition3x3_eq]
  dsimp only
  generalize Diagonalize3x3 sqrt (svdSymmetric sqrt A U VT) w (svdSymmetric sqrt A U VT) = D
    at hS
  generalize svdSymmetric sqrt A U VT = M at hM hsym hS
  generalize Orthogonalize3x3 sqrt (svdFlipped A) U = Uo at hU hM
  intro i j hi hj
  have hA : (copy3x3 A (fun _ _ => 0)) i j = A i j := by
    rw [copy3x3_spec, if_pos ⟨hi, hj⟩]
  unfold svdProduct
  by_cases hd : Determinant3x3 (copy3x3 A (fun _ _ => 0)) < 0
  · have hF : svdFlipped A = negate3x3 (copy3x3 A (fun _ _ => 0)) := by
      unfold svdFlipped
      simp only [if_pos hd]
    have hneg : ∀ m j, m < 3 → j < 3 →
        ∑ k in Finset.range 3, D.V m k * (-D.w k) * D.V j k = -M m j := by
      intro m j hm hj
      rw [← hS m j hm hj, ← Finset.sum_neg_distrib]
      apply Finset.sum_congr rfl
      intro k _
      ring
    have hMn : ∀ m j, m < 3 → j < 3 → -M m j
        = (-svdFlipped A 0 m) * Uo 0 j + (-svdFlipped A 1 m) * Uo 1 j
          + (-svdFlipped A 2 m) * Uo 2 j := by
      intro m j hm hj
      rw [hM m j hm hj]
      ring
    have hrec := svd_recombine Uo (fun a b => -svdFlipped A a b) (fun a b => -M a b) D.V
      (fun k => -D.w k) hU hMn
      (fun m j hm hj => by show -M m j = -M j m; rw [hsym m j hm hj]) hneg i j hi hj
    beta_reduce at hrec
    rw [if_pos hd]
    have hgoal : ∑ k in Finset.range 3,
        MultiplyMatrix3x3 Uo D.V Uo i k
          * Vec.set (Vec.set (Vec.set D.w 0 (-D.w 0)) 1 (-D.w 1)) 2 (-D.w 2) k
          * Transpose3x3 true D.V D.V k j
        = ∑ k in Finset.range 3,
          (Uo i 0 * D.V 0 k + Uo i 1 * D.V 1 k + Uo i 2 * D.V 2 k) * (-D.w k) * D.V j k := by
      apply Finset.sum_congr rfl
      intro k hk
      have hk3 := Finset.mem_range.mp hk
      rw [MultiplyMatrix3x3_spec, if_pos ⟨hi, hk3⟩, Transpose3x3_aliased, if_pos ⟨hk3, hj⟩]
      interval_cases k <;> simp [Vec.set]
    rw [hgoal, hrec, hF, negate3x3_spec, if_pos ⟨hi, hj⟩, hA]
    ring
  · have hF : svdFlipped A = copy3x3 A (fun _ _ => 0) := by
      unfold svdFlipped
      simp only [if_neg hd]
    have hrec := svd_recombine Uo (svdFlipped A) M D.V D.w hU hM hsym hS i j hi hj
    rw [if_neg hd]
    have hgoal : ∑ k in Finset.range 3,
        MultiplyMatrix3x3 Uo D.V Uo i k * D.w k * Transpose3x3 true D.V D.V k j
        = ∑ k in Finset.range 3,
          (Uo i 0 * D.V 0 k + Uo i 1 * D.V 1 k + Uo i 2 * D.V 2 k) * D.w k * D.V j k := by
      apply Finset.sum_congr rfl
      intro k hk
      have hk3 := Finset.mem_range.mp hk
      rw [MultiplyMatrix3x3_spec, if_pos ⟨hi, hk3⟩, Transpose3x3_aliased, if_pos ⟨hk3, hj⟩]
    rw [hgoal, hrec, hF, hA]

end

/-! ### `Orthogonalize3x3` on the identity -/

section

variable {K : Type} [LinearOrderedField K]

/-- The 4-by-4 matrix of `Matrix3x3ToQuaternion` depends on the nine cells
only. -/
theorem hornMatrix_congr (X Y : Mat K) (h : Same3x3 X Y) :
    hornMatrix X = hornMatrix Y := by
  simp only [hornMatrix]
  rw [h 0 0 (by norm_num) (by norm_num), h 0 1 (by norm_num) (by norm_num),
    h 0 2 (by norm_num) (by norm_num), h 1 0 (by norm_num) (by norm_num),
    h 1 1 (by norm_num) (by norm_num), h 1 2 (by norm_num) (by norm_num),
    h 2 0 (by norm_num) (by norm_num), h 2 1 (by norm_num) (by norm_num),
    h 2 2 (by norm_num) (by norm_num)]

/-- The 4-by-4 matrix built from the identity is diagonal. -/
theorem hornMatrix_identity_diagonal : offDiagSum 4 (hornMatrix (identity : Mat K)) = 0 := by
  rw [offDiagSum_eq_zero_iff]
  intro ip iq h1 h2
  obtain ⟨_, e01, e02, e03, _, _, e12, e13, _, _, _, e23, _⟩ :=
    hornMatrix_entries (identity : Mat K)
  interval_cases iq <;> interval_cases ip <;>
    first
    | (rw [e01]; simp [identity])
    | (rw [e02]; simp [identity])
    | (rw [e03]; simp [identity])
    | (rw [e12]; simp [identity])
    | (rw [e13]; simp [identity])
    | (rw [e23]; simp [identity])

/-- The pivoting of `vtkOrthogonalize3x3` interchanges no rows of a matrix
with the cells of the identity. -/
theorem orthoPivot_identity (X : Mat K) (hX : Same3x3 X identity) :
    orthoPivot X = (X, 0, 1) := by
  have x00 : X 0 0 = 1 := by rw [hX 0 0 (by norm_num) (by norm_num)]; simp [identity]
  have x01 : X 0 1 = 0 := by rw [hX 0 1 (by norm_num) (by norm_num)]; simp [identity]
  have x02 : X 0 2 = 0 := by rw [hX 0 2 (by norm_num) (by norm_num)]; simp [identity]
  have x10 : X 1 0 = 0 := by rw [hX 1 0 (by norm_num) (by norm_num)]; simp [identity]
  have x11 : X 1 1 = 1 := by rw [hX 1 1 (by norm_num) (by norm_num)]; simp [identity]
  have x12 : X 1 2 = 0 := by rw [hX 1 2 (by norm_num) (by norm_num)]; simp [identity]
  have x20 : X 2 0 = 0 := by rw [hX 2 0 (by norm_num) (by norm_num)]; simp [identity]
  have x21 : X 2 1 = 0 := by rw [hX 2 1 (by norm_num) (by norm_num)]; simp [identity]
  have x22 : X 2 2 = 1 := by rw [hX 2 2 (by norm_num) (by norm_num)]; simp [identity]
  have s0 : scaleLoop3 X (fun _ => 0) 0 = 1 := by
    simp only [scaleLoop3, loop_three, scaleStep3, Vec.set, x00, x01, x02]
    norm_num
  have s1 : scaleLoop3 X (fun _ => 0) 1 = 1 := by
    simp only [scaleLoop3, loop_three, scaleStep3, Vec.set, x10, x11, x12]
    norm_num
  have s2 : scaleLoop3 X (fun _ => 0) 2 = 1 := by
    simp only [scaleLoop3, loop_three, scaleStep3, Vec.set, x20, x21, x22]
    norm_num
  have hp : firstPivot3 X (scaleLoop3 X (fun _ => 0)) = 0 := by
    simp only [firstPivot3, s0, s1, s2, x00, x10, x20]
    norm_num
  unfold orthoPivot
  simp only [hp, ne_eq, not_true_eq_false, if_false, s1, s2, x11, x21]
  norm_num

/-- For a matrix with the cells of the identity, the matrix handed to
`Matrix3x3ToQuaternion` has them too, its rotation sequence ends at once,
and `Orthogonalize3x3` returns the identity on the nine cells. -/
theorem Orthogonalize3x3_identity (sqrt : K → K) (hsqrt : ExactSqrt sqrt) (A B : Mat K)
    (hA : Same3x3 A identity) :
    (JacobiN sqrt (hornMatrix (orthoQuatInput A B)) 4 (fun _ => 0) (fun _ _ => 0)).ret = 1 ∧
    Same3x3 (Orthogonalize3x3 sqrt A B) identity := by
  have hX : Same3x3 (copy3x3 A B) identity := by
    intro i j hi hj
    rw [copy3x3_spec, if_pos ⟨hi, hj⟩, hA i j hi hj]
  have hd : ¬ Determinant3x3 (copy3x3 A B) < 0 := by
    rw [det_congr _ _ hX]
    simp [Determinant3x3, identity]
  have hin : orthoQuatInput A B = copy3x3 A B := by
    unfold orthoQuatInput
    simp only [orthoPivot_identity _ hX, if_neg hd]
  have hN := hornMatrix_congr _ _ hX
  constructor
  · rw [hin, hN]
    exact (JacobiN_diagonal sqrt _ 4 _ _ hornMatrix_identity_diagonal).1
  · unfold Orthogonalize3x3
    simp only [orthoPivot_identity _ hX, if_neg hd, ne_eq, not_true_eq_false, if_false]
    apply QuaternionToMatrix3x3_one sqrt hsqrt
    intro k hk
    rw [← Matrix3x3ToQuaternion_identity sqrt (fun _ => 0) k hk]
    unfold Matrix3x3ToQuaternion
    rw [hN]

end

/-! ### The decomposition of `-I` -/

section

variable {K : Type} [LinearOrderedField K]

/-- On a matrix with the cells of `c·I` the rotation sequence of
`Diagonalize3x3` ends at once, and `w = (c, c, c)`, `V = I` are returned. -/
theorem Diagonalize3x3_scalar (sqrt : K → K) (A : Mat K) (w : Vec K) (V : Mat K) (c : K)
    (hA : Same3x3 A (fun i j => c * identity i j)) :
    (JacobiN sqrt (copy3x3 A (fun _ _ => 0)) 3 w V).ret = 1 ∧
    (∀ i, i < 3 → (Diagonalize3x3 sqrt A w V).w i = c) ∧
    Same3x3 (Diagonalize3x3 sqrt A w V).V identity := by
  have hoff : offDiagSum 3 (copy3x3 A (fun _ _ => 0)) = 0 := by
    rw [offDiagSum_eq_zero_iff]
    intro ip iq h1 h2
    rw [copy3x3_spec, if_pos ⟨by omega, h2⟩, hA ip iq (by omega) h2]
    simp only [identity]
    rw [if_neg (by omega), mul_zero]
  obtain ⟨hret, hw, _⟩ := JacobiN_diagonal sqrt (copy3x3 A (fun _ _ => 0)) 3 w V hoff
  obtain ⟨⟨p, q, hpq, hsw, _⟩, _⟩ := jacobiSort_spec 3
    (jacobiInit (copy3x3 A (fun _ _ => 0)) 3 w V).w
    (jacobiInit (copy3x3 A (fun _ _ => 0)) 3 w V).v
  have hwc : ∀ i, i < 3 → (JacobiN sqrt (copy3x3 A (fun _ _ => 0)) 3 w V).w i = c := by
    intro i hi
    rw [hw, hsw i hi]
    have hp := (hpq i hi).1
    rw [((jacobiInit_spec (copy3x3 A (fun _ _ => 0)) 3 w V).2.2 (p i) hp).1,
      copy3x3_spec, if_pos ⟨hp, hp⟩, hA (p i) (p i) hp hp]
    simp [identity]
  have h1 := (hwc 0 (by norm_num)).trans (hwc 1 (by norm_num)).symm
  have h2 := (hwc 0 (by norm_num)).trans (hwc 2 (by norm_num)).symm
  have key : Diagonalize3x3 sqrt A w V =
      { w := (JacobiN sqrt (copy3x3 A (fun _ _ => 0)) 3 w V).w,
        V := Identity3x3 (JacobiN sqrt (copy3x3 A (fun _ _ => 0)) 3 w V).v } := by
    unfold Diagonalize3x3
    simp only
    rw [if_pos ⟨h1, h2⟩]
  rw [key]
  refine ⟨hret, hwc, ?_⟩
  intro i j hi hj
  show Identity3x3 (JacobiN sqrt (copy3x3 A (fun _ _ => 0)) 3 w V).v i j = identity i j
  rw [Identity3x3_spec, if_pos ⟨hi, hj⟩]

/-- For a matrix with the cells of `-I`: both rotation sequences end at
once, and `U = I`, `w = (-1, -1, -1)`, `VT = I` are returned. -/
theorem svd_neg_identity (sqrt : K → K) (hsqrt : ExactSqrt sqrt) (A U : Mat K) (w : Vec K)
    (VT : Mat K) (hA : Same3x3 A (fun i j => -identity i j)) :
    SvdConverges sqrt A U w VT ∧
    Same3x3 (SingularValueDecomposition3x3 sqrt A U w VT).U identity ∧
    (∀ k, k < 3 → (SingularValueDecomposition3x3 sqrt A U w VT).w k = -1) ∧
    Same3x3 (SingularValueDecomposition3x3 sqrt A U w VT).VT identity := by
  have hB : Same3x3 (copy3x3 A (fun _ _ => 0)) (fun i j => -identity i j) := by
    intro i j hi hj
    rw [copy3x3_spec, if_pos ⟨hi, hj⟩, hA i j hi hj]
  have hd : Determinant3x3 (copy3x3 A (fun _ _ => 0)) < 0 := by
    rw [det_congr _ _ hB]
    simp [Determinant3x3, identity]
  have hF : Same3x3 (svdFlipped A) identity := by
    intro i j hi hj
    unfold svdFlipped
    simp only [if_pos hd]
    rw [negate3x3_spec, if_pos ⟨hi, hj⟩, hB i j hi hj, neg_neg]
  obtain ⟨hret1, hUo⟩ := Orthogonalize3x3_identity sqrt hsqrt (svdFlipped A) U hF
  have hM : Same3x3 (svdSymmetric sqrt A U VT) (fun i j => 1 * identity i j) := by
    intro i j hi hj
    unfold svdSymmetric
    rw [MultiplyMatrix3x3_spec, if_pos ⟨hi, hj⟩,
      hUo 0 j (by norm_num) hj, hUo 1 j (by norm_num) hj, hUo 2 j (by norm_num) hj,
      Transpose3x3_aliased, Transpose3x3_aliased, Transpose3x3_aliased,
      if_pos ⟨hi, by norm_num⟩, if_pos ⟨hi, by norm_num⟩, if_pos ⟨hi, by norm_num⟩,
      hF 0 i (by norm_num) hi, hF 1 i (by norm_num) hi, hF 2 i (by norm_num) hi]
    interval_cases i <;> interval_cases j <;> simp [identity]
  obtain ⟨hret2, hDw, hDV⟩ := Diagonalize3x3_scalar sqrt (svdSymmetric sqrt A U VT) w
    (svdSymmetric sqrt A U VT) 1 hM
  refine ⟨⟨hret1, hret2⟩, ?_, ?_, ?_⟩
  · rw [SingularValueDecomposition3x3_eq]
    dsimp only
    intro i j hi hj
    rw [MultiplyMatrix3x3_spec, if_pos ⟨hi, hj⟩, hDV 0 j (by norm_num) hj,
      hDV 1 j (by norm_num) hj, hDV 2 j (by norm_num) hj, hUo i 0 hi (by norm_num),
      hUo i 1 hi (by norm_num), hUo i 2 hi (by norm_num)]
    interval_cases i <;> interval_cases j <;> simp [identity]
  · rw [SingularValueDecomposition3x3_eq]
    dsimp only
    intro k hk
    rw [if_pos hd]
    interval_cases k <;> simp [Vec.set, hDw]
  · rw [SingularValueDecomposition3x3_eq]
    dsimp only
    intro i j hi hj
    rw [Transpose3x3_aliased, if_pos ⟨hi, hj⟩, hDV j i hj hi]
    interval_cases i <;> interval_cases j <;> simp [identity]

end

/-! ### The singular value decomposition: product of the factors -/

section

variable {K : Type} [LinearOrderedField K]

/-- With an exact square root, for every 3-by-3 matrix `A`, matrices with
negative determinant included, on which both rotation sequences run inside
`SingularValueDecomposition3x3` end on their `break` (the `JacobiN` calls of
`Orthogonalize3x3` and of `Diagonalize3x3` return 1; the code does not look
at either value), the arrays returned satisfy `U·diag(w)·VT = A` on the nine
cells.  Whether the sequences of the double-precision program always end is
not settled here. -/
theorem SingularValueDecomposition3x3_product (sqrt : K → K) (hsqrt : ExactSqrt sqrt)
    (A U : Mat K) (w : Vec K) (VT : Mat K) (hconv : SvdConverges sqrt A U w VT) :
    Same3x3 (svdProduct (SingularValueDecomposition3x3 sqrt A U w VT).U
      (SingularValueDecomposition3x3 sqrt A U w VT).w
      (SingularValueDecomposition3x3 sqrt A U w VT).VT) A :=
  svd_product sqrt hsqrt A U w VT hconv

/-- The matrix `-I` over the reals: both rotation sequences end at once,
`U = I`, `w = (-1, -1, -1)` and `VT = I` are returned, and their product is
`-I`. -/
theorem SingularValueDecomposition3x3_product_witness :
    ExactSqrt Real.sqrt ∧
    SvdConverges Real.sqrt (fun i j => -identity i j) (fun _ _ => 0) (fun _ => 0)
      (fun _ _ => 0) ∧
    Same3x3 (svdProduct
      (SingularValueDecomposition3x3 Real.sqrt (fun i j => -identity i j) (fun _ _ => 0)
        (fun _ => 0) (fun _ _ => 0)).U
      (SingularValueDecomposition3x3 Real.sqrt (fun i j => -identity i j) (fun _ _ => 0)
        (fun _ => 0) (fun _ _ => 0)).w
      (SingularValueDecomposition3x3 Real.sqrt (fun i j => -identity i j) (fun _ _ => 0)
        (fun _ => 0) (fun _ _ => 0)).VT) (fun i j => -identity i j) ∧
    Same3x3 (SingularValueDecomposition3x3 Real.sqrt (fun i j => -identity i j) (fun _ _ => 0)
      (fun _ => 0) (fun _ _ => 0)).U identity ∧
    (∀ k, k < 3 → (SingularValueDecomposition3x3 Real.sqrt (fun i j => -identity i j)
      (fun _ _ => 0) (fun _ => 0) (fun _ _ => 0)).w k = -1) ∧
    Same3x3 (SingularValueDecomposition3x3 Real.sqrt (fun i j => -identity i j) (fun _ _ => 0)
      (fun _ => 0) (fun _ _ => 0)).VT identity :=
  have h := svd_neg_identity Real.sqrt exactSqrt_real (fun i j => -identity i j)
    (fun _ _ => 0) (fun _ => 0) (fun _ _ => 0) (fun _ _ _ _ => rfl)
  ⟨exactSqrt_real, h.1,
    SingularValueDecomposition3x3_product Real.sqrt exactSqrt_real _ _ _ _ h.1,
    h.2.1, h.2.2.1, h.2.2.2⟩

/-- In exact arithmetic the hypothesis on the rotation sequences cannot be
dropped: at the symmetric matrix `[[2,1,0],[1,3,1],[0,1,2]]` over the reals
they do not reach their `break` (after every rotation exactly one of the
three off-diagonal entries is zero), so the two `JacobiN` calls do not both
return 1, and the product `U·diag(w)·VT` of the arrays returned is not the
matrix.  This is a property of the exact sequence only: in double precision
the tests `(fabs(w[ip])+g) == fabs(w[ip])` hold once an entry is below the
rounding unit, `vtkJacobiN` returns 1 on this matrix with
`w = (4, 2, 0.9999999999999999)`, and the product is the matrix up to
rounding. -/
theorem SingularValueDecomposition3x3_chain :
    ¬ Same3x3 (svdProduct
      (SingularValueDecomposition3x3 Real.sqrt sampleChain (fun _ _ => 0) (fun _ => 0)
        (fun _ _ => 0)).U
      (SingularValueDecomposition3x3 Real.sqrt sampleChain (fun _ _ => 0) (fun _ => 0)
        (fun _ _ => 0)).w
      (SingularValueDecomposition3x3 Real.sqrt sampleChain (fun _ _ => 0) (fun _ => 0)
        (fun _ _ => 0)).VT) (sampleChain : Mat ℝ) ∧
    ¬ SvdConverges Real.sqrt (sampleChain : Mat ℝ) (fun _ _ => 0) (fun _ => 0) (fun _ _ => 0) :=
  ⟨svd_chain Real.sqrt exactSqrt_real sampleChain (fun _ _ _ _ => rfl) _ _ _,
    fun hc => svd_chain Real.sqrt exactSqrt_real sampleChain (fun _ _ _ _ => rfl) _ _ _
      (svd_product Real.sqrt exactSqrt_real sampleChain _ _ _ hc)⟩

end

/-! ### `SolveQuadratic` -/

section

variable {K : Type} [LinearOrderedField K]

/-- The sign macro as a number: `-1` below zero, `1` otherwise. -/
theorem VTK_SIGN_cast (x : K) : ((VTK_SIGN x : Int) : K) = if x < 0 then -1 else 1 := by
  unfold VTK_SIGN
  split_ifs <;> simp

theorem VTK_SIGN_mul_self (x : K) : ((VTK_SIGN x : Int) : K) * ((VTK_SIGN x : Int) : K) = 1 := by
  rw [VTK_SIGN_cast]
  split_ifs <;> norm_num

/-- The sign of `x` times `|x|` is `x`, also at `x = 0`. -/
theorem VTK_SIGN_mul_abs (x : K) : ((VTK_SIGN x : Int) : K) * |x| = x := by
  rw [VTK_SIGN_cast]
  split_ifs with h
  · rw [abs_of_neg h]; ring
  · rw [abs_of_nonneg (not_lt.mp h)]; ring

/-- The branch of `SolveQuadratic` for `c1 ≠ 0` and a non-negative
discriminant, cell by cell. -/
theorem SolveQuadratic_real (sqrt : K → K) (c1 c2 c3 r1 r2 : K) (h1 : c1 ≠ 0)
    (hd : 0 ≤ c2 * c2 - 4 * c1 * c3) :
    (SolveQuadratic sqrt c1 c2 c3 r1 r2).r1 = quadraticQ sqrt c1 c2 c3 / c1 ∧
    (SolveQuadratic sqrt c1 c2 c3 r1 r2).r2 =
      (if quadraticQ sqrt c1 c2 c3 = 0 then 0 else c3 / quadraticQ sqrt c1 c2 c3) ∧
    (SolveQuadratic sqrt c1 c2 c3 r1 r2).num_roots =
      (if (SolveQuadratic sqrt c1 c2 c3 r1 r2).r1 = (SolveQuadratic sqrt c1 c2 c3 r1 r2).r2
        then 1 else 2) ∧
    (SolveQuadratic sqrt c1 c2 c3 r1 r2).ret = (SolveQuadratic sqrt c1 c2 c3 r1 r2).num_roots := by
  unfold SolveQuadratic quadraticQ
  rw [if_pos h1, if_pos (ge_iff_le.mpr hd)]
  exact ⟨rfl, rfl, rfl, rfl⟩

/-- With an exact square root, `Q² + c2·Q + c1·c3 = 0`. -/
theorem quadraticQ_eq (sqrt : K → K) (hsqrt : ExactSqrt sqrt) (c1 c2 c3 : K)
    (hd : 0 ≤ c2 * c2 - 4 * c1 * c3) :
    quadraticQ sqrt c1 c2 c3 * quadraticQ sqrt c1 c2 c3 + c2 * quadraticQ sqrt c1 c2 c3
      + c1 * c3 = 0 := by
  obtain ⟨_, hs⟩ := hsqrt _ hd
  have hg := VTK_SIGN_mul_self c2
  unfold quadraticQ
  generalize sqrt (c2 * c2 - 4 * c1 * c3) = s at hs ⊢
  generalize ((VTK_SIGN c2 : Int) : K) = g at hg ⊢
  have h5 : (0.5 : K) = 1 / 2 := by norm_num
  rw [h5]
  linear_combination (1 / 4 : K) * s * s * hg + (1 / 4 : K) * hs

/-- With an exact square root, `Q = -c2/2` exactly when the discriminant is
zero. -/
theorem quadraticQ_half (sqrt : K → K) (hsqrt : ExactSqrt sqrt) (c1 c2 c3 : K)
    (hd : 0 ≤ c2 * c2 - 4 * c1 * c3) :
    2 * quadraticQ sqrt c1 c2 c3 + c2 = 0 ↔ c2 * c2 - 4 * c1 * c3 = 0 := by
  obtain ⟨_, hs⟩ := hsqrt _ hd
  have hg := VTK_SIGN_mul_self c2
  have hQ : 2 * quadraticQ sqrt c1 c2 c3 + c2
      = -(((VTK_SIGN c2 : Int) : K) * sqrt (c2 * c2 - 4 * c1 * c3)) := by
    unfold quadraticQ
    have h5 : (0.5 : K) = 1 / 2 := by norm_num
    rw [h5]
    ring
  rw [hQ]
  generalize sqrt (c2 * c2 - 4 * c1 * c3) = s at hs ⊢
  generalize ((VTK_SIGN c2 : Int) : K) = g at hg ⊢
  constructor
  · intro h
    have hs0 : s = 0 := by linear_combination (-s) * hg + (-g) * h
    rw [← hs, hs0]
    ring
  · intro h
    have hs0 : s = 0 := by
      have : s * s = 0 := by rw [hs, h]
      exact mul_self_eq_zero.mp this
    rw [hs0]
    ring

/-- With an exact square root, `Q = 0` only when `c2 = 0`. -/
theorem quadraticQ_zero (sqrt : K → K) (hsqrt : ExactSqrt sqrt) (c1 c2 c3 : K)
    (hd : 0 ≤ c2 * c2 - 4 * c1 * c3) (h : quadraticQ sqrt c1 c2 c3 = 0) : c2 = 0 := by
  obtain ⟨hs0, _⟩ := hsqrt _ hd
  unfold quadraticQ at h
  rw [VTK_SIGN_cast] at h
  have h5 : (0.5 : K) = 1 / 2 := by norm_num
  rw [h5] at h
  split_ifs at h with hneg
  · nlinarith
  · nlinarith [not_lt.mp hneg]

theorem SolveQuadratic_roots_aux (sqrt : K → K) (hsqrt : ExactSqrt sqrt) (c1 c2 c3 r1 r2 : K)
    (h1 : c1 ≠ 0) (hd : 0 ≤ c2 * c2 - 4 * c1 * c3) :
    c1 * ((SolveQuadratic sqrt c1 c2 c3 r1 r2).r1 * (SolveQuadratic sqrt c1 c2 c3 r1 r2).r1)
      + c2 * (SolveQuadratic sqrt c1 c2 c3 r1 r2).r1 + c3 = 0 ∧
    c1 * ((SolveQuadratic sqrt c1 c2 c3 r1 r2).r2 * (SolveQuadratic sqrt c1 c2 c3 r1 r2).r2)
      + c2 * (SolveQuadratic sqrt c1 c2 c3 r1 r2).r2 + c3 = 0 ∧
    ((SolveQuadratic sqrt c1 c2 c3 r1 r2).r1 = (SolveQuadratic sqrt c1 c2 c3 r1 r2).r2 ↔
      c2 * c2 - 4 * c1 * c3 = 0) := by
  obtain ⟨e1, e2, -, -⟩ := SolveQuadratic_real sqrt c1 c2 c3 r1 r2 h1 hd
  have hQ := quadraticQ_eq sqrt hsqrt c1 c2 c3 hd
  have hH := quadraticQ_half sqrt hsqrt c1 c2 c3 hd
  have hZ := quadraticQ_zero sqrt hsqrt c1 c2 c3 hd
  rw [e1, e2]
  generalize quadraticQ sqrt c1 c2 c3 = Q at hQ hH hZ ⊢
  by_cases hQ0 : Q = 0
  · rw [if_pos hQ0]
    have hc2 := hZ hQ0
    subst hQ0
    have hc3 : c3 = 0 := by
      have : c1 * c3 = 0 := by linear_combination hQ
      rcases mul_eq_zero.mp this with h | h
      · exact absurd h h1
      · exact h
    subst hc3
    subst hc2
    refine ⟨by simp, by simp, ?_⟩
    simp
  · rw [if_neg hQ0]
    refine ⟨?_, ?_, ?_⟩
    · have e : c1 * (Q / c1 * (Q / c1)) + c2 * (Q / c1) + c3
          = (Q * Q + c2 * Q + c1 * c3) / c1 := by
        field_simp
        ring
      rw [e, hQ, zero_div]
    · have e : c1 * (c3 / Q * (c3 / Q)) + c2 * (c3 / Q) + c3
          = c3 * (Q * Q + c2 * Q + c1 * c3) / (Q * Q) := by
        field_simp
        ring
      rw [e, hQ, mul_zero, zero_div]
    · rw [← hH, div_eq_div_iff h1 hQ0]
      constructor
      · intro h
        have h3 : Q * (2 * Q + c2) = 0 := by linear_combination hQ + h
        rcases mul_eq_zero.mp h3 with h | h
        · exact absurd h hQ0
        · exact h
      · intro h
        linear_combination -hQ + Q * h

/-- C21: over exact real arithmetic (an exact `sqrt`), for every `c1 ≠ 0`
and `c2`, `c3` with `c2² - 4·c1·c3 ≥ 0`, both values `r1` and `r2` written
by `SolveQuadratic` are roots of `c1·t² + c2·t + c3`, the return value
equals `num_roots`, and `num_roots` is 1 when the discriminant is 0 and 2
when it is positive. -/
theorem SolveQuadratic_roots (sqrt : K → K) (hsqrt : ExactSqrt sqrt) (c1 c2 c3 r1 r2 : K)
    (h1 : c1 ≠ 0) (hd : 0 ≤ c2 * c2 - 4 * c1 * c3) :
    c1 * ((SolveQuadratic sqrt c1 c2 c3 r1 r2).r1 * (SolveQuadratic sqrt c1 c2 c3 r1 r2).r1)
      + c2 * (SolveQuadratic sqrt c1 c2 c3 r1 r2).r1 + c3 = 0 ∧
    c1 * ((SolveQuadratic sqrt c1 c2 c3 r1 r2).r2 * (SolveQuadratic sqrt c1 c2 c3 r1 r2).r2)
      + c2 * (SolveQuadratic sqrt c1 c2 c3 r1 r2).r2 + c3 = 0 ∧
    (SolveQuadratic sqrt c1 c2 c3 r1 r2).ret = (SolveQuadratic sqrt c1 c2 c3 r1 r2).num_roots ∧
    (c2 * c2 - 4 * c1 * c3 = 0 → (SolveQuadratic sqrt c1 c2 c3 r1 r2).num_roots = 1) ∧
    (0 < c2 * c2 - 4 * c1 * c3 → (SolveQuadratic sqrt c1 c2 c3 r1 r2).num_roots = 2) := by
  obtain ⟨-, -, e3, e4⟩ := SolveQuadratic_real sqrt c1 c2 c3 r1 r2 h1 hd
  obtain ⟨a1, a2, a3⟩ := SolveQuadratic_roots_aux sqrt hsqrt c1 c2 c3 r1 r2 h1 hd
  refine ⟨a1, a2, e4, ?_, ?_⟩
  · intro h
    rw [e3, if_pos (a3.mpr h)]
  · intro h
    rw [e3, if_neg (fun he => (ne_of_gt h) (a3.mp he))]

/-- The quadratic `t² - 1` over the reals: `SolveQuadratic` writes
`r1 = -1`, `r2 = 1`. -/
theorem SolveQuadratic_sample (r1 r2 : ℝ) :
    (SolveQuadratic Real.sqrt 1 0 (-1) r1 r2).r1 = -1 ∧
    (SolveQuadratic Real.sqrt 1 0 (-1) r1 r2).r2 = 1 := by
  have hd : (0 : ℝ) ≤ 0 * 0 - 4 * 1 * (-1) := by norm_num
  obtain ⟨e1, e2, -, -⟩ := SolveQuadratic_real Real.sqrt (1 : ℝ) 0 (-1) r1 r2 one_ne_zero hd
  have hs : Real.sqrt (0 * 0 - 4 * 1 * (-1)) = 2 := by
    rw [show (0 * 0 - 4 * 1 * (-1) : ℝ) = 2 ^ 2 by norm_num]
    exact Real.sqrt_sq (by norm_num)
  have hQ : quadraticQ Real.sqrt (1 : ℝ) 0 (-1) = -1 := by
    unfold quadraticQ
    rw [hs, VTK_SIGN_cast]
    norm_num
  rw [e1, e2, hQ]
  norm_num

/-- Witness for C21: the quadratic `(1, 0, -1)` over the reals has the
roots `r1 = -1`, `r2 = 1`, and `num_roots = 2` is returned. -/
theorem SolveQuadratic_roots_witness :
    ExactSqrt Real.sqrt ∧ (1 : ℝ) ≠ 0 ∧ (0 : ℝ) ≤ 0 * 0 - 4 * 1 * (-1) ∧
    (SolveQuadratic Real.sqrt 1 0 (-1) 0 0).r1 = -1 ∧
    (SolveQuadratic Real.sqrt 1 0 (-1) 0 0).r2 = 1 ∧
    (SolveQuadratic Real.sqrt 1 0 (-1) 0 0).ret = 2 ∧
    (SolveQuadratic Real.sqrt 1 0 (-1) 0 0).num_roots = 2 := by
  have hd : (0 : ℝ) ≤ 0 * 0 - 4 * 1 * (-1) := by norm_num
  have h := SolveQuadratic_roots Real.sqrt exactSqrt_real (1 : ℝ) 0 (-1) 0 0 one_ne_zero hd
  have hn := h.2.2.2.2 (by norm_num)
  exact ⟨exactSqrt_real, one_ne_zero, hd, (SolveQuadratic_sample 0 0).1,
    (SolveQuadratic_sample 0 0).2, by rw [h.2.2.1, hn], hn⟩

/-- C22: for every `c1 ≠ 0` and `c2`, `c3` with `c2² - 4·c1·c3 < 0`,
`SolveQuadratic` returns -2, sets `num_roots = 0`, and leaves `r1` and `r2`
exactly as they were before the call. -/
theorem SolveQuadratic_complex (sqrt : K → K) (c1 c2 c3 r1 r2 : K) (h1 : c1 ≠ 0)
    (hd : c2 * c2 - 4 * c1 * c3 < 0) :
    (SolveQuadratic sqrt c1 c2 c3 r1 r2).ret = -2 ∧
    (SolveQuadratic sqrt c1 c2 c3 r1 r2).num_roots = 0 ∧
    (SolveQuadratic sqrt c1 c2 c3 r1 r2).r1 = r1 ∧
    (SolveQuadratic sqrt c1 c2 c3 r1 r2).r2 = r2 := by
  unfold SolveQuadratic
  rw [if_pos h1, if_neg (not_le.mpr hd)]
  exact ⟨rfl, rfl, rfl, rfl⟩

/-- Witness for C22: the quadratic `(1, 0, 1)`, with the cells holding 7
and 9 before the call. -/
theorem SolveQuadratic_complex_witness :
    (1 : ℚ) ≠ 0 ∧ (0 : ℚ) * 0 - 4 * 1 * 1 < 0 ∧
    (SolveQuadratic smallSqrt 1 0 1 7 9).ret = -2 ∧
    (SolveQuadratic smallSqrt 1 0 1 7 9).num_roots = 0 ∧
    (SolveQuadratic smallSqrt 1 0 1 7 9).r1 = 7 ∧
    (SolveQuadratic smallSqrt 1 0 1 7 9).r2 = 9 :=
  ⟨by norm_num, by norm_num,
   SolveQuadratic_complex smallSqrt 1 0 1 7 9 (by norm_num) (by norm_num)⟩

end

/-! ### The branches of `SolveCubic` -/

section

variable {K : Type} [LinearOrderedField K]

/-- The branch `Q_cubed == 0.0` of `SolveCubic`. -/
theorem SolveCubic_triple_branch (sqrt cos acos : K → K) (pow : K → K → K)
    (c0 c1 c2 c3 r1 r2 r3 : K) (h0 : c0 ≠ 0)
    (hle : cubicR c0 c1 c2 c3 * cubicR c0 c1 c2 c3
      ≤ cubicQ c0 c1 c2 * cubicQ c0 c1 c2 * cubicQ c0 c1 c2)
    (hz : cubicQ c0 c1 c2 * cubicQ c0 c1 c2 * cubicQ c0 c1 c2 = 0) :
    SolveCubic sqrt cos acos pow c0 c1 c2 c3 r1 r2 r3 =
      { ret := 1, r1 := -(c1 / c0) / 3.0, r2 := -(c1 / c0) / 3.0, r3 := -(c1 / c0) / 3.0,
        num_roots := 1 } := by
  unfold cubicQ at hle hz
  unfold cubicR at hle
  unfold SolveCubic
  rw [if_pos h0]
  simp only []
  rw [if_pos hle, if_pos hz]

/-- The branch `R_squared > Q_cubed` of `SolveCubic`. -/
theorem SolveCubic_cardano_branch (sqrt cos acos : K → K) (pow : K → K → K)
    (c0 c1 c2 c3 r1 r2 r3 : K) (h0 : c0 ≠ 0)
    (hlt : cubicQ c0 c1 c2 * cubicQ c0 c1 c2 * cubicQ c0 c1 c2
      < cubicR c0 c1 c2 c3 * cubicR c0 c1 c2 c3) :
    SolveCubic sqrt cos acos pow c0 c1 c2 c3 r1 r2 r3 =
      { ret := -3,
        r1 := (cardanoA sqrt pow c0 c1 c2 c3 + cardanoB sqrt pow c0 c1 c2 c3) - c1 / c0 / 3.0,
        r2 := -0.5 * (cardanoA sqrt pow c0 c1 c2 c3 + cardanoB sqrt pow c0 c1 c2 c3)
          - c1 / c0 / 3.0,
        r3 := sqrt 3.0 / 2.0 * (cardanoA sqrt pow c0 c1 c2 c3 - cardanoB sqrt pow c0 c1 c2 c3),
        num_roots := 1 } := by
  unfold cardanoB cardanoA
  unfold cubicQ cubicR at hlt ⊢
  unfold SolveCubic
  rw [if_pos h0]
  simp only []
  rw [if_neg (not_le.mpr hlt)]

/-- The trigonometric branch of `SolveCubic`: the three values computed,
then the comparisons. -/
theorem SolveCubic_trig_branch (sqrt cos acos : K → K) (pow : K → K → K)
    (c0 c1 c2 c3 r1 r2 r3 : K) (h0 : c0 ≠ 0)
    (hle : cubicR c0 c1 c2 c3 * cubicR c0 c1 c2 c3
      ≤ cubicQ c0 c1 c2 * cubicQ c0 c1 c2 * cubicQ c0 c1 c2)
    (hnz : cubicQ c0 c1 c2 * cubicQ c0 c1 c2 * cubicQ c0 c1 c2 ≠ 0) :
    SolveCubic sqrt cos acos pow c0 c1 c2 c3 r1 r2 r3 =
      cubicCollapse (trigRoot sqrt cos c0 c1 c2 (cubicTheta sqrt acos c0 c1 c2 c3))
        (trigRoot sqrt cos c0 c1 c2 (cubicTheta sqrt acos c0 c1 c2 c3 + 2.0 * 3.141592653589))
        (trigRoot sqrt cos c0 c1 c2
          (cubicTheta sqrt acos c0 c1 c2 c3 - 2.0 * 3.141592653589)) := by
  unfold cubicCollapse trigRoot cubicTheta
  unfold cubicQ at hle hnz ⊢
  unfold cubicR at hle ⊢
  unfold SolveCubic
  rw [if_pos h0]
  simp only []
  rw [if_pos hle, if_neg hnz]

/-- The comparisons keep the count and the return value equal. -/
theorem cubicCollapse_ret (a b c : K) :
    (cubicCollapse a b c).ret = (cubicCollapse a b c).num_roots := rfl

/-- Three pairwise different values are kept, with count 3. -/
theorem cubicCollapse_distinct (a b c : K) (hab : a ≠ b) (hac : a ≠ c) (hbc : b ≠ c) :
    cubicCollapse a b c = { ret := 3, r1 := a, r2 := b, r3 := c, num_roots := 3 } := by
  unfold cubicCollapse
  simp only []
  rw [if_neg hab, if_neg hac]
  simp [hab, hbc]

/-- When only the second and third value coincide the count is 2. -/
theorem cubicCollapse_last (a b c : K) (hab : a ≠ b) (hbc : b = c) :
    cubicCollapse a b c = { ret := 2, r1 := a, r2 := b, r3 := c, num_roots := 2 } := by
  have hac : a ≠ c := hbc ▸ hab
  unfold cubicCollapse
  simp only []
  rw [if_neg hab, if_neg hac]
  simp [hab, hbc, hac]

/-- When only the first and third value coincide the count is 2. -/
theorem cubicCollapse_outer (a b c : K) (hab : a ≠ b) (hac : a = c) :
    cubicCollapse a b c = { ret := 2, r1 := a, r2 := b, r3 := c, num_roots := 2 } := by
  have hbc : b ≠ c := fun h => hab (hac.trans h.symm)
  unfold cubicCollapse
  simp only []
  rw [if_neg hab, if_pos hac]
  simp [hab, hbc, hac, Ne.symm hbc]

/-- The count written by the comparisons is 1, 2 or 3. -/
theorem cubicCollapse_range (a b c : K) :
    (cubicCollapse a b c).num_roots = 1 ∨ (cubicCollapse a b c).num_roots = 2 ∨
      (cubicCollapse a b c).num_roots = 3 := by
  unfold cubicCollapse
  simp only []
  split_ifs <;> simp

end

/-! ### The triple root; the array-returning forms -/

section

variable {K : Type} [LinearOrderedField K]

/-- When `Q = 0` and `R = 0` the cubic is `c0·(t + c1/(3·c0))³`. -/
theorem cubic_triple_factor (c0 c1 c2 c3 : K) (h0 : c0 ≠ 0) (hQ : cubicQ c0 c1 c2 = 0)
    (hR : cubicR c0 c1 c2 c3 = 0) (t : K) :
    cubicValue c0 c1 c2 c3 t = c0 * (t - -c1 / (3 * c0)) ^ 3 := by
  have ha : c1 = c0 * (c1 / c0) := by field_simp
  have hb : c2 = c0 * (c2 / c0) := by field_simp
  have hc : c3 = c0 * (c3 / c0) := by field_simp
  have hr : -c1 / (3 * c0) = -(c1 / c0) / 3 := by
    rw [neg_div, neg_div, div_div, mul_comm c0 3]
  unfold cubicQ at hQ
  unfold cubicR at hR
  rw [hr]
  unfold cubicValue
  generalize c1 / c0 = a at ha hQ hR ⊢
  generalize c2 / c0 = b at hb hQ hR ⊢
  generalize c3 / c0 = c at hc hR ⊢
  have hQ2 : a * a - 3 * b = 0 := by
    have h9 : (9.0 : K) ≠ 0 := by norm_num
    have := (div_eq_zero_iff.mp hQ).resolve_right h9
    exact this
  have hR2 : 2 * (a * a * a) - 9 * (a * b) + 27 * c = 0 := by
    have h54 : (54.0 : K) ≠ 0 := by norm_num
    have := (div_eq_zero_iff.mp hR).resolve_right h54
    norm_num at this
    linear_combination this
  rw [ha, hb, hc]
  linear_combination (-(c0 * t) / 3 - c0 * a / 9) * hQ2 + (c0 / 27) * hR2

/-- C23: for every `c0 ≠ 0` whose normalised invariants satisfy `Q = 0` and
`R = 0`, `SolveCubic` returns 1 with `num_roots = 1` and
`r1 = r2 = r3 = -c1/(3·c0)`, and that value is a root of multiplicity three:
the cubic is `c0·(t - r1)³`. -/
theorem SolveCubic_triple (sqrt cos acos : K → K) (pow : K → K → K)
    (c0 c1 c2 c3 r1 r2 r3 : K) (h0 : c0 ≠ 0) (hQ : cubicQ c0 c1 c2 = 0)
    (hR : cubicR c0 c1 c2 c3 = 0) :
    (SolveCubic sqrt cos acos pow c0 c1 c2 c3 r1 r2 r3).ret = 1 ∧
    (SolveCubic sqrt cos acos pow c0 c1 c2 c3 r1 r2 r3).num_roots = 1 ∧
    (SolveCubic sqrt cos acos pow c0 c1 c2 c3 r1 r2 r3).r1 = -c1 / (3 * c0) ∧
    (SolveCubic sqrt cos acos pow c0 c1 c2 c3 r1 r2 r3).r2 = -c1 / (3 * c0) ∧
    (SolveCubic sqrt cos acos pow c0 c1 c2 c3 r1 r2 r3).r3 = -c1 / (3 * c0) ∧
    ∀ t, cubicValue c0 c1 c2 c3 t
      = c0 * (t - (SolveCubic sqrt cos acos pow c0 c1 c2 c3 r1 r2 r3).r1) ^ 3 := by
  have hr : -(c1 / c0) / 3.0 = -c1 / (3 * c0) := by
    have h3 : (3.0 : K) = 3 := by norm_num
    rw [h3, neg_div, neg_div, div_div, mul_comm c0 3]
  rw [SolveCubic_triple_branch sqrt cos acos pow c0 c1 c2 c3 r1 r2 r3 h0
    (by rw [hQ, hR]; simp) (by rw [hQ]; simp)]
  simp only [hr]
  exact ⟨trivial, trivial, trivial, trivial, trivial, cubic_triple_factor c0 c1 c2 c3 h0 hQ hR⟩

/-- Witness for C23: the cubic `(1, -3, 3, -1) = (t - 1)³` gives root 1,
count 1, code 1. -/
theorem SolveCubic_triple_witness :
    (1 : ℚ) ≠ 0 ∧ cubicQ (1 : ℚ) (-3) 3 = 0 ∧ cubicR (1 : ℚ) (-3) 3 (-1) = 0 ∧
    (SolveCubic smallSqrt smallSqrt smallSqrt (fun x _ => x) 1 (-3) 3 (-1) 0 0 0).ret = 1 ∧
    (SolveCubic smallSqrt smallSqrt smallSqrt (fun x _ => x) 1 (-3) 3 (-1) 0 0 0).num_roots = 1 ∧
    (SolveCubic smallSqrt smallSqrt smallSqrt (fun x _ => x) 1 (-3) 3 (-1) 0 0 0).r1 = 1 := by
  have hQ : cubicQ (1 : ℚ) (-3) 3 = 0 := by unfold cubicQ; norm_num
  have hR : cubicR (1 : ℚ) (-3) 3 (-1) = 0 := by unfold cubicR; norm_num
  have h := SolveCubic_triple smallSqrt smallSqrt smallSqrt (fun x _ => x) (1 : ℚ) (-3) 3 (-1)
    0 0 0 one_ne_zero hQ hR
  refine ⟨one_ne_zero, hQ, hR, h.1, h.2.1, ?_⟩
  rw [h.2.2.1]
  norm_num

/-- C27: the array-returning forms of the polynomial solvers hold, on
return, exactly what the out-parameter forms produce when `r1`, `r2`, `r3`
hold 0 before the call: `SolveCubic(c0,c1,c2,c3)` is
`[num_roots, r1, r2, r3, code]`, `SolveQuadratic(c1,c2,c3)` is
`[num_roots, r1, r2, code]` and `SolveLinear(c2,c3)` is
`[num_roots, r1, code]`, whatever the static array held before. -/
theorem solver_array_forms (sqrt cos acos : K → K) (pow : K → K → K) (c0 c1 c2 c3 : K)
    (roots : Vec K) :
    (SolveCubicArray sqrt cos acos pow c0 c1 c2 c3 roots 0
        = ((SolveCubic sqrt cos acos pow c0 c1 c2 c3 0 0 0).num_roots : K) ∧
      SolveCubicArray sqrt cos acos pow c0 c1 c2 c3 roots 1
        = (SolveCubic sqrt cos acos pow c0 c1 c2 c3 0 0 0).r1 ∧
      SolveCubicArray sqrt cos acos pow c0 c1 c2 c3 roots 2
        = (SolveCubic sqrt cos acos pow c0 c1 c2 c3 0 0 0).r2 ∧
      SolveCubicArray sqrt cos acos pow c0 c1 c2 c3 roots 3
        = (SolveCubic sqrt cos acos pow c0 c1 c2 c3 0 0 0).r3 ∧
      SolveCubicArray sqrt cos acos pow c0 c1 c2 c3 roots 4
        = ((SolveCubic sqrt cos acos pow c0 c1 c2 c3 0 0 0).ret : K)) ∧
    (SolveQuadraticArray sqrt c1 c2 c3 roots 0
        = ((SolveQuadratic sqrt c1 c2 c3 0 0).num_roots : K) ∧
      SolveQuadraticArray sqrt c1 c2 c3 roots 1 = (SolveQuadratic sqrt c1 c2 c3 0 0).r1 ∧
      SolveQuadraticArray sqrt c1 c2 c3 roots 2 = (SolveQuadratic sqrt c1 c2 c3 0 0).r2 ∧
      SolveQuadraticArray sqrt c1 c2 c3 roots 3
        = ((SolveQuadratic sqrt c1 c2 c3 0 0).ret : K)) ∧
    (SolveLinearArray c2 c3 roots 0 = ((SolveLinear c2 c3 0).num_roots : K) ∧
      SolveLinearArray c2 c3 roots 1 = (SolveLinear c2 c3 0).r1 ∧
      SolveLinearArray c2 c3 roots 2 = ((SolveLinear c2 c3 0).ret : K)) := by
  refine ⟨?_, ?_, ?_⟩
  · unfold SolveCubicArray
    simp [Vec.set]
  · unfold SolveQuadraticArray
    simp [Vec.set]
  · unfold SolveLinearArray
    simp [Vec.set]

end

/-! ### The trigonometric branch on `(t-1)(t-2)(t-3)` -/

section

/-- The decimal constant of the source is below `π`, by less than `10⁻²`. -/
theorem source_pi_lt : (3.141592653589 : ℝ) < Real.pi ∧ Real.pi < 3.15 := by
  refine ⟨lt_trans ?_ Real.pi_gt_d20, Real.pi_lt_d2⟩
  norm_num

/-- On `[0, π]` different angles have different cosines. -/
theorem cos_ne_of_lt (x y : ℝ) (hx : 0 ≤ x) (hy : y ≤ Real.pi) (hxy : x < y) :
    Real.cos x ≠ Real.cos y :=
  ne_of_gt (Real.cos_lt_cos_of_nonneg_of_le_pi hx hy hxy)

/-- The invariants of `t³ - 6t² + 11t - 6`: `Q = 1/3`, `R = 0`. -/
theorem cubic_sample_invariants :
    cubicQ (1 : ℝ) (-6) 11 = 1 / 3 ∧ cubicR (1 : ℝ) (-6) 11 (-6) = 0 := by
  unfold cubicQ cubicR
  constructor <;> norm_num

theorem cubic_sample_theta :
    cubicTheta Real.sqrt Real.arccos (1 : ℝ) (-6) 11 (-6) = Real.pi / 2 := by
  unfold cubicTheta
  rw [cubic_sample_invariants.2, zero_div, Real.arccos_zero]

/-- The values of the trigonometric branch on `t³ - 6t² + 11t - 6`, with
`s = sqrt(1/3)`. -/
theorem cubic_sample_root (a : ℝ) :
    trigRoot Real.sqrt Real.cos (1 : ℝ) (-6) 11 a
      = 2 - 2 * Real.sqrt (1 / 3) * Real.cos (a / 3) := by
  unfold trigRoot
  rw [cubic_sample_invariants.1]
  norm_num
  ring

theorem sqrt_third : Real.sqrt (1 / 3) * Real.sqrt (1 / 3) = 1 / 3 ∧ 0 < Real.sqrt (1 / 3) :=
  ⟨Real.mul_self_sqrt (by norm_num), Real.sqrt_pos.mpr (by norm_num)⟩

/-- The cubic `(t-1)(t-2)(t-3)` at `2 - 2·s·cos x` is `-(2s/3)·cos 3x`. -/
theorem cubic_sample_value (x : ℝ) :
    cubicValue (1 : ℝ) (-6) 11 (-6) (2 - 2 * Real.sqrt (1 / 3) * Real.cos x)
      = -(2 * Real.sqrt (1 / 3) / 3) * Real.cos (3 * x) := by
  rw [Real.cos_three_mul]
  unfold cubicValue
  have hs := sqrt_third.1
  generalize Real.sqrt (1 / 3) = s at hs ⊢
  generalize Real.cos x = c
  linear_combination (-8 * s * c ^ 3) * hs

/-- The sine of twice the decimal constant of the source is negative. -/
theorem sin_source_pi : Real.sin (2.0 * 3.141592653589) < 0 := by
  obtain ⟨h1, h2⟩ := source_pi_lt
  have e : (2.0 * 3.141592653589 : ℝ) = 2 * Real.pi - 2 * (Real.pi - 3.141592653589) := by
    ring
  rw [e, Real.sin_two_pi_sub]
  have : 0 < Real.sin (2 * (Real.pi - 3.141592653589)) :=
    Real.sin_pos_of_pos_of_lt_pi (by linarith) (by linarith)
  linarith

/-- C24, at the cubic `(1, -6, 11, -6) = (t-1)(t-2)(t-3)` over the reals,
with the real `sqrt`, `cos`, `acos`: `SolveCubic` returns 3 with
`num_roots = 3` and `r1 = 1`, but the values `r2` and `r3` it writes are not
roots of the cubic, the angle being shifted by twice `3.141592653589`
instead of twice `π`. -/
theorem SolveCubic_trig_sample :
    (SolveCubic Real.sqrt Real.cos Real.arccos (fun x y => x ^ y) 1 (-6) 11 (-6) 0 0 0).ret = 3 ∧
    (SolveCubic Real.sqrt Real.cos Real.arccos (fun x y => x ^ y) 1 (-6) 11 (-6) 0 0 0).num_roots
      = 3 ∧
    (SolveCubic Real.sqrt Real.cos Real.arccos (fun x y => x ^ y) 1 (-6) 11 (-6) 0 0 0).r1 = 1 ∧
    cubicValue 1 (-6) 11 (-6)
      (SolveCubic Real.sqrt Real.cos Real.arccos (fun x y => x ^ y) 1 (-6) 11 (-6) 0 0 0).r2
        ≠ 0 ∧
    cubicValue 1 (-6) 11 (-6)
      (SolveCubic Real.sqrt Real.cos Real.arccos (fun x y => x ^ y) 1 (-6) 11 (-6) 0 0 0).r3
        ≠ 0 := by
  obtain ⟨hp1, hp2⟩ := source_pi_lt
  obtain ⟨hs1, hs2⟩ := sqrt_third
  have hpos := Real.pi_pos
  have hbr := SolveCubic_trig_branch Real.sqrt Real.cos Real.arccos (fun x y => x ^ y)
    (1 : ℝ) (-6) 11 (-6) 0 0 0 one_ne_zero
    (by rw [cubic_sample_invariants.1, cubic_sample_invariants.2]; norm_num)
    (by rw [cubic_sample_invariants.1]; norm_num)
  rw [cubic_sample_theta, cubic_sample_root, cubic_sample_root, cubic_sample_root] at hbr
  have h3 : (3.0 : ℝ) = 3 := by norm_num
  -- the three angles
  have c3 : Real.cos ((Real.pi / 2 - 2.0 * 3.141592653589) / 3)
      = Real.cos ((2.0 * 3.141592653589 - Real.pi / 2) / 3) := by
    rw [← Real.cos_neg]
    congr 1
    ring
  have h12 : Real.cos (Real.pi / 2 / 3) ≠ Real.cos ((Real.pi / 2 + 2.0 * 3.141592653589) / 3) :=
    cos_ne_of_lt _ _ (by positivity) (by norm_num; linarith) (by norm_num; linarith)
  have h13 : Real.cos (Real.pi / 2 / 3) ≠ Real.cos ((Real.pi / 2 - 2.0 * 3.141592653589) / 3) := by
    rw [c3]
    exact cos_ne_of_lt _ _ (by positivity) (by norm_num; linarith) (by norm_num; linarith)
  have h23 : Real.cos ((Real.pi / 2 + 2.0 * 3.141592653589) / 3)
      ≠ Real.cos ((Real.pi / 2 - 2.0 * 3.141592653589) / 3) := by
    rw [c3]
    exact (cos_ne_of_lt _ _ (by norm_num; linarith) (by norm_num; linarith)
      (by norm_num; linarith)).symm
  have hmul : ∀ a b : ℝ, Real.cos a ≠ Real.cos b →
      2 - 2 * Real.sqrt (1 / 3) * Real.cos a ≠ 2 - 2 * Real.sqrt (1 / 3) * Real.cos b := by
    intro a b hab h
    apply hab
    have : 2 * Real.sqrt (1 / 3) * (Real.cos a - Real.cos b) = 0 := by linear_combination -h
    rcases mul_eq_zero.mp this with h | h
    · linarith
    · linarith
  rw [cubicCollapse_distinct _ _ _ (hmul _ _ h12) (hmul _ _ h13) (hmul _ _ h23)] at hbr
  rw [hbr]
  refine ⟨rfl, rfl, ?_, ?_, ?_⟩
  · show 2 - 2 * Real.sqrt (1 / 3) * Real.cos (Real.pi / 2 / 3) = 1
    rw [show Real.pi / 2 / 3 = Real.pi / 6 by ring, Real.cos_pi_div_six]
    have h33 : Real.sqrt (1 / 3) * Real.sqrt 3 = 1 := by
      rw [← Real.sqrt_mul (by norm_num)]
      norm_num
    linear_combination -h33
  · show cubicValue 1 (-6) 11 (-6)
      (2 - 2 * Real.sqrt (1 / 3) * Real.cos ((Real.pi / 2 + 2.0 * 3.141592653589) / 3)) ≠ 0
    rw [cubic_sample_value, show 3 * ((Real.pi / 2 + 2.0 * 3.141592653589) / 3)
      = 2.0 * 3.141592653589 + Real.pi / 2 by ring, Real.cos_add_pi_div_two]
    have := sin_source_pi
    apply ne_of_lt
    nlinarith
  · show cubicValue 1 (-6) 11 (-6)
      (2 - 2 * Real.sqrt (1 / 3) * Real.cos ((Real.pi / 2 - 2.0 * 3.141592653589) / 3)) ≠ 0
    rw [cubic_sample_value, show 3 * ((Real.pi / 2 - 2.0 * 3.141592653589) / 3)
      = Real.pi / 2 - 2.0 * 3.141592653589 by ring, Real.cos_pi_div_two_sub]
    have := sin_source_pi
    apply ne_of_gt
    nlinarith

end

/-! ### The trigonometric branch on a double root -/

section

/-- The invariants of `t³ - 3t - 2`: `Q = 1`, `R = -1`. -/
theorem cubic_double_invariants :
    cubicQ (1 : ℝ) 0 (-3) = 1 ∧ cubicR (1 : ℝ) 0 (-3) (-2) = -1 := by
  unfold cubicQ cubicR
  constructor <;> norm_num

theorem cubic_double_theta :
    cubicTheta Real.sqrt Real.arccos (1 : ℝ) 0 (-3) (-2) = Real.pi := by
  unfold cubicTheta
  rw [cubic_double_invariants.1, cubic_double_invariants.2]
  norm_num

/-- The values of the trigonometric branch on `t³ - 3t ± 2`. -/
theorem cubic_double_root (a : ℝ) :
    trigRoot Real.sqrt Real.cos (1 : ℝ) 0 (-3) a = -2 * Real.cos (a / 3) := by
  unfold trigRoot
  rw [cubic_double_invariants.1]
  norm_num

/-- C26, at the cubic `(1, 0, -3, -2) = (t+1)²(t-2)` over the reals, with
the real `sqrt`, `cos`, `acos`: a double root `-1` and a different simple
root `2`, yet `SolveCubic` returns 3 with `num_roots = 3`, the three values
it computes being pairwise different. -/
theorem SolveCubic_double_sample :
    (∀ t : ℝ, cubicValue 1 0 (-3) (-2) t = (t + 1) ^ 2 * (t - 2)) ∧
    (SolveCubic Real.sqrt Real.cos Real.arccos (fun x y => x ^ y) 1 0 (-3) (-2) 0 0 0).ret = 3 ∧
    (SolveCubic Real.sqrt Real.cos Real.arccos (fun x y => x ^ y) 1 0 (-3) (-2) 0 0 0).num_roots
      = 3 ∧
    (SolveCubic Real.sqrt Real.cos Real.arccos (fun x y => x ^ y) 1 0 (-3) (-2) 0 0 0).r1
      ≠ (SolveCubic Real.sqrt Real.cos Real.arccos (fun x y => x ^ y) 1 0 (-3) (-2) 0 0 0).r3 := by
  obtain ⟨hp1, hp2⟩ := source_pi_lt
  have hpos := Real.pi_pos
  have hbr := SolveCubic_trig_branch Real.sqrt Real.cos Real.arccos (fun x y => x ^ y)
    (1 : ℝ) 0 (-3) (-2) 0 0 0 one_ne_zero
    (by rw [cubic_double_invariants.1, cubic_double_invariants.2]; norm_num)
    (by rw [cubic_double_invariants.1]; norm_num)
  rw [cubic_double_theta, cubic_double_root, cubic_double_root, cubic_double_root] at hbr
  have c3 : Real.cos ((Real.pi - 2.0 * 3.141592653589) / 3)
      = Real.cos ((2.0 * 3.141592653589 - Real.pi) / 3) := by
    rw [← Real.cos_neg]
    congr 1
    ring
  have h12 : Real.cos (Real.pi / 3) ≠ Real.cos ((Real.pi + 2.0 * 3.141592653589) / 3) :=
    cos_ne_of_lt _ _ (by positivity) (by norm_num; linarith) (by norm_num; linarith)
  have h13 : Real.cos (Real.pi / 3) ≠ Real.cos ((Real.pi - 2.0 * 3.141592653589) / 3) := by
    rw [c3]
    exact (cos_ne_of_lt _ _ (by norm_num; linarith) (by linarith)
      (by norm_num; linarith)).symm
  have h23 : Real.cos ((Real.pi + 2.0 * 3.141592653589) / 3)
      ≠ Real.cos ((Real.pi - 2.0 * 3.141592653589) / 3) := by
    rw [c3]
    exact (cos_ne_of_lt _ _ (by norm_num; linarith) (by norm_num; linarith)
      (by norm_num; linarith)).symm
  have hmul : ∀ a b : ℝ, Real.cos a ≠ Real.cos b → -2 * Real.cos a ≠ -2 * Real.cos b := by
    intro a b hab h
    apply hab
    linarith
  rw [cubicCollapse_distinct _ _ _ (hmul _ _ h12) (hmul _ _ h13) (hmul _ _ h23)] at hbr
  rw [hbr]
  refine ⟨?_, rfl, rfl, hmul _ _ h13⟩
  intro t
  unfold cubicValue
  ring

/-- The invariants of `t³ - 3t + 2`: `Q = 1`, `R = 1`. -/
theorem cubic_mirror_invariants :
    cubicQ (1 : ℝ) 0 (-3) = 1 ∧ cubicR (1 : ℝ) 0 (-3) 2 = 1 := by
  unfold cubicQ cubicR
  constructor <;> norm_num

/-- On the other orientation, `(1, 0, -3, 2) = (t-1)²(t+2)`, the second and
third value coincide and `SolveCubic` returns 2 with `r1 = -2`. -/
theorem SolveCubic_mirror_sample :
    (SolveCubic Real.sqrt Real.cos Real.arccos (fun x y => x ^ y) 1 0 (-3) 2 0 0 0).ret = 2 ∧
    (SolveCubic Real.sqrt Real.cos Real.arccos (fun x y => x ^ y) 1 0 (-3) 2 0 0 0).num_roots
      = 2 ∧
    (SolveCubic Real.sqrt Real.cos Real.arccos (fun x y => x ^ y) 1 0 (-3) 2 0 0 0).r1 = -2 := by
  obtain ⟨hp1, hp2⟩ := source_pi_lt
  have hbr := SolveCubic_trig_branch Real.sqrt Real.cos Real.arccos (fun x y => x ^ y)
    (1 : ℝ) 0 (-3) 2 0 0 0 one_ne_zero
    (by rw [cubic_mirror_invariants.1, cubic_mirror_invariants.2]; norm_num)
    (by rw [cubic_mirror_invariants.1]; norm_num)
  have hth : cubicTheta Real.sqrt Real.arccos (1 : ℝ) 0 (-3) 2 = 0 := by
    unfold cubicTheta
    rw [cubic_mirror_invariants.1, cubic_mirror_invariants.2]
    norm_num
  rw [hth, cubic_double_root, cubic_double_root, cubic_double_root] at hbr
  have h23 : -2 * Real.cos ((0 + 2.0 * 3.141592653589) / 3)
      = -2 * Real.cos ((0 - 2.0 * 3.141592653589) / 3) := by
    rw [← Real.cos_neg ((0 - 2.0 * 3.141592653589) / 3)]
    congr 2
    ring
  have h12 : -2 * Real.cos (0 / 3) ≠ -2 * Real.cos ((0 + 2.0 * 3.141592653589) / 3) := by
    intro h
    exact cos_ne_of_lt (0 / 3) ((0 + 2.0 * 3.141592653589) / 3) (by norm_num)
      (by norm_num; linarith) (by norm_num) (by linarith)
  rw [cubicCollapse_last _ _ _ h12 h23] at hbr
  rw [hbr]
  refine ⟨rfl, rfl, ?_⟩
  show -2 * Real.cos (0 / 3) = -2
  norm_num

end

/-! ### The last branch of `SolveCubic` on `t³ + t` -/

section

/-- The invariants of `t³ + t`: `Q = -1/3`, `R = 0`. -/
theorem cubic_cardano_invariants :
    cubicQ (1 : ℝ) 0 1 = -(1 / 3) ∧ cubicR (1 : ℝ) 0 1 0 = 0 := by
  unfold cubicQ cubicR
  constructor <;> norm_num

/-- The square root of `1/27` is `3` to the power `-3/2`. -/
theorem sqrt_inv_27 : Real.sqrt (1 / 27) = (3 : ℝ) ^ (-(3 / 2) : ℝ) := by
  have h : (1 / 27 : ℝ) = (3 : ℝ) ^ (-3 : ℝ) := by
    rw [Real.rpow_neg (by norm_num), show (3 : ℝ) = ((3 : ℕ) : ℝ) by norm_num,
      Real.rpow_natCast]
    norm_num
  rw [Real.sqrt_eq_rpow, h, ← Real.rpow_mul (by norm_num)]
  norm_num

/-- The intermediate `A` on `t³ + t`, with the exponent of the source. -/
theorem cardano_sample_A :
    cardanoA Real.sqrt (fun x y => x ^ y) (1 : ℝ) 0 1 0
      = -((3 : ℝ) ^ (-(3 / 2) * 0.33333333 : ℝ)) := by
  unfold cardanoA
  rw [cubic_cardano_invariants.1, cubic_cardano_invariants.2, VTK_SIGN_cast]
  have e : (|(0 : ℝ)| + Real.sqrt (0 * 0 - -(1 / 3) * -(1 / 3) * -(1 / 3))) = Real.sqrt (1 / 27) := by
    norm_num
  simp only [e, sqrt_inv_27]
  rw [← Real.rpow_mul (by norm_num)]
  norm_num

/-- The square of `3` to the power `-(3/2)·0.33333333` is above `1/3`. -/
theorem cardano_sample_sq :
    1 / 3 < (3 : ℝ) ^ (-(3 / 2) * 0.33333333 : ℝ) * (3 : ℝ) ^ (-(3 / 2) * 0.33333333 : ℝ) := by
  rw [← Real.rpow_add (by norm_num)]
  have h : (1 / 3 : ℝ) = (3 : ℝ) ^ (-1 : ℝ) := by
    rw [Real.rpow_neg (by norm_num), Real.rpow_one]
    norm_num
  rw [h]
  exact Real.rpow_lt_rpow_of_exponent_lt (by norm_num) (by norm_num)

/-- C25, at the cubic `(1, 0, 1, 0) = t³ + t` over the reals, with the real
`sqrt` and `pow`: `SolveCubic` returns -3 with `num_roots = 1`, but the
value `r1` it writes is negative, not the real root `0` of the cubic, the
power being taken with the exponent `0.33333333` instead of `1/3`. -/
theorem SolveCubic_cardano_sample :
    (SolveCubic Real.sqrt Real.cos Real.arccos (fun x y => x ^ y) 1 0 1 0 0 0 0).ret = -3 ∧
    (SolveCubic Real.sqrt Real.cos Real.arccos (fun x y => x ^ y) 1 0 1 0 0 0 0).num_roots = 1 ∧
    (SolveCubic Real.sqrt Real.cos Real.arccos (fun x y => x ^ y) 1 0 1 0 0 0 0).r1 < 0 ∧
    cubicValue 1 0 1 0
      (SolveCubic Real.sqrt Real.cos Real.arccos (fun x y => x ^ y) 1 0 1 0 0 0 0).r1 ≠ 0 := by
  have hbr := SolveCubic_cardano_branch Real.sqrt Real.cos Real.arccos (fun x y => x ^ y)
    (1 : ℝ) 0 1 0 0 0 0 one_ne_zero
    (by rw [cubic_cardano_invariants.1, cubic_cardano_invariants.2]; norm_num)
  have hw : 0 < (3 : ℝ) ^ (-(3 / 2) * 0.33333333 : ℝ) := Real.rpow_pos_of_pos (by norm_num) _
  have hsq := cardano_sample_sq
  have hA := cardano_sample_A
  have hB : cardanoB Real.sqrt (fun x y => x ^ y) (1 : ℝ) 0 1 0
      = -(1 / 3) / -((3 : ℝ) ^ (-(3 / 2) * 0.33333333 : ℝ)) := by
    unfold cardanoB
    rw [hA, cubic_cardano_invariants.1, if_neg (by linarith)]
  rw [hA, hB] at hbr
  generalize (3 : ℝ) ^ (-(3 / 2) * 0.33333333 : ℝ) = w at hw hsq hbr
  have hr1 : (-w + -(1 / 3) / -w) - 0 / 1 / 3.0 < 0 := by
    have e : (-w + -(1 / 3) / -w) - 0 / 1 / 3.0 = (1 / 3 - w * w) / w := by
      field_simp
      ring
    rw [e]
    exact div_neg_of_neg_of_pos (by linarith) hw
  rw [hbr]
  refine ⟨rfl, rfl, hr1, ?_⟩
  show cubicValue 1 0 1 0 ((-w + -(1 / 3) / -w) - 0 / 1 / 3.0) ≠ 0
  generalize (-w + -(1 / 3) / -w) - 0 / 1 / 3.0 = r at hr1
  unfold cubicValue
  have : r * (r ^ 2 + 1) < 0 := mul_neg_of_neg_of_pos hr1 (by positivity)
  intro h
  have e : r * (r ^ 2 + 1) = 0 := by linear_combination h
  linarith

end

/-! ### The accumulation loops of `SolveLeastSquares` -/

section

variable {K : Type} [LinearOrderedField K]

/-- The loop `XXt[i][j] += a j` over `j = lo, …, lo+cnt-1`, in closed form. -/
theorem lsq_xx_loop (a : Nat → K) (i lo cnt : Nat) (s : LsqState K) :
    loop (fun j (s : LsqState K) =>
        { s with XXt := Mat.set s.XXt i j (s.XXt i j + a j) }) lo cnt s
      = { XXt := fun r c => if r = i ∧ lo ≤ c ∧ c < lo + cnt then s.XXt r c + a c
            else s.XXt r c,
          XXtI := s.XXtI, XYt := s.XYt } := by
  induction cnt with
  | zero =>
    cases s
    simp only [loop, LsqState.mk.injEq, and_true]
    funext r c
    rw [if_neg (by omega)]
  | succ m ih =>
    rw [loop_succ, ih]
    simp only [LsqState.mk.injEq, and_true]
    funext r c
    unfold Mat.set
    beta_reduce
    by_cases h1 : r = i ∧ c = lo + m
    · obtain ⟨rfl, rfl⟩ := h1
      simp
    · rw [if_neg h1]
      by_cases h2 : r = i ∧ lo ≤ c ∧ c < lo + m
      · rw [if_pos h2, if_pos ⟨h2.1, h2.2.1, by omega⟩]
      · rw [if_neg h2, if_neg (by
          rintro ⟨h3, h4, h5⟩
          rcases Nat.lt_or_ge c (lo + m) with h6 | h6
          · exact h2 ⟨h3, h4, h6⟩
          · exact h1 ⟨h3, by omega⟩)]

/-- The loop `XYt[i][j] += b j` over `j < cnt`, in closed form. -/
theorem lsq_xy_loop (b : Nat → K) (i cnt : Nat) (s : LsqState K) :
    loop (fun j (s : LsqState K) =>
        { s with XYt := Mat.set s.XYt i j (s.XYt i j + b j) }) 0 cnt s
      = { XXt := s.XXt, XXtI := s.XXtI,
          XYt := fun r c => if r = i ∧ c < cnt then s.XYt r c + b c else s.XYt r c } := by
  induction cnt with
  | zero =>
    cases s
    simp only [loop, LsqState.mk.injEq, true_and]
    funext r c
    rw [if_neg (by omega)]
  | succ m ih =>
    rw [loop_succ, ih]
    simp only [LsqState.mk.injEq, true_and, zero_add]
    funext r c
    unfold Mat.set
    beta_reduce
    by_cases h1 : r = i ∧ c = m
    · obtain ⟨rfl, rfl⟩ := h1
      simp
    · rw [if_neg h1]
      by_cases h2 : r = i ∧ c < m
      · rw [if_pos h2, if_pos ⟨h2.1, by omega⟩]
      · rw [if_neg h2, if_neg (by
          rintro ⟨h3, h5⟩
          rcases Nat.lt_or_ge c m with h6 | h6
          · exact h2 ⟨h3, h6⟩
          · exact h1 ⟨h3, by omega⟩)]

/-- One row of one sample, in closed form. -/
theorem lsqAccumulateRow_eq (xt yt : Mat K) (xOrder yOrder k i : Nat) (s : LsqState K) :
    lsqAccumulateRow xt yt xOrder yOrder k i s
      = { XXt := fun r c => if r = i ∧ i ≤ c ∧ c < xOrder then s.XXt r c + xt k i * xt k c
            else s.XXt r c,
          XXtI := s.XXtI,
          XYt := fun r c => if r = i ∧ c < yOrder then s.XYt r c + xt k i * yt k c
            else s.XYt r c } := by
  unfold lsqAccumulateRow
  simp only []
  rw [lsq_xx_loop (fun j => xt k i * xt k j), lsq_xy_loop (fun j => xt k i * yt k j)]
  simp only [LsqState.mk.injEq, and_true, true_and]
  funext r c
  by_cases h : r = i ∧ i ≤ c ∧ c < xOrder
  · rw [if_pos h, if_pos ⟨h.1, h.2.1, by omega⟩]
  · rw [if_neg h, if_neg (by
      rintro ⟨h1, h2, h3⟩
      exact h ⟨h1, h2, by omega⟩)]

/-- The rows `i < m` of one sample, in closed form. -/
theorem lsq_rows_loop (xt yt : Mat K) (xOrder yOrder k m : Nat) (s : LsqState K) :
    loop (lsqAccumulateRow xt yt xOrder yOrder k) 0 m s
      = { XXt := fun r c => if r < m ∧ r ≤ c ∧ c < xOrder then s.XXt r c + xt k r * xt k c
            else s.XXt r c,
          XXtI := s.XXtI,
          XYt := fun r c => if r < m ∧ c < yOrder then s.XYt r c + xt k r * yt k c
            else s.XYt r c } := by
  induction m with
  | zero =>
    cases s
    simp [loop]
  | succ m ih =>
    rw [loop_succ, ih, lsqAccumulateRow_eq]
    simp only [LsqState.mk.injEq, and_true, true_and, zero_add]
    constructor
    · funext r c
      by_cases h1 : r = m
      · subst h1
        simp
      · have e1 : (r = m ∧ m ≤ c ∧ c < xOrder) ↔ False := by
          constructor
          · rintro ⟨h, -⟩
            exact h1 h
          · exact False.elim
        have e2 : (r < m + 1 ∧ r ≤ c ∧ c < xOrder) ↔ (r < m ∧ r ≤ c ∧ c < xOrder) := by
          constructor
          · rintro ⟨h, h2, h3⟩
            exact ⟨by omega, h2, h3⟩
          · rintro ⟨h, h2, h3⟩
            exact ⟨by omega, h2, h3⟩
        simp only [e1, e2, if_false]
    · funext r c
      by_cases h1 : r = m
      · subst h1
        simp
      · have e1 : (r = m ∧ c < yOrder) ↔ False := by
          constructor
          · rintro ⟨h, -⟩
            exact h1 h
          · exact False.elim
        have e2 : (r < m + 1 ∧ c < yOrder) ↔ (r < m ∧ c < yOrder) := by
          constructor
          · rintro ⟨h, h3⟩
            exact ⟨by omega, h3⟩
          · rintro ⟨h, h3⟩
            exact ⟨by omega, h3⟩
        simp only [e1, e2, if_false]

/-- The accumulation over all samples, in closed form. -/
theorem lsqAccumulate_eq (xt yt : Mat K) (n xOrder yOrder : Nat) (s : LsqState K) :
    lsqAccumulate xt yt n xOrder yOrder s
      = { XXt := fun r c => if r < xOrder ∧ r ≤ c ∧ c < xOrder
            then s.XXt r c + ∑ k in Finset.range n, xt k r * xt k c else s.XXt r c,
          XXtI := s.XXtI,
          XYt := fun r c => if r < xOrder ∧ c < yOrder
            then s.XYt r c + ∑ k in Finset.range n, xt k r * yt k c else s.XYt r c } := by
  unfold lsqAccumulate
  induction n with
  | zero =>
    cases s
    simp [loop]
  | succ m ih =>
    rw [loop_succ, ih, lsq_rows_loop]
    simp only [LsqState.mk.injEq, and_true, true_and, zero_add]
    constructor
    · funext r c
      by_cases h : r < xOrder ∧ r ≤ c ∧ c < xOrder
      · rw [if_pos h, if_pos h, if_pos h, Finset.sum_range_succ]
        ring
      · simp only [if_neg h]
    · funext r c
      by_cases h : r < xOrder ∧ c < yOrder
      · rw [if_pos h, if_pos h, if_pos h, Finset.sum_range_succ]
        ring
      · simp only [if_neg h]

end

/-! ### Set-up, lower half and product loops of `SolveLeastSquares` -/

section

variable {K : Type} [LinearOrderedField K]

/-- The loop that clears row `i` of `XXt` and `XXtI`, in closed form. -/
theorem lsq_clear_xx (i cnt : Nat) (s : LsqState K) :
    loop (fun j (s : LsqState K) =>
        { s with XXt := Mat.set s.XXt i j 0, XXtI := Mat.set s.XXtI i j 0 }) 0 cnt s
      = { XXt := fun r c => if r = i ∧ c < cnt then 0 else s.XXt r c,
          XXtI := fun r c => if r = i ∧ c < cnt then 0 else s.XXtI r c,
          XYt := s.XYt } := by
  induction cnt with
  | zero =>
    cases s
    simp only [loop, LsqState.mk.injEq, and_true]
    constructor <;>
    · funext r c
      rw [if_neg (by omega)]
  | succ m ih =>
    rw [loop_succ, ih]
    simp only [LsqState.mk.injEq, and_true, zero_add]
    constructor <;>
    · funext r c
      unfold Mat.set
      beta_reduce
      by_cases h1 : r = i ∧ c = m
      · obtain ⟨rfl, rfl⟩ := h1
        simp
      · rw [if_neg h1]
        by_cases h2 : r = i ∧ c < m
        · rw [if_pos h2, if_pos ⟨h2.1, by omega⟩]
        · rw [if_neg h2, if_neg (by
            rintro ⟨h3, h5⟩
            rcases Nat.lt_or_ge c m with h6 | h6
            · exact h2 ⟨h3, h6⟩
            · exact h1 ⟨h3, by omega⟩)]

/-- The loop that clears row `i` of `XYt`, in closed form. -/
theorem lsq_clear_xy (i cnt : Nat) (s : LsqState K) :
    loop (fun j (s : LsqState K) => { s with XYt := Mat.set s.XYt i j 0 }) 0 cnt s
      = { XXt := s.XXt, XXtI := s.XXtI,
          XYt := fun r c => if r = i ∧ c < cnt then 0 else s.XYt r c } := by
  induction cnt with
  | zero =>
    cases s
    simp only [loop, LsqState.mk.injEq, true_and]
    funext r c
    rw [if_neg (by omega)]
  | succ m ih =>
    rw [loop_succ, ih]
    simp only [LsqState.mk.injEq, true_and, zero_add]
    funext r c
    unfold Mat.set
    beta_reduce
    by_cases h1 : r = i ∧ c = m
    · obtain ⟨rfl, rfl⟩ := h1
      simp
    · rw [if_neg h1]
      by_cases h2 : r = i ∧ c < m
      · rw [if_pos h2, if_pos ⟨h2.1, by omega⟩]
      · rw [if_neg h2, if_neg (by
          rintro ⟨h3, h5⟩
          rcases Nat.lt_or_ge c m with h6 | h6
          · exact h2 ⟨h3, h6⟩
          · exact h1 ⟨h3, by omega⟩)]

/-- The rows `i < m` of the set-up loop, in closed form. -/
theorem lsq_init_loop (xOrder yOrder m : Nat) (s : LsqState K) :
    loop (lsqInitRow xOrder yOrder) 0 m s
      = { XXt := fun r c => if r < m ∧ c < xOrder then 0 else s.XXt r c,
          XXtI := fun r c => if r < m ∧ c < xOrder then 0 else s.XXtI r c,
          XYt := fun r c => if r < m ∧ c < yOrder then 0 else s.XYt r c } := by
  induction m with
  | zero =>
    cases s
    simp [loop]
  | succ m ih =>
    rw [loop_succ, ih]
    unfold lsqInitRow
    simp only []
    rw [lsq_clear_xx, lsq_clear_xy]
    simp only [LsqState.mk.injEq, zero_add]
    refine ⟨?_, ?_, ?_⟩ <;>
    · funext r c
      by_cases h1 : r = m
      · subst h1
        simp
      · have e2 : r < m + 1 ↔ r < m := by omega
        simp only [h1, e2, false_and, if_false]

/-- The set-up of `SolveLeastSquares` leaves zero in the cells of the three
arrays. -/
theorem lsqInit_eq (xOrder yOrder : Nat) (s : LsqState K) :
    lsqInit xOrder yOrder s
      = { XXt := fun r c => if r < xOrder ∧ c < xOrder then 0 else s.XXt r c,
          XXtI := fun r c => if r < xOrder ∧ c < xOrder then 0 else s.XXtI r c,
          XYt := fun r c => if r < xOrder ∧ c < yOrder then 0 else s.XYt r c } :=
  lsq_init_loop xOrder yOrder xOrder s

/-- The loop `XXt[i][j] = XXt[j][i]` over `j < m`, for `m ≤ i`, in closed
form. -/
theorem lsq_fill_row {T : Type} (i m : Nat) (hm : m ≤ i) (X : Mat T) :
    loop (fun j (X : Mat T) => Mat.set X i j (X j i)) 0 m X
      = fun r c => if r = i ∧ c < m then X c r else X r c := by
  induction m with
  | zero =>
    funext r c
    simp [loop]
  | succ m ih =>
    rw [loop_succ, ih (by omega)]
    funext r c
    unfold Mat.set
    simp only [zero_add]
    have hmi : ¬ (m = i ∧ i < m) := by omega
    rw [if_neg hmi]
    by_cases h1 : r = i ∧ c = m
    · obtain ⟨rfl, rfl⟩ := h1
      simp
    · rw [if_neg h1]
      by_cases h2 : r = i ∧ c < m
      · rw [if_pos h2, if_pos ⟨h2.1, by omega⟩]
      · rw [if_neg h2, if_neg (by
          rintro ⟨h3, h5⟩
          rcases Nat.lt_or_ge c m with h6 | h6
          · exact h2 ⟨h3, h6⟩
          · exact h1 ⟨h3, by omega⟩)]

/-- The filling of the lower half, in closed form. -/
theorem lsqFillLower_eq {T : Type} (n : Nat) (X : Mat T) :
    lsqFillLower n X = fun r c => if r < n ∧ c < r then X c r else X r c := by
  unfold lsqFillLower
  induction n with
  | zero =>
    funext r c
    simp [loop]
  | succ m ih =>
    rw [loop_succ, ih, zero_add, lsq_fill_row m m (le_refl m)]
    funext r c
    beta_reduce
    by_cases h1 : r = m ∧ c < m
    · obtain ⟨rfl, h⟩ := h1
      rw [if_pos ⟨rfl, h⟩, if_neg (by omega), if_pos ⟨by omega, h⟩]
    · rw [if_neg h1]
      by_cases h2 : r < m ∧ c < r
      · rw [if_pos h2, if_pos ⟨by omega, h2.2⟩]
      · rw [if_neg h2, if_neg (by
          rintro ⟨h3, h5⟩
          rcases Nat.lt_or_ge r m with h6 | h6
          · exact h2 ⟨h6, h5⟩
          · exact h1 ⟨by omega, by omega⟩)]

/-- The innermost loop of the product, `mt[i][j] += a k`, in closed form. -/
theorem lsq_cell_loop (a : Nat → K) (i j n : Nat) (mt : Mat K) :
    loop (fun k (mt : Mat K) => Mat.set mt i j (mt i j + a k)) 0 n mt
      = fun r c => if r = i ∧ c = j then mt i j + ∑ k in Finset.range n, a k else mt r c := by
  induction n with
  | zero =>
    funext r c
    simp only [loop, Finset.range_zero, Finset.sum_empty, add_zero]
    split_ifs with h
    · rw [h.1, h.2]
    · rfl
  | succ m ih =>
    rw [loop_succ, ih]
    funext r c
    unfold Mat.set
    simp only [zero_add, and_self, if_true]
    split_ifs
    · rw [Finset.sum_range_succ]
      ring
    · rfl

/-- The final loop of `SolveLeastSquares`, in closed form: the cells of the
`xOrder`-by-`yOrder` block hold the product, the others are untouched. -/
theorem lsqProduct_eq (xOrder yOrder : Nat) (XXtI XYt mt : Mat K) :
    lsqProduct xOrder yOrder XXtI XYt mt
      = fun r c => if r < xOrder ∧ c < yOrder
          then ∑ k in Finset.range xOrder, XXtI r k * XYt k c else mt r c := by
  unfold lsqProduct
  have hrow : ∀ (i m : Nat) (mt : Mat K),
      loop (fun j (mt : Mat K) =>
        let mt := Mat.set mt i j 0
        loop (fun k (mt : Mat K) => Mat.set mt i j (mt i j + XXtI i k * XYt k j)) 0 xOrder mt)
        0 m mt
      = fun r c => if r = i ∧ c < m
          then ∑ k in Finset.range xOrder, XXtI r k * XYt k c else mt r c := by
    intro i m mt
    induction m with
    | zero =>
      funext r c
      simp [loop]
    | succ m ih =>
      rw [loop_succ, ih]
      simp only [zero_add]
      rw [lsq_cell_loop (fun k => XXtI i k * XYt k m)]
      funext r c
      unfold Mat.set
      simp only [and_self, if_true, zero_add]
      by_cases h1 : r = i ∧ c = m
      · obtain ⟨rfl, rfl⟩ := h1
        simp
      · rw [if_neg h1, if_neg h1]
        by_cases h2 : r = i ∧ c < m
        · rw [if_pos h2, if_pos ⟨h2.1, by omega⟩]
        · rw [if_neg h2, if_neg (by
            rintro ⟨h3, h5⟩
            rcases Nat.lt_or_ge c m with h6 | h6
            · exact h2 ⟨h3, h6⟩
            · exact h1 ⟨h3, by omega⟩)]
  simp only [hrow]
  have hrows : ∀ n : Nat,
      loop (fun i (mt : Mat K) => fun r c => if r = i ∧ c < yOrder
          then ∑ k in Finset.range xOrder, XXtI r k * XYt k c else mt r c) 0 n mt
        = fun r c => if r < n ∧ c < yOrder
          then ∑ k in Finset.range xOrder, XXtI r k * XYt k c else mt r c := by
    intro n
    induction n with
    | zero =>
      funext r c
      simp [loop]
    | succ m ih =>
      rw [loop_succ, ih]
      funext r c
      simp only [zero_add]
      by_cases h1 : r = m
      · subst h1
        simp
      · have e2 : r < m + 1 ↔ r < m := by omega
        simp only [h1, e2, false_and, if_false]
  exact hrows xOrder

end

/-! ### `SolveLeastSquares` on return 1 -/

section

variable {K : Type} [LinearOrderedField K]

/-- The array passed to `InvertMatrix` holds `XᵗX` in its `xOrder`-by-`xOrder`
cells. -/
theorem lsqNormal_block (n : Nat) (xt : Mat K) (xOrder : Nat) (yt : Mat K) (yOrder : Nat)
    (XXt XXtI XYt : Mat K) (r c : Nat) (hr : r < xOrder) (hc : c < xOrder) :
    lsqNormal n xt xOrder yt yOrder XXt XXtI XYt r c = gramXX n xt r c := by
  unfold lsqNormal gramXX
  rw [lsqFillLower_eq, lsqAccumulate_eq, lsqInit_eq]
  simp only []
  by_cases h : c < r
  · rw [if_pos ⟨hr, h⟩, if_pos ⟨hc, by omega, hr⟩, if_pos ⟨hc, hr⟩, zero_add]
    exact Finset.sum_congr rfl (fun k _ => mul_comm _ _)
  · rw [if_neg (fun h2 => h h2.2), if_pos ⟨hr, by omega, hc⟩, if_pos ⟨hr, hc⟩, zero_add]

/-- The array `XYt` holds `XᵗY` in its `xOrder`-by-`yOrder` cells when the
product is formed. -/
theorem lsqCross_block (n : Nat) (xt : Mat K) (xOrder : Nat) (yt : Mat K) (yOrder : Nat)
    (XXt XXtI XYt : Mat K) (r c : Nat) (hr : r < xOrder) (hc : c < yOrder) :
    (lsqAccumulate xt yt n xOrder yOrder
      (lsqInit xOrder yOrder { XXt := XXt, XXtI := XXtI, XYt := XYt })).XYt r c
      = gramXY n xt yt r c := by
  unfold gramXY
  rw [lsqAccumulate_eq, lsqInit_eq]
  simp only []
  rw [if_pos ⟨hr, hc⟩, if_pos ⟨hr, hc⟩, zero_add]

/-- The value returned by the three-argument `InvertMatrix` is 0 or 1. -/
theorem InvertMatrix3_ret (A AI : Mat K) (n : Nat) (index : Nat → Nat) (column : Vec K) :
    (InvertMatrix3 A AI n index column).ret = 0 ∨ (InvertMatrix3 A AI n index column).ret = 1 := by
  unfold InvertMatrix3 InvertMatrix
  cases LUFactorLinearSystem A index n column with
  | error e => exact Or.inl rfl
  | ok s => exact Or.inr rfl

/-- With enough samples, `SolveLeastSquares` is the inversion of the array
`lsqNormal` followed by the product. -/
theorem SolveLeastSquares_enough (n : Nat) (xt : Mat K) (xOrder : Nat) (yt : Mat K)
    (yOrder : Nat) (mt XXt XXtI XYt : Mat K) (index : Nat → Nat) (column : Vec K)
    (hn : ¬ (n < xOrder ∨ n < yOrder)) :
    SolveLeastSquares n xt xOrder yt yOrder mt XXt XXtI XYt index column =
      if (InvertMatrix3 (lsqNormal n xt xOrder yt yOrder XXt XXtI XYt)
          (lsqSeed n xt xOrder yt yOrder XXt XXtI XYt) xOrder index column).ret = 0
      then { ret := 0, xt := xt, yt := yt, mt := mt }
      else { ret := 1, xt := xt, yt := yt,
             mt := lsqProduct xOrder yOrder
               (InvertMatrix3 (lsqNormal n xt xOrder yt yOrder XXt XXtI XYt)
                 (lsqSeed n xt xOrder yt yOrder XXt XXtI XYt) xOrder index column).AI
               (lsqAccumulate xt yt n xOrder yOrder
                 (lsqInit xOrder yOrder { XXt := XXt, XXtI := XXtI, XYt := XYt })).XYt mt } := by
  unfold SolveLeastSquares lsqNormal lsqSeed
  rw [if_neg hn]

/-- When `SolveLeastSquares` returns 1 there were enough samples and
`InvertMatrix` returned 1. -/
theorem SolveLeastSquares_one (n : Nat) (xt : Mat K) (xOrder : Nat) (yt : Mat K)
    (yOrder : Nat) (mt XXt XXtI XYt : Mat K) (index : Nat → Nat) (column : Vec K)
    (hret : (SolveLeastSquares n xt xOrder yt yOrder mt XXt XXtI XYt index column).ret = 1) :
    ¬ (n < xOrder ∨ n < yOrder) ∧
    (InvertMatrix3 (lsqNormal n xt xOrder yt yOrder XXt XXtI XYt)
      (lsqSeed n xt xOrder yt yOrder XXt XXtI XYt) xOrder index column).ret = 1 := by
  have hn : ¬ (n < xOrder ∨ n < yOrder) := by
    intro h
    unfold SolveLeastSquares at hret
    rw [if_pos h] at hret
    simp at hret
  refine ⟨hn, ?_⟩
  rw [SolveLeastSquares_enough n xt xOrder yt yOrder mt XXt XXtI XYt index column hn] at hret
  rcases InvertMatrix3_ret (lsqNormal n xt xOrder yt yOrder XXt XXtI XYt)
    (lsqSeed n xt xOrder yt yOrder XXt XXtI XYt) xOrder index column with h | h
  · rw [if_pos h] at hret
    simp at hret
  · exact h

/-- The cells of `mt` when `SolveLeastSquares` returns 1: the product of the
inverse computed by `InvertMatrix` with `XᵗY`. -/
theorem SolveLeastSquares_cells (n : Nat) (xt : Mat K) (xOrder : Nat) (yt : Mat K)
    (yOrder : Nat) (mt XXt XXtI XYt : Mat K) (index : Nat → Nat) (column : Vec K)
    (hret : (SolveLeastSquares n xt xOrder yt yOrder mt XXt XXtI XYt index column).ret = 1)
    (i j : Nat) (hi : i < xOrder) (hj : j < yOrder) :
    (SolveLeastSquares n xt xOrder yt yOrder mt XXt XXtI XYt index column).mt i j
      = ∑ k in Finset.range xOrder,
          (InvertMatrix3 (lsqNormal n xt xOrder yt yOrder XXt XXtI XYt)
            (lsqSeed n xt xOrder yt yOrder XXt XXtI XYt) xOrder index column).AI i k
          * gramXY n xt yt k j := by
  obtain ⟨hn, h1⟩ := SolveLeastSquares_one n xt xOrder yt yOrder mt XXt XXtI XYt index column hret
  rw [SolveLeastSquares_enough n xt xOrder yt yOrder mt XXt XXtI XYt index column hn,
    if_neg (by rw [h1]; decide)]
  simp only []
  rw [lsqProduct_eq]
  simp only []
  rw [if_pos ⟨hi, hj⟩]
  apply Finset.sum_congr rfl
  intro k hk
  rw [lsqCross_block n xt xOrder yt yOrder XXt XXtI XYt k j (Finset.mem_range.mp hk) hj]

/-- The inverse computed inside `SolveLeastSquares` is a right inverse of
`XᵗX` on the `xOrder`-by-`xOrder` block. -/
theorem SolveLeastSquares_right (n : Nat) (xt : Mat K) (xOrder : Nat) (yt : Mat K)
    (yOrder : Nat) (XXt XXtI XYt : Mat K) (index : Nat → Nat) (column : Vec K)
    (h1 : (InvertMatrix3 (lsqNormal n xt xOrder yt yOrder XXt XXtI XYt)
      (lsqSeed n xt xOrder yt yOrder XXt XXtI XYt) xOrder index column).ret = 1)
    (i j : Nat) (hi : i < xOrder) (hj : j < xOrder) :
    matMul xOrder (gramXX n xt)
      (InvertMatrix3 (lsqNormal n xt xOrder yt yOrder XXt XXtI XYt)
        (lsqSeed n xt xOrder yt yOrder XXt XXtI XYt) xOrder index column).AI i j
      = identity i j := by
  have h := InvertMatrix_right_inverse (lsqNormal n xt xOrder yt yOrder XXt XXtI XYt)
    (lsqSeed n xt xOrder yt yOrder XXt XXtI XYt) xOrder index column h1 i j hi hj
  rw [← h]
  unfold matMul InvertMatrix3
  apply Finset.sum_congr rfl
  intro k hk
  rw [lsqNormal_block n xt xOrder yt yOrder XXt XXtI XYt i k hi (Finset.mem_range.mp hk)]

/-- A right inverse on the `n`-by-`n` block is a left inverse there. -/
theorem left_of_right_inverse (n : Nat) (A B : Mat K)
    (h : ∀ i j, i < n → j < n → matMul n A B i j = identity i j)
    (i j : Nat) (hi : i < n) (hj : j < n) : matMul n B A i j = identity i j := by
  have h1 : Matrix.of (fun (a b : Fin n) => A a b) * Matrix.of (fun (a b : Fin n) => B a b)
      = 1 := by
    ext a b
    rw [Matrix.mul_apply]
    simp only [Matrix.of_apply]
    have := h a b a.2 b.2
    unfold matMul at this
    rw [Fin.sum_univ_eq_sum_range (fun k => A a k * B k b) n, this, Matrix.one_apply]
    simp only [identity, Fin.ext_iff]
  have h2 := Matrix.mul_eq_one_comm.mp h1
  have h3 := congrFun (congrFun h2 ⟨i, hi⟩) ⟨j, hj⟩
  rw [Matrix.mul_apply] at h3
  simp only [Matrix.of_apply] at h3
  rw [Fin.sum_univ_eq_sum_range (fun k => B i k * A k j) n, Matrix.one_apply] at h3
  unfold matMul
  rw [h3]
  simp only [identity, Fin.ext_iff]

end

/-! ### The normal equations, noiseless samples, the returns of 0 -/

section

variable {K : Type} [LinearOrderedField K]

/-- C28: over exact arithmetic, whenever `SolveLeastSquares` returns 1 the
output `M = mt` (`xOrder`-by-`yOrder`) satisfies the normal equations
`(XᵗX)·M = XᵗY`, with `(XᵗX)[i][j]` the sum over the samples `k` of
`xt[k][i]·xt[k][j]` and `(XᵗY)[i][j]` the sum of `xt[k][i]·yt[k][j]`. -/
theorem SolveLeastSquares_normal (n : Nat) (xt : Mat K) (xOrder : Nat) (yt : Mat K)
    (yOrder : Nat) (mt XXt XXtI XYt : Mat K) (index : Nat → Nat) (column : Vec K)
    (hret : (SolveLeastSquares n xt xOrder yt yOrder mt XXt XXtI XYt index column).ret = 1)
    (i j : Nat) (hi : i < xOrder) (hj : j < yOrder) :
    matMul xOrder (gramXX n xt)
      (SolveLeastSquares n xt xOrder yt yOrder mt XXt XXtI XYt index column).mt i j
      = gramXY n xt yt i j := by
  obtain ⟨-, h1⟩ := SolveLeastSquares_one n xt xOrder yt yOrder mt XXt XXtI XYt index column hret
  have hR := SolveLeastSquares_right n xt xOrder yt yOrder XXt XXtI XYt index column h1
  have hC := SolveLeastSquares_cells n xt xOrder yt yOrder mt XXt XXtI XYt index column hret
  unfold matMul at hR ⊢
  generalize (InvertMatrix3 (lsqNormal n xt xOrder yt yOrder XXt XXtI XYt)
    (lsqSeed n xt xOrder yt yOrder XXt XXtI XYt) xOrder index column).AI = AI at hR hC
  calc ∑ l in Finset.range xOrder, gramXX n xt i l
          * (SolveLeastSquares n xt xOrder yt yOrder mt XXt XXtI XYt index column).mt l j
      = ∑ l in Finset.range xOrder, ∑ k in Finset.range xOrder,
          gramXX n xt i l * AI l k * gramXY n xt yt k j := by
        apply Finset.sum_congr rfl
        intro l hl
        rw [hC l j (Finset.mem_range.mp hl) hj, Finset.mul_sum]
        exact Finset.sum_congr rfl (fun k _ => by ring)
    _ = ∑ k in Finset.range xOrder, (∑ l in Finset.range xOrder, gramXX n xt i l * AI l k)
          * gramXY n xt yt k j := by
        rw [Finset.sum_comm]
        exact Finset.sum_congr rfl (fun k _ => by rw [Finset.sum_mul])
    _ = ∑ k in Finset.range xOrder, identity i k * gramXY n xt yt k j := by
        apply Finset.sum_congr rfl
        intro k hk
        rw [hR i k hi (Finset.mem_range.mp hk)]
    _ = gramXY n xt yt i j := identity_mul xOrder _ i j hi

/-- C29: over exact arithmetic, if the samples are noiseless, i.e. there is
an `xOrder`-by-`yOrder` matrix `M0` with `yt[k] = xt[k]·M0` for every sample
`k`, and `SolveLeastSquares` returns 1, then `mt = M0` on the
`xOrder`-by-`yOrder` cells. -/
theorem SolveLeastSquares_noiseless (n : Nat) (xt : Mat K) (xOrder : Nat) (yt : Mat K)
    (yOrder : Nat) (mt XXt XXtI XYt : Mat K) (index : Nat → Nat) (column : Vec K)
    (M0 : Mat K)
    (hM : ∀ k j, k < n → j < yOrder → yt k j = ∑ l in Finset.range xOrder, xt k l * M0 l j)
    (hret : (SolveLeastSquares n xt xOrder yt yOrder mt XXt XXtI XYt index column).ret = 1)
    (i j : Nat) (hi : i < xOrder) (hj : j < yOrder) :
    (SolveLeastSquares n xt xOrder yt yOrder mt XXt XXtI XYt index column).mt i j = M0 i j := by
  obtain ⟨-, h1⟩ := SolveLeastSquares_one n xt xOrder yt yOrder mt XXt XXtI XYt index column hret
  have hR := SolveLeastSquares_right n xt xOrder yt yOrder XXt XXtI XYt index column h1
  have hL := left_of_right_inverse xOrder _ _ hR
  rw [SolveLeastSquares_cells n xt xOrder yt yOrder mt XXt XXtI XYt index column hret i j hi hj]
  unfold matMul at hL
  generalize (InvertMatrix3 (lsqNormal n xt xOrder yt yOrder XXt XXtI XYt)
    (lsqSeed n xt xOrder yt yOrder XXt XXtI XYt) xOrder index column).AI = AI at hL
  have hXY : ∀ k, gramXY n xt yt k j = ∑ l in Finset.range xOrder, gramXX n xt k l * M0 l j := by
    intro k
    unfold gramXY gramXX
    calc ∑ s in Finset.range n, xt s k * yt s j
        = ∑ s in Finset.range n, ∑ l in Finset.range xOrder, xt s k * xt s l * M0 l j := by
          apply Finset.sum_congr rfl
          intro s hs
          rw [hM s j (Finset.mem_range.mp hs) hj, Finset.mul_sum]
          exact Finset.sum_congr rfl (fun l _ => by ring)
      _ = ∑ l in Finset.range xOrder, (∑ s in Finset.range n, xt s k * xt s l) * M0 l j := by
          rw [Finset.sum_comm]
          exact Finset.sum_congr rfl (fun l _ => by rw [Finset.sum_mul])
  calc ∑ k in Finset.range xOrder, AI i k * gramXY n xt yt k j
      = ∑ k in Finset.range xOrder, ∑ l in Finset.range xOrder,
          AI i k * gramXX n xt k l * M0 l j := by
        apply Finset.sum_congr rfl
        intro k _
        rw [hXY k, Finset.mul_sum]
        exact Finset.sum_congr rfl (fun l _ => by ring)
    _ = ∑ l in Finset.range xOrder, (∑ k in Finset.range xOrder, AI i k * gramXX n xt k l)
          * M0 l j := by
        rw [Finset.sum_comm]
        exact Finset.sum_congr rfl (fun l _ => by rw [Finset.sum_mul])
    _ = ∑ l in Finset.range xOrder, identity i l * M0 l j := by
        apply Finset.sum_congr rfl
        intro l hl
        rw [hL i l hi (Finset.mem_range.mp hl)]
    _ = M0 i j := identity_mul xOrder _ i j hi

/-- C30: `SolveLeastSquares` returns 0 exactly when
`numberOfSamples < xOrder`, or `numberOfSamples < yOrder`, or `InvertMatrix`
returns 0 on the array it is given, which holds `XᵗX` in its
`xOrder`-by-`xOrder` cells; whenever it returns 0 the output `mt` is left
unchanged, and `xt` and `yt` are never modified. -/
theorem SolveLeastSquares_failure (n : Nat) (xt : Mat K) (xOrder : Nat) (yt : Mat K)
    (yOrder : Nat) (mt XXt XXtI XYt : Mat K) (index : Nat → Nat) (column : Vec K) :
    ((SolveLeastSquares n xt xOrder yt yOrder mt XXt XXtI XYt index column).ret = 0 ↔
      (n < xOrder ∨ n < yOrder ∨
        (InvertMatrix3 (lsqNormal n xt xOrder yt yOrder XXt XXtI XYt)
          (lsqSeed n xt xOrder yt yOrder XXt XXtI XYt) xOrder index column).ret = 0)) ∧
    (∀ r c, r < xOrder → c < xOrder →
      lsqNormal n xt xOrder yt yOrder XXt XXtI XYt r c = gramXX n xt r c) ∧
    ((SolveLeastSquares n xt xOrder yt yOrder mt XXt XXtI XYt index column).ret = 0 →
      (SolveLeastSquares n xt xOrder yt yOrder mt XXt XXtI XYt index column).mt = mt) ∧
    (SolveLeastSquares n xt xOrder yt yOrder mt XXt XXtI XYt index column).xt = xt ∧
    (SolveLeastSquares n xt xOrder yt yOrder mt XXt XXtI XYt index column).yt = yt := by
  refine ⟨?_, fun r c hr hc => lsqNormal_block n xt xOrder yt yOrder XXt XXtI XYt r c hr hc,
    ?_, ?_, ?_⟩
  · by_cases hn : n < xOrder ∨ n < yOrder
    · have h0 : (SolveLeastSquares n xt xOrder yt yOrder mt XXt XXtI XYt index column).ret = 0 := by
        unfold SolveLeastSquares
        rw [if_pos hn]
      constructor
      · intro _
        rcases hn with h | h
        · exact Or.inl h
        · exact Or.inr (Or.inl h)
      · intro _
        exact h0
    · rw [SolveLeastSquares_enough n xt xOrder yt yOrder mt XXt XXtI XYt index column hn]
      constructor
      · intro h
        refine Or.inr (Or.inr ?_)
        by_contra hne
        rw [if_neg hne] at h
        simp at h
      · intro h
        rcases h with h | h | h
        · exact absurd (Or.inl h) hn
        · exact absurd (Or.inr h) hn
        · rw [if_pos h]
  · intro h
    by_cases hn : n < xOrder ∨ n < yOrder
    · unfold SolveLeastSquares
      rw [if_pos hn]
    · rw [SolveLeastSquares_enough n xt xOrder yt yOrder mt XXt XXtI XYt index column hn] at h ⊢
      split_ifs at h ⊢ with h2
      · rfl
      · simp at h
  · unfold SolveLeastSquares
    simp only []
    split_ifs <;> rfl
  · unfold SolveLeastSquares
    simp only []
    split_ifs <;> rfl

end

/-! ### `SolveLeastSquares` on samples of a line -/

section

/-- Witness for C28: on the three samples of `y = 2x + 1`, with all arrays
zero before the call, `SolveLeastSquares` returns 1 and entry `(0, 0)` of
`(XᵗX)·M` is that of `XᵗY`. -/
theorem SolveLeastSquares_normal_witness :
    (SolveLeastSquares 3 lineXt 2 lineYt 1 (fun _ _ => 0) (fun _ _ => 0) (fun _ _ => 0)
      (fun _ _ => 0) (fun _ => 0) (fun _ => 0)).ret = 1 ∧
    matMul 2 (gramXX 3 lineXt)
      (SolveLeastSquares 3 lineXt 2 lineYt 1 (fun _ _ => 0) (fun _ _ => 0) (fun _ _ => 0)
        (fun _ _ => 0) (fun _ => 0) (fun _ => 0)).mt 0 0
      = gramXY 3 lineXt lineYt 0 0 :=
  ⟨by decide!,
   SolveLeastSquares_normal 3 lineXt 2 lineYt 1 (fun _ _ => 0) (fun _ _ => 0) (fun _ _ => 0)
     (fun _ _ => 0) (fun _ => 0) (fun _ => 0) (by decide!) 0 0 (by decide) (by decide)⟩

/-- The samples of `y = 2x + 1` are noiseless for the coefficients
`(2, 1)`. -/
theorem line_noiseless (k j : Nat) (_ : k < 3) (hj : j < 1) :
    lineYt k j = ∑ l in Finset.range 2, lineXt k l * lineM l j := by
  have h0 : j = 0 := by omega
  subst h0
  unfold lineYt lineXt lineM
  simp [Finset.sum_range_succ]
  ring

/-- Witness for C29: the three samples `x = 0, 1, 2` of `y = 2x + 1`, with
rows `xt[k] = (x_k, 1)`, recover slope 2 and intercept 1. -/
theorem SolveLeastSquares_noiseless_witness :
    (∀ k j, k < 3 → j < 1 → lineYt k j = ∑ l in Finset.range 2, lineXt k l * lineM l j) ∧
    (SolveLeastSquares 3 lineXt 2 lineYt 1 (fun _ _ => 0) (fun _ _ => 0) (fun _ _ => 0)
      (fun _ _ => 0) (fun _ => 0) (fun _ => 0)).ret = 1 ∧
    (SolveLeastSquares 3 lineXt 2 lineYt 1 (fun _ _ => 0) (fun _ _ => 0) (fun _ _ => 0)
      (fun _ _ => 0) (fun _ => 0) (fun _ => 0)).mt 0 0 = 2 ∧
    (SolveLeastSquares 3 lineXt 2 lineYt 1 (fun _ _ => 0) (fun _ _ => 0) (fun _ _ => 0)
      (fun _ _ => 0) (fun _ => 0) (fun _ => 0)).mt 1 0 = 1 :=
  ⟨line_noiseless, by decide!,
   SolveLeastSquares_noiseless 3 lineXt 2 lineYt 1 (fun _ _ => 0) (fun _ _ => 0)
     (fun _ _ => 0) (fun _ _ => 0) (fun _ => 0) (fun _ => 0) lineM line_noiseless (by decide!)
     0 0 (by decide) (by decide),
   SolveLeastSquares_noiseless 3 lineXt 2 lineYt 1 (fun _ _ => 0) (fun _ _ => 0)
     (fun _ _ => 0) (fun _ _ => 0) (fun _ => 0) (fun _ => 0) lineM line_noiseless (by decide!)
     1 0 (by decide) (by decide)⟩

/-- Witness for C30: one sample for two unknowns is refused, and so are two
equal samples `(1, 1)`, whose `XᵗX` is singular; both calls return 0 and
leave `mt` as it was. -/
theorem SolveLeastSquares_failure_witness :
    (SolveLeastSquares 1 lineXt 2 lineYt 1 lineM (fun _ _ => 0) (fun _ _ => 0)
      (fun _ _ => 0) (fun _ => 0) (fun _ => 0)).ret = 0 ∧
    (SolveLeastSquares 1 lineXt 2 lineYt 1 lineM (fun _ _ => 0) (fun _ _ => 0)
      (fun _ _ => 0) (fun _ => 0) (fun _ => 0)).mt = lineM ∧
    (InvertMatrix3 (lsqNormal 2 (fun _ _ => (1 : ℚ)) 2 lineYt 1 (fun _ _ => 0) (fun _ _ => 0)
        (fun _ _ => 0))
      (lsqSeed 2 (fun _ _ => (1 : ℚ)) 2 lineYt 1 (fun _ _ => 0) (fun _ _ => 0) (fun _ _ => 0))
      2 (fun _ => 0) (fun _ => 0)).ret = 0 ∧
    (SolveLeastSquares 2 (fun _ _ => (1 : ℚ)) 2 lineYt 1 lineM (fun _ _ => 0) (fun _ _ => 0)
      (fun _ _ => 0) (fun _ => 0) (fun _ => 0)).ret = 0 ∧
    (SolveLeastSquares 2 (fun _ _ => (1 : ℚ)) 2 lineYt 1 lineM (fun _ _ => 0) (fun _ _ => 0)
      (fun _ _ => 0) (fun _ => 0) (fun _ => 0)).mt = lineM := by
  have h1 := SolveLeastSquares_failure 1 lineXt 2 lineYt 1 lineM (fun _ _ => 0) (fun _ _ => 0)
    (fun _ _ => 0) (fun _ => 0) (fun _ => 0)
  have h2 := SolveLeastSquares_failure 2 (fun _ _ => (1 : ℚ)) 2 lineYt 1 lineM (fun _ _ => 0)
    (fun _ _ => 0) (fun _ _ => 0) (fun _ => 0) (fun _ => 0)
  have e1 := h1.1.mpr (Or.inl (by decide))
  have hinv : (InvertMatrix3 (lsqNormal 2 (fun _ _ => (1 : ℚ)) 2 lineYt 1 (fun _ _ => 0)
        (fun _ _ => 0) (fun _ _ => 0))
      (lsqSeed 2 (fun _ _ => (1 : ℚ)) 2 lineYt 1 (fun _ _ => 0) (fun _ _ => 0) (fun _ _ => 0))
      2 (fun _ => 0) (fun _ => 0)).ret = 0 := by decide!
  have e2 := h2.1.mpr (Or.inr (Or.inr hinv))
  exact ⟨e1, h1.2.2.1 e1, hinv, e2, h2.2.2.1 e2⟩

end

/-! ### Complex roots of the quadratic; the collapse of equal roots; return codes -/

section

variable {K : Type} [LinearOrderedField K]

/-- C31, at the quadratic `(1, 2, 5) = (t + 1)² + 2²`, whose roots are
`-1 ± 2i`: `SolveQuadratic`, and `SolveCubic` with `c0 = 0`, return -2 and
leave `r1` and `r2` as they were before the call, which is 0 and 0 when the
array-returning forms call them; neither the real part `-1` nor the
imaginary part `2` is written. -/
theorem SolveQuadratic_parts (sqrt cos acos : K → K) (pow : K → K → K) (r1 r2 r3 : K) :
    (∀ t : K, 1 * t ^ 2 + 2 * t + 5 = (t - -1) ^ 2 + 2 ^ 2) ∧
    (SolveQuadratic sqrt 1 2 5 r1 r2).ret = -2 ∧
    (SolveQuadratic sqrt 1 2 5 r1 r2).r1 = r1 ∧
    (SolveQuadratic sqrt 1 2 5 r1 r2).r2 = r2 ∧
    (SolveCubic sqrt cos acos pow 0 1 2 5 r1 r2 r3).ret = -2 ∧
    (SolveCubic sqrt cos acos pow 0 1 2 5 r1 r2 r3).r1 = r1 ∧
    (SolveCubic sqrt cos acos pow 0 1 2 5 r1 r2 r3).r2 = r2 ∧
    (SolveQuadratic sqrt 1 2 5 0 0).r1 ≠ -1 ∧
    (SolveQuadratic sqrt 1 2 5 0 0).r2 ≠ 2 ∧
    (SolveQuadratic sqrt 1 2 5 0 0).r2 ≠ -2 := by
  have hq : SolveQuadratic sqrt (1 : K) 2 5 r1 r2
      = { ret := -2, r1 := r1, r2 := r2, num_roots := 0 } := by
    unfold SolveQuadratic
    rw [if_pos one_ne_zero, if_neg (by norm_num)]
  have hq0 : SolveQuadratic sqrt (1 : K) 2 5 0 0
      = { ret := -2, r1 := 0, r2 := 0, num_roots := 0 } := by
    unfold SolveQuadratic
    rw [if_pos one_ne_zero, if_neg (by norm_num)]
  have hc : SolveCubic sqrt cos acos pow (0 : K) 1 2 5 r1 r2 r3
      = { ret := -2, r1 := r1, r2 := r2, r3 := r3, num_roots := 0 } := by
    unfold SolveCubic
    rw [if_neg (by simp), hq]
  rw [hq, hc, hq0]
  refine ⟨fun t => by ring, rfl, rfl, rfl, rfl, rfl, rfl, ?_, ?_, ?_⟩ <;> norm_num

/-- The comparisons of the trigonometric branch count the distinct values
and keep one of each in front. -/
theorem cubicCollapse_count (a b c : K) :
    (cubicCollapse a b c).num_roots = ((({a, b, c} : Finset K).card : Nat) : Int) ∧
    (2 ≤ (cubicCollapse a b c).num_roots →
      (cubicCollapse a b c).r1 ≠ (cubicCollapse a b c).r2) ∧
    ((cubicCollapse a b c).num_roots = 3 →
      (cubicCollapse a b c).r1 ≠ (cubicCollapse a b c).r3 ∧
      (cubicCollapse a b c).r2 ≠ (cubicCollapse a b c).r3) ∧
    (∀ x, x = a ∨ x = b ∨ x = c →
      x = (cubicCollapse a b c).r1 ∨
      (2 ≤ (cubicCollapse a b c).num_roots ∧ x = (cubicCollapse a b c).r2) ∨
      ((cubicCollapse a b c).num_roots = 3 ∧ x = (cubicCollapse a b c).r3)) := by
  by_cases hab : a = b
  · subst hab
    by_cases hac : a = c
    · subst hac
      unfold cubicCollapse
      simp
    · unfold cubicCollapse
      simp [hac, Ne.symm hac]
  · by_cases hac : a = c
    · subst hac
      rw [cubicCollapse_outer a b a hab rfl]
      simp [hab, Ne.symm hab]
    · by_cases hbc : b = c
      · subst hbc
        rw [cubicCollapse_last a b b hab rfl]
        simp [hab]
      · rw [cubicCollapse_distinct a b c hab hac hbc]
        simp [hab, hac, hbc]

/-- C36: in the three-real-roots branch of `SolveCubic` (`c0 ≠ 0`,
`R² ≤ Q³`, `Q³ ≠ 0`) the comparisons make `num_roots` the number of distinct
values among the three computed roots, the first `num_roots` of
`(r1, r2, r3)` are pairwise distinct, and every computed value is among
them. -/
theorem SolveCubic_collapse (sqrt cos acos : K → K) (pow : K → K → K)
    (c0 c1 c2 c3 r1 r2 r3 : K) (h0 : c0 ≠ 0)
    (hle : cubicR c0 c1 c2 c3 * cubicR c0 c1 c2 c3
      ≤ cubicQ c0 c1 c2 * cubicQ c0 c1 c2 * cubicQ c0 c1 c2)
    (hnz : cubicQ c0 c1 c2 * cubicQ c0 c1 c2 * cubicQ c0 c1 c2 ≠ 0) :
    (SolveCubic sqrt cos acos pow c0 c1 c2 c3 r1 r2 r3).num_roots
      = ((({trigRoot sqrt cos c0 c1 c2 (cubicTheta sqrt acos c0 c1 c2 c3),
            trigRoot sqrt cos c0 c1 c2 (cubicTheta sqrt acos c0 c1 c2 c3 + 2.0 * 3.141592653589),
            trigRoot sqrt cos c0 c1 c2 (cubicTheta sqrt acos c0 c1 c2 c3 - 2.0 * 3.141592653589)}
          : Finset K).card : Nat) : Int) ∧
    (2 ≤ (SolveCubic sqrt cos acos pow c0 c1 c2 c3 r1 r2 r3).num_roots →
      (SolveCubic sqrt cos acos pow c0 c1 c2 c3 r1 r2 r3).r1
        ≠ (SolveCubic sqrt cos acos pow c0 c1 c2 c3 r1 r2 r3).r2) ∧
    ((SolveCubic sqrt cos acos pow c0 c1 c2 c3 r1 r2 r3).num_roots = 3 →
      (SolveCubic sqrt cos acos pow c0 c1 c2 c3 r1 r2 r3).r1
        ≠ (SolveCubic sqrt cos acos pow c0 c1 c2 c3 r1 r2 r3).r3 ∧
      (SolveCubic sqrt cos acos pow c0 c1 c2 c3 r1 r2 r3).r2
        ≠ (SolveCubic sqrt cos acos pow c0 c1 c2 c3 r1 r2 r3).r3) ∧
    (∀ x, x = trigRoot sqrt cos c0 c1 c2 (cubicTheta sqrt acos c0 c1 c2 c3) ∨
        x = trigRoot sqrt cos c0 c1 c2
          (cubicTheta sqrt acos c0 c1 c2 c3 + 2.0 * 3.141592653589) ∨
        x = trigRoot sqrt cos c0 c1 c2
          (cubicTheta sqrt acos c0 c1 c2 c3 - 2.0 * 3.141592653589) →
      x = (SolveCubic sqrt cos acos pow c0 c1 c2 c3 r1 r2 r3).r1 ∨
      (2 ≤ (SolveCubic sqrt cos acos pow c0 c1 c2 c3 r1 r2 r3).num_roots ∧
        x = (SolveCubic sqrt cos acos pow c0 c1 c2 c3 r1 r2 r3).r2) ∨
      ((SolveCubic sqrt cos acos pow c0 c1 c2 c3 r1 r2 r3).num_roots = 3 ∧
        x = (SolveCubic sqrt cos acos pow c0 c1 c2 c3 r1 r2 r3).r3)) := by
  rw [SolveCubic_trig_branch sqrt cos acos pow c0 c1 c2 c3 r1 r2 r3 h0 hle hnz]
  exact cubicCollapse_count _ _ _

/-- Return value and count of `SolveQuadratic`, path by path. -/
theorem SolveQuadratic_codes (sqrt : K → K) (c1 c2 c3 r1 r2 : K) :
    ((SolveQuadratic sqrt c1 c2 c3 r1 r2).ret = -2 ∧
      (SolveQuadratic sqrt c1 c2 c3 r1 r2).num_roots = 0) ∨
    ((SolveQuadratic sqrt c1 c2 c3 r1 r2).ret = -1 ∧
      (SolveQuadratic sqrt c1 c2 c3 r1 r2).num_roots = 0) ∨
    ((SolveQuadratic sqrt c1 c2 c3 r1 r2).ret = 0 ∧
      (SolveQuadratic sqrt c1 c2 c3 r1 r2).num_roots = 0) ∨
    ((SolveQuadratic sqrt c1 c2 c3 r1 r2).ret = 1 ∧
      (SolveQuadratic sqrt c1 c2 c3 r1 r2).num_roots = 1) ∨
    ((SolveQuadratic sqrt c1 c2 c3 r1 r2).ret = 2 ∧
      (SolveQuadratic sqrt c1 c2 c3 r1 r2).num_roots = 2) := by
  unfold SolveQuadratic SolveLinear
  simp only []
  split_ifs <;> simp

/-- Return value and count of `SolveCubic`, path by path. -/
theorem SolveCubic_pairs (sqrt cos acos : K → K) (pow : K → K → K)
    (c0 c1 c2 c3 r1 r2 r3 : K) :
    ((SolveCubic sqrt cos acos pow c0 c1 c2 c3 r1 r2 r3).ret = -3 ∧
      (SolveCubic sqrt cos acos pow c0 c1 c2 c3 r1 r2 r3).num_roots = 1) ∨
    ((SolveCubic sqrt cos acos pow c0 c1 c2 c3 r1 r2 r3).ret = -2 ∧
      (SolveCubic sqrt cos acos pow c0 c1 c2 c3 r1 r2 r3).num_roots = 0) ∨
    ((SolveCubic sqrt cos acos pow c0 c1 c2 c3 r1 r2 r3).ret = -1 ∧
      (SolveCubic sqrt cos acos pow c0 c1 c2 c3 r1 r2 r3).num_roots = 0) ∨
    ((SolveCubic sqrt cos acos pow c0 c1 c2 c3 r1 r2 r3).ret = 0 ∧
      (SolveCubic sqrt cos acos pow c0 c1 c2 c3 r1 r2 r3).num_roots = 0) ∨
    ((SolveCubic sqrt cos acos pow c0 c1 c2 c3 r1 r2 r3).ret = 1 ∧
      (SolveCubic sqrt cos acos pow c0 c1 c2 c3 r1 r2 r3).num_roots = 1) ∨
    ((SolveCubic sqrt cos acos pow c0 c1 c2 c3 r1 r2 r3).ret = 2 ∧
      (SolveCubic sqrt cos acos pow c0 c1 c2 c3 r1 r2 r3).num_roots = 2) ∨
    ((SolveCubic sqrt cos acos pow c0 c1 c2 c3 r1 r2 r3).ret = 3 ∧
      (SolveCubic sqrt cos acos pow c0 c1 c2 c3 r1 r2 r3).num_roots = 3) := by
  by_cases h0 : c0 ≠ 0
  · by_cases hle : cubicR c0 c1 c2 c3 * cubicR c0 c1 c2 c3
        ≤ cubicQ c0 c1 c2 * cubicQ c0 c1 c2 * cubicQ c0 c1 c2
    · by_cases hz : cubicQ c0 c1 c2 * cubicQ c0 c1 c2 * cubicQ c0 c1 c2 = 0
      · rw [SolveCubic_triple_branch sqrt cos acos pow c0 c1 c2 c3 r1 r2 r3 h0 hle hz]
        simp
      · rw [SolveCubic_trig_branch sqrt cos acos pow c0 c1 c2 c3 r1 r2 r3 h0 hle hz,
          cubicCollapse_ret]
        rcases cubicCollapse_range
          (trigRoot sqrt cos c0 c1 c2 (cubicTheta sqrt acos c0 c1 c2 c3))
          (trigRoot sqrt cos c0 c1 c2 (cubicTheta sqrt acos c0 c1 c2 c3 + 2.0 * 3.141592653589))
          (trigRoot sqrt cos c0 c1 c2 (cubicTheta sqrt acos c0 c1 c2 c3 - 2.0 * 3.141592653589))
          with h | h | h <;> rw [h] <;> simp
    · rw [SolveCubic_cardano_branch sqrt cos acos pow c0 c1 c2 c3 r1 r2 r3 h0 (not_le.mp hle)]
      simp
  · have e : SolveCubic sqrt cos acos pow c0 c1 c2 c3 r1 r2 r3
        = { ret := (SolveQuadratic sqrt c1 c2 c3 r1 r2).ret,
            r1 := (SolveQuadratic sqrt c1 c2 c3 r1 r2).r1,
            r2 := (SolveQuadratic sqrt c1 c2 c3 r1 r2).r2, r3 := r3,
            num_roots := (SolveQuadratic sqrt c1 c2 c3 r1 r2).num_roots } := by
      unfold SolveCubic
      rw [if_neg h0]
    rw [e]
    simp only []
    have hq := SolveQuadratic_codes sqrt c1 c2 c3 r1 r2
    generalize (SolveQuadratic sqrt c1 c2 c3 r1 r2).ret = r at hq ⊢
    generalize (SolveQuadratic sqrt c1 c2 c3 r1 r2).num_roots = m at hq ⊢
    omega

/-- C37: for all inputs the return code of `SolveCubic` lies in
`{-3, -2, -1, 0, 1, 2, 3}` and `num_roots`, which every path assigns, in
`{0, 1, 2, 3}`; a positive code is `num_roots`, code -3 goes with
`num_roots = 1`, and the codes -2, -1, 0 go with `num_roots = 0`. -/
theorem SolveCubic_codes (sqrt cos acos : K → K) (pow : K → K → K)
    (c0 c1 c2 c3 r1 r2 r3 : K) :
    (-3 ≤ (SolveCubic sqrt cos acos pow c0 c1 c2 c3 r1 r2 r3).ret ∧
      (SolveCubic sqrt cos acos pow c0 c1 c2 c3 r1 r2 r3).ret ≤ 3) ∧
    (0 ≤ (SolveCubic sqrt cos acos pow c0 c1 c2 c3 r1 r2 r3).num_roots ∧
      (SolveCubic sqrt cos acos pow c0 c1 c2 c3 r1 r2 r3).num_roots ≤ 3) ∧
    (0 < (SolveCubic sqrt cos acos pow c0 c1 c2 c3 r1 r2 r3).ret →
      (SolveCubic sqrt cos acos pow c0 c1 c2 c3 r1 r2 r3).num_roots
        = (SolveCubic sqrt cos acos pow c0 c1 c2 c3 r1 r2 r3).ret) ∧
    ((SolveCubic sqrt cos acos pow c0 c1 c2 c3 r1 r2 r3).ret = -3 →
      (SolveCubic sqrt cos acos pow c0 c1 c2 c3 r1 r2 r3).num_roots = 1) ∧
    ((SolveCubic sqrt cos acos pow c0 c1 c2 c3 r1 r2 r3).ret = -2 ∨
      (SolveCubic sqrt cos acos pow c0 c1 c2 c3 r1 r2 r3).ret = -1 ∨
      (SolveCubic sqrt cos acos pow c0 c1 c2 c3 r1 r2 r3).ret = 0 →
      (SolveCubic sqrt cos acos pow c0 c1 c2 c3 r1 r2 r3).num_roots = 0) := by
  have h := SolveCubic_pairs sqrt cos acos pow c0 c1 c2 c3 r1 r2 r3
  generalize (SolveCubic sqrt cos acos pow c0 c1 c2 c3 r1 r2 r3).ret = r at h ⊢
  generalize (SolveCubic sqrt cos acos pow c0 c1 c2 c3 r1 r2 r3).num_roots = m at h ⊢
  omega

end

/-! ### The collapse and the return codes on concrete cubics -/

section

/-- Witness for C36: the cubic `(1, -6, 11, -6)` over the reals is in the
three-real-roots branch, and there `num_roots` counts the distinct values
computed. -/
theorem SolveCubic_collapse_witness :
    (1 : ℝ) ≠ 0 ∧
    cubicR (1 : ℝ) (-6) 11 (-6) * cubicR (1 : ℝ) (-6) 11 (-6)
      ≤ cubicQ (1 : ℝ) (-6) 11 * cubicQ (1 : ℝ) (-6) 11 * cubicQ (1 : ℝ) (-6) 11 ∧
    cubicQ (1 : ℝ) (-6) 11 * cubicQ (1 : ℝ) (-6) 11 * cubicQ (1 : ℝ) (-6) 11 ≠ 0 ∧
    (SolveCubic Real.sqrt Real.cos Real.arccos (fun x y => x ^ y) 1 (-6) 11 (-6) 0 0 0).num_roots
      = ((({trigRoot Real.sqrt Real.cos 1 (-6) 11
              (cubicTheta Real.sqrt Real.arccos 1 (-6) 11 (-6)),
            trigRoot Real.sqrt Real.cos 1 (-6) 11
              (cubicTheta Real.sqrt Real.arccos 1 (-6) 11 (-6) + 2.0 * 3.141592653589),
            trigRoot Real.sqrt Real.cos 1 (-6) 11
              (cubicTheta Real.sqrt Real.arccos 1 (-6) 11 (-6) - 2.0 * 3.141592653589)}
          : Finset ℝ).card : Nat) : Int) := by
  have hle : cubicR (1 : ℝ) (-6) 11 (-6) * cubicR (1 : ℝ) (-6) 11 (-6)
      ≤ cubicQ (1 : ℝ) (-6) 11 * cubicQ (1 : ℝ) (-6) 11 * cubicQ (1 : ℝ) (-6) 11 := by
    rw [cubic_sample_invariants.1, cubic_sample_invariants.2]
    norm_num
  have hnz : cubicQ (1 : ℝ) (-6) 11 * cubicQ (1 : ℝ) (-6) 11 * cubicQ (1 : ℝ) (-6) 11 ≠ 0 := by
    rw [cubic_sample_invariants.1]
    norm_num
  exact ⟨one_ne_zero, hle, hnz,
    (SolveCubic_collapse Real.sqrt Real.cos Real.arccos (fun x y => x ^ y) (1 : ℝ) (-6) 11 (-6)
      0 0 0 one_ne_zero hle hnz).1⟩

/-- Witness for C37: code 1 with `num_roots = 1` is returned for the linear
equation `2t - 4 = 0` and for the quadratic `t² - 2t + 1` with a double
root. -/
theorem SolveCubic_codes_witness :
    (SolveCubic smallSqrt smallSqrt smallSqrt (fun x _ => x) 0 0 2 (-4) 0 0 0).ret = 1 ∧
    (SolveCubic smallSqrt smallSqrt smallSqrt (fun x _ => x) 0 0 2 (-4) 0 0 0).num_roots = 1 ∧
    (SolveCubic smallSqrt smallSqrt smallSqrt (fun x _ => x) 0 1 (-2) 1 0 0 0).ret = 1 ∧
    (SolveCubic smallSqrt smallSqrt smallSqrt (fun x _ => x) 0 1 (-2) 1 0 0 0).num_roots = 1 := by
  have e1 : (SolveCubic smallSqrt smallSqrt smallSqrt (fun x _ => x) 0 0 2 (-4) 0 0 0).ret = 1 := by
    decide!
  have e2 : (SolveCubic smallSqrt smallSqrt smallSqrt (fun x _ => x) 0 1 (-2) 1 0 0 0).ret = 1 := by
    decide!
  have h1 := (SolveCubic_codes smallSqrt smallSqrt smallSqrt (fun x _ => x) 0 0 2 (-4) 0 0 0).2.2.1
    (by rw [e1]; decide)
  have h2 := (SolveCubic_codes smallSqrt smallSqrt smallSqrt (fun x _ => x) 0 1 (-2) 1 0 0 0).2.2.1
    (by rw [e2]; decide)
  exact ⟨e1, by rw [h1, e1], e2, by rw [h2, e2]⟩

end

/-! ### `Transpose3x3` in place -/

section

/-- C34: `Transpose3x3` computes the transpose also when input and output
are the same array: with `AT` aliased to `A` its read/write sequence leaves
`A[i][j]` equal to the original `A[j][i]` for all `i, j < 3` (and no other
cell changed), and applying it twice in place restores the original
matrix. -/
theorem Transpose3x3_in_place {T : Type} (A : Mat T) :
    (∀ i j, i < 3 → j < 3 → Transpose3x3 true A A i j = A j i) ∧
    (∀ i j, ¬ (i < 3 ∧ j < 3) → Transpose3x3 true A A i j = A i j) ∧
    Transpose3x3 true (Transpose3x3 true A A) (Transpose3x3 true A A) = A := by
  refine ⟨?_, ?_, ?_⟩
  · intro i j hi hj
    rw [Transpose3x3_aliased, if_pos ⟨hi, hj⟩]
  · intro i j h
    rw [Transpose3x3_aliased, if_neg h]
  · funext i j
    rw [Transpose3x3_aliased]
    by_cases h : i < 3 ∧ j < 3
    · rw [if_pos h, Transpose3x3_aliased, if_pos ⟨h.2, h.1⟩]
    · rw [if_neg h, Transpose3x3_aliased, if_neg h]

/-- Witness for C34: on `sampleA`, transposed in place, cell `(0, 1)` holds
the original `A[1][0] = 4`. -/
theorem Transpose3x3_in_place_witness :
    Transpose3x3 true sampleA sampleA 0 1 = 4 :=
  ((Transpose3x3_in_place sampleA).1 0 1 (by decide) (by decide)).trans (by decide!)

end

/-! ### What the solver may rely on after a factorisation -/

section

variable {K : Type} [LinearOrderedField K]

/-- A successful column step leaves the diagonal entries of the earlier
columns as they were. -/
theorem luColumn_diagonal (size j : Nat) (s s1 : LUState K)
    (h : luColumn size j s = Except.ok s1) (hj : j < size)
    (hsc : ∀ i, i < size → 0 < s.scale i) (c : Nat) (hc : c < j) :
    s1.A c c = s.A c c := by
  obtain ⟨A2, m, f1, -, -, f4, -, -, -, -, f9⟩ := luColumn_ok size j s s1 h hj hsc
  rw [f9 c c, if_neg (by omega), if_pos (by omega), swapIdx_of_lt j m c hc f4,
    f1 c c (by omega)]

/-- C38: whenever `LUFactorLinearSystem` returns 1 for size `n`, every
recorded pivot satisfies `j ≤ index[j] < n` and every diagonal entry of the
factored matrix has absolute value above `1e-12` (a column step never
alters the diagonal entry of an earlier column), so that the accesses of
`LUSolveLinearSystem` on that output are in range and its divisors are not
zero. -/
theorem LUFactor_safe (A : Mat K) (index : Nat → Nat) (n : Nat) (tmpSize : Vec K)
    (hret : retCode (LUFactorLinearSystem A index n tmpSize) = 1) :
    (∀ j, j < n → j ≤ (leftBy (LUFactorLinearSystem A index n tmpSize)).index j ∧
      (leftBy (LUFactorLinearSystem A index n tmpSize)).index j < n ∧
      VTK_SMALL_NUMBER < |(leftBy (LUFactorLinearSystem A index n tmpSize)).A j j|) ∧
    (∀ (j : Nat) (s s1 : LUState K), luColumn n j s = Except.ok s1 → j < n →
      (∀ i, i < n → 0 < s.scale i) → ∀ c, c < j → s1.A c c = s.A c c) ∧
    LUSolveSafe (leftBy (LUFactorLinearSystem A index n tmpSize)).A
      (leftBy (LUFactorLinearSystem A index n tmpSize)).index n := by
  have h := retCode_leftBy _ hret
  obtain ⟨⟨-, -, -, i4⟩, hidx⟩ := LUFactor_inv A index n tmpSize _ h
  refine ⟨fun j hj => ⟨(hidx j hj).1, (hidx j hj).2, i4 j hj⟩,
    fun j s s1 hs hj hsc c hc => luColumn_diagonal n j s s1 hs hj hsc c hc,
    fun i hi => (hidx i hi).2, fun i hi h0 => ?_⟩
  have := i4 i hi
  rw [h0, abs_zero] at this
  exact absurd this (not_lt.mpr small_pos.le)

end

/-! ### The selection step of the eigenvalue sort -/

section

variable {K : Type} [LinearOrderedField K]

/-- The search of the sorting loop ends on the last of the largest entries
among `w[j], …, w[n-1]`: every later entry is strictly smaller. -/
theorem sortSelect_last (w : Vec K) (n j : Nat) (i : Nat)
    (hi : (sortSelect w n j).1 < i) (hn : i < n) : w i < w (sortSelect w n j).1 := by
  unfold sortSelect at hi ⊢
  have key := loop_inv
    (fun m (st : Nat × K) => m ≤ n - (j + 1) →
      st.2 = w st.1 ∧ ∀ i, st.1 < i → i < j + 1 + m → w i < w st.1)
    (fun i (st : Nat × K) => if w i ≥ st.2 then (i, w i) else st) (j + 1) (n - (j + 1)) (j, w j)
    (by
      intro _
      refine ⟨rfl, fun i h1 h2 => ?_⟩
      simp only at h1
      omega)
    (by
      intro k st hk hP hk1
      obtain ⟨p3, p4⟩ := hP (by omega)
      beta_reduce
      split
      · refine ⟨rfl, fun i h1 h2 => ?_⟩
        simp only at h1
        omega
      · rename_i hlt
        refine ⟨p3, fun i h1 h2 => ?_⟩
        rcases Nat.lt_or_ge i (j + 1 + k) with h | h
        · exact p4 i h1 h
        · have : i = j + 1 + k := by omega
          rw [this, ← p3]
          exact not_le.mp hlt)
  exact (key le_rfl).2 i hi (by omega)

/-- C32, amended: the descending sort at the end of `JacobiN` is a selection
sort whose search keeps the last of the largest entries (the test is
`w[i] >= tmp`): pass `j` exchanges entry `j` of `w`, and column `j` of `v`,
with the entry `k ≥ j` that is largest among `w[j], …, w[n-1]` and strictly
larger than every entry after it, so that of two equal eigenvalues the one
found later is moved to the earlier position. -/
theorem sortStep_last (n j : Nat) (st : Vec K × Mat K) (hj : j < n) :
    j ≤ (sortSelect st.1 n j).1 ∧ (sortSelect st.1 n j).1 < n ∧
    (∀ i, j ≤ i → i < n → st.1 i ≤ st.1 (sortSelect st.1 n j).1) ∧
    (∀ i, (sortSelect st.1 n j).1 < i → i < n → st.1 i < st.1 (sortSelect st.1 n j).1) ∧
    (∀ r, (sortStep n j st).1 r = st.1 (swapIdx j (sortSelect st.1 n j).1 r)) ∧
    (∀ r c, (sortStep n j st).2 r c
      = if r < n then st.2 r (swapIdx j (sortSelect st.1 n j).1 c) else st.2 r c) := by
  obtain ⟨p1, p2, p3, p4⟩ := sortSelect_spec st.1 n j hj
  refine ⟨p1, p2, p4, fun i h1 h2 => sortSelect_last st.1 n j i h1 h2, ?_, ?_⟩
  · intro r
    unfold sortStep
    simp only
    split
    · rename_i hk
      simp only
      unfold swapIdx
      by_cases hrj : r = j
      · subst hrj
        rw [vecSet_same, if_pos rfl, p3]
      · rw [vecSet_ne _ _ _ _ hrj, if_neg hrj]
        by_cases hrk : r = (sortSelect st.1 n j).1
        · rw [if_pos hrk, hrk, vecSet_same]
        · rw [vecSet_ne _ _ _ _ hrk, if_neg hrk]
    · rename_i hk
      rw [not_not.mp hk, swapIdx_self]
  · intro r c
    unfold sortStep
    simp only
    split
    · simp only
      rw [swapColumns_spec]
    · rename_i hk
      rw [not_not.mp hk, swapIdx_self]
      simp

end

/-! ### Equal eigenvalues in the sort; the factorisation of the sample matrix -/

section

/-- C32, as stated, fails on `diag(2, 2, 1)`: `JacobiN` returns 1 with
`w = (2, 2, 1)`, but the columns 0 and 1 of `v` are exchanged, the equal
eigenvalue found later having been moved to position 0; `v` is not the
identity a stable sort would leave.  (No rotation is made on a diagonal
input, so the square root is never called.) -/
theorem JacobiN_sort_ties :
    (JacobiN smallSqrt (diagonal3 2 2 1) 3 (fun _ => 0) (fun _ _ => 0)).ret = 1 ∧
    (JacobiN smallSqrt (diagonal3 2 2 1) 3 (fun _ => 0) (fun _ _ => 0)).w 0 = 2 ∧
    (JacobiN smallSqrt (diagonal3 2 2 1) 3 (fun _ => 0) (fun _ _ => 0)).w 1 = 2 ∧
    (JacobiN smallSqrt (diagonal3 2 2 1) 3 (fun _ => 0) (fun _ _ => 0)).w 2 = 1 ∧
    (JacobiN smallSqrt (diagonal3 2 2 1) 3 (fun _ => 0) (fun _ _ => 0)).v 0 0 = 0 ∧
    (JacobiN smallSqrt (diagonal3 2 2 1) 3 (fun _ => 0) (fun _ _ => 0)).v 1 0 = 1 ∧
    (JacobiN smallSqrt (diagonal3 2 2 1) 3 (fun _ => 0) (fun _ _ => 0)).v 0 1 = 1 ∧
    (JacobiN smallSqrt (diagonal3 2 2 1) 3 (fun _ => 0) (fun _ _ => 0)).v 1 1 = 0 ∧
    (JacobiN smallSqrt (diagonal3 2 2 1) 3 (fun _ => 0) (fun _ _ => 0)).v 2 2 = 1 := by
  obtain ⟨h1, h2, h3⟩ := JacobiN_diagonal smallSqrt (diagonal3 2 2 1) 3 (fun _ => 0) (fun _ _ => 0)
    (by decide!)
  rw [h1, h2, h3]
  refine ⟨rfl, ?_, ?_, ?_, ?_, ?_, ?_, ?_, ?_⟩ <;> decide!

/-- Witness for C32, amended: in the first pass on `w = (2, 2, 1)` the
search ends on index 1, the last largest entry, and the columns 0 and 1 of
the identity are exchanged. -/
theorem sortStep_last_witness :
    (0 : Nat) < 3 ∧
    (sortSelect (fun i => if i < 2 then (2 : ℚ) else 1) 3 0).1 = 1 ∧
    (sortStep 3 0 ((fun i => if i < 2 then (2 : ℚ) else 1), identity)).2 0 0
      = identity 0 (swapIdx 0 (sortSelect (fun i => if i < 2 then (2 : ℚ) else 1) 3 0).1 0) :=
  ⟨by decide, by decide!,
   (sortStep_last 3 0 ((fun i => if i < 2 then (2 : ℚ) else 1), identity) (by decide)).2.2.2.2.2
     0 0⟩

/-- Witness for C38: on `sampleA` the factorisation returns 1, the last
pivot is `index[2] = 2`, and the last diagonal entry is above `1e-12`. -/
theorem LUFactor_safe_witness :
    retCode (LUFactorLinearSystem sampleA (fun _ => 0) 3 (fun _ => 0)) = 1 ∧
    2 ≤ (leftBy (LUFactorLinearSystem sampleA (fun _ => 0) 3 (fun _ => 0))).index 2 ∧
    (leftBy (LUFactorLinearSystem sampleA (fun _ => 0) 3 (fun _ => 0))).index 2 < 3 ∧
    VTK_SMALL_NUMBER
      < |(leftBy (LUFactorLinearSystem sampleA (fun _ => 0) 3 (fun _ => 0))).A 2 2| :=
  ⟨by decide!, (LUFactor_safe sampleA (fun _ => 0) 3 (fun _ => 0) (by decide!)).1 2 (by decide)⟩

end

/-! ### Two runs of the eigensolver on matrices that agree above the diagonal -/

section

/-- Two runs of a counted loop whose bodies keep a relation between the
states end in related states. -/
theorem loop_rel {σ τ : Type} (R : σ → τ → Prop) (f : Nat → σ → σ) (g : Nat → τ → τ)
    (lo cnt : Nat) (s : σ) (t : τ) (h0 : R s t)
    (hstep : ∀ k s t, k < cnt → R s t → R (f (lo + k) s) (g (lo + k) t)) :
    R (loop f lo cnt s) (loop g lo cnt t) := by
  induction cnt with
  | zero => exact h0
  | succ m ih =>
    rw [loop_succ, loop_succ]
    exact hstep m _ _ (Nat.lt_succ_self m)
      (ih (fun k s t hk hR => hstep k s t (Nat.lt_succ_of_lt hk) hR))

section
variable {K : Type} [LinearOrderedField K]

/-- The rotation of `a` reads and writes entries above the diagonal only. -/
theorem rotateA_upper (s tau : K) (n p q : Nat) (a a1 : Mat K) (hpq : p < q) (hq : q < n)
    (h : UpperAgree n a a1) :
    UpperAgree n (rotateA s tau n p q a) (rotateA s tau n p q a1) := by
  obtain ⟨x1, x2, x3, x4, x5, x6, x7, x8, x9⟩ := rotateA_spec s tau n p q a hpq hq
  obtain ⟨y1, y2, y3, y4, y5, y6, y7, y8, y9⟩ := rotateA_spec s tau n p q a1 hpq hq
  intro r c hrc hcn
  rcases Nat.eq_or_lt_of_le hrc with e | hlt
  · subst e
    rw [x9 r r (Or.inl le_rfl), y9 r r (Or.inl le_rfl)]
    exact h r r le_rfl hcn
  · by_cases hrp : r = p
    · subst hrp
      rcases Nat.lt_trichotomy c q with hc | hc | hc
      · rw [x4 c hlt hc, y4 c hlt hc, h r c hrc hcn, h c q hc.le hq]
      · subst hc
        rw [x1, y1]
      · rw [x6 c hc hcn, y6 c hc hcn, h r c hrc hcn, h q c hc.le hcn]
    · by_cases hrq : r = q
      · subst hrq
        rw [x7 c hlt hcn, y7 c hlt hcn, h r c hrc hcn, h p c (by omega) hcn]
      · by_cases hcp : c = p
        · subst hcp
          rw [x2 r hlt, y2 r hlt, h r c hrc hcn, h r q (by omega) hq]
        · by_cases hcq : c = q
          · subst hcq
            rcases Nat.lt_or_ge r p with hr | hr
            · rw [x3 r hr, y3 r hr, h r c hrc hcn, h r p hr.le (by omega)]
            · have hpr : p < r := lt_of_le_of_ne hr (Ne.symm hrp)
              rw [x5 r hpr hlt, y5 r hpr hlt, h r c hrc hcn, h p r hpr.le (by omega)]
          · rw [x8 r c hrp hrq hcp hcq, y8 r c hrp hrq hcp hcq]
            exact h r c hrc hcn

omit [LinearOrderedField K] in
theorem matSet_upper (n i j : Nat) (x : K) (a a1 : Mat K) (h : UpperAgree n a a1) :
    UpperAgree n (Mat.set a i j x) (Mat.set a1 i j x) := by
  intro r c hrc hcn
  unfold Mat.set
  split
  · rfl
  · exact h r c hrc hcn

/-- One entry step keeps two states in agreement. -/
theorem jacobiEntry_agree (sqrt : K → K) (n i : Nat) (tresh : K) (ip iq : Nat)
    (s t : JState K) (h1 : ip < iq) (h2 : iq < n) (h : JAgree n s t) :
    JAgree n (jacobiEntry sqrt n i tresh ip iq s) (jacobiEntry sqrt n i tresh ip iq t) := by
  obtain ⟨ha, hw, hv, hb, hz⟩ := h
  cases s with
  | mk sa sw sv sb sz =>
  cases t with
  | mk ta tw tv tb tz =>
  simp only at ha hw hv hb hz
  subst hw hv hb hz
  have hpq : sa ip iq = ta ip iq := ha ip iq h1.le h2
  unfold jacobiEntry
  simp only []
  rw [hpq]
  split_ifs
  · exact ⟨matSet_upper n ip iq 0 _ _ ha, rfl, rfl, rfl, rfl⟩
  · unfold jacobiRotate rotationT
    simp only []
    rw [hpq]
    exact ⟨rotateA_upper _ _ n ip iq _ _ h1 h2 ha, rfl, rfl, rfl, rfl⟩
  · exact ⟨ha, rfl, rfl, rfl, rfl⟩

/-- The entries of one sweep keep two states in agreement. -/
theorem sweepEntries_agree (sqrt : K → K) (n i : Nat) (tresh : K) (s t : JState K)
    (h : JAgree n s t) :
    JAgree n (sweepEntries sqrt n i tresh s) (sweepEntries sqrt n i tresh t) := by
  unfold sweepEntries
  apply loop_rel (JAgree n) _ _ 0 (n - 1) s t h
  intro ip s1 t1 hip h1
  apply loop_rel (JAgree n) _ _ (0 + ip + 1) (n - (0 + ip + 1)) s1 t1 h1
  intro k s2 t2 hk h2
  exact jacobiEntry_agree sqrt n i tresh (0 + ip) (0 + ip + 1 + k) s2 t2 (by omega) (by omega) h2

/-- The loop closing a sweep keeps two states in agreement. -/
theorem sweepEnd_agree (n : Nat) (s t : JState K) (h : JAgree n s t) :
    JAgree n (loop sweepEndStep 0 n s) (loop sweepEndStep 0 n t) := by
  apply loop_rel (JAgree n) _ _ 0 n s t h
  intro ip s1 t1 _ h1
  obtain ⟨ha, hw, hv, hb, hz⟩ := h1
  unfold sweepEndStep
  simp only []
  rw [hw, hb, hz]
  exact ⟨ha, rfl, hv, rfl, rfl⟩

/-- The sum of the magnitudes above the diagonal is the same for two
matrices that agree there. -/
theorem offDiagSum_agree (n : Nat) (a a1 : Mat K) (h : UpperAgree n a a1) :
    offDiagSum n a = offDiagSum n a1 := by
  rw [offDiagSum_eq, offDiagSum_eq]
  apply Finset.sum_congr rfl
  intro ip hip
  apply Finset.sum_congr rfl
  intro k hk
  have h1 := Finset.mem_range.mp hip
  have h2 := Finset.mem_range.mp hk
  rw [h ip (ip + 1 + k) (by omega) (by omega)]

/-- One pass of the sweep loop keeps two states in agreement. -/
theorem sweepBody_agree (sqrt : K → K) (n i : Nat) (sm : K) (s t : JState K)
    (h : JAgree n s t) : JAgree n (sweepBody sqrt n i sm s) (sweepBody sqrt n i sm t) := by
  unfold sweepBody
  simp only []
  exact sweepEnd_agree n _ _ (sweepEntries_agree sqrt n i _ s t h)

/-- The sweep loop keeps two states in agreement and ends on the same
pass. -/
theorem sweepLoop_agree (sqrt : K → K) (n fuel i : Nat) (s t : JState K)
    (h : JAgree n s t) :
    JAgree n (sweepLoop sqrt n fuel i s).1 (sweepLoop sqrt n fuel i t).1 ∧
    (sweepLoop sqrt n fuel i s).2 = (sweepLoop sqrt n fuel i t).2 := by
  induction fuel generalizing i s t with
  | zero => exact ⟨h, rfl⟩
  | succ m ih =>
    unfold sweepLoop
    rw [offDiagSum_agree n s.a t.a h.1]
    split_ifs
    · exact ⟨h, rfl⟩
    · exact ih (i + 1) _ _ (sweepBody_agree sqrt n i _ s t h)

/-- The initialisation reads the diagonal of `a` only. -/
theorem jacobiInit_agree (n : Nat) (a a1 : Mat K) (w : Vec K) (v : Mat K)
    (h : UpperAgree n a a1) : JAgree n (jacobiInit a n w v) (jacobiInit a1 n w v) := by
  unfold jacobiInit
  apply loop_rel (JAgree n) initStep initStep 0 n
    { a := a, w := w, v := initV n v, b := fun _ => 0, z := fun _ => 0 }
    { a := a1, w := w, v := initV n v, b := fun _ => 0, z := fun _ => 0 }
    ⟨h, rfl, rfl, rfl, rfl⟩
  intro ip s1 t1 hip h1
  obtain ⟨ha, hw, hv, hb, hz⟩ := h1
  unfold initStep
  simp only []
  rw [hw, hb, hz, ha (0 + ip) (0 + ip) le_rfl (by omega)]
  exact ⟨ha, rfl, hv, rfl, rfl⟩

/-- An entry step writes entries above the diagonal only. -/
theorem jacobiEntry_lower (sqrt : K → K) (n i : Nat) (tresh : K) (ip iq : Nat)
    (s : JState K) (h1 : ip < iq) (h2 : iq < n) (r c : Nat) (hrc : c ≤ r) :
    (jacobiEntry sqrt n i tresh ip iq s).a r c = s.a r c := by
  unfold jacobiEntry
  simp only []
  split_ifs
  · exact matSet_ne _ _ _ _ _ _ (by omega)
  · unfold jacobiRotate
    simp only []
    exact (rotateA_spec _ _ n ip iq s.a h1 h2).2.2.2.2.2.2.2.2 r c (Or.inl hrc)
  · rfl

end

end

/-! ### `JacobiN` reads and writes the upper triangle only -/

section

variable {K : Type} [LinearOrderedField K]

/-- The rotation sequence of `vtkJacobiN` leaves the diagonal and the
entries below it as they were. -/
theorem jacobiSweeps_lower (sqrt : K → K) (a : Mat K) (n : Nat) (w : Vec K) (v : Mat K)
    (r c : Nat) (hrc : c ≤ r) : (jacobiSweeps sqrt a n w v).1.a r c = a r c := by
  unfold jacobiSweeps
  have h := sweepLoop_preserve (fun st : JState K => ∀ r c, c ≤ r → st.a r c = a r c) sqrt n
    (fun i tresh ip iq st _ h1 h2 hP r c hrc => by
      rw [jacobiEntry_lower sqrt n i tresh ip iq st h1 h2 r c hrc]
      exact hP r c hrc)
    (fun ip st _ hP => hP) VTK_MAX_ROTATIONS 0 (jacobiInit a n w v)
    (fun r c _ => by rw [(jacobiInit_spec a n w v).1])
  exact h r c hrc

/-- C40: `JacobiN` works in place on `a` but writes only entries strictly
above the diagonal: on return the diagonal and the strictly lower triangle
of `a` are unchanged; and the return value and the outputs `w` and `v` are
a function of the diagonal and the strictly upper triangle only: they are
the same for any other matrix `a1` with the same entries there. -/
theorem JacobiN_frame (sqrt : K → K) (a : Mat K) (n : Nat) (w : Vec K) (v : Mat K) :
    (∀ r c, c ≤ r → (JacobiN sqrt a n w v).a r c = a r c) ∧
    (∀ a1 : Mat K, UpperAgree n a a1 →
      (JacobiN sqrt a1 n w v).ret = (JacobiN sqrt a n w v).ret ∧
      (JacobiN sqrt a1 n w v).w = (JacobiN sqrt a n w v).w ∧
      (JacobiN sqrt a1 n w v).v = (JacobiN sqrt a n w v).v) := by
  constructor
  · intro r c hrc
    unfold JacobiN
    simp only []
    split_ifs
    · exact jacobiSweeps_lower sqrt a n w v r c hrc
    · exact jacobiSweeps_lower sqrt a n w v r c hrc
  · intro a1 h
    obtain ⟨⟨-, hw, hv, -, -⟩, hi⟩ := sweepLoop_agree sqrt n VTK_MAX_ROTATIONS 0 _ _
      (jacobiInit_agree n a a1 w v h)
    unfold JacobiN jacobiSweeps
    simp only []
    rw [hi, hw, hv]
    split_ifs <;> exact ⟨rfl, rfl, rfl⟩

end

/-! ### The upper triangle of the sample matrix -/

section

/-- Witness for C40: on the symmetric matrix `sampleS` (n = 2) the call
overwrites `a[0][1]` (12 before, 0 after) and leaves `a[1][0] = 12`; and the
matrix with the lower entry replaced by 0 gives the same `w` and `v`. -/
theorem JacobiN_frame_witness :
    (JacobiN tableSqrt sampleS 2 (fun _ => 0) (fun _ _ => 0)).a 1 0 = 12 ∧
    (JacobiN tableSqrt sampleS 2 (fun _ => 0) (fun _ _ => 0)).a 0 1 = 0 ∧
    sampleS 0 1 = 12 ∧
    UpperAgree 2 sampleS (fun i j => if j < i then 0 else sampleS i j) ∧
    (JacobiN tableSqrt (fun i j => if j < i then 0 else sampleS i j) 2 (fun _ => 0)
        (fun _ _ => 0)).w
      = (JacobiN tableSqrt sampleS 2 (fun _ => 0) (fun _ _ => 0)).w ∧
    (JacobiN tableSqrt (fun i j => if j < i then 0 else sampleS i j) 2 (fun _ => 0)
        (fun _ _ => 0)).v
      = (JacobiN tableSqrt sampleS 2 (fun _ => 0) (fun _ _ => 0)).v := by
  have hU : UpperAgree 2 sampleS (fun i j => if j < i then 0 else sampleS i j) := by
    intro r c hrc _
    simp only [if_neg (not_lt.mpr hrc)]
  have h := JacobiN_frame tableSqrt sampleS 2 (fun _ => 0) (fun _ _ => 0)
  exact ⟨(h.1 1 0 (by decide)).trans (by decide!), by decide!, by decide!, hU,
    (h.2 _ hU).2.1, (h.2 _ hU).2.2⟩

end

/-! ### The three-distinct path in stages -/

section

variable {K : Type} [LinearOrderedField K]

/-- The tail of `vtkDiagonalize3x3` is the two interchanges, the sign
changes and the transposition. -/
theorem alignDistinct_eq (w : Vec K) (V : Mat K) :
    alignDistinct w V =
      { w := alignValues w V,
        V := Transpose3x3 true (alignSigns (alignRows V)) (alignSigns (alignRows V)) } := by
  unfold alignDistinct alignValues alignSigns alignRows
  simp only []

/-- Rows that are the axes in order are left alone by the sign changes. -/
theorem alignSigns_identity (V : Mat K) (h : Same3x3 V identity) : alignSigns V = V := by
  have h00 : V 0 0 = 1 := h 0 0 (by norm_num) (by norm_num)
  have h11 : V 1 1 = 1 := h 1 1 (by norm_num) (by norm_num)
  have hd : Determinant3x3 V = 1 := by
    rw [det_congr V identity h]
    simp [Determinant3x3, identity]
  have e0 : (if V 0 0 < 0 then negateRow 0 V else V) = V :=
    if_neg (by rw [h00]; norm_num)
  have e1 : (if V 1 1 < 0 then negateRow 1 V else V) = V :=
    if_neg (by rw [h11]; norm_num)
  unfold alignSigns
  simp only [loop_two]
  rw [e0, e1, if_neg (by rw [hd]; norm_num)]

/-- The row found by the search for the largest `x` element. -/
theorem argMaxCol0_eq (V : Mat K) :
    argMaxCol0 V =
      if (if |V 0 0| < |V 1 0| then |V 1 0| else |V 0 0|) < |V 2 0| then 2
      else if |V 0 0| < |V 1 0| then 1 else 0 := by
  unfold argMaxCol0
  simp only [loop_two_from_one]
  split_ifs <;> rfl

/-- The two interchanges on rows that are the three unit vectors in some
order: the rows are put back in the order of the axes, and each eigenvalue
follows its row. -/
theorem alignRows_units (w1 : Vec K) (T : Mat K) (a b c : Nat) (ha : a < 3) (hb : b < 3)
    (hc : c < 3) (hab : a ≠ b) (hac : a ≠ c) (hbc : b ≠ c)
    (hT0 : ∀ j, j < 3 → T 0 j = identity j a) (hT1 : ∀ j, j < 3 → T 1 j = identity j b)
    (hT2 : ∀ j, j < 3 → T 2 j = identity j c) :
    Same3x3 (alignRows T) identity ∧
    alignValues w1 T a = w1 0 ∧ alignValues w1 T b = w1 1 ∧ alignValues w1 T c = w1 2 := by
  have t00 := hT0 0 (by norm_num)
  have t01 := hT0 1 (by norm_num)
  have t02 := hT0 2 (by norm_num)
  have t10 := hT1 0 (by norm_num)
  have t11 := hT1 1 (by norm_num)
  have t12 := hT1 2 (by norm_num)
  have t20 := hT2 0 (by norm_num)
  have t21 := hT2 1 (by norm_num)
  have t22 := hT2 2 (by norm_num)
  clear hT0 hT1 hT2
  interval_cases a <;> interval_cases b <;> interval_cases c <;>
    first
    | omega
    | (simp only [identity] at t00 t01 t02 t10 t11 t12 t20 t21 t22
       norm_num at t00 t01 t02 t10 t11 t12 t20 t21 t22
       have n10 : ¬ (1 : K) < 0 := by norm_num
       have hm := argMaxCol0_eq T
       simp only [t00, t10, t20, abs_zero, abs_one, zero_lt_one, n10, lt_irrefl, if_true,
         if_false] at hm
       unfold alignRows alignValues
       simp only [hm]
       refine ⟨?_, ?_, ?_, ?_⟩
       · intro i j hi hj
         interval_cases i <;> interval_cases j <;>
           simp [vtkSwapVectors3_spec, swapIdx, t00, t01, t02, t10, t11, t12, t20, t21,
             t22, identity, n10]
       all_goals
         simp [vtkSwapVectors3_spec, swapIdx, Vec.set, t00, t01, t02, t10, t11, t12, t20,
           t21, t22, n10])

end

/-! ### `Diagonalize3x3` on a diagonal matrix -/

section

variable {K : Type} [LinearOrderedField K]

/-- On a matrix that is diagonal in its 3-by-3 block `JacobiN` returns the
diagonal entries in some order, with the matching unit vectors as the
columns of `v`. -/
theorem JacobiN_diagonal_units (sqrt : K → K) (A : Mat K) (w : Vec K) (V : Mat K)
    (hoff : ∀ i j, i < 3 → j < 3 → i ≠ j → A i j = 0) :
    ∃ p q : Nat → Nat,
      (∀ r, r < 3 → p r < 3 ∧ q r < 3 ∧ q (p r) = r ∧ p (q r) = r) ∧
      (∀ r, r < 3 →
        (JacobiN sqrt (copy3x3 A (fun _ _ => 0)) 3 w V).w r = A (p r) (p r)) ∧
      (∀ r c, r < 3 → c < 3 →
        (JacobiN sqrt (copy3x3 A (fun _ _ => 0)) 3 w V).v r c = identity r (p c)) := by
  have hC : offDiagSum 3 (copy3x3 A (fun _ _ => 0)) = 0 := by
    rw [offDiagSum_eq_zero_iff]
    intro ip iq h1 h2
    rw [copy3x3_spec, if_pos ⟨by omega, h2⟩]
    exact hoff ip iq (by omega) h2 (by omega)
  obtain ⟨-, hw, hv⟩ := JacobiN_diagonal sqrt (copy3x3 A (fun _ _ => 0)) 3 w V hC
  obtain ⟨⟨p, q, hpq, hsw, hsv⟩, -⟩ := jacobiSort_spec 3
    (jacobiInit (copy3x3 A (fun _ _ => 0)) 3 w V).w
    (jacobiInit (copy3x3 A (fun _ _ => 0)) 3 w V).v
  obtain ⟨-, iv, iw⟩ := jacobiInit_spec (copy3x3 A (fun _ _ => 0)) 3 w V
  have hcell : ∀ r c, r < 3 → c < 3 →
      (jacobiSort 3 (jacobiInit (copy3x3 A (fun _ _ => 0)) 3 w V).w
        (jacobiInit (copy3x3 A (fun _ _ => 0)) 3 w V).v).2 r c = identity r (p c) := by
    intro r c hr hc
    rw [hsv r c hr hc, iv, initV_spec, if_pos ⟨hr, (hpq c hc).1⟩]
  refine ⟨p, q, hpq, ?_, ?_⟩
  · intro r hr
    rw [hw, hsw r hr, (iw (p r) (hpq r hr).1).1, copy3x3_spec,
      if_pos ⟨(hpq r hr).1, (hpq r hr).1⟩]
  · intro r c hr hc
    have hcount : (3 + 1) / 2 ≤ countNonneg 3 c
        (jacobiSort 3 (jacobiInit (copy3x3 A (fun _ _ => 0)) 3 w V).w
          (jacobiInit (copy3x3 A (fun _ _ => 0)) 3 w V).v).2 := by
      unfold countNonneg
      rw [Finset.filter_true_of_mem]
      · simp
      · intro i hi
        rw [hcell i c (Finset.mem_range.mp hi) hc]
        unfold identity
        split_ifs <;> norm_num
    rw [hv, jacobiNormalize_keep 3 _ c hcount r, hcell r c hr hc]

/-- C39: for every matrix that is diagonal in its 3-by-3 block,
`A = diag(a, b, c)` with `a`, `b`, `c` pairwise distinct, `Diagonalize3x3`
returns `V` equal to the identity and `w = (a, b, c)` in the original axis
order: the interchanges of the alignment undo the descending sort done by
`JacobiN`. -/
theorem Diagonalize3x3_diagonal (sqrt : K → K) (A : Mat K) (w : Vec K) (V : Mat K)
    (hoff : ∀ i j, i < 3 → j < 3 → i ≠ j → A i j = 0)
    (h01 : A 0 0 ≠ A 1 1) (h02 : A 0 0 ≠ A 2 2) (h12 : A 1 1 ≠ A 2 2) :
    Same3x3 (Diagonalize3x3 sqrt A w V).V identity ∧
    (∀ i, i < 3 → (Diagonalize3x3 sqrt A w V).w i = A i i) := by
  obtain ⟨p, q, hpq, hw, hv⟩ := JacobiN_diagonal_units sqrt A w V hoff
  have hne : ∀ x y, x < 3 → y < 3 → x ≠ y → A x x ≠ A y y := by
    intro x y hx hy hxy
    interval_cases x <;> interval_cases y <;>
      first
      | exact absurd rfl hxy
      | assumption
      | exact Ne.symm (by assumption)
  have hinj : ∀ x y, x < 3 → y < 3 → x ≠ y → p x ≠ p y := by
    intro x y hx hy hxy h
    apply hxy
    rw [← (hpq x hx).2.2.1, ← (hpq y hy).2.2.1, h]
  have hwne : ∀ x y, x < 3 → y < 3 → x ≠ y →
      (JacobiN sqrt (copy3x3 A (fun _ _ => 0)) 3 w V).w x
        ≠ (JacobiN sqrt (copy3x3 A (fun _ _ => 0)) 3 w V).w y := by
    intro x y hx hy hxy
    rw [hw x hx, hw y hy]
    exact hne _ _ (hpq x hx).1 (hpq y hy).1 (hinj x y hx hy hxy)
  have hD : Diagonalize3x3 sqrt A w V
      = alignDistinct (JacobiN sqrt (copy3x3 A (fun _ _ => 0)) 3 w V).w
          (Transpose3x3 true (JacobiN sqrt (copy3x3 A (fun _ _ => 0)) 3 w V).v
            (JacobiN sqrt (copy3x3 A (fun _ _ => 0)) 3 w V).v) := by
    unfold Diagonalize3x3
    simp only []
    rw [if_neg (fun h => hwne 0 1 (by norm_num) (by norm_num) (by norm_num) h.1),
      if_neg (hwne 1 2 (by norm_num) (by norm_num) (by norm_num)),
      if_neg (hwne 2 0 (by norm_num) (by norm_num) (by norm_num)),
      if_neg (hwne 0 1 (by norm_num) (by norm_num) (by norm_num))]
  have hT : ∀ i j, i < 3 → j < 3 →
      Transpose3x3 true (JacobiN sqrt (copy3x3 A (fun _ _ => 0)) 3 w V).v
        (JacobiN sqrt (copy3x3 A (fun _ _ => 0)) 3 w V).v i j = identity j (p i) := by
    intro i j hi hj
    rw [Transpose3x3_aliased, if_pos ⟨hi, hj⟩, hv j i hj hi]
  obtain ⟨u1, u2, u3, u4⟩ := alignRows_units
    (JacobiN sqrt (copy3x3 A (fun _ _ => 0)) 3 w V).w
    (Transpose3x3 true (JacobiN sqrt (copy3x3 A (fun _ _ => 0)) 3 w V).v
      (JacobiN sqrt (copy3x3 A (fun _ _ => 0)) 3 w V).v)
    (p 0) (p 1) (p 2) (hpq 0 (by norm_num)).1 (hpq 1 (by norm_num)).1 (hpq 2 (by norm_num)).1
    (hinj 0 1 (by norm_num) (by norm_num) (by norm_num))
    (hinj 0 2 (by norm_num) (by norm_num) (by norm_num))
    (hinj 1 2 (by norm_num) (by norm_num) (by norm_num))
    (fun j hj => hT 0 j (by norm_num) hj) (fun j hj => hT 1 j (by norm_num) hj)
    (fun j hj => hT 2 j (by norm_num) hj)
  rw [hD, alignDistinct_eq, alignSigns_identity _ u1]
  constructor
  · intro i j hi hj
    show Transpose3x3 true _ _ i j = identity i j
    rw [Transpose3x3_aliased, if_pos ⟨hi, hj⟩, u1 j i hj hi]
    unfold identity
    by_cases h : i = j
    · rw [if_pos h, if_pos h.symm]
    · rw [if_neg h, if_neg (fun e => h e.symm)]
  · intro i hi
    show alignValues _ _ i = A i i
    obtain ⟨-, hq, -, hpqi⟩ := hpq i hi
    have hq3 : q i = 0 ∨ q i = 1 ∨ q i = 2 := by omega
    rcases hq3 with e | e | e
    · rw [e] at hpqi
      rw [← hpqi, u2, hw 0 (by norm_num)]
    · rw [e] at hpqi
      rw [← hpqi, u3, hw 1 (by norm_num)]
    · rw [e] at hpqi
      rw [← hpqi, u4, hw 2 (by norm_num)]

end

/-! ### A diagonal matrix with distinct entries -/

section

/-- Off the diagonal `diag(a, b, c)` is zero. -/
theorem diagonal3_off {K : Type} [LinearOrderedField K] (a b c : K) (i j : Nat) (h : i ≠ j) :
    diagonal3 a b c i j = 0 := by
  unfold diagonal3
  rw [if_neg h]

/-- Witness for C39: on `diag(1, 3, 2)`, which `JacobiN` sorts to
`(3, 2, 1)`, `Diagonalize3x3` returns `w = (1, 3, 2)` and `V[0][0] = 1`,
`V[0][1] = 0`. -/
theorem Diagonalize3x3_diagonal_witness :
    (diagonal3 (1 : ℚ) 3 2 0 0 ≠ diagonal3 (1 : ℚ) 3 2 1 1) ∧
    (JacobiN smallSqrt (copy3x3 (diagonal3 1 3 2) (fun _ _ => 0)) 3 (fun _ => 0)
      (fun _ _ => 0)).w 0 = 3 ∧
    (Diagonalize3x3 smallSqrt (diagonal3 1 3 2) (fun _ => 0) (fun _ _ => 0)).w 0 = 1 ∧
    (Diagonalize3x3 smallSqrt (diagonal3 1 3 2) (fun _ => 0) (fun _ _ => 0)).w 1 = 3 ∧
    (Diagonalize3x3 smallSqrt (diagonal3 1 3 2) (fun _ => 0) (fun _ _ => 0)).w 2 = 2 ∧
    (Diagonalize3x3 smallSqrt (diagonal3 1 3 2) (fun _ => 0) (fun _ _ => 0)).V 0 0 = 1 ∧
    (Diagonalize3x3 smallSqrt (diagonal3 1 3 2) (fun _ => 0) (fun _ _ => 0)).V 0 1 = 0 := by
  have h01 : diagonal3 (1 : ℚ) 3 2 0 0 ≠ diagonal3 (1 : ℚ) 3 2 1 1 := by decide!
  have h := Diagonalize3x3_diagonal smallSqrt (diagonal3 1 3 2) (fun _ => 0) (fun _ _ => 0)
    (fun i j _ _ hij => diagonal3_off 1 3 2 i j hij) h01 (by decide!) (by decide!)
  exact ⟨h01, by decide!, (h.2 0 (by decide)).trans (by decide!),
    (h.2 1 (by decide)).trans (by decide!), (h.2 2 (by decide)).trans (by decide!),
    (h.1 0 0 (by decide) (by decide)).trans (by decide!),
    (h.1 0 1 (by decide) (by decide)).trans (by decide!)⟩

end

/-! ### Signs and magnitudes on the three-distinct path -/

section

variable {K : Type} [LinearOrderedField K]

/-- After the two interchanges row 0 has the largest `x` element and, of
rows 1 and 2, row 1 has the larger `y` element. -/
theorem alignRows_max (T : Mat K) :
    |alignRows T 1 0| ≤ |alignRows T 0 0| ∧ |alignRows T 2 0| ≤ |alignRows T 0 0| ∧
    |alignRows T 2 1| ≤ |alignRows T 1 1| := by
  have hcol : ∀ V : Mat K, |V 1 0| ≤ |V 0 0| → |V 2 0| ≤ |V 0 0| →
      |(if |V 1 1| < |V 2 1| then vtkSwapVectors3 2 1 V else V) 1 0|
        ≤ |(if |V 1 1| < |V 2 1| then vtkSwapVectors3 2 1 V else V) 0 0| ∧
      |(if |V 1 1| < |V 2 1| then vtkSwapVectors3 2 1 V else V) 2 0|
        ≤ |(if |V 1 1| < |V 2 1| then vtkSwapVectors3 2 1 V else V) 0 0| ∧
      |(if |V 1 1| < |V 2 1| then vtkSwapVectors3 2 1 V else V) 2 1|
        ≤ |(if |V 1 1| < |V 2 1| then vtkSwapVectors3 2 1 V else V) 1 1| := by
    intro V h1 h2
    split_ifs with hsw
    · simp only [vtkSwapVectors3_spec, swapIdx]
      norm_num
      exact ⟨h2, h1, hsw.le⟩
    · exact ⟨h1, h2, not_lt.mp hsw⟩
  have hm : (argMaxCol0 T = 2 ∧ |T 0 0| ≤ |T 2 0| ∧ |T 1 0| ≤ |T 2 0|) ∨
      (argMaxCol0 T = 1 ∧ |T 0 0| ≤ |T 1 0| ∧ |T 2 0| ≤ |T 1 0|) ∨
      (argMaxCol0 T = 0 ∧ |T 1 0| ≤ |T 0 0| ∧ |T 2 0| ≤ |T 0 0|) := by
    rw [argMaxCol0_eq]
    by_cases c1 : |T 0 0| < |T 1 0|
    · simp only [if_pos c1]
      by_cases c2 : |T 1 0| < |T 2 0|
      · simp only [if_pos c2]
        exact Or.inl ⟨trivial, by linarith, c2.le⟩
      · simp only [if_neg c2]
        exact Or.inr (Or.inl ⟨trivial, c1.le, not_lt.mp c2⟩)
    · simp only [if_neg c1]
      by_cases c2 : |T 0 0| < |T 2 0|
      · simp only [if_pos c2]
        exact Or.inl ⟨trivial, c2.le, by linarith [not_lt.mp c1]⟩
      · simp only [if_neg c2]
        exact Or.inr (Or.inr ⟨trivial, not_lt.mp c1, not_lt.mp c2⟩)
  unfold alignRows
  apply hcol
  · rcases hm with ⟨e, h1, h2⟩ | ⟨e, h1, h2⟩ | ⟨e, h1, h2⟩
    · rw [e, if_pos (by norm_num)]
      simp only [vtkSwapVectors3_spec, swapIdx]
      norm_num
      exact h2
    · rw [e, if_pos (by norm_num)]
      simp only [vtkSwapVectors3_spec, swapIdx]
      norm_num
      exact h1
    · rw [e, if_neg (by norm_num)]
      exact h1
  · rcases hm with ⟨e, h1, h2⟩ | ⟨e, h1, h2⟩ | ⟨e, h1, h2⟩
    · rw [e, if_pos (by norm_num)]
      simp only [vtkSwapVectors3_spec, swapIdx]
      norm_num
      exact h1
    · rw [e, if_pos (by norm_num)]
      simp only [vtkSwapVectors3_spec, swapIdx]
      norm_num
      exact h2
    · rw [e, if_neg (by norm_num)]
      exact h2

/-- One sign change: row `i` is negated when its diagonal element is
negative. -/
theorem signStep_spec (i : Nat) (hi : i < 3) (V : Mat K) :
    (∀ r c, |(if V i i < 0 then negateRow i V else V) r c| = |V r c|) ∧
    0 ≤ (if V i i < 0 then negateRow i V else V) i i ∧
    (∀ r c, r ≠ i → (if V i i < 0 then negateRow i V else V) r c = V r c) := by
  by_cases h : V i i < 0
  · simp only [if_pos h, negateRow_spec]
    refine ⟨?_, ?_, ?_⟩
    · intro r c
      split_ifs
      · rw [abs_neg]
      · rfl
    · rw [if_pos ⟨trivial, hi⟩]
      linarith
    · intro r c hr
      rw [if_neg (fun e => hr e.1)]
  · simp only [if_neg h]
    exact ⟨fun _ _ => trivial, not_lt.mp h, fun _ _ _ => trivial⟩

/-- The sign changes leave the magnitudes, make the first two diagonal
elements non-negative and the determinant non-negative. -/
theorem alignSigns_spec (R : Mat K) :
    (∀ i j, |alignSigns R i j| = |R i j|) ∧
    0 ≤ alignSigns R 0 0 ∧ 0 ≤ alignSigns R 1 1 ∧ 0 ≤ Determinant3x3 (alignSigns R) := by
  obtain ⟨a1, a2, a3⟩ := signStep_spec 0 (by norm_num) R
  obtain ⟨b1, b2, b3⟩ := signStep_spec 1 (by norm_num)
    (if R 0 0 < 0 then negateRow 0 R else R)
  unfold alignSigns
  simp only [loop_two]
  generalize (if R 0 0 < 0 then negateRow 0 R else R) = V1 at a1 a2 a3 b1 b2 b3 ⊢
  generalize (if V1 1 1 < 0 then negateRow 1 V1 else V1) = V2 at b1 b2 b3 ⊢
  by_cases hd : Determinant3x3 V2 < 0
  · simp only [if_pos hd, negateRow_spec]
    refine ⟨?_, ?_, ?_, ?_⟩
    · intro i j
      split_ifs
      · rw [abs_neg, b1, a1]
      · rw [b1, a1]
    · rw [if_neg (by norm_num), b3 0 0 (by norm_num)]
      exact a2
    · rw [if_neg (by norm_num)]
      exact b2
    · rw [det_negateRow 2 (by norm_num) V2]
      linarith
  · simp only [if_neg hd]
    exact ⟨fun i j => by rw [b1, a1], by rw [b3 0 0 (by norm_num)]; exact a2, b2,
      not_lt.mp hd⟩

/-- C35, amended: in the three-distinct-eigenvalues case of
`Diagonalize3x3` the first eigenvector (column 0 of `V`) has a non-negative
`x` component, at least as large in magnitude as the `x` components of the
other two; the second has a non-negative `y` component, at least as large in
magnitude as the `y` component of the third; and the sign of the third makes
the determinant of `V` non-negative.  Nothing is said of the component of
largest magnitude of a column. -/
theorem Diagonalize3x3_distinct_signs (sqrt : K → K) (A : Mat K) (w : Vec K) (V : Mat K)
    (h01 : (JacobiN sqrt (copy3x3 A (fun _ _ => 0)) 3 w V).w 0
      ≠ (JacobiN sqrt (copy3x3 A (fun _ _ => 0)) 3 w V).w 1)
    (h12 : (JacobiN sqrt (copy3x3 A (fun _ _ => 0)) 3 w V).w 1
      ≠ (JacobiN sqrt (copy3x3 A (fun _ _ => 0)) 3 w V).w 2)
    (h20 : (JacobiN sqrt (copy3x3 A (fun _ _ => 0)) 3 w V).w 2
      ≠ (JacobiN sqrt (copy3x3 A (fun _ _ => 0)) 3 w V).w 0) :
    0 ≤ (Diagonalize3x3 sqrt A w V).V 0 0 ∧ 0 ≤ (Diagonalize3x3 sqrt A w V).V 1 1 ∧
    |(Diagonalize3x3 sqrt A w V).V 0 1| ≤ (Diagonalize3x3 sqrt A w V).V 0 0 ∧
    |(Diagonalize3x3 sqrt A w V).V 0 2| ≤ (Diagonalize3x3 sqrt A w V).V 0 0 ∧
    |(Diagonalize3x3 sqrt A w V).V 1 2| ≤ (Diagonalize3x3 sqrt A w V).V 1 1 ∧
    0 ≤ Determinant3x3 (Diagonalize3x3 sqrt A w V).V := by
  have hD : Diagonalize3x3 sqrt A w V
      = alignDistinct (JacobiN sqrt (copy3x3 A (fun _ _ => 0)) 3 w V).w
          (Transpose3x3 true (JacobiN sqrt (copy3x3 A (fun _ _ => 0)) 3 w V).v
            (JacobiN sqrt (copy3x3 A (fun _ _ => 0)) 3 w V).v) := by
    unfold Diagonalize3x3
    simp only []
    rw [if_neg (fun h => h01 h.1), if_neg h12, if_neg h20, if_neg h01]
  rw [hD, alignDistinct_eq]
  simp only []
  generalize Transpose3x3 true (JacobiN sqrt (copy3x3 A (fun _ _ => 0)) 3 w V).v
    (JacobiN sqrt (copy3x3 A (fun _ _ => 0)) 3 w V).v = T
  obtain ⟨m1, m2, m3⟩ := alignRows_max T
  obtain ⟨s1, s2, s3, s4⟩ := alignSigns_spec (alignRows T)
  have a00 := abs_of_nonneg s2
  have a11 := abs_of_nonneg s3
  rw [det_transpose]
  simp only [Transpose3x3_aliased]
  norm_num
  refine ⟨s2, s3, ?_, ?_, ?_, s4⟩
  · rw [s1 1 0, ← a00, s1 0 0]
    exact m1
  · rw [s1 2 0, ← a00, s1 0 0]
    exact m2
  · rw [s1 2 1, ← a11, s1 1 1]
    exact m3

end

/-! ### An eigenvector whose largest component is negative -/

section

set_option maxRecDepth 100000 in
/-- C35, counterexample: for the symmetric matrix `sampleTilt` the Jacobi
iteration converges (code 1) to three distinct eigenvalues, so
`Diagonalize3x3` takes its three-distinct-eigenvalues path, and the first
returned eigenvector, column 0 of `V`, is `(315/493, 168/493, -20/29)`: it
is an eigenvector of `sampleTilt` (for the eigenvalue 0), and its component
of largest absolute value is the third one, which is negative. -/
theorem Diagonalize3x3_dominant :
    (JacobiN pythSqrt (copy3x3 sampleTilt (fun _ _ => 0)) 3 (fun _ => 0) (fun _ _ => 0)).ret = 1 ∧
    ((JacobiN pythSqrt (copy3x3 sampleTilt (fun _ _ => 0)) 3 (fun _ => 0) (fun _ _ => 0)).w 0
      ≠ (JacobiN pythSqrt (copy3x3 sampleTilt (fun _ _ => 0)) 3 (fun _ => 0) (fun _ _ => 0)).w 1 ∧
     (JacobiN pythSqrt (copy3x3 sampleTilt (fun _ _ => 0)) 3 (fun _ => 0) (fun _ _ => 0)).w 1
      ≠ (JacobiN pythSqrt (copy3x3 sampleTilt (fun _ _ => 0)) 3 (fun _ => 0) (fun _ _ => 0)).w 2 ∧
     (JacobiN pythSqrt (copy3x3 sampleTilt (fun _ _ => 0)) 3 (fun _ => 0) (fun _ _ => 0)).w 2
      ≠ (JacobiN pythSqrt (copy3x3 sampleTilt (fun _ _ => 0)) 3 (fun _ => 0) (fun _ _ => 0)).w 0) ∧
    ((Diagonalize3x3 pythSqrt sampleTilt (fun _ => 0) (fun _ _ => 0)).V 0 0 = 315 / 493 ∧
     (Diagonalize3x3 pythSqrt sampleTilt (fun _ => 0) (fun _ _ => 0)).V 1 0 = 168 / 493 ∧
     (Diagonalize3x3 pythSqrt sampleTilt (fun _ => 0) (fun _ _ => 0)).V 2 0 = -20 / 29) ∧
    (∀ i, i < 3 →
      sampleTilt i 0 * (Diagonalize3x3 pythSqrt sampleTilt (fun _ => 0) (fun _ _ => 0)).V 0 0
      + sampleTilt i 1 * (Diagonalize3x3 pythSqrt sampleTilt (fun _ => 0) (fun _ _ => 0)).V 1 0
      + sampleTilt i 2 * (Diagonalize3x3 pythSqrt sampleTilt (fun _ => 0) (fun _ _ => 0)).V 2 0
      = (Diagonalize3x3 pythSqrt sampleTilt (fun _ => 0) (fun _ _ => 0)).w 0
        * (Diagonalize3x3 pythSqrt sampleTilt (fun _ => 0) (fun _ _ => 0)).V i 0) ∧
    (|(Diagonalize3x3 pythSqrt sampleTilt (fun _ => 0) (fun _ _ => 0)).V 0 0|
      < |(Diagonalize3x3 pythSqrt sampleTilt (fun _ => 0) (fun _ _ => 0)).V 2 0| ∧
     |(Diagonalize3x3 pythSqrt sampleTilt (fun _ => 0) (fun _ _ => 0)).V 1 0|
      < |(Diagonalize3x3 pythSqrt sampleTilt (fun _ => 0) (fun _ _ => 0)).V 2 0| ∧
     (Diagonalize3x3 pythSqrt sampleTilt (fun _ => 0) (fun _ _ => 0)).V 2 0 < 0) := by
  have r : (JacobiN pythSqrt (copy3x3 sampleTilt (fun _ _ => 0)) 3 (fun _ => 0)
      (fun _ _ => 0)).ret = 1 := by decide!
  have w0 : (JacobiN pythSqrt (copy3x3 sampleTilt (fun _ _ => 0)) 3 (fun _ => 0)
      (fun _ _ => 0)).w 0 = 14297 := by decide!
  have w1 : (JacobiN pythSqrt (copy3x3 sampleTilt (fun _ _ => 0)) 3 (fun _ => 0)
      (fun _ _ => 0)).w 1 = 0 := by decide!
  have w2 : (JacobiN pythSqrt (copy3x3 sampleTilt (fun _ _ => 0)) 3 (fun _ => 0)
      (fun _ _ => 0)).w 2 = -14297 := by decide!
  have v0 : (Diagonalize3x3 pythSqrt sampleTilt (fun _ => 0) (fun _ _ => 0)).V 0 0
      = 315 / 493 := by decide!
  have v1 : (Diagonalize3x3 pythSqrt sampleTilt (fun _ => 0) (fun _ _ => 0)).V 1 0
      = 168 / 493 := by decide!
  have v2 : (Diagonalize3x3 pythSqrt sampleTilt (fun _ => 0) (fun _ _ => 0)).V 2 0
      = -20 / 29 := by decide!
  have d0 : (Diagonalize3x3 pythSqrt sampleTilt (fun _ => 0) (fun _ _ => 0)).w 0
      = 0 := by decide!
  rw [w0, w1, w2, v0, v1, v2, d0]
  refine ⟨r, by norm_num, ⟨rfl, rfl, rfl⟩, ?_, ?_⟩
  · intro i hi
    interval_cases i
    · norm_num [sampleTilt, mat3, vec3]
    · norm_num [sampleTilt, mat3, vec3]
    · norm_num [sampleTilt, mat3, vec3]
  · norm_num [abs_of_nonneg, abs_of_neg]

set_option maxRecDepth 100000 in
/-- The amended C35 at `sampleTilt`, whose three eigenvalues are distinct. -/
theorem Diagonalize3x3_distinct_signs_witness :
    0 ≤ (Diagonalize3x3 pythSqrt sampleTilt (fun _ => 0) (fun _ _ => 0)).V 0 0 ∧
    0 ≤ (Diagonalize3x3 pythSqrt sampleTilt (fun _ => 0) (fun _ _ => 0)).V 1 1 ∧
    |(Diagonalize3x3 pythSqrt sampleTilt (fun _ => 0) (fun _ _ => 0)).V 0 1|
      ≤ (Diagonalize3x3 pythSqrt sampleTilt (fun _ => 0) (fun _ _ => 0)).V 0 0 ∧
    |(Diagonalize3x3 pythSqrt sampleTilt (fun _ => 0) (fun _ _ => 0)).V 0 2|
      ≤ (Diagonalize3x3 pythSqrt sampleTilt (fun _ => 0) (fun _ _ => 0)).V 0 0 ∧
    |(Diagonalize3x3 pythSqrt sampleTilt (fun _ => 0) (fun _ _ => 0)).V 1 2|
      ≤ (Diagonalize3x3 pythSqrt sampleTilt (fun _ => 0) (fun _ _ => 0)).V 1 1 ∧
    0 ≤ Determinant3x3 (Diagonalize3x3 pythSqrt sampleTilt (fun _ => 0) (fun _ _ => 0)).V :=
  Diagonalize3x3_distinct_signs pythSqrt sampleTilt (fun _ => 0) (fun _ _ => 0)
    (by decide!) (by decide!) (by decide!)

end

/-! ### The pivot searches of the general factorisation at size 3 -/

section

variable {K : Type} [LinearOrderedField K]

omit [LinearOrderedField K] in
/-- Writing a cell with the value it holds changes nothing. -/
theorem matSet_self (A : Mat K) (i j : Nat) : Mat.set A i j (A i j) = A := by
  funext r c
  unfold Mat.set
  split_ifs with h
  · rw [h.1, h.2]
  · rfl

omit [LinearOrderedField K] in
/-- The row interchange of the general routine at size 3 is the helper
`vtkSwapVectors3`. -/
theorem swapRows_three (j m : Nat) (A : Mat K) : swapRows 3 j m A = vtkSwapVectors3 m j A :=
  rfl

/-- The pivot search of column 0 at size 3 leaves the matrix as it is and
selects the row that `vtkLUFactor3x3` selects. -/
theorem pivotLoop3_first (A : Mat K) (sc : Vec K) (mI : Nat) (h0 : 0 ≤ sc 0) :
    (pivotLoop 3 0 sc A mI).1 = A ∧ (pivotLoop 3 0 sc A mI).2.2 = firstPivot3 A sc := by
  have step : ∀ (i : Nat) (B : Mat K) (l : K) (m : Nat), pivotStep 0 sc i (B, l, m)
      = if sc i * |B i 0| ≥ l then (B, sc i * |B i 0|, i) else (B, l, m) := by
    intro i B l m
    unfold pivotStep
    simp only [croutSum, loop, matSet_self]
  have e : pivotLoop 3 0 sc A mI
      = pivotStep 0 sc 2 (pivotStep 0 sc 1 (pivotStep 0 sc 0 (A, 0, mI))) := rfl
  have s0 : pivotStep 0 sc 0 (A, 0, mI) = (A, sc 0 * |A 0 0|, 0) := by
    rw [step, if_pos (mul_nonneg h0 (abs_nonneg _))]
  rw [e, s0]
  unfold firstPivot3
  by_cases c1 : sc 1 * |A 1 0| ≥ sc 0 * |A 0 0|
  · simp only [if_pos c1, step]
    by_cases c2 : sc 2 * |A 2 0| ≥ sc 1 * |A 1 0|
    · simp only [if_pos c2, and_self]
    · simp only [if_neg c2, and_self]
  · simp only [if_neg c1, step]
    by_cases c2 : sc 2 * |A 2 0| ≥ sc 0 * |A 0 0|
    · simp only [if_pos c2, and_self]
    · simp only [if_neg c2, and_self]

/-- The pivot search of column 1 at size 3: the two updates and the test of
`vtkLUFactor3x3`. -/
theorem pivotLoop3_second (A : Mat K) (sc : Vec K) (mI : Nat) (h1 : 0 ≤ sc 1) :
    (pivotLoop 3 1 sc A mI).1
      = Mat.set (Mat.set A 1 1 (A 1 1 - A 1 0 * A 0 1)) 2 1 (A 2 1 - A 2 0 * A 0 1) ∧
    (pivotLoop 3 1 sc A mI).2.2
      = if sc 2 * |A 2 1 - A 2 0 * A 0 1| ≥ sc 1 * |A 1 1 - A 1 0 * A 0 1| then 2 else 1 := by
  have step : ∀ (i : Nat) (B : Mat K) (l : K) (m : Nat), pivotStep 1 sc i (B, l, m)
      = if sc i * |B i 1 - B i 0 * B 0 1| ≥ l
        then (Mat.set B i 1 (B i 1 - B i 0 * B 0 1), sc i * |B i 1 - B i 0 * B 0 1|, i)
        else (Mat.set B i 1 (B i 1 - B i 0 * B 0 1), l, m) := by
    intro i B l m
    unfold pivotStep
    simp only [croutSum, loop, Nat.zero_add]
  have e : pivotLoop 3 1 sc A mI = pivotStep 1 sc 2 (pivotStep 1 sc 1 (A, 0, mI)) := rfl
  have a21 : Mat.set A 1 1 (A 1 1 - A 1 0 * A 0 1) 2 1 = A 2 1 :=
    matSet_ne _ _ _ _ _ _ (Or.inl (by norm_num))
  have a20 : Mat.set A 1 1 (A 1 1 - A 1 0 * A 0 1) 2 0 = A 2 0 :=
    matSet_ne _ _ _ _ _ _ (Or.inl (by norm_num))
  have a01 : Mat.set A 1 1 (A 1 1 - A 1 0 * A 0 1) 0 1 = A 0 1 :=
    matSet_ne _ _ _ _ _ _ (Or.inl (by norm_num))
  have s1 : pivotStep 1 sc 1 (A, 0, mI) = (Mat.set A 1 1 (A 1 1 - A 1 0 * A 0 1),
      sc 1 * |A 1 1 - A 1 0 * A 0 1|, 1) := by
    rw [step, if_pos (mul_nonneg h1 (abs_nonneg _))]
  rw [e, s1, step, a21, a20, a01]
  by_cases c : sc 2 * |A 2 1 - A 2 0 * A 0 1| ≥ sc 1 * |A 1 1 - A 1 0 * A 0 1|
  · simp only [if_pos c, and_self]
  · simp only [if_neg c, and_self]

/-- The entries above the diagonal of column 1 are left as they are. -/
theorem upperLoop_one (A : Mat K) : upperLoop 1 A = A := by
  unfold upperLoop
  simp only [loop, croutSum, Nat.zero_add, matSet_self]

/-- The entries above the diagonal of column 2 at size 3: the update of
`A[1][2]` of `vtkLUFactor3x3`. -/
theorem upperLoop_two (A : Mat K) : upperLoop 2 A = Mat.set A 1 2 (A 1 2 - A 1 0 * A 0 2) := by
  unfold upperLoop
  simp only [loop, croutSum, Nat.zero_add, matSet_self]

/-- The pivot search of column 2 at size 3: the last row is the only
candidate. -/
theorem pivotLoop3_third (A : Mat K) (sc : Vec K) (mI : Nat) (h2 : 0 ≤ sc 2) :
    (pivotLoop 3 2 sc A mI).1 = Mat.set A 2 2 (A 2 2 - A 2 0 * A 0 2 - A 2 1 * A 1 2) ∧
    (pivotLoop 3 2 sc A mI).2.2 = 2 := by
  have e : pivotLoop 3 2 sc A mI = pivotStep 2 sc 2 (A, 0, mI) := rfl
  rw [e]
  unfold pivotStep
  simp only [croutSum, loop, Nat.zero_add]
  rw [if_pos (mul_nonneg h2 (abs_nonneg _))]
  exact ⟨rfl, rfl⟩

end

/-! ### Column 0 of the two factorisations -/

section

variable {K : Type} [LinearOrderedField K]

omit [LinearOrderedField K] in
/-- The unrolled routine's matrix, given the general routine's. -/
theorem factor3_matrix (j : Nat) (g s : LUState K)
    (hA : ∀ r c, ¬ (r = c ∧ c < j) → s.A r c = g.A r c) : j = 0 → s.A = g.A := by
  intro hj
  funext r c
  exact hA r c (by omega)

/-- Column 0: a successful step of `LUFactorLinearSystem` at size 3 and the
first column of `vtkLUFactor3x3` keep the two sets of arrays side by side. -/
theorem factor3_first (g g1 s : LUState K) (h : luColumn 3 0 g = Except.ok g1)
    (hR : Factor3Agree 0 g s) : Factor3Agree 1 g1 (firstColumn3 s) := by
  obtain ⟨hA, -, hidx, hsc, hpos⟩ := hR
  have hAeq : s.A = g.A := factor3_matrix 0 g s hA rfl
  have hpiv : firstPivot3 g.A s.scale = firstPivot3 g.A g.scale := by
    unfold firstPivot3
    rw [hsc 0 (by norm_num), hsc 1 (by norm_num), hsc 2 (by norm_num)]
  obtain ⟨p1, p2⟩ := pivotLoop3_first g.A g.scale g.maxI (hpos 0 (by norm_num)).le
  have hu : upperLoop 0 g.A = g.A := rfl
  unfold luColumn at h
  simp only [hu, p1, p2, swapRows_three] at h
  have hB : (if 0 ≠ firstPivot3 g.A g.scale then
        vtkSwapVectors3 (firstPivot3 g.A g.scale) 0 g.A else g.A)
      = (if firstPivot3 g.A g.scale ≠ 0 then
        vtkSwapVectors3 (firstPivot3 g.A g.scale) 0 g.A else g.A) := by
    by_cases hm : firstPivot3 g.A g.scale = 0
    · rw [if_neg (fun e => e hm.symm), if_neg (fun e => e hm)]
    · rw [if_pos (fun e => hm e.symm), if_pos hm]
  have hS : (if 0 ≠ firstPivot3 g.A g.scale then
        Vec.set g.scale (firstPivot3 g.A g.scale) (g.scale 0) else g.scale)
      = (if firstPivot3 g.A g.scale ≠ 0 then
        Vec.set g.scale (firstPivot3 g.A g.scale) (g.scale 0) else g.scale) := by
    by_cases hm : firstPivot3 g.A g.scale = 0
    · rw [if_neg (fun e => e hm.symm), if_neg (fun e => e hm)]
    · rw [if_pos (fun e => hm e.symm), if_pos hm]
  rw [hB, hS] at h
  unfold firstColumn3
  simp only [hAeq, hidx, hpiv]
  generalize firstPivot3 g.A g.scale = m at h ⊢
  generalize (if m ≠ 0 then vtkSwapVectors3 m 0 g.A else g.A) = B at h ⊢
  split at h
  · cases h
  · injection h with h
    subst h
    refine ⟨?_, ?_, rfl, ?_, ?_⟩
    · intro r c hrc
      simp only [if_pos (show (0 : Nat) ≠ 3 - 1 by norm_num), divideLoop_spec, Mat.set]
      by_cases hc : c = 0
      · subst hc
        have hr : r ≠ 0 := fun e => hrc ⟨e, by norm_num⟩
        by_cases hr1 : r = 1
        · subst hr1
          simp
        · by_cases hr2 : r = 2
          · subst hr2
            simp
          · have e1 : ¬ (0 < r ∧ r < 3) := by omega
            simp [hr, hr1, hr2, e1]
      · simp [hc]
    · intro c hc
      have hc0 : c = 0 := by omega
      subst hc0
      simp only [if_pos (show (0 : Nat) ≠ 3 - 1 by norm_num), divideLoop_spec, Mat.set]
      simp
    · intro i hi
      by_cases hm : m = 0
      · simp only [if_neg (not_not_intro hm)]
        exact hsc i hi
      · simp only [if_pos hm, Vec.set]
        split_ifs
        · exact hsc 0 (by norm_num)
        · exact hsc i hi
    · intro i hi
      by_cases hm : m = 0
      · simp only [if_neg (not_not_intro hm)]
        exact hpos i hi
      · simp only [if_pos hm, Vec.set]
        split_ifs
        · exact hpos 0 (by norm_num)
        · exact hpos i hi

end

/-! ### Column 1 of the two factorisations -/

section

variable {K : Type} [LinearOrderedField K]

/-- The second column of `vtkLUFactor3x3`, with the two updated cells
named. -/
theorem secondColumn3_eq (s : LUState K) (v1 v2 : K)
    (h1 : v1 = s.A 1 1 - s.A 1 0 * s.A 0 1) (h2 : v2 = s.A 2 1 - s.A 2 0 * s.A 0 1) :
    secondColumn3 s =
      { A := Mat.set
          (Mat.set
            (if s.scale 2 * |v2| ≥ s.scale 1 * |v1|
              then vtkSwapVectors3 2 1 (Mat.set (Mat.set s.A 1 1 v1) 2 1 v2)
              else Mat.set (Mat.set s.A 1 1 v1) 2 1 v2) 1 1
            (1 / (if s.scale 2 * |v2| ≥ s.scale 1 * |v1|
              then vtkSwapVectors3 2 1 (Mat.set (Mat.set s.A 1 1 v1) 2 1 v2)
              else Mat.set (Mat.set s.A 1 1 v1) 2 1 v2) 1 1)) 2 1
          ((if s.scale 2 * |v2| ≥ s.scale 1 * |v1|
              then vtkSwapVectors3 2 1 (Mat.set (Mat.set s.A 1 1 v1) 2 1 v2)
              else Mat.set (Mat.set s.A 1 1 v1) 2 1 v2) 2 1
            * (1 / (if s.scale 2 * |v2| ≥ s.scale 1 * |v1|
              then vtkSwapVectors3 2 1 (Mat.set (Mat.set s.A 1 1 v1) 2 1 v2)
              else Mat.set (Mat.set s.A 1 1 v1) 2 1 v2) 1 1)),
        index := fun r => if r = 1 then (if s.scale 2 * |v2| ≥ s.scale 1 * |v1| then 2 else 1)
          else s.index r,
        scale := if s.scale 2 * |v2| ≥ s.scale 1 * |v1| then Vec.set s.scale 2 (s.scale 1)
          else s.scale,
        maxI := if s.scale 2 * |v2| ≥ s.scale 1 * |v1| then 2 else 1 } := by
  subst h1 h2
  rfl

omit [LinearOrderedField K] in
/-- Writing the same value to the same cell of two matrices. -/
theorem matSet_congr (P : Nat → Nat → Prop) (A B : Mat K) (h : ∀ r c, P r c → A r c = B r c)
    (i k : Nat) (v : K) : ∀ r c, P r c → Mat.set A i k v r c = Mat.set B i k v r c := by
  intro r c hP
  unfold Mat.set
  split_ifs
  · rfl
  · exact h r c hP

omit [LinearOrderedField K] in
/-- Interchanging rows `j` and `m ≥ j` of two matrices that agree off the
diagonal cells of the columns before `j`. -/
theorem swap_congr (j m : Nat) (hm : j ≤ m) (A B : Mat K)
    (h : ∀ r c, ¬ (r = c ∧ c < j) → A r c = B r c) :
    ∀ r c, ¬ (r = c ∧ c < j) → vtkSwapVectors3 m j A r c = vtkSwapVectors3 m j B r c := by
  intro r c hrc
  rw [vtkSwapVectors3_spec, vtkSwapVectors3_spec]
  split_ifs
  · apply h
    unfold swapIdx
    split_ifs <;> omega
  · exact h r c hrc

omit [LinearOrderedField K] in
/-- Interchanging rows `j` and `m ≥ j` leaves the diagonal cells of the
columns before `j` alone. -/
theorem swap_diag (j m : Nat) (hm : j ≤ m) (A : Mat K) (c : Nat) (hc : c < j) :
    vtkSwapVectors3 m j A c c = A c c := by
  rw [vtkSwapVectors3_spec]
  have e : swapIdx m j c = c := by
    unfold swapIdx
    rw [if_neg (by omega), if_neg (by omega)]
  rw [e]
  split_ifs <;> rfl

/-- Column 1: a successful step of `LUFactorLinearSystem` at size 3 and the
second column of `vtkLUFactor3x3` keep the two sets of arrays side by side. -/
theorem factor3_second (g g1 s : LUState K) (h : luColumn 3 1 g = Except.ok g1)
    (hR : Factor3Agree 1 g s) : Factor3Agree 2 g1 (secondColumn3 s) := by
  obtain ⟨hA, hD, hidx, hsc, hpos⟩ := hR
  obtain ⟨p1, p2⟩ := pivotLoop3_second g.A g.scale g.maxI (hpos 1 (by norm_num)).le
  unfold luColumn at h
  simp only [upperLoop_one, p1, p2, swapRows_three] at h
  rw [secondColumn3_eq s (g.A 1 1 - g.A 1 0 * g.A 0 1) (g.A 2 1 - g.A 2 0 * g.A 0 1)
    (by rw [hA 1 1 (by norm_num), hA 1 0 (by norm_num), hA 0 1 (by norm_num)])
    (by rw [hA 2 1 (by norm_num), hA 2 0 (by norm_num), hA 0 1 (by norm_num)]),
    hsc 1 (by norm_num), hsc 2 (by norm_num), hidx]
  generalize g.A 1 1 - g.A 1 0 * g.A 0 1 = v1 at h ⊢
  generalize g.A 2 1 - g.A 2 0 * g.A 0 1 = v2 at h ⊢
  have hX := matSet_congr _ _ _ (matSet_congr _ _ _ hA 1 1 v1) 2 1 v2
  have hX0 : Mat.set (Mat.set s.A 1 1 v1) 2 1 v2 0 0
      = 1 / Mat.set (Mat.set g.A 1 1 v1) 2 1 v2 0 0 := by
    rw [matSet_ne _ _ _ _ _ _ (Or.inl (by norm_num)),
      matSet_ne _ _ _ _ _ _ (Or.inl (by norm_num)),
      matSet_ne _ _ _ _ _ _ (Or.inl (by norm_num)),
      matSet_ne _ _ _ _ _ _ (Or.inl (by norm_num))]
    exact hD 0 (by norm_num)
  generalize Mat.set (Mat.set s.A 1 1 v1) 2 1 v2 = X at hX hX0 ⊢
  generalize Mat.set (Mat.set g.A 1 1 v1) 2 1 v2 = Y at h hX hX0 ⊢
  have hB : ∀ r c, ¬ (r = c ∧ c < 1) →
      (if g.scale 2 * |v2| ≥ g.scale 1 * |v1| then vtkSwapVectors3 2 1 X else X) r c
      = (if 1 ≠ (if g.scale 2 * |v2| ≥ g.scale 1 * |v1| then 2 else 1) then
        vtkSwapVectors3 (if g.scale 2 * |v2| ≥ g.scale 1 * |v1| then 2 else 1) 1 Y else Y) r c := by
    intro r c hrc
    by_cases hc : g.scale 2 * |v2| ≥ g.scale 1 * |v1|
    · simp only [if_pos hc, if_pos (show (1 : Nat) ≠ 2 by norm_num)]
      exact swap_congr 1 2 (by norm_num) X Y hX r c hrc
    · simp only [if_neg hc, if_neg (not_not_intro rfl)]
      exact hX r c hrc
  have hB0 : (if g.scale 2 * |v2| ≥ g.scale 1 * |v1| then vtkSwapVectors3 2 1 X else X) 0 0
      = 1 / (if 1 ≠ (if g.scale 2 * |v2| ≥ g.scale 1 * |v1| then 2 else 1) then
        vtkSwapVectors3 (if g.scale 2 * |v2| ≥ g.scale 1 * |v1| then 2 else 1) 1 Y else Y) 0 0 := by
    by_cases hc : g.scale 2 * |v2| ≥ g.scale 1 * |v1|
    · simp only [if_pos hc, if_pos (show (1 : Nat) ≠ 2 by norm_num)]
      rw [swap_diag 1 2 (by norm_num) X 0 (by norm_num),
        swap_diag 1 2 (by norm_num) Y 0 (by norm_num)]
      exact hX0
    · simp only [if_neg hc, if_neg (not_not_intro rfl)]
      exact hX0
  have hS : ∀ i, i < 3 →
      (if g.scale 2 * |v2| ≥ g.scale 1 * |v1| then Vec.set s.scale 2 (g.scale 1) else s.scale) i
      = (if 1 ≠ (if g.scale 2 * |v2| ≥ g.scale 1 * |v1| then 2 else 1) then
        Vec.set g.scale (if g.scale 2 * |v2| ≥ g.scale 1 * |v1| then 2 else 1) (g.scale 1)
        else g.scale) i ∧
      0 < (if 1 ≠ (if g.scale 2 * |v2| ≥ g.scale 1 * |v1| then 2 else 1) then
        Vec.set g.scale (if g.scale 2 * |v2| ≥ g.scale 1 * |v1| then 2 else 1) (g.scale 1)
        else g.scale) i := by
    intro i hi
    by_cases hc : g.scale 2 * |v2| ≥ g.scale 1 * |v1|
    · simp only [if_pos hc, if_pos (show (1 : Nat) ≠ 2 by norm_num), Vec.set]
      split_ifs
      · exact ⟨rfl, hpos 1 (by norm_num)⟩
      · exact ⟨hsc i hi, hpos i hi⟩
    · simp only [if_neg hc, if_neg (not_not_intro rfl)]
      exact ⟨hsc i hi, hpos i hi⟩
  generalize (if g.scale 2 * |v2| ≥ g.scale 1 * |v1| then vtkSwapVectors3 2 1 X else X)
    = B at hB hB0 ⊢
  generalize (if g.scale 2 * |v2| ≥ g.scale 1 * |v1| then Vec.set s.scale 2 (g.scale 1)
    else s.scale) = sc at hS ⊢
  generalize (if g.scale 2 * |v2| ≥ g.scale 1 * |v1| then 2 else 1) = m at h hB hB0 hS ⊢
  generalize (if 1 ≠ m then vtkSwapVectors3 m 1 Y else Y) = C at h hB hB0 ⊢
  generalize (if 1 ≠ m then Vec.set g.scale m (g.scale 1) else g.scale) = sc1 at h hS ⊢
  split at h
  · cases h
  · injection h with h
    subst h
    have b11 := hB 1 1 (by norm_num)
    have b21 := hB 2 1 (by norm_num)
    refine ⟨?_, ?_, rfl, fun i hi => (hS i hi).1, fun i hi => (hS i hi).2⟩
    · intro r c hrc
      simp only [if_pos (show (1 : Nat) ≠ 3 - 1 by norm_num), divideLoop_spec, Mat.set]
      by_cases h21 : r = 2 ∧ c = 1
      · obtain ⟨rfl, rfl⟩ := h21
        simp [b11, b21]
      · have e1 : ¬ (c = 1 ∧ 1 < r ∧ r < 3) := by omega
        have e2 : ¬ (r = 1 ∧ c = 1) := by omega
        simp only [if_neg h21, if_neg e1, if_neg e2]
        exact hB r c (by omega)
    · intro c hc
      simp only [if_pos (show (1 : Nat) ≠ 3 - 1 by norm_num), divideLoop_spec, Mat.set]
      have hc01 : c = 0 ∨ c = 1 := by omega
      rcases hc01 with rfl | rfl
      · simp [hB0]
      · simp [b11]

end

/-! ### Column 2 of the two factorisations; the scale factors -/

section

variable {K : Type} [LinearOrderedField K]

/-- The third column of `vtkLUFactor3x3`, with the two updated cells
named. -/
theorem thirdColumn3_eq (s : LUState K) (u w : K)
    (h1 : u = s.A 1 2 - s.A 1 0 * s.A 0 2)
    (h2 : w = s.A 2 2 - (s.A 2 0 * s.A 0 2 + s.A 2 1 * u)) :
    thirdColumn3 s =
      { A := Mat.set (Mat.set (Mat.set s.A 1 2 u) 2 2 w) 2 2 (1 / w),
        index := fun r => if r = 2 then 2 else s.index r,
        scale := s.scale, maxI := s.maxI } := by
  subst h1
  subst h2
  rfl

/-- Column 2: a successful step of `LUFactorLinearSystem` at size 3 and the
third column of `vtkLUFactor3x3` keep the two sets of arrays side by side. -/
theorem factor3_third (g g1 s : LUState K) (h : luColumn 3 2 g = Except.ok g1)
    (hR : Factor3Agree 2 g s) : Factor3Agree 3 g1 (thirdColumn3 s) := by
  obtain ⟨hA, hD, hidx, hsc, hpos⟩ := hR
  obtain ⟨p1, p2⟩ := pivotLoop3_third (Mat.set g.A 1 2 (g.A 1 2 - g.A 1 0 * g.A 0 2))
    g.scale g.maxI (hpos 2 (by norm_num)).le
  have hw : Mat.set g.A 1 2 (g.A 1 2 - g.A 1 0 * g.A 0 2) 2 2
      - Mat.set g.A 1 2 (g.A 1 2 - g.A 1 0 * g.A 0 2) 2 0
        * Mat.set g.A 1 2 (g.A 1 2 - g.A 1 0 * g.A 0 2) 0 2
      - Mat.set g.A 1 2 (g.A 1 2 - g.A 1 0 * g.A 0 2) 2 1
        * Mat.set g.A 1 2 (g.A 1 2 - g.A 1 0 * g.A 0 2) 1 2
      = g.A 2 2 - (g.A 2 0 * g.A 0 2 + g.A 2 1 * (g.A 1 2 - g.A 1 0 * g.A 0 2)) := by
    rw [matSet_ne _ _ _ _ _ _ (Or.inl (by norm_num)),
      matSet_ne _ _ _ _ _ _ (Or.inl (by norm_num)),
      matSet_ne _ _ _ _ _ _ (Or.inl (by norm_num)),
      matSet_ne _ _ _ _ _ _ (Or.inl (by norm_num)), matSet_same]
    ring
  rw [hw] at p1
  unfold luColumn at h
  simp only [upperLoop_two, p1, p2, if_neg (not_not_intro rfl)] at h
  rw [thirdColumn3_eq s (g.A 1 2 - g.A 1 0 * g.A 0 2)
    (g.A 2 2 - (g.A 2 0 * g.A 0 2 + g.A 2 1 * (g.A 1 2 - g.A 1 0 * g.A 0 2)))
    (by rw [hA 1 2 (by norm_num), hA 1 0 (by norm_num), hA 0 2 (by norm_num)])
    (by rw [hA 2 2 (by norm_num), hA 2 0 (by norm_num), hA 0 2 (by norm_num),
      hA 2 1 (by norm_num)]), hidx]
  generalize g.A 2 2 - (g.A 2 0 * g.A 0 2 + g.A 2 1 * (g.A 1 2 - g.A 1 0 * g.A 0 2)) = w at h ⊢
  generalize g.A 1 2 - g.A 1 0 * g.A 0 2 = u at h ⊢
  have hX := matSet_congr _ _ _ hA 1 2 u
  split at h
  · cases h
  · injection h with h
    subst h
    refine ⟨?_, ?_, rfl, hsc, hpos⟩
    · intro r c hrc
      have e : ¬ (r = 2 ∧ c = 2) := by omega
      simp only [Mat.set, if_neg e]
      have := hX r c (by omega)
      simp only [Mat.set] at this
      exact this
    · intro c hc
      have hc012 : c = 0 ∨ c = 1 ∨ c = 2 := by omega
      rcases hc012 with rfl | rfl | rfl
      · simp [Mat.set, hD 0]
      · simp [Mat.set, hD 1]
      · simp [Mat.set]

omit [LinearOrderedField K] in
/-- Three rounds of a loop that may leave the function, when it does not. -/
theorem loopExc_three {σ ε : Type} (f : Nat → σ → Except ε σ) (s t : σ)
    (h : loopExc f 0 3 s = Except.ok t) :
    ∃ a b, f 0 s = Except.ok a ∧ f 1 a = Except.ok b ∧ f 2 b = Except.ok t := by
  simp only [loopExc, Nat.zero_add] at h
  cases h0 : f 0 s with
  | error e => rw [h0] at h; cases h
  | ok a =>
    rw [h0] at h
    simp only at h
    cases h1 : f 1 a with
    | error e => rw [h1] at h; cases h
    | ok b =>
      rw [h1] at h
      simp only at h
      exact ⟨a, b, rfl, h1, h⟩

/-- At size 3, the largest magnitude of a row as the general routine finds
it is the one `vtkLUFactor3x3` finds. -/
theorem rowLargest_three (A : Mat K) (i : Nat) :
    rowLargest A 3 i
      = (if |A i 2| > (if |A i 1| > |A i 0| then |A i 1| else |A i 0|) then |A i 2|
          else (if |A i 1| > |A i 0| then |A i 1| else |A i 0|)) := by
  have e : rowLargest A 3 i = (fun l : K => if |A i 2| > l then |A i 2| else l)
      ((fun l : K => if |A i 1| > l then |A i 1| else l)
        ((fun l : K => if |A i 0| > l then |A i 0| else l) 0)) := rfl
  have e0 : (if |A i 0| > 0 then |A i 0| else (0 : K)) = |A i 0| := by
    split_ifs with h
    · rfl
    · exact (le_antisymm (not_lt.mp h) (abs_nonneg _)).symm
  rw [e]
  beta_reduce
  rw [e0]

/-- When the scaling loop of `LUFactorLinearSystem` at size 3 completes, it
has written the three scale factors of `vtkLUFactor3x3`. -/
theorem scaleLoop_three (A : Mat K) (t sc z : Vec K)
    (h : scaleLoop A 3 t = Except.ok sc) : ∀ i, i < 3 → scaleLoop3 A z i = sc i := by
  unfold scaleLoop at h
  obtain ⟨a, b, h0, h1, h2⟩ := loopExc_three _ _ _ h
  have step : ∀ (i : Nat) (x y : Vec K), scaleStep A 3 i x = Except.ok y →
      y = Vec.set x i (1 / rowLargest A 3 i) := by
    intro i x y hs
    unfold scaleStep at hs
    simp only at hs
    by_cases hz : rowLargest A 3 i = 0
    · rw [if_pos hz] at hs
      cases hs
    · rw [if_neg hz] at hs
      injection hs with hs
      exact hs.symm
  have ea := step 0 t a h0
  have eb := step 1 a b h1
  have ec := step 2 b sc h2
  subst ea
  subst eb
  subst ec
  intro i hi
  simp only [scaleLoop3, loop_three, scaleStep3, Vec.set, rowLargest_three]
  interval_cases i <;> simp

end

/-! ### The two factorisations and the two solvers side by side -/

section

variable {K : Type} [LinearOrderedField K]

/-- When `LUFactorLinearSystem` at size 3 returns 1, the arrays it leaves
and the arrays `vtkLUFactor3x3` leaves stand side by side after all three
columns. -/
theorem factor3_agree (A : Mat K) (index : Nat → Nat) (tmpSize : Vec K) (gf : LUState K)
    (h : LUFactorLinearSystem A index 3 tmpSize = Except.ok gf) :
    Factor3Agree 3 gf (LUFactor3x3 A index) := by
  unfold LUFactorLinearSystem at h
  cases hsc : scaleLoop A 3 tmpSize with
  | error e => rw [hsc] at h; cases h
  | ok sc =>
    rw [hsc] at h
    simp only at h
    obtain ⟨g1, g2, c0, c1, c2⟩ := loopExc_three _ _ _ h
    have hpos := scaleLoop_ok A 3 tmpSize sc hsc
    have hscale := scaleLoop_three A tmpSize sc (fun _ => 0) hsc
    have R0 : Factor3Agree 0 { A := A, index := index, scale := sc, maxI := 0 }
        { A := A, index := index, scale := scaleLoop3 A (fun _ => 0), maxI := 0 } :=
      ⟨fun _ _ _ => rfl, fun c hc => absurd hc (Nat.not_lt_zero c), rfl, hscale,
        fun i hi => (hpos i hi).1⟩
    exact factor3_third _ _ _ c2 (factor3_second _ _ _ c1 (factor3_first _ _ _ c0 R0))

/-- On arrays that stand side by side after all three columns,
`vtkLUSolve3x3` and `LUSolveLinearSystem` at size 3 leave the same three
values. -/
theorem solve3_agree (g s : LUState K) (hR : Factor3Agree 3 g s)
    (hidx : ∀ j, j < 3 → j ≤ g.index j ∧ g.index j < 3)
    (hd : ∀ i, i < 3 → g.A i i ≠ 0) (x : Vec K) :
    ∀ i, i < 3 → LUSolve3x3 s.A s.index x i = LUSolveLinearSystem g.A g.index x 3 i := by
  obtain ⟨hA, hD, hi, -, -⟩ := hR
  rw [hi]
  have i0 := hidx 0 (by norm_num)
  have i1 := hidx 1 (by norm_num)
  have i2 := hidx 2 (by norm_num)
  have k2 : g.index 2 = 2 := by omega
  obtain ⟨X2, X1, X0⟩ := LUSolve3x3_spec s.A g.index x i0.2 (by omega) k2 _ rfl
  have hP : ∀ i, applyPivotsVec g.index 3 x i
      = interchangeVec 1 (g.index 1) (interchangeVec 0 (g.index 0) x) i := by
    intro i
    rw [applyPivotsVec_succ, applyPivotsVec_succ, applyPivotsVec_succ, k2]
    unfold interchangeVec
    rw [swapIdx_self]
    rfl
  have f0 := forwardLoop_spec g.A g.index 3 x (fun j hj => (hidx j hj).1) 0 (by norm_num)
  have f1 := forwardLoop_spec g.A g.index 3 x (fun j hj => (hidx j hj).1) 1 (by norm_num)
  have f2 := forwardLoop_spec g.A g.index 3 x (fun j hj => (hidx j hj).1) 2 (by norm_num)
  have b0 := backLoop_spec g.A 3 (forwardLoop g.A g.index 3 x).1 hd 0 (by norm_num)
  have b1 := backLoop_spec g.A 3 (forwardLoop g.A g.index 3 x).1 hd 1 (by norm_num)
  have b2 := backLoop_spec g.A 3 (forwardLoop g.A g.index 3 x).1 hd 2 (by norm_num)
  simp only [Finset.sum_range_succ, Finset.sum_range_zero, zero_add, hP] at f0 f1 f2 b0 b1 b2
  norm_num at b0 b1 b2
  unfold LUSolveLinearSystem
  generalize interchangeVec 1 (g.index 1) (interchangeVec 0 (g.index 0) x) = p
    at X0 X1 X2 f0 f1 f2
  generalize (forwardLoop g.A g.index 3 x).1 = y at f0 f1 f2 b0 b1 b2 ⊢
  generalize backLoop g.A 3 y = z at b0 b1 b2 ⊢
  rw [hA 2 0 (by norm_num), hA 2 1 (by norm_num), hA 1 0 (by norm_num),
    hD 2 (by norm_num)] at X2
  rw [hA 1 0 (by norm_num), hA 1 2 (by norm_num), hD 1 (by norm_num)] at X1
  rw [hA 0 1 (by norm_num), hA 0 2 (by norm_num), hD 0 (by norm_num)] at X0
  have d0 := hd 0 (by norm_num)
  have d1 := hd 1 (by norm_num)
  have d2 := hd 2 (by norm_num)
  have e2 : LUSolve3x3 s.A g.index x 2 = z 2 := by
    rw [X2, mul_one_div, div_eq_iff d2, b2, f2, f1, f0]
    ring
  have e1 : LUSolve3x3 s.A g.index x 1 = z 1 := by
    rw [X1, mul_one_div, div_eq_iff d1, b1, f1, f0, e2]
    ring
  have e0 : LUSolve3x3 s.A g.index x 0 = z 0 := by
    rw [X0, mul_one_div, div_eq_iff d0, b0, f0, e1, e2]
    ring
  intro i hi3
  interval_cases i
  · exact e0
  · exact e1
  · exact e2

end

/-! ### The 3-by-3 routines refine the general ones -/

section

variable {K : Type} [LinearOrderedField K]

/-- C33: over exact arithmetic, for every matrix `A` on which
`LUFactorLinearSystem` with size 3 returns 1, `LUFactor3x3` on the same `A`
(and the same `index` array) leaves the same pivot indices and the same
off-diagonal entries, and each of its three diagonal entries is the
reciprocal of the diagonal entry the general routine leaves; and for every
right-hand side `x`, `LUSolve3x3` on the output of `LUFactor3x3` leaves in
`x[0..2]` the values `LUSolveLinearSystem` with size 3 leaves there on the
output of the general routine. -/
theorem LUFactor3x3_refines (A : Mat K) (index : Nat → Nat) (tmpSize : Vec K)
    (hret : retCode (LUFactorLinearSystem A index 3 tmpSize) = 1) :
    (∀ j, (LUFactor3x3 A index).index j
      = (leftBy (LUFactorLinearSystem A index 3 tmpSize)).index j) ∧
    (∀ i j, i ≠ j → (LUFactor3x3 A index).A i j
      = (leftBy (LUFactorLinearSystem A index 3 tmpSize)).A i j) ∧
    (∀ i, i < 3 → (leftBy (LUFactorLinearSystem A index 3 tmpSize)).A i i ≠ 0 ∧
      (LUFactor3x3 A index).A i i
        = 1 / (leftBy (LUFactorLinearSystem A index 3 tmpSize)).A i i) ∧
    (∀ x i, i < 3 → LUSolve3x3 (LUFactor3x3 A index).A (LUFactor3x3 A index).index x i
      = LUSolveLinearSystem (leftBy (LUFactorLinearSystem A index 3 tmpSize)).A
          (leftBy (LUFactorLinearSystem A index 3 tmpSize)).index x 3 i) := by
  have h := retCode_leftBy _ hret
  obtain ⟨⟨-, -, -, i4⟩, hidx⟩ := LUFactor_inv A index 3 tmpSize _ h
  have hR := factor3_agree A index tmpSize _ h
  have hd : ∀ i, i < 3 → (leftBy (LUFactorLinearSystem A index 3 tmpSize)).A i i ≠ 0 := by
    intro i hi h0
    have := i4 i hi
    rw [h0, abs_zero] at this
    exact absurd this (not_lt.mpr (le_of_lt small_pos))
  refine ⟨fun j => congrFun hR.2.2.1 j, fun i j hij => hR.1 i j (fun e => hij e.1),
    fun i hi => ⟨hd i hi, hR.2.1 i hi⟩, fun x => solve3_agree _ _ hR hidx hd x⟩

/-- Witness for C33: on `sampleA` the general routine returns 1; both
routines record the pivot `index[0] = 1`, and on the right-hand side
`sampleB` both solvers leave the same `x[0]`. -/
theorem LUFactor3x3_refines_witness :
    retCode (LUFactorLinearSystem sampleA (fun _ => 0) 3 (fun _ => 0)) = 1 ∧
    (LUFactor3x3 sampleA (fun _ => 0)).index 0 = 1 ∧
    (LUFactor3x3 sampleA (fun _ => 0)).index 0
      = (leftBy (LUFactorLinearSystem sampleA (fun _ => 0) 3 (fun _ => 0))).index 0 ∧
    LUSolve3x3 (LUFactor3x3 sampleA (fun _ => 0)).A (LUFactor3x3 sampleA (fun _ => 0)).index
        sampleB 0
      = LUSolveLinearSystem (leftBy (LUFactorLinearSystem sampleA (fun _ => 0) 3 (fun _ => 0))).A
          (leftBy (LUFactorLinearSystem sampleA (fun _ => 0) 3 (fun _ => 0))).index sampleB 3 0 :=
  ⟨by decide!, by decide!,
    (LUFactor3x3_refines sampleA (fun _ => 0) (fun _ => 0) (by decide!)).1 0,
    (LUFactor3x3_refines sampleA (fun _ => 0) (fun _ => 0) (by decide!)).2.2.2 sampleB 0
      (by decide)⟩

end

end VtkMath
